import Mathlib

/-!
# hardlinker: a deduplicating tree replicator

A shallow embedding of `hardlinker.c` and a verification development over it.

The C program walks a source directory, an optional destination directory and an
optional reference directory in lockstep (`dive`).  The embedding keeps the
program's functions under their C names.  The operating system is modelled by a
small deterministic file system:

* every file-system object is an `Inode` stored in a table keyed by
  `(st_dev, st_ino)`; hard links are several directory entries naming one key;
* an open directory (`DIR`) is carried by value: its identity and its entries.
  The three directory hierarchies handed to `dive` are therefore separate values;
  a directory reached through two of them at once is outside the model;
* a system call fails when the state says so (missing entry, existing entry,
  other device) or when the inode carries a flag that forbids it (the `can_*`
  fields stand for permission and resource errors);
* process termination (`exit`) is the `Res.stop` result, which carries the world
  as it was when the process stopped;
* the path trail (`compath`, `compath_i`) is part of the world: `dive` pushes the
  name of a directory before it recurses into it and pops it afterwards, and a
  push that leaves the array stops the run;
* every system call and every failure report leaves an event in `World.trace`.
-/

namespace Hardlinker

/-! ## Constants -/

/-- Failure classes, `enum` at hardlinker.c:28-43. -/
def FAIL_CHMOD : Nat := 1
def FAIL_CHOWN : Nat := 2
def FAIL_CREAT : Nat := 4
def FAIL_DIFF : Nat := 8
def FAIL_HL : Nat := 16
def FAIL_MKNOD : Nat := 32
def FAIL_MMAP : Nat := 64
def FAIL_OPENDIR : Nat := 128
def FAIL_READLINK : Nat := 256
def FAIL_COPY : Nat := 512
def FAIL_XATTR : Nat := 1024
def FAIL_MUST : Nat := 0x7fffffff

/-- The eleven named failure classes of the enum (all but `FAIL_MUST`). -/
def failClasses : List Nat :=
  [FAIL_CHMOD, FAIL_CHOWN, FAIL_CREAT, FAIL_DIFF, FAIL_HL, FAIL_MKNOD, FAIL_MMAP,
   FAIL_OPENDIR, FAIL_READLINK, FAIL_COPY, FAIL_XATTR]

/-- Size of each xattr staging buffer, `xattr_max` at hardlinker.c:49. -/
def xattr_max : Nat := 0x10000

def PATH_MAX : Nat := 4096

def ENOENT : Nat := 2
def EEXIST : Nat := 17
def EACCES : Nat := 13

def S_IFMT : Nat := 0o170000
def S_IFREG : Nat := 0o100000
def S_IFDIR : Nat := 0o040000
def S_IFLNK : Nat := 0o120000

def S_ISREG (m : Nat) : Bool := m &&& S_IFMT == S_IFREG
def S_ISDIR (m : Nat) : Bool := m &&& S_IFMT == S_IFDIR
def S_ISLNK (m : Nat) : Bool := m &&& S_IFMT == S_IFLNK

/-! ## Data model -/

abbrev Bytes := List Nat

/-- Identity of a file-system object: `(st_dev, st_ino)`. -/
abbrev FileId := Nat × Nat

/-- The fields of `struct stat` the program reads. -/
structure Stat where
  st_dev : Nat
  st_ino : Nat
  st_mode : Nat
  st_uid : Nat
  st_gid : Nat
  st_rdev : Nat
  st_size : Nat
  deriving DecidableEq, Repr

/-- An inode.  `data` holds the bytes of a regular file or the target of a
symbolic link, and `st_size` is its length.  `xattrs` lists the extended
attributes in the order the kernel lists them; a value `none` is an attribute
that is listed but cannot be fetched.  The `can_*` flags say which system calls
the environment lets succeed on this object. -/
structure Inode where
  st_mode : Nat
  st_uid : Nat
  st_gid : Nat
  st_rdev : Nat := 0
  data : Bytes := []
  xattrs : List (Bytes × Option Bytes) := []
  can_open : Bool := true
  can_mmap : Bool := true
  can_list : Bool := true
  can_link : Bool := true
  can_modify : Bool := true
  can_chmod : Bool := true
  can_chown : Bool := true
  can_setxattr : Bool := true
  deriving DecidableEq, Repr

def Inode.stat (i : Inode) (id : FileId) : Stat :=
  { st_dev := id.1, st_ino := id.2, st_mode := i.st_mode, st_uid := i.st_uid,
    st_gid := i.st_gid, st_rdev := i.st_rdev, st_size := i.data.length }

/-- A directory entry's target.  `leaf` is a name that cannot be opened as a
directory; `dir` is a name that opens as a directory with the given entries (a
directory, or a symbolic link to one when the inode's mode says `S_IFLNK`). -/
inductive Node where
  | leaf (id : FileId)
  | dir (id : FileId) (entries : List (String × Node))

def Node.id : Node → FileId
  | .leaf id => id
  | .dir id _ => id

/-- An open directory stream (`DIR *`), by value. -/
structure DIR where
  id : FileId
  entries : List (String × Node)

def DIR.lookup (d : DIR) (name : String) : Option Node := List.lookup name d.entries

def DIR.add (d : DIR) (name : String) (n : Node) : DIR :=
  { d with entries := (name, n) :: d.entries }

def DIR.remove (d : DIR) (name : String) : DIR :=
  { d with entries := d.entries.filter (fun e => e.1 != name) }

/-- Replace the target of the entry a lookup of `name` finds. -/
def putEntry (name : String) (n : Node) : List (String × Node) → List (String × Node)
  | [] => []
  | e :: es => if e.1 == name then (name, n) :: es else e :: putEntry name n es

/-- Replace the target of an existing entry (used when a child stream is closed
and its entries are written back into the parent value). -/
def DIR.put (d : DIR) (name : String) (n : Node) : DIR :=
  { d with entries := putEntry name n d.entries }

/-- One xattr staging arena: `xattr_name_buf[r]`, `xattr_pname_buf[r]` (as
offsets into the name buffer), `xattr_value_buf[r]`, `xattr_names_size[r]`,
`xattr_n_names[r]` (hardlinker.c:50-54). -/
structure Arena where
  name_buf : Bytes := []
  pname_buf : List Nat := []
  value_buf : Bytes := []
  names_size : Nat := 0
  n_names : Nat := 0
  deriving DecidableEq, Repr

/-- Events left in the trace. -/
inductive Ev where
  | fstatat (dir : FileId) (name : String)
  | openat (dir : FileId) (name : String)
  | creat (dir : FileId) (name : String) (mode : Nat)
  | close (fd : Option FileId)
  | mmap (fd : FileId) (size : Nat)
  | munmap (size : Nat)
  | memcmp (size : Nat)
  | write (fd : FileId) (count : Nat) (res : Int)
  | linkat (olddir : FileId) (newdir : FileId) (name : String)
  | unlinkat (dir : FileId) (name : String)
  | mkdirat (dir : FileId) (name : String) (mode : Nat)
  | mknodat (dir : FileId) (name : String) (mode : Nat) (dev : Nat)
  | readlinkat (dir : FileId) (name : String)
  | symlinkat (target : Bytes) (dir : FileId) (name : String)
  | fchmodat (dir : FileId) (name : String) (mode : Nat)
  | fchownat (dir : FileId) (name : String) (uid : Nat) (gid : Nat)
  | flistxattr (fd : FileId) (reg : Nat)
  | fgetxattr (fd : FileId) (key : Bytes)
  | fsetxattr (fd : FileId) (key : Bytes)
  | report (pfx : String) (fn : String) (path : String)
  | dive (src : Option FileId) (dst : Option FileId) (ref : Option FileId)
  | verdict (name : String) (diff : Bool) (hl : Bool)
  deriving DecidableEq, Repr

/-- The state of the process and of the file system around it. -/
structure World where
  /-- the inode table; the first entry for a key is the current one -/
  inodes : List (FileId × Inode) := []
  /-- the two xattr staging arenas -/
  arena0 : Arena := {}
  arena1 : Arena := {}
  /-- result of the k-th call of `write`, as the kernel chooses it -/
  wr : Nat → Int := fun _ => 0
  /-- number of `write` calls made so far -/
  n_wr : Nat := 0
  /-- order in which `qsort` with `void_strcmp` leaves a pointer vector -/
  qsort : List Nat → List Nat := id
  /-- file-creation mask and owner of new files -/
  umask : Nat := 0
  euid : Nat := 0
  egid : Nat := 0
  /-- the path trail, `compath` and `compath_i` (hardlinker.c:65-66) -/
  compath : Bytes := List.replicate PATH_MAX 0
  compath_i : Int := 0
  trace : List Ev := []

def World.inode (w : World) (id : FileId) : Option Inode := List.lookup id w.inodes

def World.setInode (w : World) (id : FileId) (i : Inode) : World :=
  { w with inodes := (id, i) :: w.inodes }

/-- An inode number that no entry of the table uses. -/
def World.fresh (w : World) : Nat := (w.inodes.map (fun e => e.1.2)).foldr max 0 + 1

def World.emit (w : World) (e : Ev) : World := { w with trace := w.trace ++ [e] }

def World.arena (w : World) (reg : Nat) : Arena := if reg = 0 then w.arena0 else w.arena1

def World.setArena (w : World) (reg : Nat) (a : Arena) : World :=
  if reg = 0 then { w with arena0 := a } else { w with arena1 := a }

/-- The options and paths `main` leaves in global variables (hardlinker.c:45-63). -/
structure Globals where
  src_path : Option String := none
  dst_path : Option String := none
  ref_path : Option String := none
  opt_debug : Bool := false
  opt_static : Bool := false
  opt_noxattr : Bool := false
  opt_verbose : Bool := false
  opt_fail : Nat := 0

/-! ## The process monad -/

/-- Why a run stopped before returning. -/
inductive Stop where
  | exit (code : Nat)
  | undefined
  | fuel
  deriving DecidableEq, Repr

inductive Res (α : Type) where
  | ok (a : α) (w : World)
  | stop (r : Stop) (w : World)

def Res.world {α : Type} : Res α → World
  | .ok _ w => w
  | .stop _ w => w

def M (α : Type) : Type := World → Res α

def M.pure {α : Type} (a : α) : M α := fun w => .ok a w

def M.bind {α β : Type} (m : M α) (f : α → M β) : M β := fun w =>
  match m w with
  | .ok a w1 => f a w1
  | .stop r w1 => .stop r w1

instance : Monad M where
  pure := M.pure
  bind := M.bind

def emit (e : Ev) : M Unit := fun w => .ok () (w.emit e)

def exit {α : Type} (code : Nat) : M α := fun w => .stop (.exit code) w

def getWorld : M World := fun w => .ok w w

def modifyWorld (f : World → World) : M Unit := fun w => .ok () (f w)

/-! ## System calls

Each call leaves one event in the trace.  A call that changes a directory
returns the new value of that directory. -/

def fstatat (dir : DIR) (name : String) : M (Except Nat Stat) := fun w =>
  let w1 := w.emit (.fstatat dir.id name)
  match dir.lookup name with
  | none => .ok (.error ENOENT) w1
  | some n =>
    match w.inode n.id with
    | none => .ok (.error ENOENT) w1
    | some i => .ok (.ok (i.stat n.id)) w1

/-- The call `openat(dirfd, name, O_RDONLY)`; the descriptor is the inode it refers to. -/
def openat (dir : DIR) (name : String) : M (Option FileId) := fun w =>
  let w1 := w.emit (.openat dir.id name)
  match dir.lookup name with
  | none => .ok none w1
  | some n =>
    match w.inode n.id with
    | none => .ok none w1
    | some i => if i.can_open then .ok (some n.id) w1 else .ok none w1

/-- Permission bits a new object gets: the low 12 bits of `mode` without the umask bits. -/
def newMode (w : World) (mode : Nat) : Nat :=
  (mode &&& 0o7777) ^^^ ((mode &&& 0o7777) &&& w.umask)

/-- The call `openat(dirfd, name, O_WRONLY | O_TRUNC | O_CREAT, mode)`. -/
def openat_creat (dir : DIR) (name : String) (mode : Nat) : M (Option FileId × DIR) := fun w =>
  let w1 := w.emit (.creat dir.id name mode)
  match dir.lookup name with
  | some n =>
    match w.inode n.id with
    | some i =>
      if S_ISREG i.st_mode && i.can_modify then
        .ok (some n.id, dir) (w1.setInode n.id { i with data := [] })
      else .ok (none, dir) w1
    | none => .ok (none, dir) w1
  | none =>
    match w.inode dir.id with
    | some di =>
      if di.can_modify then
        let id : FileId := (dir.id.1, w.fresh)
        .ok (some id, dir.add name (.leaf id))
          (w1.setInode id
            { st_mode := S_IFREG ||| newMode w mode, st_uid := w.euid, st_gid := w.egid })
      else .ok (none, dir) w1
    | none => .ok (none, dir) w1

def close (fd : Option FileId) : M Unit := emit (.close fd)

/-- The call `mmap(NULL, size, PROT_READ, MAP_SHARED, fd, 0)`: the mapped bytes, or
`none` for `MAP_FAILED`.  A mapping of length 0 is refused by the kernel. -/
def mmap (size : Nat) (fd : FileId) : M (Option Bytes) := fun w =>
  let w1 := w.emit (.mmap fd size)
  match w.inode fd with
  | some i => if i.can_mmap && size != 0 then .ok (some (i.data.take size)) w1 else .ok none w1
  | none => .ok none w1

def munmap (size : Nat) : M Unit := emit (.munmap size)

/-- The library call `memcmp(a, b, n)`; bytes beyond the end of a buffer read as 0. -/
def memcmp : Bytes → Bytes → Nat → Int
  | _, _, 0 => 0
  | a, b, n + 1 =>
    if a.headD 0 = b.headD 0 then memcmp a.tail b.tail n
    else (a.headD 0 : Int) - (b.headD 0 : Int)

/-- The call `write(fd, buf, count)`.  The kernel picks the result `wr k` for the
k-th call; it never reports more than `count` bytes.  A positive result appends
that many bytes of `buf` to the file. -/
def write (fd : FileId) (buf : Bytes) (count : Nat) : M Int := fun w =>
  let r := w.wr w.n_wr
  let n : Int := if r ≤ 0 then r else min r (count : Int)
  let w1 := { w with n_wr := w.n_wr + 1 }
  match w.inode fd with
  | some i =>
    if n ≤ 0 then .ok n (w1.emit (.write fd count n))
    else .ok n ((w1.emit (.write fd count n)).setInode fd
      { i with data := i.data ++ buf.take n.toNat })
  | none => .ok (-1) (w1.emit (.write fd count (-1)))

/-- The call `linkat(olddirfd, name, newdirfd, name, 0)`: result and the new value of
the directory that receives the entry. -/
def linkat (olddir : DIR) (newdir : DIR) (name : String) : M (Int × DIR) := fun w =>
  let w1 := w.emit (.linkat olddir.id newdir.id name)
  match olddir.lookup name with
  | some (.leaf id) =>
    match newdir.lookup name, w.inode id, w.inode newdir.id with
    | none, some i, some di =>
      if id.1 = newdir.id.1 && i.can_link && di.can_modify then
        .ok (0, newdir.add name (.leaf id)) w1
      else .ok (-1, newdir) w1
    | _, _, _ => .ok (-1, newdir) w1
  | _ => .ok (-1, newdir) w1

/-- The call `unlinkat(dirfd, name, 0)`. -/
def unlinkat (dir : DIR) (name : String) : M (Int × DIR) := fun w =>
  let w1 := w.emit (.unlinkat dir.id name)
  match dir.lookup name, w.inode dir.id with
  | some (.leaf _), some di =>
    if di.can_modify then .ok (0, dir.remove name) w1 else .ok (-1, dir) w1
  | _, _ => .ok (-1, dir) w1

/-- The call `mkdirat(dirfd, name, mode)`: `.error errno` on failure. -/
def mkdirat (dir : DIR) (name : String) (mode : Nat) : M (Except Nat Unit × DIR) := fun w =>
  let w1 := w.emit (.mkdirat dir.id name mode)
  match dir.lookup name with
  | some _ => .ok (.error EEXIST, dir) w1
  | none =>
    match w.inode dir.id with
    | some di =>
      if di.can_modify then
        let id : FileId := (dir.id.1, w.fresh)
        .ok (.ok (), dir.add name (.dir id []))
          (w1.setInode id
            { st_mode := S_IFDIR ||| newMode w mode, st_uid := w.euid, st_gid := w.egid })
      else .ok (.error EACCES, dir) w1
    | none => .ok (.error ENOENT, dir) w1

/-- The call `mknodat(dirfd, name, mode, dev)`. -/
def mknodat (dir : DIR) (name : String) (mode : Nat) (dev : Nat) : M (Int × DIR) := fun w =>
  let w1 := w.emit (.mknodat dir.id name mode dev)
  match dir.lookup name, w.inode dir.id with
  | none, some di =>
    if di.can_modify then
      let id : FileId := (dir.id.1, w.fresh)
      .ok (0, dir.add name (.leaf id))
        (w1.setInode id
          { st_mode := (mode &&& S_IFMT) ||| newMode w mode, st_uid := w.euid,
            st_gid := w.egid, st_rdev := dev })
    else .ok (-1, dir) w1
  | _, _ => .ok (-1, dir) w1

/-- The call `readlinkat(dirfd, name, buf, bufsize)`: the bytes placed in `buf`
(at most `bufsize` of them), or `none` for the result -1. -/
def readlinkat (dir : DIR) (name : String) (bufsize : Nat) : M (Option Bytes) := fun w =>
  let w1 := w.emit (.readlinkat dir.id name)
  match dir.lookup name with
  | some n =>
    match w.inode n.id with
    | some i => if S_ISLNK i.st_mode then .ok (some (i.data.take bufsize)) w1 else .ok none w1
    | none => .ok none w1
  | none => .ok none w1

/-- The call `symlinkat(target, dirfd, name)`. -/
def symlinkat (target : Bytes) (dir : DIR) (name : String) : M (Int × DIR) := fun w =>
  let w1 := w.emit (.symlinkat target dir.id name)
  match dir.lookup name, w.inode dir.id with
  | none, some di =>
    if di.can_modify then
      let id : FileId := (dir.id.1, w.fresh)
      .ok (0, dir.add name (.leaf id))
        (w1.setInode id
          { st_mode := S_IFLNK ||| 0o777, st_uid := w.euid, st_gid := w.egid, data := target })
    else .ok (-1, dir) w1
  | _, _ => .ok (-1, dir) w1

/-- The call `fchmodat(dirfd, name, mode, 0)`. -/
def fchmodat (dir : DIR) (name : String) (mode : Nat) : M Int := fun w =>
  let w1 := w.emit (.fchmodat dir.id name mode)
  match dir.lookup name with
  | some n =>
    match w.inode n.id with
    | some i =>
      if i.can_chmod then
        .ok 0 (w1.setInode n.id { i with st_mode := (i.st_mode &&& S_IFMT) ||| mode })
      else .ok (-1) w1
    | none => .ok (-1) w1
  | none => .ok (-1) w1

/-- The call `fchownat(dirfd, name, uid, gid, AT_SYMLINK_NOFOLLOW)`. -/
def fchownat (dir : DIR) (name : String) (uid gid : Nat) : M Int := fun w =>
  let w1 := w.emit (.fchownat dir.id name uid gid)
  match dir.lookup name with
  | some n =>
    match w.inode n.id with
    | some i =>
      if i.can_chown then .ok 0 (w1.setInode n.id { i with st_uid := uid, st_gid := gid })
      else .ok (-1) w1
    | none => .ok (-1) w1
  | none => .ok (-1) w1

/-- Store `data` at the start of `buf`, keeping what lies behind it. -/
def writeBuf (buf data : Bytes) : Bytes := data ++ buf.drop data.length

/-- The NUL-terminated string that starts at offset `off` of `buf`. -/
def cstr (buf : Bytes) (off : Nat) : Bytes := (buf.drop off).takeWhile (fun b => b != 0)

/-- What the kernel hands out for a name list: every name followed by a NUL byte,
in listing order. -/
def xattrList (i : Inode) : Bytes := (i.xattrs.map (fun kv => kv.1 ++ [0])).flatten

/-- The call `flistxattr(fd, xattr_name_buf[reg], xattr_max)`. -/
def flistxattr (fd : FileId) (reg : Nat) : M Int := fun w =>
  let w1 := w.emit (.flistxattr fd reg)
  match w.inode fd with
  | some i =>
    if i.can_list && (xattrList i).length ≤ xattr_max then
      let a := w1.arena reg
      .ok (xattrList i).length
        (w1.setArena reg { a with name_buf := writeBuf a.name_buf (xattrList i) })
    else .ok (-1) w1
  | none => .ok (-1) w1

/-- The call `fgetxattr(fd, key, xattr_value_buf[reg], xattr_max)`. -/
def fgetxattr (fd : FileId) (key : Bytes) (reg : Nat) : M Int := fun w =>
  let w1 := w.emit (.fgetxattr fd key)
  match w.inode fd with
  | some i =>
    match List.lookup key i.xattrs with
    | some (some v) =>
      if v.length ≤ xattr_max then
        let a := w1.arena reg
        .ok v.length (w1.setArena reg { a with value_buf := writeBuf a.value_buf v })
      else .ok (-1) w1
    | _ => .ok (-1) w1
  | none => .ok (-1) w1

/-- Set or replace one attribute of an attribute list. -/
def setAttr (l : List (Bytes × Option Bytes)) (key value : Bytes) :
    List (Bytes × Option Bytes) :=
  if (List.lookup key l).isSome then
    l.map (fun kv => if kv.1 == key then (key, some value) else kv)
  else l ++ [(key, some value)]

/-- The call `fsetxattr(fd, key, value, size, 0)`. -/
def fsetxattr (fd : FileId) (key value : Bytes) : M Int := fun w =>
  let w1 := w.emit (.fsetxattr fd key)
  match w.inode fd with
  | some i =>
    if i.can_setxattr then .ok 0 (w1.setInode fd { i with xattrs := setAttr i.xattrs key value })
    else .ok (-1) w1
  | none => .ok (-1) w1

/-- What `fdopendir` makes of a name that was opened: a stream when the name
opens as a directory. -/
def fdopendir (dir : DIR) (name : String) : Option DIR :=
  match dir.lookup name with
  | some (.dir id es) => some { id := id, entries := es }
  | _ => none

/-- Closing a child stream: its entries become the entries of the child in the
parent value. -/
def closedir (parent : DIR) (name : String) (child : Option DIR) : DIR :=
  match child with
  | some c => parent.put name (.dir c.id c.entries)
  | none => parent

/-! ## The path trail -/

/-- The largest value of an `int`. -/
def INT_MAX : Nat := 2 ^ 31 - 1

/-- The path trail: `compath` and `compath_i`, hardlinker.c:65-66. -/
structure Trail where
  compath : Bytes
  compath_i : Int
  deriving DecidableEq, Repr

/-- The call `snprintf(buf + off, size, "/%s", name)`: the buffer afterwards and the
result, which is the length of the full output whether or not it fitted.  With
`size = 0` nothing is stored; otherwise at most `size - 1` characters are stored,
followed by a NUL. -/
def snprintf_slash (buf : Bytes) (off size : Nat) (name : Bytes) : Bytes × Nat :=
  let s := 47 :: cstr name 0
  if size = 0 then (buf, s.length)
  else
    let out := s.take (size - 1) ++ [0]
    (buf.take off ++ out ++ buf.drop (off + out.length), s.length)

/-- `compath_push`, hardlinker.c:79-85: the frame it returns and the trail
afterwards.  The result is `none` where C leaves the behaviour undefined: the
cursor is not a position of the array or the one past it, the `int` addition
overflows, or the store `compath[compath_i] = 0` lies outside the array. -/
def compath_push (t : Trail) (name : Bytes) : Option (Int × Trail) :=
  if t.compath_i < 0 ∨ (PATH_MAX : Int) < t.compath_i then none
  else
    let frame := t.compath_i
    let r := snprintf_slash t.compath t.compath_i.toNat (PATH_MAX - t.compath_i.toNat) name
    let i1 := t.compath_i + (r.2 : Int)
    if (INT_MAX : Int) < i1 then none
    else if (PATH_MAX : Int) ≤ i1 then none
    else some (frame, { compath := r.1.set i1.toNat 0, compath_i := i1 })

/-- `compath_pop`, hardlinker.c:87-91; `none` when the store lies outside the array. -/
def compath_pop (t : Trail) (frame : Int) : Option Trail :=
  if frame < 0 ∨ (PATH_MAX : Int) ≤ frame then none
  else some { compath := t.compath.set frame.toNat 0, compath_i := frame }

/-- The path string the trail holds: the bytes of `compath` before the first NUL. -/
def Trail.path (t : Trail) : Bytes := cstr t.compath 0

/-- A path-trail state: the array has `PATH_MAX` elements, the cursor is a position
of the array, and the string in the array ends at the cursor. -/
def Trail.Wf (t : Trail) : Prop :=
  t.compath.length = PATH_MAX ∧ 0 ≤ t.compath_i ∧ t.compath_i < (PATH_MAX : Int) ∧
    t.path.length = t.compath_i.toNat

/-- The bytes of a directory entry name (`d_name`), in UTF-8. -/
def nameBytes (name : String) : Bytes :=
  (name.data.map (fun c => (String.utf8EncodeChar c).map UInt8.toNat)).flatten

/-- The call `compath_push(name)` on the global trail of the process; the run
stops where C leaves the behaviour undefined. -/
def compath_push_m (name : String) : M Int := fun w =>
  match compath_push { compath := w.compath, compath_i := w.compath_i } (nameBytes name) with
  | some r => .ok r.1 { w with compath := r.2.compath, compath_i := r.2.compath_i }
  | none => .stop .undefined w

/-- The call `compath_pop(frame)` on the global trail of the process. -/
def compath_pop_m (frame : Int) : M Unit := fun w =>
  match compath_pop { compath := w.compath, compath_i := w.compath_i } frame with
  | some t => .ok () { w with compath := t.compath, compath_i := t.compath_i }
  | none => .stop .undefined w

/-! ## The program, function by function -/

/-- `errhandle`, hardlinker.c:93-103.  The report event records the prefix, the
function and the path; the text of the trail that is printed between them is not
recorded. -/
def errhandle (g : Globals) (pfx : Option String) (fn : String) (path : String)
    (fail : Nat) : M Unit :=
  match pfx with
  | some p => do
    emit (.report p fn path)
    if fail &&& g.opt_fail != 0 then exit 1 else pure ()
  | none => pure ()

/-- `wrap_stat`, hardlinker.c:127-130: `.ok st` for the result 0, `.error errno` otherwise. -/
def wrap_stat (dir : DIR) (name : String) : M (Except Nat Stat) := fstatat dir name

/-- `wrap_open`, hardlinker.c:132-140 (always called with `O_RDONLY`). -/
def wrap_open (g : Globals) (pfx : Option String) (dir : DIR) (name : String)
    (fail : Nat) : M (Option FileId) := do
  let fd ← openat dir name
  if fd.isNone then
    errhandle g pfx "open" name fail
  pure fd

/-- `wrap_creat`, hardlinker.c:142-150. -/
def wrap_creat (g : Globals) (pfx : Option String) (dir : DIR) (name : String)
    (mode : Nat) : M (Option FileId × DIR) := do
  let r ← openat_creat dir name mode
  if r.1.isNone then
    errhandle g pfx "creat" name FAIL_CREAT
  pure r

/-- `wrap_opendir`, hardlinker.c:162-175. -/
def wrap_opendir (g : Globals) (pfx : Option String) (dir : DIR) (path : String) :
    M (Option DIR) := do
  let fd ← wrap_open g pfx dir path FAIL_OPENDIR
  match fd with
  | none => pure none
  | some _ =>
    let ret := fdopendir dir path
    if ret.isNone then
      errhandle g pfx "opendir" path FAIL_OPENDIR
    pure ret

/-- `wrap_mmap`, hardlinker.c:177-186. -/
def wrap_mmap (g : Globals) (pfx : Option String) (size : Nat) (fd : FileId)
    (name : String) : M (Option Bytes) := do
  let ret ← mmap size fd
  if ret.isNone then
    errhandle g pfx "mmap" name FAIL_MMAP
  pure ret

/-- `wrap_link`, hardlinker.c:188-196. -/
def wrap_link (g : Globals) (pfx : Option String) (src_dir dst_dir : DIR)
    (name : String) : M (Int × DIR) := do
  let r ← linkat src_dir dst_dir name
  if r.1 == -1 then
    errhandle g pfx "link" name FAIL_HL
  pure r

/-- `wrap_mkdir_p`, hardlinker.c:198-214. -/
def wrap_mkdir_p (g : Globals) (pfx : Option String) (dir : DIR) (name : String)
    (mode : Nat) : M (Int × DIR) := do
  let r ← mkdirat dir name mode
  match r.1 with
  | .ok _ => pure (0, r.2)
  | .error e =>
    if e == EEXIST then pure (0, r.2)
    else do
      errhandle g pfx "mkdir" name FAIL_MUST
      pure (-1, r.2)

/-- `wrap_mknod`, hardlinker.c:216-224. -/
def wrap_mknod (g : Globals) (pfx : Option String) (dir : DIR) (name : String)
    (mode dev : Nat) : M (Int × DIR) := do
  let r ← mknodat dir name mode dev
  if r.1 == -1 then
    errhandle g pfx "mknod" name FAIL_MKNOD
  pure r

/-- `wrap_readlink`, hardlinker.c:226-242: `none` for the result -1, otherwise the
NUL-terminated contents of `buf`. -/
def wrap_readlink (g : Globals) (pfx : Option String) (dir : DIR) (name : String)
    (bufsize : Nat) : M (Option Bytes) := do
  let r ← readlinkat dir name bufsize
  match r with
  | none =>
    errhandle g pfx "readlink" name FAIL_READLINK
    pure none
  | some b =>
    let result := if b.length ≥ bufsize then bufsize - 1 else b.length
    pure (some (b.take result))

/-- `wrap_symlink`, hardlinker.c:244-252. -/
def wrap_symlink (g : Globals) (pfx : Option String) (target : Bytes) (dir : DIR)
    (name : String) : M (Int × DIR) := do
  let r ← symlinkat target dir name
  if r.1 == -1 then
    errhandle g pfx "symlink" name FAIL_MUST
  pure r

/-- `wrap_remove`, hardlinker.c:254-262. -/
def wrap_remove (g : Globals) (pfx : Option String) (dir : DIR) (name : String) :
    M (Int × DIR) := do
  let r ← unlinkat dir name
  if r.1 == -1 then
    errhandle g pfx "unlink" name FAIL_MUST
  pure r

/-- The `while ( buflen > 0 )` loop of `load_xattr_names`, hardlinker.c:283-289: the
offsets stored in the pointer vector.  `buflen` is a `size_t`.  The result is
`none` when `fuel` iterations did not finish the loop. -/
def load_xattr_names_loop (buf : Bytes) : Nat → Nat → Nat → Option (List Nat)
  | 0, buflen, _ => if buflen > 0 then none else some []
  | fuel + 1, buflen, key =>
    if buflen > 0 then
      let keylen := (cstr buf key).length + 1
      (load_xattr_names_loop buf fuel ((buflen + 2 ^ 64 - keylen) % 2 ^ 64) (key + keylen)).map
        (fun l => key :: l)
    else some []

/-- `load_xattr_names`, hardlinker.c:269-291. -/
def load_xattr_names (g : Globals) (pfx : Option String) (fd : FileId) (reg : Nat) :
    M Unit := do
  let result ← flistxattr fd reg
  modifyWorld (fun w => w.setArena reg { w.arena reg with n_names := 0 })
  if result < 0 then
    errhandle g pfx "listxattr" "" FAIL_XATTR
    modifyWorld (fun w => w.setArena reg
      { w.arena reg with name_buf := writeBuf (w.arena reg).name_buf [0], names_size := 0 })
  else
    let w ← getWorld
    match load_xattr_names_loop (w.arena reg).name_buf result.toNat result.toNat 0 with
    | none => fun w1 => .stop .fuel w1
    | some keys =>
      modifyWorld (fun w => w.setArena reg
        { w.arena reg with names_size := result.toNat, n_names := keys.length,
                           pname_buf := w.qsort keys })

/-- `cmp_xattr_names`, hardlinker.c:293-300. -/
def cmp_xattr_names : M Int := do
  let w ← getWorld
  if w.arena0.names_size != w.arena1.names_size then
    pure 1
  else
    pure (memcmp w.arena0.name_buf w.arena1.name_buf w.arena0.names_size)

/-- The `for` loop of `cmp_xattr_values`, hardlinker.c:305-327, over the pointers
`xattr_pname_buf[0][i]` still to visit. -/
def cmp_xattr_values_loop (g : Globals) (pfx : Option String) (src_fd ref_fd : FileId) :
    List Nat → M Int
  | [] => pure 0
  | key :: rest => do
    let w ← getWorld
    let src_result ← fgetxattr src_fd (cstr w.arena0.name_buf key) 0
    if src_result < 0 then
      errhandle g pfx "getxattr" "" FAIL_XATTR
      cmp_xattr_values_loop g pfx src_fd ref_fd rest
    else
      let ref_result ← fgetxattr ref_fd (cstr w.arena0.name_buf key) 1
      if ref_result < 0 then
        errhandle g pfx "getxattr" "" FAIL_XATTR
        cmp_xattr_values_loop g pfx src_fd ref_fd rest
      else if src_result != ref_result then
        pure 1
      else
        let w1 ← getWorld
        if memcmp w1.arena0.value_buf w1.arena1.value_buf src_result.toNat != 0 then
          pure 1
        else
          cmp_xattr_values_loop g pfx src_fd ref_fd rest

/-- `cmp_xattr_values`, hardlinker.c:302-329. -/
def cmp_xattr_values (g : Globals) (pfx : Option String) (src_fd ref_fd : FileId) :
    M Int := do
  let w ← getWorld
  cmp_xattr_values_loop g pfx src_fd ref_fd (w.arena0.pname_buf.take w.arena0.n_names)

/-- `transfer_mode`, hardlinker.c:331-344. -/
def transfer_mode (g : Globals) (pfx : Option String) (st : Stat) (dir : DIR)
    (name : String) : M Int := do
  if S_ISLNK st.st_mode then
    pure 0
  else
    let result ← fchmodat dir name (st.st_mode &&& 0o7777)
    if result == -1 then
      errhandle g pfx "chmod" name FAIL_CHMOD
    pure result

/-- `transfer_owner`, hardlinker.c:346-355. -/
def transfer_owner (g : Globals) (pfx : Option String) (st : Stat) (dir : DIR)
    (name : String) : M Int := do
  let result ← fchownat dir name st.st_uid st.st_gid
  if result == -1 then
    errhandle g pfx "chown" name FAIL_CHOWN
  pure result

/-- The `if ( size )` block of `diff_content`, hardlinker.c:372-395. -/
def diff_content_maps (g : Globals) (src_fd ref_fd : FileId) (name : String) (size : Nat)
    (ret : Nat) : M Nat := do
  if size != 0 then
    let src_map ← wrap_mmap g g.src_path size src_fd name
    match src_map with
    | none => pure (ret ||| 8)
    | some sm =>
      let ref_map ← wrap_mmap g g.ref_path size ref_fd name
      match ref_map with
      | none =>
        munmap size
        pure (ret ||| 8)
      | some rm =>
        emit (.memcmp size)
        let ret1 := if memcmp sm rm size != 0 then ret ||| 1 else ret
        munmap size
        munmap size
        pure ret1
  else
    pure ret

/-- The `while(!opt_noxattr)` block of `diff_content`, hardlinker.c:396-411. -/
def diff_content_xattr (g : Globals) (src_fd ref_fd : FileId) (ret : Nat) : M Nat := do
  if !g.opt_noxattr then
    load_xattr_names g g.src_path src_fd 0
    load_xattr_names g g.ref_path ref_fd 1
    if (← cmp_xattr_names) != 0 then
      pure (ret ||| 2)
    else if (← cmp_xattr_values g g.src_path src_fd ref_fd) != 0 then
      pure (ret ||| 4)
    else
      pure ret
  else
    pure ret

/-- `diff_content`, hardlinker.c:357-418. -/
def diff_content (g : Globals) (src_dir ref_dir : DIR) (name : String) (size : Nat) :
    M Nat := do
  let ret := 0
  let src_fd ← wrap_open g g.src_path src_dir name FAIL_DIFF
  match src_fd with
  | none => pure (ret ||| 8)
  | some sfd =>
    let ref_fd ← wrap_open g g.ref_path ref_dir name FAIL_DIFF
    match ref_fd with
    | none =>
      close (some sfd)
      pure (ret ||| 8)
    | some rfd =>
      let ret1 ← diff_content_maps g sfd rfd name size ret
      let ret2 ← diff_content_xattr g sfd rfd ret1
      close (some rfd)
      close (some sfd)
      pure ret2

/-- The `for` loop of `transfer_xattr`, hardlinker.c:435-449. -/
def transfer_xattr_loop (g : Globals) (src_fd dst_fd : FileId) (src_name dst_name : String) :
    List Nat → M Unit
  | [] => pure ()
  | key :: rest => do
    let w ← getWorld
    let result ← fgetxattr src_fd (cstr w.arena0.name_buf key) 0
    if result == -1 then
      errhandle g g.src_path "fgetxattr" src_name FAIL_XATTR
    else
      let w1 ← getWorld
      let r ← fsetxattr dst_fd (cstr w.arena0.name_buf key) (w1.arena0.value_buf.take result.toNat)
      if r == -1 then
        errhandle g g.dst_path "fsetxattr" dst_name FAIL_XATTR
    transfer_xattr_loop g src_fd dst_fd src_name dst_name rest

/-- `transfer_xattr`, hardlinker.c:420-455. -/
def transfer_xattr (g : Globals) (src_dir dst_dir : DIR) (src_name dst_name : String) :
    M Unit := do
  let src_fd ← wrap_open g g.src_path src_dir src_name 0
  match src_fd with
  | none => pure ()
  | some sfd =>
    let dst_fd ← wrap_open g g.dst_path dst_dir dst_name 0
    match dst_fd with
    | none => close (some sfd)
    | some dfd =>
      load_xattr_names g g.src_path sfd 0
      let w ← getWorld
      transfer_xattr_loop g sfd dfd src_name dst_name (w.arena0.pname_buf.take w.arena0.n_names)
      close (some dfd)
      close (some sfd)

/-- The `while ( left )` loop of `copy_file`, hardlinker.c:474-484.  `p` is what is
left of the mapping.  `write` never reports more than `left` bytes, so
`left -= readsize` cannot wrap. -/
def copy_file_loop (g : Globals) (dst_fd : FileId) (name : String) :
    Nat → Nat → Bytes → M Unit
  | 0, _, _ => fun w => .stop .fuel w
  | fuel + 1, left, p => do
    if left != 0 then
      let readsize ← write dst_fd p left
      if readsize ≤ 0 then
        errhandle g g.dst_path "write" name FAIL_COPY
      else
        copy_file_loop g dst_fd name fuel (left - readsize.toNat) (p.drop readsize.toNat)
    else
      pure ()

/-- `copy_file`, hardlinker.c:457-492; the result is the destination directory
with the created entry. -/
def copy_file (g : Globals) (src_dir dst_dir : DIR) (name : String) (size mode : Nat) :
    M DIR := do
  let r ← wrap_creat g g.dst_path dst_dir name mode
  match r.1 with
  | some dfd =>
    if size != 0 then
      let src_fd ← wrap_open g g.src_path src_dir name FAIL_COPY
      match src_fd with
      | none => pure ()
      | some sfd =>
        let src_map ← wrap_mmap g g.src_path size sfd name
        match src_map with
        | none => close (some sfd)
        | some m =>
          copy_file_loop g dfd name (size + 1) size m
          munmap size
          close (some sfd)
  | none => pure ()
  close r.1
  pure r.2

/-- The decision chain of `dive`, hardlinker.c:531-599: the pair `(diff, hl)`.
`ref_stat_res` is `.error errno` when the reference stat failed or the reference
directory is absent.  The last case cannot arise in the program: a reference stat
only succeeds through a reference directory. -/
def dive_decide (g : Globals) (src_dir : DIR) (ref_dir : Option DIR) (name : String)
    (src_stat : Stat) (ref_stat_res : Except Nat Stat) : M (Bool × Bool) :=
  if !S_ISREG src_stat.st_mode then
    pure (true, false)
  else
    match ref_stat_res with
    | .error _ => pure (true, false)
    | .ok ref_stat =>
      if src_stat.st_uid != ref_stat.st_uid then
        pure (true, false)
      else if src_stat.st_gid != ref_stat.st_gid then
        pure (true, false)
      else if src_stat.st_mode != ref_stat.st_mode then
        pure (true, false)
      else if src_stat.st_size != ref_stat.st_size then
        pure (true, false)
      else if src_stat.st_dev == ref_stat.st_dev && src_stat.st_ino == ref_stat.st_ino then
        pure (false, true)
      else
        match ref_dir with
        | some rd => do
          let dc ← diff_content g src_dir rd name src_stat.st_size
          if dc != 0 then
            pure (true, false)
          else
            pure (false, false)
        | none => fun w => .stop .undefined w

/-- The type of `dive` once the recursion depth is fixed: the streams come back
with the entries they have when the call returns. -/
abbrev Dive := Option DIR → Option DIR → Option DIR → M (Option DIR × Option DIR)

/-- The `if (diff)` branch with a destination, hardlinker.c:603-647. -/
def dive_copy (g : Globals) (rec : Dive) (name : String) (src_stat : Stat)
    (src_dir dst_dir : DIR) (ref_dir : Option DIR) : M (DIR × DIR) := do
  let (s1, d1) ←
    if S_ISREG src_stat.st_mode then do
      let d ← copy_file g src_dir dst_dir name src_stat.st_size src_stat.st_mode
      pure (src_dir, d)
    else if S_ISLNK src_stat.st_mode then do
      let lnk ← wrap_readlink g g.src_path src_dir name PATH_MAX
      match lnk with
      | some l =>
        let r ← wrap_symlink g g.dst_path l dst_dir name
        pure (src_dir, r.2)
      | none => pure (src_dir, dst_dir)
    else if S_ISDIR src_stat.st_mode then do
      let m ← wrap_mkdir_p g g.dst_path dst_dir name (src_stat.st_mode &&& 0o7777)
      let nx_src_dir ← wrap_opendir g g.src_path src_dir name
      let nx_dst_dir ← wrap_opendir g g.dst_path m.2 name
      let nx_ref_dir ← match ref_dir with
        | some rd => wrap_opendir g none rd name
        | none => pure none
      let frame ← compath_push_m name
      let nx ← rec nx_src_dir nx_dst_dir nx_ref_dir
      compath_pop_m frame
      pure (closedir src_dir name nx.1, closedir m.2 name nx.2)
    else do
      let r ← wrap_mknod g g.dst_path dst_dir name src_stat.st_mode src_stat.st_rdev
      pure (src_dir, r.2)
  let _ ← transfer_mode g g.dst_path src_stat d1 name
  let _ ← transfer_owner g g.dst_path src_stat d1 name
  if !g.opt_noxattr && (S_ISREG src_stat.st_mode || S_ISDIR src_stat.st_mode) then
    transfer_xattr g s1 d1 name name
  pure (s1, d1)

/-- The `if (diff)` branch without a destination, hardlinker.c:648-667. -/
def dive_keep (g : Globals) (rec : Dive) (name : String) (src_stat : Stat)
    (src_dir : DIR) (ref_dir : Option DIR) : M DIR := do
  if S_ISDIR src_stat.st_mode then
    let nx_src_dir ← wrap_opendir g g.src_path src_dir name
    let nx_ref_dir ← match ref_dir with
      | some rd => wrap_opendir g none rd name
      | none => pure none
    let frame ← compath_push_m name
    let nx ← rec nx_src_dir none nx_ref_dir
    compath_pop_m frame
    pure (closedir src_dir name nx.1)
  else
    pure src_dir

/-- The `else` branch of `if (diff)`, hardlinker.c:669-683.  It is only reached with
a reference directory. -/
def dive_link (g : Globals) (name : String) (hl : Bool)
    (src_dir : DIR) (dst_dir : Option DIR) (ref_dir : Option DIR) :
    M (DIR × Option DIR) :=
  match ref_dir with
  | none => fun w => .stop .undefined w
  | some rd =>
    match dst_dir with
    | some dd => do
      let r ← wrap_link g g.dst_path rd dd name
      pure (src_dir, some r.2)
    | none => do
      if !hl then
        let r1 ← wrap_remove g g.src_path src_dir name
        let r2 ← wrap_link g g.src_path rd r1.2 name
        pure (r2.2, none)
      else
        pure (src_dir, none)

/-- One iteration of the `while` loop of `dive`, hardlinker.c:499-683. -/
def dive_entry (g : Globals) (rec : Dive) (name : String)
    (src_dir : DIR) (dst_dir : Option DIR) (ref_dir : Option DIR) :
    M (DIR × Option DIR) := do
  if name == "." || name == ".." then
    pure (src_dir, dst_dir)
  else
    let src_stat_res ← wrap_stat src_dir name
    match src_stat_res with
    | .error _ => pure (src_dir, dst_dir)
    | .ok src_stat =>
      let ref_stat_res ← match ref_dir with
        | some rd => wrap_stat rd name
        | none => pure (.error ENOENT)
      let v ← dive_decide g src_dir ref_dir name src_stat ref_stat_res
      emit (.verdict name v.1 v.2)
      if v.1 then
        match dst_dir with
        | some dd =>
          let r ← dive_copy g rec name src_stat src_dir dd ref_dir
          pure (r.1, some r.2)
        | none =>
          let s ← dive_keep g rec name src_stat src_dir ref_dir
          pure (s, none)
      else
        dive_link g name v.2 src_dir dst_dir ref_dir

/-- The `while` loop of `dive` over the names `readdir` still has to yield. -/
def dive_loop (g : Globals) (rec : Dive) :
    List String → DIR → Option DIR → Option DIR → M (DIR × Option DIR)
  | [], src_dir, dst_dir, _ => pure (src_dir, dst_dir)
  | name :: rest, src_dir, dst_dir, ref_dir => do
    let r ← dive_entry g rec name src_dir dst_dir ref_dir
    dive_loop g rec rest r.1 r.2 ref_dir

/-- `dive`, hardlinker.c:494-690.  The first argument bounds the recursion depth.
`readdir` yields the names the source directory has when the call starts and
does not fail, so the `errno` test after the loop (hardlinker.c:685-689), which
the loop condition arms with `errno = 0` before every `readdir`, never exits.  A
null source stream makes `readdir` undefined. -/
def dive : Nat → Globals → Dive
  | 0, _ => fun _ _ _ w => .stop .fuel w
  | fuel + 1, g => fun src_dir dst_dir ref_dir => do
    emit (.dive (src_dir.map DIR.id) (dst_dir.map DIR.id) (ref_dir.map DIR.id))
    match src_dir with
    | none => fun w => .stop .undefined w
    | some sd =>
      let r ← dive_loop g (dive fuel g) (sd.entries.map Prod.fst) sd dst_dir ref_dir
      pure (some r.1, r.2)

/-- What `main` leaves in `opt_fail` for the option `-fail=N`, hardlinker.c:717-721
and 728: `sscanf` stores the 32-bit value, then `opt_fail |= FAIL_MUST`. -/
def main_opt_fail (N : Nat) : Nat := (N % 2 ^ 32) ||| FAIL_MUST

/-! ## Specification vocabulary

Pure functions that say what the staging and comparison code computes; the
verification section proves that the code computes them. -/

/-- Every position of the buffer is followed by a NUL byte inside the buffer. -/
def EndsNul (L : Bytes) : Prop := ∀ k, k < L.length → 0 ∈ L.drop k

/-- Offsets that the splitting loop stores for a kernel name list. -/
def stagedKeys (L : Bytes) : List Nat := (load_xattr_names_loop L L.length L.length 0).getD []

/-- The listing succeeds for this inode. -/
def Inode.listOk (i : Inode) : Prop := i.can_list = true ∧ (xattrList i).length ≤ xattr_max

/-- The outcome of a run without the world: the value, or why the run stopped. -/
def Res.outcome {α : Type} : Res α → Except Stop α
  | .ok a _ => .ok a
  | .stop r _ => .error r

/-- What `fgetxattr` delivers for an attribute name: the value, or `none` when the
call fails. -/
def fetch (i : Inode) (key : Bytes) : Option Bytes :=
  match List.lookup key i.xattrs with
  | some (some v) => if v.length ≤ xattr_max then some v else none
  | _ => none

/-- Whether `errhandle` terminates the process for this prefix and class. -/
def fatal (g : Globals) (pfx : Option String) (fail : Nat) : Bool :=
  pfx.isSome && (fail &&& g.opt_fail != 0)

/-- Outcome of the value comparison over the attribute names in visiting order. -/
def cmpValuesSpec (stop : Bool) (is ir : Inode) : List Bytes → Except Stop Int
  | [] => .ok 0
  | key :: rest =>
    match fetch is key with
    | none => if stop then .error (.exit 1) else cmpValuesSpec stop is ir rest
    | some vs =>
      match fetch ir key with
      | none => if stop then .error (.exit 1) else cmpValuesSpec stop is ir rest
      | some vr => if vs = vr then cmpValuesSpec stop is ir rest else .ok 1

/-- The world after `errhandle` printed its report (nothing is printed for a null
prefix). -/
def World.report (w : World) (pfx : Option String) (fn path : String) : World :=
  match pfx with
  | some p => w.emit (.report p fn path)
  | none => w

/-- What a read-only run leaves untouched. -/
def Same (w w1 : World) : Prop :=
  w1.inodes = w.inodes ∧ w1.qsort = w.qsort ∧ w1.wr = w.wr ∧ w1.umask = w.umask ∧
    w1.euid = w.euid ∧ w1.egid = w.egid ∧ w1.compath_i = w.compath_i

/-- The effect of a run from `w` to `w1`: the run appended events to the trace,
every one of which passes `good`, and when `keep` is set the run left the file
system and the cursor of the path trail untouched. -/
def Eff (keep : Bool) (good : Ev → Bool) (w w1 : World) : Prop :=
  (keep = true → Same w w1) ∧ ∃ l, w1.trace = w.trace ++ l ∧ ∀ e ∈ l, good e = true

/-- Every run of `m`, to its end or to the point where the process stops, has the
effect `R`. -/
structure Steps {α : Type} (R : World → World → Prop) (m : M α) : Prop where
  run : ∀ w, R w (m w).world

/-- Events of the comparison code: opening, mapping, listing, fetching, reporting. -/
def diffEv : Ev → Bool
  | .openat _ _ => true
  | .close _ => true
  | .mmap _ _ => true
  | .munmap _ => true
  | .memcmp _ => true
  | .flistxattr _ _ => true
  | .fgetxattr _ _ => true
  | .report _ _ _ => true
  | _ => false

instance Inode.decListOk (i : Inode) : Decidable i.listOk := by
  unfold Inode.listOk; infer_instance

/-- The library `qsort` returns a rearrangement of its input. -/
def World.qsortOk (w : World) : Prop := ∀ l, (w.qsort l).Perm l

/-- The inode a name of a directory refers to. -/
def World.entry (w : World) (dir : DIR) (name : String) : Option Inode :=
  (dir.lookup name).bind (fun n => w.inode n.id)

/-- The raw name list a side contributes to the comparison: the kernel's list, or
nothing when the listing fails. -/
def stagedList (i : Inode) : Bytes := if i.listOk then xattrList i else []

/-- Outcome of the `while(!opt_noxattr)` block of `diff_content` for two open files. -/
def xattrSpec (g : Globals) (qsort : List Nat → List Nat) (is ir : Inode) (ret : Nat) :
    Except Stop Nat :=
  if g.opt_noxattr = true then .ok ret
  else if ¬ is.listOk ∧ fatal g g.src_path FAIL_XATTR = true then .error (.exit 1)
  else if ¬ ir.listOk ∧ fatal g g.ref_path FAIL_XATTR = true then .error (.exit 1)
  else if stagedList is ≠ stagedList ir then .ok (ret ||| 2)
  else
    match cmpValuesSpec (fatal g g.src_path FAIL_XATTR) is ir
        ((qsort (stagedKeys (stagedList is))).map (cstr (stagedList is))) with
    | .ok r => if r ≠ 0 then .ok (ret ||| 4) else .ok ret
    | .error e => .error e

/-- Outcome of the `if ( size )` block of `diff_content` for two open files. -/
def mapsSpec (g : Globals) (is ir : Inode) (size ret : Nat) : Except Stop Nat :=
  if size = 0 then .ok ret
  else if is.can_mmap = false then
    (if fatal g g.src_path FAIL_MMAP = true then .error (.exit 1) else .ok (ret ||| 8))
  else if ir.can_mmap = false then
    (if fatal g g.ref_path FAIL_MMAP = true then .error (.exit 1) else .ok (ret ||| 8))
  else if memcmp (is.data.take size) (ir.data.take size) size ≠ 0 then .ok (ret ||| 1)
  else .ok ret

/-- The inode an `open` of the name yields, if the call succeeds. -/
def openSpec (i : Option Inode) : Option Inode :=
  i.bind (fun x => if x.can_open = true then some x else none)

/-- Outcome of `diff_content` in terms of the two inodes the name refers to. -/
def diffContentSpec (g : Globals) (qsort : List Nat → List Nat) (s r : Option Inode)
    (size : Nat) : Except Stop Nat :=
  match openSpec s with
  | none => if fatal g g.src_path FAIL_DIFF = true then .error (.exit 1) else .ok 8
  | some is =>
    match openSpec r with
    | none => if fatal g g.ref_path FAIL_DIFF = true then .error (.exit 1) else .ok 8
    | some ir =>
      match mapsSpec g is ir size 0 with
      | .ok ret1 => xattrSpec g qsort is ir ret1
      | .error e => .error e

/-- An arena holds the staging of inode `i`: the recorded size is that of the raw
list, the name buffer starts with the raw list, and the pointer vector visits the
staged offsets in the order `qsort` left them. -/
def Staged (i : Inode) (a : Arena) (qsort : List Nat → List Nat) : Prop :=
  a.names_size = (stagedList i).length ∧
  (∃ stale, a.name_buf = stagedList i ++ stale) ∧
  a.pname_buf.take a.n_names = qsort (stagedKeys (stagedList i))


/-- Every name the staging of `i` yields can be fetched from `i`. -/
def Inode.fetchOk (i : Inode) : Prop :=
  ∀ k ∈ stagedKeys (stagedList i), (fetch i (cstr (stagedList i) k)).isSome = true

/-- Events of the comparison code other than mapping and comparing bytes. -/
def noMapEv : Ev → Bool
  | .mmap _ _ => false
  | .munmap _ => false
  | .memcmp _ => false
  | e => diffEv e

/-- Outcome of the decision chain of `dive` in terms of the outcome of
`diff_content` (which is only consulted in the last case). -/
def decideSpec (s : Stat) (rs : Except Nat Stat) (dc : Except Stop Nat) :
    Except Stop (Bool × Bool) :=
  if S_ISREG s.st_mode = false then .ok (true, false)
  else
    match rs with
    | .error _ => .ok (true, false)
    | .ok r =>
      if s.st_uid ≠ r.st_uid ∨ s.st_gid ≠ r.st_gid ∨ s.st_mode ≠ r.st_mode ∨
          s.st_size ≠ r.st_size then .ok (true, false)
      else if s.st_dev = r.st_dev ∧ s.st_ino = r.st_ino then .ok (false, true)
      else
        match dc with
        | .ok v => .ok (v != 0, false)
        | .error e => .error e

instance Inode.decFetchOk (i : Inode) : Decidable i.fetchOk := by
  unfold Inode.fetchOk; infer_instance


/-- System-call and report events other than `linkat` and `unlinkat`. -/
def sysEv : Ev → Bool
  | .linkat _ _ _ => false
  | .unlinkat _ _ => false
  | .dive _ _ _ => false
  | .verdict _ _ _ => false
  | _ => true

/-- The globals as `main` leaves them: the mask it computes from `-fail=N`, and
the source and reference paths set. -/
def Globals.fromMain (g : Globals) : Prop :=
  (∃ N, g.opt_fail = main_opt_fail N) ∧ g.src_path.isSome = true ∧ g.ref_path.isSome = true

/-- The node a relative path leads to, starting from a node. -/
def resolve : List String → Node → Option Node
  | [], n => some n
  | _ :: _, .leaf _ => none
  | p :: ps, .dir _ es => (List.lookup p es).bind (resolve ps)

/-- Two attribute states that the listing and fetching calls cannot tell apart:
both list, the raw lists agree, and every staged name delivers the same value. -/
def XattrEquiv (a b : Inode) : Prop :=
  a.listOk ∧ b.listOk ∧ xattrList a = xattrList b ∧
  ∀ k ∈ stagedKeys (xattrList a),
    ∃ v, fetch a (cstr (xattrList a) k) = some v ∧ fetch b (cstr (xattrList a) k) = some v

/-- Two inodes that hold regular files with the same mode, owner, group and
bytes and, unless the no-xattr option is set, the same extended attributes. -/
def FileEquiv (g : Globals) (t : List (FileId × Inode)) (a b : FileId) : Prop :=
  ∃ ia ib, List.lookup a t = some ia ∧ List.lookup b t = some ib ∧
    S_ISREG ia.st_mode = true ∧
    ia.st_mode = ib.st_mode ∧ ia.st_uid = ib.st_uid ∧ ia.st_gid = ib.st_gid ∧
    ia.data = ib.data ∧ (g.opt_noxattr = false → XattrEquiv ia ib)

/-- What a walk may do to one entry, given the reference entry at the same
place: nothing to a missing one, nothing to the identity of a directory, and a
non-directory keeps its inode or gets the inode of the reference entry, which
holds an equivalent regular file. -/
def EntryEquiv (g : Globals) (t : List (FileId × Inode)) (r : Option Node) :
    Option Node → Option Node → Prop
  | none, none => True
  | some (.dir i _), some (.dir j _) => i = j
  | some (.leaf i), some (.leaf j) => i = j ∨ (r = some (.leaf j) ∧ FileEquiv g t i j)
  | _, _ => False

/-- Two nodes with equivalent entries at every relative path. -/
def NodeEquiv (g : Globals) (t : List (FileId × Inode)) (r : Option Node) (a b : Node) : Prop :=
  ∀ path, EntryEquiv g t (r.bind (resolve path)) (resolve path a) (resolve path b)

/-- Two optional nodes that are both missing or equivalent. -/
def OptEquiv (g : Globals) (t : List (FileId × Inode)) (r : Option Node) :
    Option Node → Option Node → Prop
  | none, none => True
  | some a, some b => NodeEquiv g t r a b
  | _, _ => False

/-- Two directory values with the same identity and equivalent entries under
every name. -/
def DirEquiv (g : Globals) (t : List (FileId × Inode)) (r : Option DIR) (a b : DIR) : Prop :=
  a.id = b.id ∧
    ∀ name, OptEquiv g t (r.bind (fun d => d.lookup name)) (a.lookup name) (b.lookup name)

/-- What `fstatat` reports for a name of a directory. -/
def statSpec (w : World) (dir : DIR) (name : String) : Except Nat Stat :=
  match dir.lookup name with
  | none => .error ENOENT
  | some n =>
    match w.inode n.id with
    | none => .error ENOENT
    | some i => .ok (i.stat n.id)

/-- Every event. -/
def allEv : Ev → Bool := fun _ => true

/-- Every value `m` returns satisfies `Q`. -/
structure Returns {α : Type} (Q : α → Prop) (m : M α) : Prop where
  run : ∀ w a w1, m w = .ok a w1 → Q a

/-- Every returning run of `m` has the effect `R`. -/
structure Rets {α : Type} (R : World → World → Prop) (m : M α) : Prop where
  run : ∀ w a w1, m w = .ok a w1 → R w w1

/-- A step that touches nothing but the path trail. -/
def TrailStep (w w1 : World) : Prop :=
  w1.inodes = w.inodes ∧ w1.qsort = w.qsort ∧ w1.wr = w.wr ∧ w1.umask = w.umask ∧
    w1.euid = w.euid ∧ w1.egid = w.egid ∧ w1.trace = w.trace

/-- The cursor `compath_push` leaves behind; it depends on the cursor before the
call and on the name, not on the bytes of the buffer. -/
def pushCursor (ci : Int) (name : String) : Option Int :=
  (compath_push { compath := [], compath_i := ci } (nameBytes name)).map
    (fun r => r.2.compath_i)

/-- Events of a walk that changes nothing: no `linkat`, no `unlinkat`, and no
verdict "equal but a distinct inode". -/
def stableEv : Ev → Bool
  | .linkat _ _ _ => false
  | .unlinkat _ _ => false
  | .verdict _ diff hl => diff || hl
  | _ => true

/-- The run of `m` from `w` returns `a`, leaves the file system untouched and adds
only events that pass `good`. -/
def Runs {α : Type} (good : Ev → Bool) (m : M α) (a : α) (w : World) : Prop :=
  ∃ w1, m w = .ok a w1 ∧ Eff true good w w1

/-- A source directory on which a walk without destination changes nothing: from
every state with the inode table `t`, the sorting order `q` and the trail cursor
`ci` the walk returns the directory as it is and neither links nor unlinks. -/
def Stable (rec : Dive) (t : List (FileId × Inode)) (q : List Nat → List Nat) (ci : Int)
    (r : Option DIR) (s : DIR) : Prop :=
  ∀ w, w.inodes = t → w.qsort = q → w.compath_i = ci →
    Runs stableEv (rec (some s) none r) (some s, none) w

/-- What the walk needs of the function it recurses with when there is no
destination: a null source stream never returns, a returning call hands back an
equivalent source directory that is stable and no destination, and no returning
call touches the inode table or moves the trail cursor. -/
def RecStatic (g : Globals) (rec : Dive) : Prop :=
  (∀ d r w x w1, rec none d r w ≠ .ok x w1) ∧
  (∀ s r w x w1, w.qsortOk → rec (some s) none r w = .ok x w1 →
    ∃ s1, x = (some s1, none) ∧ DirEquiv g w.inodes r s s1 ∧
      Stable rec w.inodes w.qsort w.compath_i r s1) ∧
  (∀ s r, Rets (Eff true allEv) (rec s none r))

/-- An entry on which one iteration of the loop changes nothing, whatever the
other entries of the directory are. -/
def EntryStable (g : Globals) (rec : Dive) (t : List (FileId × Inode))
    (q : List Nat → List Nat) (ci : Int) (r : Option DIR) (name : String)
    (x : Option Node) : Prop :=
  ∀ sd w, sd.lookup name = x → w.inodes = t → w.qsort = q → w.compath_i = ci →
    Runs stableEv (dive_entry g rec name sd none r) (sd, none) w

/-- What `wrap_opendir` returns when it returns: the stream of the name, if the
name can be opened and opens as a directory. -/
def opendirSpec (w : World) (dir : DIR) (name : String) : Option DIR :=
  if (openSpec (w.entry dir name)).isSome then fdopendir dir name else none

/-- Outcome of the decision chain for an entry in terms of the directories and
the inode table. -/
def entryVerdict (g : Globals) (w : World) (sd : DIR) (r : Option DIR) (name : String)
    (st : Stat) : Except Stop (Bool × Bool) :=
  match r with
  | none => .ok (true, false)
  | some rd =>
    decideSpec st (statSpec w rd name)
      (diffContentSpec g w.qsort (w.entry sd name) (w.entry rd name) st.st_size)

/-- What the reference stat of `dive` delivers: the stat of the name in the
reference directory, or `ENOENT` without a reference directory. -/
def refStatSpec (w : World) (r : Option DIR) (name : String) : Except Nat Stat :=
  match r with
  | some rd => statSpec w rd name
  | none => .error ENOENT

/-- The inode a name refers to in the source directory a walk returned (`none`
when the walk did not return). -/
def Res.srcEntry (r : Res (Option DIR × Option DIR)) (name : String) : Option Inode :=
  match r with
  | .ok x w => x.1.bind (fun s => w.entry s name)
  | .stop _ _ => none

/-- Inodes that exist before a run are untouched by it, and the sorting order
stays. -/
def Pres (w w1 : World) : Prop :=
  w1.qsort = w.qsort ∧ ∀ id i, w.inode id = some i → w1.inode id = some i

/-- A run that keeps every inode in place, changes at most inode `fid`, and
changes the bytes of none. -/
def Upd (fid : FileId) (w w1 : World) : Prop :=
  w1.qsort = w.qsort ∧
    ∀ id i, w.inode id = some i → ∃ i1, w1.inode id = some i1 ∧ (id ≠ fid → i1 = i) ∧
      i1.data = i.data

/-- A source tree in which no directory lists a name twice. -/
inductive Node.Wf : Node → Prop
  | leaf (id : FileId) : Node.Wf (.leaf id)
  | dir (id : FileId) (es : List (String × Node)) (hn : (es.map Prod.fst).Nodup)
      (hc : ∀ e ∈ es, Node.Wf e.2) : Node.Wf (.dir id es)

/-- A directory stream over a tree in which no directory lists a name twice. -/
def DIR.Wf (d : DIR) : Prop := (d.entries.map Prod.fst).Nodup ∧ ∀ e ∈ d.entries, e.2.Wf

/-- Two inodes that hold regular files with the same mode, owner, group and
bytes and, unless the no-xattr option is set, the same extended attributes. -/
def FileEq (g : Globals) (a b : Inode) : Prop :=
  S_ISREG a.st_mode = true ∧ a.st_mode = b.st_mode ∧ a.st_uid = b.st_uid ∧
    a.st_gid = b.st_gid ∧ a.data = b.data ∧ (g.opt_noxattr = false → XattrEquiv a b)

/-- The reference directory has an entry `name` whose inode is the source inode
`sid` itself, or holds a regular file equal to the source file `is`. -/
def RefMatch (g : Globals) (w : World) (r : Option DIR) (name : String) (sid : FileId)
    (is : Inode) : Prop :=
  ∃ rd m ir, r = some rd ∧ rd.lookup name = some m ∧ w.inode m.id = some ir ∧
    (sid = m.id ∨ FileEq g is ir)

/-- What copy mode leaves under a name for the regular source file `is` with inode
`sid`, the destination entry being inode `fid`: when the reference entry matches,
`fid` is the inode of the reference entry; otherwise `fid` did not exist before the
walk and holds the bytes of the source file after it. -/
def CopyOutcome (g : Globals) (w w1 : World) (r : Option DIR) (name : String)
    (sid : FileId) (is : Inode) (fid : FileId) : Prop :=
  (RefMatch g w r name sid is →
    ∃ rd m, r = some rd ∧ rd.lookup name = some m ∧ fid = m.id) ∧
  (¬ RefMatch g w r name sid is →
    w.inode fid = none ∧ ∃ i1, w1.inode fid = some i1 ∧ i1.data = is.data)

/-- The entry `name` of the reference directory, when there is one, refers to an
inode that exists. -/
def RefPresent (w : World) (r : Option DIR) (name : String) : Prop :=
  ∀ rd m, r = some rd → rd.lookup name = some m → ∃ ir, w.inode m.id = some ir
/-- The inode a name refers to in the destination directory a walk returned
(`none` when the walk did not return or the name is absent). -/
def Res.dstEntryId (r : Res (Option DIR × Option DIR)) (name : String) : Option FileId :=
  match r with
  | .ok x _ => x.2.bind (fun d => (d.lookup name).map Node.id)
  | .stop _ _ => none

/-- The source directory and the reference directory a walk has in hand after it
descended along the directory names `dirs`, starting with `s` and `r` in the
state `w`: each name differs from "." and "..", its stat succeeds and says
directory, and it opens as a directory; the reference side follows where the name
opens, and is absent from there on where it does not. -/
def walkAt (w : World) : List String → DIR → Option DIR → Option (DIR × Option DIR)
  | [], s, r => some (s, r)
  | name :: rest, s, r =>
    if (name == "." || name == "..") = true then none
    else
      match statSpec w s name with
      | .ok st =>
        if S_ISDIR st.st_mode = true then
          match opendirSpec w s name with
          | some c => walkAt w rest c (r.bind (fun rd => opendirSpec w rd name))
          | none => none
        else none
      | .error _ => none

/-- The run from `w` to `w1` appended the event `e` to the trace. -/
def Adds (w w1 : World) (e : Ev) : Prop := ∃ l, w1.trace = w.trace ++ l ∧ e ∈ l

/-- A run over the source directory `s` with the reference `r` visited every
directory the walk reaches and every entry in it: for each such directory the run
recorded a call of `dive` on it, with the reference directory of that place, and
for each entry whose stat succeeds it recorded the verdict of the decision chain. -/
def Visited (g : Globals) (w w1 : World) (s : DIR) (r : Option DIR) : Prop :=
  ∀ dirs sd rd, walkAt w dirs s r = some (sd, rd) →
    (∃ dd, Adds w w1 (.dive (some sd.id) dd (rd.map DIR.id))) ∧
    ∀ name st, (name == "." || name == "..") = false → statSpec w sd name = .ok st →
      ∃ v, entryVerdict g w sd rd name st = .ok v ∧ Adds w w1 (.verdict name v.1 v.2)

/-- A tree all of whose entries refer to inodes that exist. -/
inductive Node.Present (w : World) : Node → Prop
  | leaf (id : FileId) (i : Inode) (h : w.inode id = some i) : Node.Present w (.leaf id)
  | dir (id : FileId) (es : List (String × Node)) (i : Inode) (h : w.inode id = some i)
      (hc : ∀ e ∈ es, Node.Present w e.2) : Node.Present w (.dir id es)

/-- A directory stream all of whose entries, at every depth, refer to inodes that
exist. -/
def DIR.Present (w : World) (d : DIR) : Prop := ∀ e ∈ d.entries, Node.Present w e.2

/-- What copy mode leaves in the destination directory `d1` for the regular files
of the source tree: for every directory the walk reaches from `s` and `r` and
every regular file in it, the destination tree has a file under the same path,
with the outcome `CopyOutcome` relative to the reference directory of that
place. -/
def TreeCopied (g : Globals) (w w1 : World) (s : DIR) (r : Option DIR) (d1 : DIR) : Prop :=
  ∀ dirs name sd rd n is, walkAt w dirs s r = some (sd, rd) →
    (name == "." || name == "..") = false → sd.lookup name = some n →
    w.inode n.id = some is → S_ISREG is.st_mode = true →
    ∃ fid, resolve (dirs ++ [name]) (.dir d1.id d1.entries) = some (.leaf fid) ∧
      CopyOutcome g w w1 rd name n.id is fid

/-- What the walk needs of the function it recurses with in copy mode: every run
appends to the trace; and called on a source directory without repeated names, an
empty destination directory and a reference tree without dangling entries, a
returning call hands back the source directory as it was and the destination
directory under its identity, filled as `TreeCopied` says, it visited the tree,
and it left the inodes that existed untouched. -/
def RecCopy (g : Globals) (rec : Dive) : Prop :=
  (∀ s d r, Steps (Eff false allEv) (rec s d r)) ∧
  ∀ c d r w x w1, c.Wf → d.entries = [] → w.qsortOk → (∀ rd, r = some rd → rd.Present w) →
    rec (some c) (some d) r w = .ok x w1 →
    x.1 = some c ∧
    (∃ d1, x.2 = some d1 ∧ d1.id = d.id ∧ TreeCopied g w w1 c r d1) ∧
    Visited g w w1 c r ∧ Pres w w1

/-- What copy mode leaves for one name of the source directory `sd`, the
destination directory being `d1` afterwards: a regular file has the outcome
`CopyOutcome`; an entry whose stat succeeds got its verdict recorded; and a
directory was made in the destination, filled and visited as `TreeCopied` and
`Visited` say. -/
def EntryCopied (g : Globals) (w w1 : World) (sd : DIR) (r : Option DIR) (d1 : DIR)
    (name : String) : Prop :=
  (name == "." || name == "..") = false →
    (∀ n is, sd.lookup name = some n → w.inode n.id = some is → S_ISREG is.st_mode = true →
      ∃ fid, d1.lookup name = some (.leaf fid) ∧ CopyOutcome g w w1 r name n.id is fid) ∧
    (∀ st, statSpec w sd name = .ok st →
      (∃ v, entryVerdict g w sd r name st = .ok v ∧ Adds w w1 (.verdict name v.1 v.2)) ∧
      (S_ISDIR st.st_mode = true → ∃ c c1, opendirSpec w sd name = some c ∧
        d1.lookup name = some (.dir c1.id c1.entries) ∧
        TreeCopied g w w1 c (r.bind (fun rd => opendirSpec w rd name)) c1 ∧
        Visited g w w1 c (r.bind (fun rd => opendirSpec w rd name))))

/-- The node a relative path leads to in the destination directory a walk returned
(`none` when the walk did not return or the path is absent). -/
def Res.dstNodeId (r : Res (Option DIR × Option DIR)) (path : List String) : Option FileId :=
  match r with
  | .ok x _ => x.2.bind (fun d => (resolve path (.dir d.id d.entries)).map Node.id)
  | .stop _ _ => none

/-- The globals after `main` parsed `-fail=0` in copy mode. -/
def sampleGlobals : Globals :=
  { src_path := some "src", dst_path := some "dst", ref_path := some "ref",
    opt_fail := main_opt_fail 0 }

/-- Stat data of a symbolic link that has one hard link in the source tree and one
in the reference tree. -/
def sampleLinkStat : Stat :=
  { st_dev := 1, st_ino := 12, st_mode := 0o120777, st_uid := 1000, st_gid := 1000,
    st_rdev := 0, st_size := 6 }

/-- A regular file holding the two bytes "hi". -/
def sampleFile : Inode :=
  { st_mode := 0o100644, st_uid := 1000, st_gid := 1000, data := [104, 105] }

def sampleDirInode : Inode := { st_mode := 0o040755, st_uid := 1000, st_gid := 1000 }

/-- A world with a source directory (1,10) holding file "a" (1,11), a reference
directory (1,20) holding an equal file "a" (1,21), and an empty destination
directory (1,30).  Every `write` call transfers one byte. -/
def sampleWorld : World :=
  { inodes := [((1, 10), sampleDirInode), ((1, 11), sampleFile), ((1, 20), sampleDirInode),
               ((1, 21), sampleFile), ((1, 30), sampleDirInode)],
    wr := fun _ => 1 }

def sampleSrc : DIR := { id := (1, 10), entries := [("a", .leaf (1, 11))] }

def sampleRef : DIR := { id := (1, 20), entries := [("a", .leaf (1, 21))] }

def sampleDst : DIR := { id := (1, 30), entries := [] }

/-- The attribute name "user.k". -/
def sampleKey : Bytes := [117, 115, 101, 114, 46, 107]

/-- A one-byte regular file "x" carrying `user.k = v1`. -/
def sampleAttrFile1 : Inode :=
  { st_mode := 0o100644, st_uid := 1000, st_gid := 1000, data := [120],
    xattrs := [(sampleKey, some [118, 49])] }

/-- The same file carrying `user.k = v2`. -/
def sampleAttrFile2 : Inode :=
  { st_mode := 0o100644, st_uid := 1000, st_gid := 1000, data := [120],
    xattrs := [(sampleKey, some [118, 50])] }

/-- An empty regular file carrying `user.k = v1`. -/
def sampleEmptyFile : Inode :=
  { st_mode := 0o100644, st_uid := 1000, st_gid := 1000, data := [],
    xattrs := [(sampleKey, some [118, 49])] }

/-- Source directory (1,10) with "a" (1,11) carrying `user.k = v1` and the empty
file "e" (1,13); reference directory (1,20) with "a" (1,21) carrying
`user.k = v2` and the empty file "e" (1,23); an empty destination (1,30). -/
def sampleAttrWorld : World :=
  { inodes := [((1, 10), sampleDirInode), ((1, 11), sampleAttrFile1),
               ((1, 13), sampleEmptyFile), ((1, 20), sampleDirInode),
               ((1, 21), sampleAttrFile2), ((1, 23), sampleEmptyFile),
               ((1, 30), sampleDirInode)],
    wr := fun _ => 1 }

def sampleAttrSrc : DIR :=
  { id := (1, 10), entries := [("a", .leaf (1, 11)), ("e", .leaf (1, 13))] }

def sampleAttrRef : DIR :=
  { id := (1, 20), entries := [("a", .leaf (1, 21)), ("e", .leaf (1, 23))] }

/-- The globals after `main` parsed `-static -fail=0`: no destination path. -/
def sampleStatic : Globals :=
  { src_path := some "src", ref_path := some "ref", opt_static := true,
    opt_fail := main_opt_fail 0 }

/-- The globals after `main` parsed `-static -noxattr -fail=0`. -/
def sampleStaticNoXattr : Globals := { sampleStatic with opt_noxattr := true }


/-- The trail as `main` leaves it: an empty path. -/
def sampleTrail : Trail := { compath := List.replicate 4096 0, compath_i := 0 }

/-- A trail 3840 characters deep: fifteen nested directories with names of 255
characters. -/
def sampleDeepTrail : Trail :=
  { compath := List.replicate 3840 97 ++ List.replicate 256 0, compath_i := 3840 }

/-- An entry name of 255 characters. -/
def sampleLongName : Bytes := List.replicate 255 98


/-- The file of `sampleAttrFile1` with the attribute `user.k` listed but not
readable. -/
def sampleUnreadableFile : Inode :=
  { st_mode := 0o100644, st_uid := 1000, st_gid := 1000, data := [120],
    xattrs := [(sampleKey, none)] }

/-- Source directory (1,10) with "a" (1,11) whose attribute cannot be fetched;
reference directory (1,20) with "a" (1,21) carrying `user.k = v1`. -/
def sampleUnreadableWorld : World :=
  { inodes := [((1, 10), sampleDirInode), ((1, 11), sampleUnreadableFile),
               ((1, 20), sampleDirInode), ((1, 21), sampleAttrFile1)] }

/-- Globals whose failure mask is empty, so that `errhandle` returns for every
class; `main` never produces them, it adds `FAIL_MUST` to the mask. -/
def sampleGlobalsNoFail : Globals := { sampleGlobals with opt_fail := 0 }


/-- Source directory (1,10) with the file "a" (1,11) and the directory "d" (1,12),
which holds "b" (1,14) and "c" (1,15); reference directory (1,20) with "a" (1,21)
and "d" (1,22), which holds "b" (1,24), equal to the source file, and "c" (1,25),
which differs from the source file in the value of `user.k`; an empty destination
(1,30). -/
def sampleDeepWorld : World :=
  { inodes := [((1, 10), sampleDirInode), ((1, 11), sampleAttrFile1),
               ((1, 12), sampleDirInode), ((1, 14), sampleFile), ((1, 15), sampleAttrFile1),
               ((1, 20), sampleDirInode), ((1, 21), sampleAttrFile2),
               ((1, 22), sampleDirInode), ((1, 24), sampleFile), ((1, 25), sampleAttrFile2),
               ((1, 30), sampleDirInode)],
    wr := fun _ => 1 }

def sampleDeepSrc : DIR :=
  { id := (1, 10),
    entries := [("a", .leaf (1, 11)),
                ("d", .dir (1, 12) [("b", .leaf (1, 14)), ("c", .leaf (1, 15))])] }

def sampleDeepRef : DIR :=
  { id := (1, 20),
    entries := [("a", .leaf (1, 21)),
                ("d", .dir (1, 22) [("b", .leaf (1, 24)), ("c", .leaf (1, 25))])] }


/-! # Verification -/

section lemmas
variable {α β : Type}

@[simp] theorem run_pure (a : α) (w : World) : (pure a : M α) w = .ok a w := rfl

@[simp] theorem run_bind (m : M α) (f : α → M β) (w : World) :
    (m >>= f) w = match m w with
      | .ok a w1 => f a w1
      | .stop r w1 => .stop r w1 := rfl

@[simp] theorem run_emit (e : Ev) (w : World) : emit e w = .ok () (w.emit e) := rfl

@[simp] theorem run_exit (c : Nat) (w : World) : (exit c : M α) w = .stop (.exit c) w := rfl

@[simp] theorem run_getWorld (w : World) : getWorld w = .ok w w := rfl

@[simp] theorem run_modifyWorld (f : World → World) (w : World) :
    modifyWorld f w = .ok () (f w) := rfl

end lemmas

/-! ## Error gating -/

theorem errhandle_some (g : Globals) (p fn path : String) (fail : Nat) (w : World) :
    errhandle g (some p) fn path fail w =
      if fail &&& g.opt_fail ≠ 0 then .stop (.exit 1) (w.emit (.report p fn path))
      else .ok () (w.emit (.report p fn path)) := by
  simp [errhandle]
  split <;> simp_all

theorem errhandle_none (g : Globals) (fn path : String) (fail : Nat) (w : World) :
    errhandle g none fn path fail w = .ok () w := by
  simp [errhandle]

/-- Whatever `N` is, every non-zero class below `2^31` meets the mask `main` computes. -/
theorem main_opt_fail_bits (N c : Nat) (hc : c ≠ 0) (h : c < 2 ^ 31) :
    c &&& main_opt_fail N ≠ 0 := by
  unfold main_opt_fail FAIL_MUST
  intro h0
  apply hc
  apply Nat.eq_of_testBit_eq
  intro i
  have := congrArg (fun x => x.testBit i) h0
  simp at this
  simp
  by_contra hh
  simp at hh
  have h2 := this hh
  have : i < 31 := by
    by_contra hge
    have : c.testBit i = false :=
      Nat.testBit_lt_two_pow
        (lt_of_lt_of_le h (Nat.pow_le_pow_right (by norm_num) (by omega)))
    simp_all
  have h3 : (2147483647 : Nat).testBit i = true := by
    interval_cases i <;> decide
  simp_all

/-- C5 (the code departs from the claim): after `-fail=0` the chmod bit is clear in
`N = 0`, yet a chmod failure reported through `errhandle` with the destination
prefix terminates the process with exit code 1, because `main` has or-ed
`FAIL_MUST = 0x7fffffff` into the mask. -/
theorem errhandle_fail_zero_chmod_exits :
    FAIL_CHMOD &&& 0 = 0 ∧
    ∀ w : World,
      errhandle { opt_fail := main_opt_fail 0 } (some "dst") "chmod" "a" FAIL_CHMOD w =
        .stop (.exit 1) (w.emit (.report "dst" "chmod" "a")) := by
  refine ⟨by decide, fun w => ?_⟩
  rw [errhandle_some]
  rfl

/-! ## The decision chain -/

/-- C1 (as amended): the verdict of `dive` for a source entry with stat data `s` and
reference stat result `rs`.  It is "different" exactly when the source entry is
not regular, or the reference stat failed, or one of uid, gid, mode, size
differs, or device and inode are not both equal and `diff_content` returns a
non-zero bitset.  It is "same-inode" exactly when the source entry is regular,
the reference stat succeeded, the four fields agree and device and inode are both
equal; then `diff_content` is not called (the world is untouched).  A verdict
that is not "different" implies a regular reference entry, and an absent
reference directory always gives "different". -/
theorem dive_decide_spec (g : Globals) (src_dir rd : DIR) (name : String) (s : Stat)
    (rs : Except Nat Stat) (w : World) :
    ((∃ hl w1, dive_decide g src_dir (some rd) name s rs w = .ok (true, hl) w1) ↔
      (S_ISREG s.st_mode = false ∨ (∃ e, rs = .error e) ∨
       (∃ r, rs = .ok r ∧ (s.st_uid ≠ r.st_uid ∨ s.st_gid ≠ r.st_gid ∨
          s.st_mode ≠ r.st_mode ∨ s.st_size ≠ r.st_size)) ∨
       (∃ r, rs = .ok r ∧ ¬ (s.st_dev = r.st_dev ∧ s.st_ino = r.st_ino) ∧
          ∃ dc w1, diff_content g src_dir rd name s.st_size w = .ok dc w1 ∧ dc ≠ 0))) ∧
    ((∃ diff w1, dive_decide g src_dir (some rd) name s rs w = .ok (diff, true) w1) ↔
      (S_ISREG s.st_mode = true ∧ ∃ r, rs = .ok r ∧ s.st_uid = r.st_uid ∧
          s.st_gid = r.st_gid ∧ s.st_mode = r.st_mode ∧ s.st_size = r.st_size ∧
          s.st_dev = r.st_dev ∧ s.st_ino = r.st_ino)) ∧
    (∀ diff w1, dive_decide g src_dir (some rd) name s rs w = .ok (diff, true) w1 →
      diff = false ∧ w1 = w) ∧
    (∀ hl w1, dive_decide g src_dir (some rd) name s rs w = .ok (false, hl) w1 →
      ∃ r, rs = .ok r ∧ S_ISREG r.st_mode = true) ∧
    (∀ e, dive_decide g src_dir none name s (.error e) w = .ok (true, false) w) := by
  unfold dive_decide
  by_cases hreg : S_ISREG s.st_mode = true
  · cases rs with
    | error e => simp [hreg]
    | ok r =>
      by_cases h1 : s.st_uid = r.st_uid
      · by_cases h2 : s.st_gid = r.st_gid
        · by_cases h3 : s.st_mode = r.st_mode
          · by_cases h4 : s.st_size = r.st_size
            · have hreg2 : S_ISREG r.st_mode = true := h3 ▸ hreg
              by_cases h5 : s.st_dev = r.st_dev ∧ s.st_ino = r.st_ino
              · simp [hreg, hreg2, h1, h2, h3, h4, h5]
              · have h5b : (s.st_dev == r.st_dev && s.st_ino == r.st_ino) = false := by
                  simpa using h5
                have h5c : s.st_dev = r.st_dev → ¬ s.st_ino = r.st_ino :=
                  fun a b => h5 ⟨a, b⟩
                simp only [hreg, hreg2, h1, h2, h3, h4, h5b]
                cases hd : diff_content g src_dir rd name r.st_size w with
                | ok dc w2 =>
                  by_cases hz : dc = 0 <;> simp [hd, hz, hreg2] <;> exact h5c
                | stop r w2 => simp [hd]; exact h5c
            · simp [hreg, h1, h2, h3, h4]
          · simp [hreg, h1, h2, h3]
        · simp [hreg, h1, h2]
      · simp [hreg, h1]
  · simp [hreg]

/-- C1 (counterexample to the claim as stated): a symbolic link with one hard link
in the source directory and one in the reference directory has equal uid, gid,
mode and size and equal device and inode on both sides, yet the verdict is
"different", not "same-inode". -/
theorem dive_decide_same_inode_not_regular :
    ¬ ((∃ diff w1, dive_decide sampleGlobals ⟨(1, 10), [("l", .leaf (1, 12))]⟩
          (some ⟨(1, 20), [("l", .leaf (1, 12))]⟩) "l" sampleLinkStat (.ok sampleLinkStat) {}
          = .ok (diff, true) w1) ↔
       (sampleLinkStat.st_uid = sampleLinkStat.st_uid ∧
        sampleLinkStat.st_gid = sampleLinkStat.st_gid ∧
        sampleLinkStat.st_mode = sampleLinkStat.st_mode ∧
        sampleLinkStat.st_size = sampleLinkStat.st_size ∧
        sampleLinkStat.st_dev = sampleLinkStat.st_dev ∧
        sampleLinkStat.st_ino = sampleLinkStat.st_ino)) := by
  intro h
  obtain ⟨diff, w1, hw⟩ := h.mpr ⟨rfl, rfl, rfl, rfl, rfl, rfl⟩
  have hd : dive_decide sampleGlobals ⟨(1, 10), [("l", .leaf (1, 12))]⟩
      (some ⟨(1, 20), [("l", .leaf (1, 12))]⟩) "l" sampleLinkStat (.ok sampleLinkStat) {}
      = .ok (true, false) {} := rfl
  rw [hd] at hw
  simp at hw

/-! ## Buffers -/

theorem getD_zero_headD (a : Bytes) : a.getD 0 0 = a.headD 0 := by
  cases a <;> rfl

theorem getD_succ_tail (a : Bytes) (i : Nat) : a.getD (i + 1) 0 = a.tail.getD i 0 := by
  cases a <;> simp

theorem memcmp_eq_zero_iff (a b : Bytes) (n : Nat) :
    memcmp a b n = 0 ↔ ∀ i, i < n → a.getD i 0 = b.getD i 0 := by
  induction n generalizing a b with
  | zero => simp [memcmp]
  | succ n ih =>
    unfold memcmp
    by_cases h : a.headD 0 = b.headD 0
    · simp only [h, if_true, ih]
      constructor
      · intro H i hi
        cases i with
        | zero => rw [getD_zero_headD, getD_zero_headD, h]
        | succ i =>
          rw [getD_succ_tail, getD_succ_tail]
          exact H i (by omega)
      · intro H i hi
        have := H (i + 1) (by omega)
        rwa [getD_succ_tail, getD_succ_tail] at this
    · simp only [h, if_false]
      constructor
      · intro H
        exfalso
        apply h
        omega
      · intro H
        exfalso
        apply h
        have := H 0 (by omega)
        rwa [getD_zero_headD, getD_zero_headD] at this

theorem memcmp_initial (v0 v1 s0 s1 : Bytes) (h : v0.length = v1.length) :
    memcmp (v0 ++ s0) (v1 ++ s1) v0.length = 0 ↔ v0 = v1 := by
  induction v0 generalizing v1 with
  | nil => cases v1 <;> simp_all [memcmp]
  | cons x xs ih =>
    cases v1 with
    | nil => simp at h
    | cons y ys =>
      simp only [List.length_cons, Nat.add_right_cancel_iff] at h
      simp only [List.cons_append, List.length_cons, memcmp, List.headD_cons, List.tail_cons]
      by_cases hxy : x = y
      · simp [hxy, ih ys h]
      · simp only [hxy, if_false]
        constructor
        · intro H; exfalso; apply hxy; omega
        · intro H; simp_all

theorem takeWhile_append_of_mem {p : Nat → Bool} (xs ys : List Nat)
    (h : ∃ x ∈ xs, p x = false) :
    (xs ++ ys).takeWhile p = xs.takeWhile p ∧ (xs.takeWhile p).length < xs.length := by
  induction xs with
  | nil => simp at h
  | cons x xs ih =>
    by_cases hx : p x = true
    · have : ∃ x ∈ xs, p x = false := by
        obtain ⟨y, hy, hpy⟩ := h
        rcases List.mem_cons.mp hy with rfl | hy
        · simp_all
        · exact ⟨y, hy, hpy⟩
      simp [List.takeWhile_cons, hx, ih this]
    · simp [List.takeWhile_cons, hx]

theorem cstr_local (L s : Bytes) (key : Nat) (h : 0 ∈ L.drop key) :
    cstr (L ++ s) key = cstr L key ∧ key + (cstr L key).length < L.length := by
  have hk : key < L.length := by
    by_contra hk
    rw [List.drop_eq_nil_of_le (by omega)] at h
    simp at h
  unfold cstr
  rw [List.drop_append_of_le_length (by omega)]
  have := takeWhile_append_of_mem (p := fun b => b != 0) (L.drop key) s ⟨0, h, by simp⟩
  refine ⟨this.1, ?_⟩
  have h2 := this.2
  simp only [List.length_drop] at h2
  omega

theorem endsNul_nil : EndsNul [] := by
  intro k hk; simp at hk

theorem endsNul_append (A B : Bytes) (hA : EndsNul A) (hB : EndsNul B) : EndsNul (A ++ B) := by
  intro k hk
  by_cases h : k < A.length
  · rw [List.drop_append_of_le_length (by omega)]
    exact List.mem_append_left _ (hA k h)
  · have hk2 : k - A.length < B.length := by simp at hk; omega
    have : (A ++ B).drop k = B.drop (k - A.length) := by
      rw [List.drop_append_eq_append_drop, List.drop_eq_nil_of_le (by omega)]
      simp
    rw [this]
    exact hB _ hk2

theorem endsNul_name (n : Bytes) : EndsNul (n ++ [0]) := by
  intro k hk
  have hk2 : k ≤ n.length := by simp at hk; omega
  rw [List.drop_append_of_le_length hk2]
  simp

theorem endsNul_xattrList (i : Inode) : EndsNul (xattrList i) := by
  unfold xattrList
  induction i.xattrs with
  | nil => simpa using endsNul_nil
  | cons kv rest ih =>
    simp only [List.map_cons, List.flatten_cons]
    exact endsNul_append _ _ (endsNul_name kv.1) ih

theorem load_xattr_names_loop_local (L : Bytes) (hL : EndsNul L) (hlen : L.length < 2 ^ 64) :
    ∀ buflen fuel1 fuel2 key s1 s2, key + buflen = L.length → buflen ≤ fuel1 → buflen ≤ fuel2 →
      ∃ keys, load_xattr_names_loop (L ++ s1) fuel1 buflen key = some keys ∧
        load_xattr_names_loop (L ++ s2) fuel2 buflen key = some keys ∧
        ∀ k ∈ keys, 0 ∈ L.drop k := by
  intro buflen
  induction buflen using Nat.strong_induction_on with
  | _ buflen ih =>
    intro fuel1 fuel2 key s1 s2 hk h1 h2
    by_cases hb : buflen = 0
    · subst hb
      refine ⟨[], ?_, ?_, by simp⟩
      · cases fuel1 <;> simp [load_xattr_names_loop]
      · cases fuel2 <;> simp [load_xattr_names_loop]
    · have hpos : buflen > 0 := Nat.pos_of_ne_zero hb
      obtain ⟨f1, rfl⟩ : ∃ f, fuel1 = f + 1 := ⟨fuel1 - 1, by omega⟩
      obtain ⟨f2, rfl⟩ : ∃ f, fuel2 = f + 1 := ⟨fuel2 - 1, by omega⟩
      have hmem : 0 ∈ L.drop key := hL key (by omega)
      have c1 := cstr_local L s1 key hmem
      have c2 := cstr_local L s2 key hmem
      have hkl : (cstr L key).length + 1 ≤ buflen := by have := c1.2; omega
      have hmod : (buflen + 2 ^ 64 - ((cstr L key).length + 1)) % 2 ^ 64
          = buflen - ((cstr L key).length + 1) := by
        have : buflen + 2 ^ 64 - ((cstr L key).length + 1)
            = (buflen - ((cstr L key).length + 1)) + 2 ^ 64 := by omega
        rw [this, Nat.add_mod_right]
        exact Nat.mod_eq_of_lt (by omega)
      obtain ⟨keys, e1, e2, e3⟩ := ih (buflen - ((cstr L key).length + 1)) (by omega) f1 f2
        (key + ((cstr L key).length + 1)) s1 s2 (by omega) (by omega) (by omega)
      refine ⟨key :: keys, ?_, ?_, ?_⟩
      · simp only [load_xattr_names_loop, hpos, if_true, c1.1, hmod, e1, Option.map_some']
      · simp only [load_xattr_names_loop, hpos, if_true, c2.1, hmod, e2, Option.map_some']
      · intro k hk2
        rcases List.mem_cons.mp hk2 with rfl | hk2
        · exact hmem
        · exact e3 k hk2

theorem load_xattr_names_loop_staged (L s : Bytes) (hL : EndsNul L) (hlen : L.length < 2 ^ 64) :
    load_xattr_names_loop (L ++ s) L.length L.length 0 = some (stagedKeys L) ∧
    ∀ k ∈ stagedKeys L, cstr (L ++ s) k = cstr L k := by
  obtain ⟨keys, e1, e2, e3⟩ := load_xattr_names_loop_local L hL hlen L.length L.length L.length 0 s []
    (by omega) (le_refl _) (le_refl _)
  have : stagedKeys L = keys := by
    unfold stagedKeys
    rw [List.append_nil] at e2
    rw [e2]; rfl
  rw [this]
  exact ⟨e1, fun k hk => (cstr_local L s k (e3 k hk)).1⟩

/-! ## World bookkeeping -/

@[simp] theorem emit_inodes (w : World) (e : Ev) : (w.emit e).inodes = w.inodes := rfl

@[simp] theorem emit_inode (w : World) (e : Ev) (id : FileId) : (w.emit e).inode id = w.inode id := rfl

@[simp] theorem emit_arena (w : World) (e : Ev) (reg : Nat) : (w.emit e).arena reg = w.arena reg := rfl

@[simp] theorem emit_arena0 (w : World) (e : Ev) : (w.emit e).arena0 = w.arena0 := rfl

@[simp] theorem emit_arena1 (w : World) (e : Ev) : (w.emit e).arena1 = w.arena1 := rfl

@[simp] theorem emit_qsort (w : World) (e : Ev) : (w.emit e).qsort = w.qsort := rfl

@[simp] theorem emit_trace (w : World) (e : Ev) : (w.emit e).trace = w.trace ++ [e] := rfl

@[simp] theorem setArena_inodes (w : World) (reg : Nat) (a : Arena) :
    (w.setArena reg a).inodes = w.inodes := by
  unfold World.setArena; split <;> rfl

@[simp] theorem setArena_inode (w : World) (reg : Nat) (a : Arena) (id : FileId) :
    (w.setArena reg a).inode id = w.inode id := by
  unfold World.inode; simp

@[simp] theorem setArena_qsort (w : World) (reg : Nat) (a : Arena) :
    (w.setArena reg a).qsort = w.qsort := by
  unfold World.setArena; split <;> rfl

@[simp] theorem setArena_trace (w : World) (reg : Nat) (a : Arena) :
    (w.setArena reg a).trace = w.trace := by
  unfold World.setArena; split <;> rfl

@[simp] theorem setArena_arena (w : World) (reg : Nat) (a : Arena) :
    (w.setArena reg a).arena reg = a := by
  unfold World.setArena World.arena; split <;> simp_all

@[simp] theorem setArena_setArena (w : World) (reg : Nat) (a b : Arena) :
    (w.setArena reg a).setArena reg b = w.setArena reg b := by
  unfold World.setArena; split <;> rfl

@[simp] theorem setArena0_arena0 (w : World) (a : Arena) : (w.setArena 0 a).arena0 = a := rfl

@[simp] theorem setArena0_arena1 (w : World) (a : Arena) : (w.setArena 0 a).arena1 = w.arena1 := rfl

@[simp] theorem setArena1_arena1 (w : World) (a : Arena) : (w.setArena 1 a).arena1 = a := rfl

@[simp] theorem setArena1_arena0 (w : World) (a : Arena) : (w.setArena 1 a).arena0 = w.arena0 := rfl

@[simp] theorem arena_zero (w : World) : w.arena 0 = w.arena0 := rfl

@[simp] theorem arena_one (w : World) : w.arena 1 = w.arena1 := rfl

/-! ## Staging of attribute names -/

theorem flistxattr_ok (fd : FileId) (reg : Nat) (w : World) (i : Inode)
    (hi : w.inode fd = some i) (hl : i.listOk) :
    flistxattr fd reg w = .ok ((xattrList i).length : Int)
      ((w.emit (.flistxattr fd reg)).setArena reg
        { w.arena reg with name_buf := writeBuf (w.arena reg).name_buf (xattrList i) }) := by
  unfold flistxattr
  simp [hi, hl.1, hl.2]

theorem flistxattr_fail (fd : FileId) (reg : Nat) (w : World)
    (h : ∀ i, w.inode fd = some i → ¬ i.listOk) :
    flistxattr fd reg w = .ok (-1) (w.emit (.flistxattr fd reg)) := by
  unfold flistxattr
  cases hi : w.inode fd with
  | none => simp
  | some i =>
    have := h i hi
    simp only [Inode.listOk, not_and_or] at this
    rcases this with h1 | h2
    · simp [h1]
    · simp [h2]

theorem load_xattr_names_ok (g : Globals) (pfx : Option String) (fd : FileId) (reg : Nat)
    (w : World) (i : Inode) (hi : w.inode fd = some i) (hl : i.listOk) :
    load_xattr_names g pfx fd reg w = .ok ()
      ((w.emit (.flistxattr fd reg)).setArena reg
        { w.arena reg with
          name_buf := writeBuf (w.arena reg).name_buf (xattrList i),
          names_size := (xattrList i).length,
          n_names := (stagedKeys (xattrList i)).length,
          pname_buf := w.qsort (stagedKeys (xattrList i)) }) := by
  have hlen : (xattrList i).length < 2 ^ 64 := by
    have := hl.2; unfold xattr_max at this; omega
  have hs := (load_xattr_names_loop_staged (xattrList i)
    ((w.arena reg).name_buf.drop (xattrList i).length) (endsNul_xattrList i) hlen).1
  have hn : ¬ ((xattrList i).length : Int) < 0 := by omega
  unfold load_xattr_names
  simp [flistxattr_ok fd reg w i hi hl, writeBuf, hs, hn]

theorem load_xattr_names_fail (g : Globals) (pfx : Option String) (fd : FileId) (reg : Nat)
    (w : World) (h : ∀ i, w.inode fd = some i → ¬ i.listOk) :
    load_xattr_names g pfx fd reg w =
      match errhandle g pfx "listxattr" "" FAIL_XATTR
          ((w.emit (.flistxattr fd reg)).setArena reg { w.arena reg with n_names := 0 }) with
      | .ok _ w1 => .ok () (w1.setArena reg
          { w1.arena reg with name_buf := writeBuf (w1.arena reg).name_buf [0], names_size := 0 })
      | .stop r w1 => .stop r w1 := by
  unfold load_xattr_names
  simp [flistxattr_fail fd reg w h]
  cases errhandle g pfx "listxattr" "" FAIL_XATTR
    ((w.emit (.flistxattr fd reg)).setArena reg { w.arena reg with n_names := 0 }) <;> rfl

theorem cmp_xattr_names_run (w : World) :
    cmp_xattr_names w = .ok
      (if w.arena0.names_size != w.arena1.names_size then 1
       else memcmp w.arena0.name_buf w.arena1.name_buf w.arena0.names_size) w := by
  unfold cmp_xattr_names
  simp
  split <;> rfl

theorem cmp_xattr_names_staged (g : Globals) (pfx0 pfx1 : Option String) (fd0 fd1 : FileId)
    (w : World) (i0 i1 : Inode) (h0 : w.inode fd0 = some i0) (h1 : w.inode fd1 = some i1)
    (l0 : i0.listOk) (l1 : i1.listOk) :
    ∃ w2 r, (do load_xattr_names g pfx0 fd0 0
                load_xattr_names g pfx1 fd1 1
                cmp_xattr_names) w = .ok r w2 ∧
      (r = 0 ↔ xattrList i0 = xattrList i1) ∧
      w2.arena0.name_buf.take w2.arena0.names_size = xattrList i0 ∧
      w2.arena1.name_buf.take w2.arena1.names_size = xattrList i1 ∧
      w2.inodes = w.inodes := by
  simp only [run_bind, load_xattr_names_ok g pfx0 fd0 0 w i0 h0 l0]
  rw [load_xattr_names_ok g pfx1 fd1 1 _ i1 (by simpa using h1) l1]
  simp only [cmp_xattr_names_run]
  refine ⟨_, _, rfl, ?_, ?_, ?_, ?_⟩
  · simp only [setArena1_arena0, setArena1_arena1, emit_arena0, setArena0_arena0, writeBuf]
    by_cases hlen : (xattrList i0).length = (xattrList i1).length
    · simp only [hlen, bne_self_eq_false, Bool.false_eq_true, if_false]
      rw [← hlen]
      exact memcmp_initial _ _ _ _ hlen
    · have : ((xattrList i0).length != (xattrList i1).length) = true := by simpa using hlen
      simp only [this, if_true]
      constructor
      · intro h; simp at h
      · intro h; rw [h] at hlen; exact (hlen rfl).elim
  · simp [writeBuf]
  · simp [writeBuf]
  · simp

/-- C10: `cmp_xattr_names` returns 0 exactly when the two recorded byte counts are
equal and the two name buffers agree byte for byte over that length.  After both
sides were staged from listable files the buffers hold the kernel's lists as
returned, whatever order `qsort` gives the pointer vector, so the result is 0
exactly when the two raw NUL-separated lists are equal.  A side whose listing
failed is staged with size 0 and count 0 whenever `load_xattr_names` returns, and
it returns when the failure is not fatal. -/
theorem cmp_xattr_names_spec (g : Globals) (w : World) :
    (∃ r, cmp_xattr_names w = .ok r w ∧
      (r = 0 ↔ w.arena0.names_size = w.arena1.names_size ∧
        ∀ k, k < w.arena0.names_size →
          w.arena0.name_buf.getD k 0 = w.arena1.name_buf.getD k 0)) ∧
    (∀ pfx0 pfx1 fd0 fd1 i0 i1, w.inode fd0 = some i0 → w.inode fd1 = some i1 →
      i0.listOk → i1.listOk →
      ∃ w2 r, (do load_xattr_names g pfx0 fd0 0
                  load_xattr_names g pfx1 fd1 1
                  cmp_xattr_names) w = .ok r w2 ∧
        (r = 0 ↔ xattrList i0 = xattrList i1) ∧
        w2.arena0.name_buf.take w2.arena0.names_size = xattrList i0 ∧
        w2.arena1.name_buf.take w2.arena1.names_size = xattrList i1) ∧
    (∀ pfx fd reg w2, (∀ i, w.inode fd = some i → ¬ i.listOk) →
      load_xattr_names g pfx fd reg w = .ok () w2 →
      (w2.arena reg).names_size = 0 ∧ (w2.arena reg).n_names = 0) ∧
    (∀ pfx fd reg, (∀ i, w.inode fd = some i → ¬ i.listOk) →
      (pfx = none ∨ FAIL_XATTR &&& g.opt_fail = 0) →
      ∃ w2, load_xattr_names g pfx fd reg w = .ok () w2) := by
  refine ⟨?_, ?_, ?_, ?_⟩
  · refine ⟨_, cmp_xattr_names_run w, ?_⟩
    by_cases hs : w.arena0.names_size = w.arena1.names_size
    · simp only [hs, bne_self_eq_false, Bool.false_eq_true, if_false, true_and]
      rw [← hs]
      exact memcmp_eq_zero_iff _ _ _
    · have : (w.arena0.names_size != w.arena1.names_size) = true := by simpa using hs
      simp [this, hs]
  · intro pfx0 pfx1 fd0 fd1 i0 i1 h0 h1 l0 l1
    obtain ⟨w2, r, e, a, b, c, _⟩ := cmp_xattr_names_staged g pfx0 pfx1 fd0 fd1 w i0 i1 h0 h1 l0 l1
    exact ⟨w2, r, e, a, b, c⟩
  · intro pfx fd reg w2 hf hr
    rw [load_xattr_names_fail g pfx fd reg w hf] at hr
    cases pfx with
    | none =>
      simp only [errhandle_none] at hr
      cases hr
      simp
    | some p =>
      simp only [errhandle_some] at hr
      by_cases hb : FAIL_XATTR &&& g.opt_fail ≠ 0
      · simp [hb] at hr
      · simp only [hb, if_false] at hr
        cases hr
        simp
  · intro pfx fd reg hf hp
    rw [load_xattr_names_fail g pfx fd reg w hf]
    rcases hp with rfl | hb
    · simp [errhandle_none]
    · cases pfx with
      | none => simp [errhandle_none]
      | some p => simp [errhandle_some, hb]

/-! ## The inode table -/

theorem setInode_inode (w : World) (id id2 : FileId) (i : Inode) :
    (w.setInode id i).inode id2 = if id2 = id then some i else w.inode id2 := by
  unfold World.setInode World.inode
  simp only [List.lookup_cons]
  by_cases h : id2 = id
  · simp [h]
  · have : (id2 == id) = false := by simpa using h
    simp [this, h]

@[simp] theorem setInode_inode_same (w : World) (id : FileId) (i : Inode) :
    (w.setInode id i).inode id = some i := by
  simp [setInode_inode]

@[simp] theorem setInode_wr (w : World) (id : FileId) (i : Inode) :
    (w.setInode id i).wr = w.wr := rfl

@[simp] theorem setInode_n_wr (w : World) (id : FileId) (i : Inode) :
    (w.setInode id i).n_wr = w.n_wr := rfl

@[simp] theorem setInode_trace (w : World) (id : FileId) (i : Inode) :
    (w.setInode id i).trace = w.trace := rfl

@[simp] theorem emit_wr (w : World) (e : Ev) : (w.emit e).wr = w.wr := rfl

@[simp] theorem emit_n_wr (w : World) (e : Ev) : (w.emit e).n_wr = w.n_wr := rfl

/-! ## The write loop -/

theorem write_progress (fd : FileId) (p : Bytes) (left : Nat) (w : World) (i : Inode)
    (hi : w.inode fd = some i) (hw : 1 ≤ w.wr w.n_wr) (hl : 0 < left) :
    ∃ n : Nat, 1 ≤ n ∧ n ≤ left ∧
      write fd p left w = .ok (n : Int)
        ((({ w with n_wr := w.n_wr + 1 } : World).emit (.write fd left n)).setInode fd
          { i with data := i.data ++ p.take n }) := by
  have hmin : 1 ≤ min (w.wr w.n_wr) (left : Int) := by
    apply le_min hw; omega
  refine ⟨(min (w.wr w.n_wr) (left : Int)).toNat, by omega, by omega, ?_⟩
  have hcast : (((min (w.wr w.n_wr) (left : Int)).toNat : Nat) : Int) = min (w.wr w.n_wr) (left : Int) :=
    Int.toNat_of_nonneg (by omega)
  have h1 : ¬ w.wr w.n_wr ≤ 0 := by omega
  have h2 : ¬ min (w.wr w.n_wr) (left : Int) ≤ 0 := by omega
  unfold write
  simp only [hi, h1, h2, if_false, hcast]

theorem copy_file_loop_ok (g : Globals) (fd : FileId) (name : String) :
    ∀ (fuel left : Nat) (p : Bytes) (w : World) (i : Inode), left < fuel → p.length = left →
      w.inode fd = some i → (∀ k, 1 ≤ w.wr k) →
      ∃ w1, copy_file_loop g fd name fuel left p w = .ok () w1 ∧
        w1.inode fd = some { i with data := i.data ++ p } ∧
        (∀ id, id ≠ fd → w1.inode id = w.inode id) ∧
        w1.wr = w.wr ∧
        (∀ e ∈ w1.trace, e ∈ w.trace ∨ ∃ c r, e = .write fd c r) := by
  intro fuel
  induction fuel with
  | zero => intro left p w i h; omega
  | succ fuel ih =>
    intro left p w i hf hp hi hw
    by_cases hl : left = 0
    · subst hl
      have : p = [] := List.length_eq_zero.mp hp
      subst this
      refine ⟨w, by simp [copy_file_loop], by simpa using hi, fun _ _ => rfl, rfl,
        fun e he => Or.inl he⟩
    · obtain ⟨n, hn1, hn2, hwr⟩ := write_progress fd p left w i hi (hw _) (Nat.pos_of_ne_zero hl)
      have hnn : ¬ ((n : Int) ≤ 0) := by omega
      obtain ⟨w1, e1, e2, e3, e4, e5⟩ := ih (left - n) (p.drop n)
        ((({ w with n_wr := w.n_wr + 1 } : World).emit (.write fd left n)).setInode fd
          { i with data := i.data ++ p.take n })
        { i with data := i.data ++ p.take n } (by omega) (by simp [hp]) (by simp)
        (by simpa using hw)
      refine ⟨w1, ?_, ?_, ?_, ?_, ?_⟩
      · simp only [copy_file_loop, bne_iff_ne, ne_eq, hl, not_false_eq_true, if_true, run_bind,
          hwr, hnn, if_false, Int.toNat_ofNat, e1]
      · rw [e2]; simp [List.append_assoc]
      · intro id hid
        rw [e3 id hid, setInode_inode]
        simp [hid]
        rfl
      · rw [e4]; rfl
      · intro e he
        rcases e5 e he with h | ⟨c, r, rfl⟩
        · simp at h
          rcases h with h | rfl
          · exact Or.inl h
          · exact Or.inr ⟨_, _, rfl⟩
        · exact Or.inr ⟨_, _, rfl⟩
theorem le_foldr_max (l : List Nat) (x : Nat) (h : x ∈ l) : x ≤ l.foldr max 0 := by
  induction l with
  | nil => simp at h
  | cons y ys ih =>
    simp only [List.foldr_cons]
    rcases List.mem_cons.mp h with rfl | h
    · exact le_max_left _ _
    · exact le_trans (ih h) (le_max_right _ _)

theorem lookup_mem {α β : Type} [BEq α] [LawfulBEq α] (l : List (α × β)) (k : α) (v : β)
    (h : List.lookup k l = some v) : (k, v) ∈ l := by
  induction l with
  | nil => simp at h
  | cons x xs ih =>
    obtain ⟨k2, v2⟩ := x
    simp only [List.lookup_cons] at h
    by_cases hk : (k == k2) = true
    · simp only [hk] at h
      have : k = k2 := by simpa using hk
      cases h
      subst this
      exact List.mem_cons_self _ _
    · have hk2 : (k == k2) = false := by simpa using hk
      simp only [hk2] at h
      exact List.mem_cons_of_mem _ (ih h)

/-- An inode present in the table has a number below the next fresh one. -/
theorem inode_lt_fresh (w : World) (id : FileId) (i : Inode) (h : w.inode id = some i) :
    id.2 < w.fresh := by
  have hm := lookup_mem w.inodes id i h
  have : id.2 ∈ w.inodes.map (fun e => e.1.2) := List.mem_map.mpr ⟨(id, i), hm, rfl⟩
  have := le_foldr_max _ _ this
  unfold World.fresh
  omega

theorem fresh_ne (w : World) (id : FileId) (i : Inode) (h : w.inode id = some i) (d : Nat) :
    id ≠ (d, w.fresh) := by
  intro e
  have := inode_lt_fresh w id i h
  rw [e] at this
  simp at this

theorem openat_creat_fresh (dir : DIR) (name : String) (mode : Nat) (w : World) (di : Inode)
    (hf : dir.lookup name = none) (hdi : w.inode dir.id = some di) (hm : di.can_modify = true) :
    openat_creat dir name mode w =
      .ok (some (dir.id.1, w.fresh), dir.add name (.leaf (dir.id.1, w.fresh)))
        ((w.emit (.creat dir.id name mode)).setInode (dir.id.1, w.fresh)
          { st_mode := S_IFREG ||| newMode w mode, st_uid := w.euid, st_gid := w.egid }) := by
  unfold openat_creat
  simp [hf, hdi, hm]

theorem wrap_creat_fresh (g : Globals) (pfx : Option String) (dir : DIR) (name : String)
    (mode : Nat) (w : World) (di : Inode)
    (hf : dir.lookup name = none) (hdi : w.inode dir.id = some di) (hm : di.can_modify = true) :
    wrap_creat g pfx dir name mode w =
      .ok (some (dir.id.1, w.fresh), dir.add name (.leaf (dir.id.1, w.fresh)))
        ((w.emit (.creat dir.id name mode)).setInode (dir.id.1, w.fresh)
          { st_mode := S_IFREG ||| newMode w mode, st_uid := w.euid, st_gid := w.egid }) := by
  unfold wrap_creat
  simp [openat_creat_fresh dir name mode w di hf hdi hm]

theorem openat_ok (dir : DIR) (name : String) (w : World) (n : Node) (i : Inode)
    (hn : dir.lookup name = some n) (hi : w.inode n.id = some i) (ho : i.can_open = true) :
    openat dir name w = .ok (some n.id) (w.emit (.openat dir.id name)) := by
  unfold openat
  simp [hn, hi, ho]

theorem wrap_open_ok (g : Globals) (pfx : Option String) (dir : DIR) (name : String)
    (fail : Nat) (w : World) (n : Node) (i : Inode)
    (hn : dir.lookup name = some n) (hi : w.inode n.id = some i) (ho : i.can_open = true) :
    wrap_open g pfx dir name fail w = .ok (some n.id) (w.emit (.openat dir.id name)) := by
  unfold wrap_open
  simp [openat_ok dir name w n i hn hi ho]

theorem wrap_mmap_ok (g : Globals) (pfx : Option String) (size : Nat) (fd : FileId)
    (name : String) (w : World) (i : Inode)
    (hi : w.inode fd = some i) (hm : i.can_mmap = true) (hs : size ≠ 0) :
    wrap_mmap g pfx size fd name w = .ok (some (i.data.take size)) (w.emit (.mmap fd size)) := by
  unfold wrap_mmap mmap
  simp [hi, hm, hs]

theorem copy_file_fresh (g : Globals) (src_dir dst_dir : DIR) (name : String)
    (size mode : Nat) (w : World) (di is : Inode) (n : Node)
    (hf : dst_dir.lookup name = none) (hdi : w.inode dst_dir.id = some di)
    (hm : di.can_modify = true)
    (hn : src_dir.lookup name = some n) (his : w.inode n.id = some is)
    (ho : size ≠ 0 → is.can_open = true ∧ is.can_mmap = true) (hsz : is.data.length = size)
    (hw : ∀ k, 1 ≤ w.wr k) :
    ∃ w1, copy_file g src_dir dst_dir name size mode w =
        .ok (dst_dir.add name (.leaf (dst_dir.id.1, w.fresh))) w1 ∧
      w1.inode (dst_dir.id.1, w.fresh) =
        some { st_mode := S_IFREG ||| newMode w mode, st_uid := w.euid, st_gid := w.egid,
               data := is.data } ∧
      (∀ id, id ≠ (dst_dir.id.1, w.fresh) → w1.inode id = w.inode id) ∧
      (size = 0 → w1.trace = w.trace ++
        [.creat dst_dir.id name mode, .close (some (dst_dir.id.1, w.fresh))]) := by
  have hne : n.id ≠ (dst_dir.id.1, w.fresh) := fresh_ne w n.id is his _
  unfold copy_file
  simp only [run_bind, wrap_creat_fresh g g.dst_path dst_dir name mode w di hf hdi hm]
  by_cases h0 : size = 0
  · subst h0
    have hd : is.data = [] := List.length_eq_zero.mp hsz
    refine ⟨_, rfl, ?_, ?_, ?_⟩
    · simp [close, hd]
    · intro id hid
      simp [close, setInode_inode, hid]
    · intro _
      simp [close]
  · have hs1 : ((w.emit (.creat dst_dir.id name mode)).setInode (dst_dir.id.1, w.fresh)
        { st_mode := S_IFREG ||| newMode w mode, st_uid := w.euid, st_gid := w.egid }).inode n.id
        = some is := by
      rw [setInode_inode]; simp [hne, his]
    have hmap := (ho h0).2
    have hop := wrap_open_ok g g.src_path src_dir name FAIL_COPY _ n is hn hs1 (ho h0).1
    have hmm := wrap_mmap_ok g g.src_path size n.id name
      (((w.emit (.creat dst_dir.id name mode)).setInode (dst_dir.id.1, w.fresh)
        { st_mode := S_IFREG ||| newMode w mode, st_uid := w.euid, st_gid := w.egid }).emit
        (.openat src_dir.id name)) is (by simpa using hs1) hmap h0
    obtain ⟨w1, e1, e2, e3, e4, e5⟩ := copy_file_loop_ok g (dst_dir.id.1, w.fresh) name (size + 1) size
      (is.data.take size)
      ((((w.emit (.creat dst_dir.id name mode)).setInode (dst_dir.id.1, w.fresh)
        { st_mode := S_IFREG ||| newMode w mode, st_uid := w.euid, st_gid := w.egid }).emit
        (.openat src_dir.id name)).emit (.mmap n.id size))
      { st_mode := S_IFREG ||| newMode w mode, st_uid := w.euid, st_gid := w.egid }
      (by omega) (by simp [hsz]) (by simp) (by simpa using hw)
    refine ⟨((w1.emit (.munmap size)).emit (.close (some n.id))).emit
      (.close (some (dst_dir.id.1, w.fresh))), ?_, ?_, ?_, ?_⟩
    · simp only [bne_iff_ne, ne_eq, h0, not_false_eq_true, if_true, run_bind, hop, hmm, e1,
        munmap, close, run_emit, run_pure]
    · simp only [emit_inode, e2]
      simp [← hsz]
    · intro id hid
      simp only [emit_inode, e3 id hid]
      simp [setInode_inode, hid]
    · intro h; exact (h0 h).elim

/-- C8: `copy_file` into a directory that has no entry of that name yet.  For
`size > 0` and any sequence of write results in which every call writes at least
one byte (and, as the kernel guarantees, at most what is left), the write loop
terminates within `size` calls and the destination has received exactly the
`size` bytes of the mapping, in order, each once.  The whole call then leaves a
new file holding the source bytes.  For `size = 0` the destination is created
with the given mode and closed empty; the only system calls are the `creat` and
the `close`, so the source is neither opened nor mapped. -/
theorem copy_file_spec (g : Globals) (src_dir dst_dir : DIR) (name : String)
    (size mode : Nat) (w : World) (di is : Inode) (n : Node)
    (hf : dst_dir.lookup name = none) (hdi : w.inode dst_dir.id = some di)
    (hm : di.can_modify = true)
    (hn : src_dir.lookup name = some n) (his : w.inode n.id = some is)
    (ho : size ≠ 0 → is.can_open = true ∧ is.can_mmap = true) (hsz : is.data.length = size)
    (hw : ∀ k, 1 ≤ w.wr k) :
    (∀ (fd : FileId) (p : Bytes) (i : Inode) (w0 : World), p.length = size →
      w0.inode fd = some i → (∀ k, 1 ≤ w0.wr k) →
      ∃ w1, copy_file_loop g fd name (size + 1) size p w0 = .ok () w1 ∧
        w1.inode fd = some { i with data := i.data ++ p } ∧
        (∀ e ∈ w1.trace, e ∈ w0.trace ∨ ∃ c r, e = .write fd c r)) ∧
    (∃ w1, copy_file g src_dir dst_dir name size mode w =
        .ok (dst_dir.add name (.leaf (dst_dir.id.1, w.fresh))) w1 ∧
      w1.inode (dst_dir.id.1, w.fresh) =
        some { st_mode := S_IFREG ||| newMode w mode, st_uid := w.euid, st_gid := w.egid,
               data := is.data } ∧
      (size = 0 → w1.trace = w.trace ++
        [.creat dst_dir.id name mode, .close (some (dst_dir.id.1, w.fresh))])) := by
  constructor
  · intro fd p i w0 hp hi hw0
    obtain ⟨w1, e1, e2, _, _, e5⟩ :=
      copy_file_loop_ok g fd name (size + 1) size p w0 i (by omega) hp hi hw0
    exact ⟨w1, e1, e2, e5⟩
  · obtain ⟨w1, e1, e2, _, e4⟩ :=
      copy_file_fresh g src_dir dst_dir name size mode w di is n hf hdi hm hn his ho hsz hw
    exact ⟨w1, e1, e2, e4⟩

/-- C8 at a concrete input: a two-byte file copied with one-byte writes. -/
theorem copy_file_spec_witness :
    ∃ w1, copy_file sampleGlobals sampleSrc sampleDst "a" 2 0o100644 sampleWorld =
        .ok (sampleDst.add "a" (.leaf (1, 31))) w1 ∧
      w1.inode (1, 31) =
        some { st_mode := S_IFREG ||| 0o644, st_uid := 0, st_gid := 0, data := [104, 105] } :=
  have h := (copy_file_spec sampleGlobals sampleSrc sampleDst "a" 2 0o100644 sampleWorld
    sampleDirInode sampleFile (.leaf (1, 11)) rfl rfl rfl rfl rfl (fun _ => ⟨rfl, rfl⟩) rfl
    (fun _ => le_refl _)).2
  ⟨h.choose, h.choose_spec.1, h.choose_spec.2.1⟩

/-! ## Fetching and comparing attribute values -/

@[simp] theorem report_inodes (w : World) (pfx : Option String) (fn path : String) :
    (w.report pfx fn path).inodes = w.inodes := by
  cases pfx <;> rfl

@[simp] theorem report_inode (w : World) (pfx : Option String) (fn path : String) (id : FileId) :
    (w.report pfx fn path).inode id = w.inode id := by
  cases pfx <;> rfl

@[simp] theorem report_arena0 (w : World) (pfx : Option String) (fn path : String) :
    (w.report pfx fn path).arena0 = w.arena0 := by
  cases pfx <;> rfl

@[simp] theorem report_arena1 (w : World) (pfx : Option String) (fn path : String) :
    (w.report pfx fn path).arena1 = w.arena1 := by
  cases pfx <;> rfl

@[simp] theorem report_arena (w : World) (pfx : Option String) (fn path : String) (reg : Nat) :
    (w.report pfx fn path).arena reg = w.arena reg := by
  cases pfx <;> rfl

@[simp] theorem report_qsort (w : World) (pfx : Option String) (fn path : String) :
    (w.report pfx fn path).qsort = w.qsort := by
  cases pfx <;> rfl

theorem errhandle_eq (g : Globals) (pfx : Option String) (fn path : String) (fail : Nat)
    (w : World) :
    errhandle g pfx fn path fail w =
      if fatal g pfx fail = true then .stop (.exit 1) (w.report pfx fn path)
      else .ok () (w.report pfx fn path) := by
  cases pfx with
  | none => simp [errhandle_none, fatal, World.report]
  | some p =>
    rw [errhandle_some]
    by_cases h : fail &&& g.opt_fail = 0 <;> simp [fatal, h, World.report]

theorem fgetxattr_run (fd : FileId) (key : Bytes) (reg : Nat) (w : World) (i : Inode)
    (hi : w.inode fd = some i) :
    fgetxattr fd key reg w =
      match fetch i key with
      | some v => .ok (v.length : Int) ((w.emit (.fgetxattr fd key)).setArena reg
          { w.arena reg with value_buf := writeBuf (w.arena reg).value_buf v })
      | none => .ok (-1) (w.emit (.fgetxattr fd key)) := by
  unfold fgetxattr fetch
  simp only [hi]
  cases h : List.lookup key i.xattrs with
  | none => rfl
  | some o =>
    cases o with
    | none => rfl
    | some v =>
      by_cases hv : v.length ≤ xattr_max <;> simp [hv]

theorem cmp_xattr_values_loop_run (g : Globals) (pfx : Option String) (src_fd ref_fd : FileId)
    (is ir : Inode) :
    ∀ (keys : List Nat) (w : World), w.inode src_fd = some is → w.inode ref_fd = some ir →
      (cmp_xattr_values_loop g pfx src_fd ref_fd keys w).outcome =
        cmpValuesSpec (fatal g pfx FAIL_XATTR) is ir (keys.map (cstr w.arena0.name_buf)) := by
  intro keys
  induction keys with
  | nil => intro w _ _; rfl
  | cons key rest ih =>
    intro w hs hr
    simp only [cmp_xattr_values_loop, run_bind, run_getWorld, List.map_cons, cmpValuesSpec]
    rw [fgetxattr_run src_fd _ 0 w is hs]
    cases hfs : fetch is (cstr w.arena0.name_buf key) with
    | none =>
      simp only [Int.reduceNeg, Int.reduceLT, if_true, run_bind, errhandle_eq]
      by_cases hf : fatal g pfx FAIL_XATTR = true
      · simp only [hf, if_true]; rfl
      · rw [if_neg hf, if_neg hf]
        rw [ih _ (by simpa using hs) (by simpa using hr)]
        simp
    | some vs =>
      have hn0 : ¬ ((vs.length : Int) < 0) := by omega
      simp only [hn0, if_false, run_bind]
      rw [fgetxattr_run ref_fd _ 1 _ ir (by simpa using hr)]
      cases hfr : fetch ir (cstr w.arena0.name_buf key) with
      | none =>
        simp only [Int.reduceNeg, Int.reduceLT, if_true, run_bind, errhandle_eq]
        by_cases hf : fatal g pfx FAIL_XATTR = true
        · simp only [hf, if_true]; rfl
        · rw [if_neg hf, if_neg hf]
          rw [ih _ (by simpa using hs) (by simpa using hr)]
          simp
      | some vr =>
        have hn1 : ¬ ((vr.length : Int) < 0) := by omega
        simp only [hn1, if_false, run_bind]
        by_cases hlen : vs.length = vr.length
        · have hne : ((vs.length : Int) != (vr.length : Int)) = false := by simp [hlen]
          simp only [hne, Bool.false_eq_true, if_false, run_bind, run_getWorld,
            Int.toNat_ofNat]
          simp only [setArena1_arena0, setArena1_arena1, emit_arena0, setArena0_arena0,
            emit_arena1, setArena0_arena1, emit_arena, arena_zero, arena_one, writeBuf]
          by_cases hv : vs = vr
          · subst hv
            have h0 := (memcmp_initial vs vs (w.arena0.value_buf.drop vs.length)
              (w.arena1.value_buf.drop vs.length) rfl).mpr rfl
            simp only [h0, bne_self_eq_false, Bool.false_eq_true, if_false, if_true]
            rw [ih _ (by simpa using hs) (by simpa using hr)]
            simp
          · have h0 : memcmp (vs ++ w.arena0.value_buf.drop vs.length)
                (vr ++ w.arena1.value_buf.drop vr.length) vs.length ≠ 0 :=
              fun h => hv ((memcmp_initial vs vr (w.arena0.value_buf.drop vs.length)
                (w.arena1.value_buf.drop vr.length) hlen).mp h)
            simp [h0, hv, Res.outcome]
        · have hne : ((vs.length : Int) != (vr.length : Int)) = true := by
            simp; omega
          have hv : vs ≠ vr := fun h => hlen (by rw [h])
          simp [hne, hv, Res.outcome]
/-! ## Effects of runs -/

theorem same_refl (w : World) : Same w w := ⟨rfl, rfl, rfl, rfl, rfl, rfl, rfl⟩

theorem same_trans (w w1 w2 : World) (h1 : Same w w1) (h2 : Same w1 w2) : Same w w2 :=
  ⟨h2.1.trans h1.1, h2.2.1.trans h1.2.1, h2.2.2.1.trans h1.2.2.1,
    h2.2.2.2.1.trans h1.2.2.2.1, h2.2.2.2.2.1.trans h1.2.2.2.2.1,
    h2.2.2.2.2.2.1.trans h1.2.2.2.2.2.1, h2.2.2.2.2.2.2.trans h1.2.2.2.2.2.2⟩

theorem same_emit (w : World) (e : Ev) : Same w (w.emit e) := ⟨rfl, rfl, rfl, rfl, rfl, rfl, rfl⟩

theorem eff_refl (keep : Bool) (good : Ev → Bool) (w : World) : Eff keep good w w :=
  ⟨fun _ => same_refl w, [], by simp, fun _ he => by simp at he⟩

theorem eff_trans (keep : Bool) (good : Ev → Bool) (w w1 w2 : World)
    (h1 : Eff keep good w w1) (h2 : Eff keep good w1 w2) : Eff keep good w w2 := by
  refine ⟨fun hk => same_trans _ _ _ (h1.1 hk) (h2.1 hk), ?_⟩
  obtain ⟨l1, e1, g1⟩ := h1.2
  obtain ⟨l2, e2, g2⟩ := h2.2
  refine ⟨l1 ++ l2, by rw [e2, e1, List.append_assoc], fun e he => ?_⟩
  rcases List.mem_append.mp he with h | h
  · exact g1 e h
  · exact g2 e h

/-- Every event of the trace after a run was there before or passes `good`. -/
theorem eff_events (keep : Bool) (good : Ev → Bool) (w w1 : World) (h : Eff keep good w w1) :
    ∀ e ∈ w1.trace, e ∈ w.trace ∨ good e = true := by
  obtain ⟨l, e1, g1⟩ := h.2
  intro e he
  rw [e1] at he
  rcases List.mem_append.mp he with h2 | h2
  · exact Or.inl h2
  · exact Or.inr (g1 e h2)

/-- Every event of the trace before a run is still there after it. -/
theorem eff_grows (keep : Bool) (good : Ev → Bool) (w w1 : World) (h : Eff keep good w w1) :
    ∀ e ∈ w.trace, e ∈ w1.trace := by
  obtain ⟨l, e1, _⟩ := h.2
  intro e he
  rw [e1]
  exact List.mem_append_left _ he

theorem steps_pure {α : Type} (keep : Bool) (good : Ev → Bool) (a : α) :
    Steps (Eff keep good) (pure a : M α) := ⟨fun w => eff_refl keep good w⟩

theorem steps_bind {α β : Type} (keep : Bool) (good : Ev → Bool) (m : M α) (f : α → M β)
    (hm : Steps (Eff keep good) m) (hf : ∀ a, Steps (Eff keep good) (f a)) :
    Steps (Eff keep good) (m >>= f) := by
  constructor
  intro w
  have h1 := hm.run w
  simp only [run_bind]
  cases h : m w with
  | ok a w1 =>
    rw [h] at h1
    exact eff_trans keep good _ _ _ h1 ((hf a).run w1)
  | stop r w1 =>
    rw [h] at h1
    exact h1

theorem steps_stop {α : Type} (keep : Bool) (good : Ev → Bool) (r : Stop) :
    Steps (Eff keep good) (fun w => (Res.stop r w : Res α)) := ⟨fun w => eff_refl keep good w⟩

theorem steps_exit {α : Type} (keep : Bool) (good : Ev → Bool) (c : Nat) :
    Steps (Eff keep good) (exit c : M α) := ⟨fun w => eff_refl keep good w⟩

theorem steps_getWorld (keep : Bool) (good : Ev → Bool) :
    Steps (Eff keep good) getWorld := ⟨fun w => eff_refl keep good w⟩

theorem eff_emit (keep : Bool) (good : Ev → Bool) (w : World) (e : Ev) (h : good e = true) :
    Eff keep good w (w.emit e) := by
  refine ⟨fun _ => same_emit w e, [e], rfl, fun e1 he => ?_⟩
  simp only [List.mem_singleton] at he
  rw [he]
  exact h

theorem eff_setArena (keep : Bool) (good : Ev → Bool) (w : World) (reg : Nat) (a : Arena) :
    Eff keep good w (w.setArena reg a) := by
  refine ⟨fun _ => ?_, [], ?_, fun _ he => by simp at he⟩
  · unfold World.setArena; split <;> exact ⟨rfl, rfl, rfl, rfl, rfl, rfl, rfl⟩
  · rw [setArena_trace, List.append_nil]

theorem eff_setInode (good : Ev → Bool) (w : World) (id : FileId) (i : Inode) :
    Eff false good w (w.setInode id i) :=
  ⟨fun h => by simp at h, [], by simp, fun _ he => by simp at he⟩

theorem steps_emit (keep : Bool) (good : Ev → Bool) (e : Ev) (h : good e = true) :
    Steps (Eff keep good) (emit e) := ⟨fun w => eff_emit keep good w e h⟩

theorem steps_modifyArena (keep : Bool) (good : Ev → Bool) (reg : Nat) (f : World → Arena) :
    Steps (Eff keep good) (modifyWorld (fun w => w.setArena reg (f w))) :=
  ⟨fun w => eff_setArena keep good w reg (f w)⟩

theorem steps_errhandle (keep : Bool) (good : Ev → Bool) (g : Globals) (pfx : Option String)
    (fn path : String) (fail : Nat) (h : ∀ p, good (.report p fn path) = true) :
    Steps (Eff keep good) (errhandle g pfx fn path fail) := by
  constructor
  intro w
  rw [errhandle_eq]
  have : Eff keep good w (w.report pfx fn path) := by
    cases pfx with
    | none => exact eff_refl keep good w
    | some p => exact eff_emit keep good w _ (h p)
  split <;> exact this

theorem steps_fstatat (keep : Bool) (good : Ev → Bool) (dir : DIR) (name : String)
    (h : good (.fstatat dir.id name) = true) : Steps (Eff keep good) (fstatat dir name) := by
  constructor
  intro w
  unfold fstatat
  have := eff_emit keep good w _ h
  dsimp only
  repeat' split
  all_goals exact this

theorem steps_openat (keep : Bool) (good : Ev → Bool) (dir : DIR) (name : String)
    (h : good (.openat dir.id name) = true) : Steps (Eff keep good) (openat dir name) := by
  constructor
  intro w
  unfold openat
  have := eff_emit keep good w _ h
  dsimp only
  repeat' split
  all_goals exact this

theorem steps_close (keep : Bool) (good : Ev → Bool) (fd : Option FileId)
    (h : good (.close fd) = true) : Steps (Eff keep good) (close fd) :=
  steps_emit keep good _ h

theorem steps_munmap (keep : Bool) (good : Ev → Bool) (size : Nat)
    (h : good (.munmap size) = true) : Steps (Eff keep good) (munmap size) :=
  steps_emit keep good _ h

theorem steps_mmap (keep : Bool) (good : Ev → Bool) (size : Nat) (fd : FileId)
    (h : good (.mmap fd size) = true) : Steps (Eff keep good) (mmap size fd) := by
  constructor
  intro w
  unfold mmap
  have := eff_emit keep good w _ h
  dsimp only
  repeat' split
  all_goals exact this

theorem steps_flistxattr (keep : Bool) (good : Ev → Bool) (fd : FileId) (reg : Nat)
    (h : good (.flistxattr fd reg) = true) : Steps (Eff keep good) (flistxattr fd reg) := by
  constructor
  intro w
  unfold flistxattr
  have := eff_emit keep good w _ h
  dsimp only
  repeat' split
  all_goals first
    | exact this
    | exact eff_trans keep good _ _ _ this (eff_setArena keep good _ _ _)

theorem steps_fgetxattr (keep : Bool) (good : Ev → Bool) (fd : FileId) (key : Bytes) (reg : Nat)
    (h : good (.fgetxattr fd key) = true) : Steps (Eff keep good) (fgetxattr fd key reg) := by
  constructor
  intro w
  unfold fgetxattr
  have := eff_emit keep good w _ h
  dsimp only
  repeat' split
  all_goals first
    | exact this
    | exact eff_trans keep good _ _ _ this (eff_setArena keep good _ _ _)

/-! ## The path trail inside a run -/

theorem snprintf_slash_result (buf : Bytes) (off size : Nat) (name : Bytes) :
    (snprintf_slash buf off size name).2 = (cstr name 0).length + 1 := by
  unfold snprintf_slash
  dsimp only
  split <;> rfl

theorem compath_push_cursor (t : Trail) (name : Bytes) :
    (compath_push t name).map (fun r => (r.1, r.2.compath_i)) =
      if t.compath_i < 0 ∨ (PATH_MAX : Int) < t.compath_i then none
      else if (INT_MAX : Int) < t.compath_i + (((cstr name 0).length + 1 : Nat) : Int) then none
      else if (PATH_MAX : Int) ≤ t.compath_i + (((cstr name 0).length + 1 : Nat) : Int) then none
      else some (t.compath_i, t.compath_i + (((cstr name 0).length + 1 : Nat) : Int)) := by
  unfold compath_push
  simp only [snprintf_slash_result]
  split
  · rfl
  · split
    · rfl
    · split <;> rfl

theorem pushCursor_eq (t : Trail) (name : String) :
    (compath_push t (nameBytes name)).map (fun r => (r.1, r.2.compath_i)) =
      (pushCursor t.compath_i name).map (fun c => (t.compath_i, c)) := by
  unfold pushCursor
  have h1 := compath_push_cursor t (nameBytes name)
  have h2 := compath_push_cursor { compath := [], compath_i := t.compath_i } (nameBytes name)
  rw [h1]
  cases hp : compath_push { compath := [], compath_i := t.compath_i } (nameBytes name) with
  | none =>
    rw [hp] at h2
    simp only [Option.map_none'] at h2 ⊢
    exact h2.symm
  | some r =>
    rw [hp] at h2
    simp only [Option.map_some'] at h2 ⊢
    rw [← h2]
    have h3 : r.1 = t.compath_i := by
      unfold compath_push at hp
      dsimp only at hp
      split at hp
      · cases hp
      · split at hp
        · cases hp
        · split at hp
          · cases hp
          · cases hp; rfl
    rw [h3]

theorem pushCursor_bounds (ci c2 : Int) (name : String) (h : pushCursor ci name = some c2) :
    0 ≤ ci ∧ ci < (PATH_MAX : Int) := by
  unfold pushCursor at h
  have h2 := compath_push_cursor { compath := [], compath_i := ci } (nameBytes name)
  cases hp : compath_push { compath := [], compath_i := ci } (nameBytes name) with
  | none => rw [hp] at h; cases h
  | some r =>
    rw [hp] at h2
    simp only [Option.map_some'] at h2
    split at h2
    · cases h2
    · split at h2
      · cases h2
      · split at h2
        · cases h2
        · constructor <;> omega

theorem compath_push_m_ok (name : String) (w : World) (f : Int) (w2 : World)
    (h : compath_push_m name w = .ok f w2) :
    f = w.compath_i ∧ pushCursor w.compath_i name = some w2.compath_i ∧ TrailStep w w2 := by
  unfold compath_push_m at h
  have h1 := pushCursor_eq { compath := w.compath, compath_i := w.compath_i } name
  cases hp : compath_push { compath := w.compath, compath_i := w.compath_i } (nameBytes name) with
  | none => rw [hp] at h; cases h
  | some r =>
    rw [hp] at h h1
    simp only [Res.ok.injEq] at h
    obtain ⟨e1, e2⟩ := h
    subst e1 e2
    cases hc : pushCursor w.compath_i name with
    | none => rw [hc] at h1; cases h1
    | some c =>
      rw [hc] at h1
      simp only [Option.map_some', Option.some.injEq, Prod.mk.injEq] at h1
      exact ⟨h1.1, by rw [← h1.2], rfl, rfl, rfl, rfl, rfl, rfl, rfl⟩

theorem compath_push_m_some (name : String) (w : World) (c2 : Int)
    (h : pushCursor w.compath_i name = some c2) :
    ∃ w2, compath_push_m name w = .ok w.compath_i w2 ∧ w2.compath_i = c2 ∧ TrailStep w w2 := by
  have h1 := pushCursor_eq { compath := w.compath, compath_i := w.compath_i } name
  rw [h] at h1
  cases hp : compath_push { compath := w.compath, compath_i := w.compath_i } (nameBytes name) with
  | none => rw [hp] at h1; cases h1
  | some r =>
    rw [hp] at h1
    simp only [Option.map_some', Option.some.injEq, Prod.mk.injEq] at h1
    refine ⟨{ w with compath := r.2.compath, compath_i := r.2.compath_i }, ?_, h1.2,
      rfl, rfl, rfl, rfl, rfl, rfl, rfl⟩
    unfold compath_push_m
    rw [hp]
    simp only
    rw [h1.1]

theorem compath_pop_m_ok (frame : Int) (w : World) (u : Unit) (w2 : World)
    (h : compath_pop_m frame w = .ok u w2) : w2.compath_i = frame ∧ TrailStep w w2 := by
  unfold compath_pop_m compath_pop at h
  split at h
  · rename_i t ht
    split at ht
    · cases ht
    · cases ht
      cases h
      exact ⟨rfl, rfl, rfl, rfl, rfl, rfl, rfl, rfl⟩
  · cases h

theorem compath_pop_m_some (frame : Int) (w : World) (h0 : 0 ≤ frame)
    (h1 : frame < (PATH_MAX : Int)) :
    ∃ w2, compath_pop_m frame w = .ok () w2 ∧ w2.compath_i = frame ∧ TrailStep w w2 := by
  have hc : ¬ (frame < 0 ∨ (PATH_MAX : Int) ≤ frame) := by omega
  refine ⟨{ w with compath := w.compath.set frame.toNat 0, compath_i := frame }, ?_, rfl,
    rfl, rfl, rfl, rfl, rfl, rfl, rfl⟩
  unfold compath_pop_m compath_pop
  rw [if_neg hc]

theorem eff_of_trailStep (good : Ev → Bool) (w w1 : World) (h : TrailStep w w1) :
    Eff false good w w1 :=
  ⟨fun hk => by simp at hk, [], by rw [h.2.2.2.2.2.2, List.append_nil],
    fun _ he => by simp at he⟩

theorem steps_compath_push_m (good : Ev → Bool) (name : String) :
    Steps (Eff false good) (compath_push_m name) := by
  constructor
  intro w
  cases h : compath_push_m name w with
  | ok f w2 => exact eff_of_trailStep good w w2 (compath_push_m_ok name w f w2 h).2.2
  | stop r w2 =>
    unfold compath_push_m at h
    split at h
    · cases h
    · cases h
      exact eff_refl _ _ _

theorem steps_compath_pop_m (good : Ev → Bool) (frame : Int) :
    Steps (Eff false good) (compath_pop_m frame) := by
  constructor
  intro w
  cases h : compath_pop_m frame w with
  | ok u w2 => exact eff_of_trailStep good w w2 (compath_pop_m_ok frame w u w2 h).2
  | stop r w2 =>
    unfold compath_pop_m at h
    split at h
    · cases h
    · cases h
      exact eff_refl _ _ _

/-! ## Effects of returning runs -/

theorem rets_of_steps {α : Type} (R : World → World → Prop) (m : M α) (h : Steps R m) :
    Rets R m :=
  ⟨fun w a w1 e => by have := h.run w; rw [e] at this; exact this⟩

theorem rets_pure {α : Type} (R : World → World → Prop) (hr : ∀ w, R w w) (a : α) :
    Rets R (pure a : M α) :=
  ⟨fun w b w1 e => by cases e; exact hr w⟩

theorem rets_stop {α : Type} (R : World → World → Prop) (r : Stop) :
    Rets R (fun w => (Res.stop r w : Res α)) :=
  ⟨fun w b w1 e => by cases e⟩

theorem rets_bind {α β : Type} (R : World → World → Prop)
    (ht : ∀ a b c, R a b → R b c → R a c) (m : M α) (f : α → M β)
    (hm : Rets R m) (hf : ∀ a, Rets R (f a)) : Rets R (m >>= f) := by
  constructor
  intro w b w1 e
  simp only [run_bind] at e
  cases h : m w with
  | ok a w2 =>
    rw [h] at e
    exact ht _ _ _ (hm.run w a w2 h) ((hf a).run w2 b w1 e)
  | stop r w2 => rw [h] at e; cases e

theorem rets_ite {α : Type} (R : World → World → Prop) (c : Prop) [Decidable c] (a b : M α)
    (ha : Rets R a) (hb : Rets R b) : Rets R (if c then a else b) := by
  split <;> assumption

theorem same_of_trailStep (w w1 : World) (h : TrailStep w w1)
    (hc : w1.compath_i = w.compath_i) : Same w w1 :=
  ⟨h.1, h.2.1, h.2.2.1, h.2.2.2.1, h.2.2.2.2.1, h.2.2.2.2.2.1, hc⟩

/-- The bracket `frame = compath_push(name); ...; compath_pop(frame)` around a
call: when the call keeps the file system and the cursor, so does the bracket. -/
theorem rets_bracket {β γ : Type} (good : Ev → Bool) (name : String) (m : M β)
    (k : β → M γ) (hm : Rets (Eff true good) m) (hk : ∀ b, Rets (Eff true good) (k b)) :
    Rets (Eff true good)
      (compath_push_m name >>= fun frame => m >>= fun nx =>
        compath_pop_m frame >>= fun _ => k nx) := by
  constructor
  intro w c w1 e
  simp only [run_bind] at e
  cases h1 : compath_push_m name w with
  | stop r w2 => rw [h1] at e; cases e
  | ok f w2 =>
    rw [h1] at e
    simp only at e
    obtain ⟨e1, _, t1⟩ := compath_push_m_ok name w f w2 h1
    cases h2 : m w2 with
    | stop r w3 => rw [h2] at e; cases e
    | ok nx w3 =>
      rw [h2] at e
      simp only at e
      have f2 := hm.run w2 nx w3 h2
      cases h3 : compath_pop_m f w3 with
      | stop r w4 => rw [h3] at e; cases e
      | ok u w4 =>
        rw [h3] at e
        simp only at e
        obtain ⟨e3, t3⟩ := compath_pop_m_ok f w3 u w4 h3
        have f4 := (hk nx).run w4 c w1 e
        have s2 := f2.1 rfl
        have hs : Same w w4 :=
          ⟨t3.1.trans (s2.1.trans t1.1), t3.2.1.trans (s2.2.1.trans t1.2.1),
            t3.2.2.1.trans (s2.2.2.1.trans t1.2.2.1),
            t3.2.2.2.1.trans (s2.2.2.2.1.trans t1.2.2.2.1),
            t3.2.2.2.2.1.trans (s2.2.2.2.2.1.trans t1.2.2.2.2.1),
            t3.2.2.2.2.2.1.trans (s2.2.2.2.2.2.1.trans t1.2.2.2.2.2.1), by rw [e3, e1]⟩
        obtain ⟨l, g1, g2⟩ := f2.2
        have hw4 : Eff true good w w4 :=
          ⟨fun _ => hs, l, by rw [t3.2.2.2.2.2.2, g1, t1.2.2.2.2.2.2], g2⟩
        exact eff_trans _ _ _ _ _ hw4 f4

theorem steps_ite {α : Type} (R : World → World → Prop) (c : Prop) [Decidable c] (a b : M α)
    (ha : Steps R a) (hb : Steps R b) : Steps R (if c then a else b) := by
  split <;> assumption

theorem steps_mono {α : Type} (keep : Bool) (good good2 : Ev → Bool) (m : M α)
    (h : ∀ e, good e = true → good2 e = true) (hm : Steps (Eff keep good) m) :
    Steps (Eff keep good2) m := by
  constructor
  intro w
  obtain ⟨h1, l, h2, h3⟩ := hm.run w
  exact ⟨h1, l, h2, fun e he => h e (h3 e he)⟩

theorem steps_cmp_xattr_values_loop (keep : Bool) (good : Ev → Bool) (g : Globals)
    (pfx : Option String) (src_fd ref_fd : FileId) (keys : List Nat)
    (h1 : ∀ fd k, good (.fgetxattr fd k) = true) (h2 : ∀ p fn path, good (.report p fn path) = true) :
    Steps (Eff keep good) (cmp_xattr_values_loop g pfx src_fd ref_fd keys) := by
  induction keys with
  | nil => exact steps_pure _ _ _
  | cons key rest ih =>
    unfold cmp_xattr_values_loop
    repeat' first
      | exact ih
      | apply steps_pure
      | apply steps_bind
      | apply steps_ite
      | apply steps_getWorld
      | apply steps_errhandle
      | apply steps_fgetxattr
      | apply h1
      | apply h2
      | intro _

theorem steps_diff_content (g : Globals) (src_dir ref_dir : DIR) (name : String) (size : Nat) :
    Steps (Eff true diffEv) (diff_content g src_dir ref_dir name size) := by
  unfold diff_content diff_content_maps diff_content_xattr cmp_xattr_values cmp_xattr_names
    load_xattr_names wrap_open wrap_mmap
  repeat' first
    | apply steps_cmp_xattr_values_loop
    | apply steps_pure
    | apply steps_bind
    | apply steps_ite
    | apply steps_getWorld
    | apply steps_stop
    | apply steps_modifyArena
    | apply steps_errhandle
    | apply steps_openat
    | apply steps_mmap
    | apply steps_munmap
    | apply steps_close
    | apply steps_emit
    | apply steps_flistxattr
    | rfl
    | intro _
    | split
/-! ## The comparison code computes its specification -/

theorem stagedKeys_nil : stagedKeys [] = [] := rfl

theorem staged_names (w : World) (hq : w.qsortOk) (L stale : Bytes) (hL : EndsNul L)
    (hlen : L.length < 2 ^ 64) :
    ((w.qsort (stagedKeys L)).take (stagedKeys L).length).map (cstr (L ++ stale)) =
      (w.qsort (stagedKeys L)).map (cstr L) := by
  have hp := hq (stagedKeys L)
  rw [← hp.length_eq, List.take_length]
  apply List.map_congr_left
  intro k hk
  exact (load_xattr_names_loop_staged L stale hL hlen).2 k (hp.subset hk)

theorem outcome_bind {α β : Type} (m : M α) (f : α → M β) (w : World) :
    ((m >>= f) w).outcome =
      match m w with
      | .ok a w1 => (f a w1).outcome
      | .stop r _ => .error r := by
  simp only [run_bind]
  cases m w <;> rfl

theorem mmap_run (size : Nat) (fd : FileId) (w : World) (i : Inode) (hi : w.inode fd = some i) :
    mmap size fd w =
      .ok (if i.can_mmap = true ∧ size ≠ 0 then some (i.data.take size) else none)
        (w.emit (.mmap fd size)) := by
  unfold mmap
  simp only [hi]
  by_cases h1 : i.can_mmap = true <;> by_cases h2 : size = 0 <;> simp [h1, h2]

theorem diff_content_maps_run (g : Globals) (sfd rfd : FileId) (name : String)
    (size ret : Nat) (w : World) (is ir : Inode) (hs : w.inode sfd = some is)
    (hr : w.inode rfd = some ir) :
    (diff_content_maps g sfd rfd name size ret w).outcome = mapsSpec g is ir size ret := by
  have hr2 : (w.emit (.mmap sfd size)).inode rfd = some ir := by simpa using hr
  unfold diff_content_maps mapsSpec wrap_mmap
  by_cases h0 : size = 0
  · simp [h0, Res.outcome]
  · by_cases h1 : is.can_mmap = true
    · by_cases h2 : ir.can_mmap = true
      · by_cases hm : memcmp (List.take size is.data) (List.take size ir.data) size = 0 <;>
          simp [h0, h1, h2, hm, mmap_run size sfd w is hs, mmap_run size rfd _ ir hr2,
            Res.outcome, munmap]
      · by_cases hf : fatal g g.ref_path FAIL_MMAP = true <;>
          simp [h0, h1, h2, hf, mmap_run size sfd w is hs, mmap_run size rfd _ ir hr2,
            Res.outcome, munmap, errhandle_eq]
    · by_cases hf : fatal g g.src_path FAIL_MMAP = true <;>
        simp [h0, h1, hf, mmap_run size sfd w is hs, Res.outcome, errhandle_eq]

theorem stagedList_endsNul (i : Inode) : EndsNul (stagedList i) := by
  unfold stagedList
  split
  · exact endsNul_xattrList i
  · exact endsNul_nil

theorem stagedList_length (i : Inode) : (stagedList i).length < 2 ^ 64 := by
  unfold stagedList
  split
  · rename_i h
    have := h.2
    unfold xattr_max at this
    omega
  · simp

theorem qsort_nil (w : World) (hq : w.qsortOk) : w.qsort [] = [] :=
  List.Perm.eq_nil (hq [])

theorem load_xattr_names_fatal (g : Globals) (pfx : Option String) (fd : FileId)
    (reg : Nat) (w : World) (i : Inode) (hi : w.inode fd = some i)
    (hl : ¬ i.listOk) (hfat : fatal g pfx FAIL_XATTR = true) :
    (load_xattr_names g pfx fd reg w).outcome = .error (.exit 1) := by
  have hf : ∀ j, w.inode fd = some j → ¬ j.listOk := by
    intro j hj
    rw [hi] at hj
    cases hj
    exact hl
  rw [load_xattr_names_fail g pfx fd reg w hf, errhandle_eq]
  simp [hfat, Res.outcome]

theorem load_xattr_names_staged (g : Globals) (pfx : Option String) (fd : FileId)
    (reg : Nat) (w : World) (i : Inode) (hi : w.inode fd = some i) (hq : w.qsortOk)
    (h : ¬ (¬ i.listOk ∧ fatal g pfx FAIL_XATTR = true)) :
    ∃ w1, load_xattr_names g pfx fd reg w = .ok () w1 ∧
      Staged i (w1.arena reg) w.qsort ∧ w1.inodes = w.inodes ∧ w1.qsort = w.qsort ∧
      (reg = 0 → w1.arena1 = w.arena1) ∧ (reg ≠ 0 → w1.arena0 = w.arena0) := by
  by_cases hl : i.listOk
  · refine ⟨_, load_xattr_names_ok g pfx fd reg w i hi hl, ?_, ?_, ?_, ?_, ?_⟩
    · simp only [setArena_arena, Staged, stagedList, hl, if_true, writeBuf]
      refine ⟨trivial, ⟨_, rfl⟩, ?_⟩
      rw [← (hq _).length_eq, List.take_length]
    · simp
    · simp
    · intro h; subst h; rfl
    · intro h
      unfold World.setArena
      simp [h]
  · have hf : ∀ j, w.inode fd = some j → ¬ j.listOk := by
      intro j hj
      rw [hi] at hj
      cases hj
      exact hl
    have hfat : ¬ fatal g pfx FAIL_XATTR = true := fun hh => h ⟨hl, hh⟩
    rw [load_xattr_names_fail g pfx fd reg w hf, errhandle_eq]
    simp only [hfat, if_false]
    refine ⟨_, rfl, ?_, ?_, ?_, ?_, ?_⟩
    · simp [Staged, stagedList, hl, writeBuf, stagedKeys_nil, qsort_nil w hq]
    · simp
    · simp
    · intro h; subst h; simp
    · intro h
      unfold World.setArena
      simp [h]

theorem cmp_xattr_names_of_staged (w : World) (is ir : Inode) (q : List Nat → List Nat)
    (h0 : Staged is w.arena0 q) (h1 : Staged ir w.arena1 q) :
    ∃ r, cmp_xattr_names w = .ok r w ∧ (r = 0 ↔ stagedList is = stagedList ir) := by
  refine ⟨_, cmp_xattr_names_run w, ?_⟩
  obtain ⟨a1, ⟨s0, a2⟩, _⟩ := h0
  obtain ⟨b1, ⟨s1, b2⟩, _⟩ := h1
  rw [a1, b1, a2, b2]
  by_cases hlen : (stagedList is).length = (stagedList ir).length
  · simp only [hlen, bne_self_eq_false, Bool.false_eq_true, if_false]
    rw [← hlen]
    exact memcmp_initial _ _ _ _ hlen
  · have : ((stagedList is).length != (stagedList ir).length) = true := by simpa using hlen
    simp only [this, if_true]
    constructor
    · intro h; simp at h
    · intro h; rw [h] at hlen; exact (hlen rfl).elim

theorem cmp_xattr_values_staged (g : Globals) (pfx : Option String) (sfd rfd : FileId)
    (w : World) (is ir : Inode) (hs : w.inode sfd = some is) (hr : w.inode rfd = some ir)
    (hq : w.qsortOk) (h0 : Staged is w.arena0 w.qsort) :
    (cmp_xattr_values g pfx sfd rfd w).outcome =
      cmpValuesSpec (fatal g pfx FAIL_XATTR) is ir
        ((w.qsort (stagedKeys (stagedList is))).map (cstr (stagedList is))) := by
  unfold cmp_xattr_values
  simp only [run_bind, run_getWorld]
  rw [cmp_xattr_values_loop_run g pfx sfd rfd is ir _ w hs hr]
  obtain ⟨_, ⟨s0, a2⟩, a3⟩ := h0
  rw [a3, a2]
  congr 1
  apply List.map_congr_left
  intro k hk
  exact (load_xattr_names_loop_staged _ s0 (stagedList_endsNul is) (stagedList_length is)).2 k
    ((hq _).subset hk)

theorem diff_content_xattr_run (g : Globals) (sfd rfd : FileId) (ret : Nat) (w : World)
    (is ir : Inode) (hs : w.inode sfd = some is) (hr : w.inode rfd = some ir)
    (hq : w.qsortOk) :
    (diff_content_xattr g sfd rfd ret w).outcome = xattrSpec g w.qsort is ir ret := by
  unfold diff_content_xattr xattrSpec
  by_cases hx : g.opt_noxattr = true
  · simp [hx, Res.outcome]
  · simp only [hx, Bool.not_false, if_true, if_false, Bool.false_eq_true, Bool.not_eq_true]
    by_cases hA : ¬ is.listOk ∧ fatal g g.src_path FAIL_XATTR = true
    · rw [outcome_bind]
      have := load_xattr_names_fatal g g.src_path sfd 0 w is hs hA.1 hA.2
      rw [if_pos hA]
      cases hl : load_xattr_names g g.src_path sfd 0 w with
      | ok a w1 => rw [hl] at this; simp [Res.outcome] at this
      | stop r w1 => rw [hl] at this; simpa [Res.outcome] using this
    · obtain ⟨w1, e1, st0, i1, q1, k1, _⟩ :=
        load_xattr_names_staged g g.src_path sfd 0 w is hs hq hA
      have hs1 : w1.inode sfd = some is := by unfold World.inode at *; rw [i1]; exact hs
      have hr1 : w1.inode rfd = some ir := by unfold World.inode at *; rw [i1]; exact hr
      have hq1 : w1.qsortOk := by unfold World.qsortOk; rw [q1]; exact hq
      rw [if_neg hA, outcome_bind, e1]
      simp only []
      by_cases hB : ¬ ir.listOk ∧ fatal g g.ref_path FAIL_XATTR = true
      · rw [outcome_bind]
        have := load_xattr_names_fatal g g.ref_path rfd 1 w1 ir hr1 hB.1 hB.2
        rw [if_pos hB]
        cases hl : load_xattr_names g g.ref_path rfd 1 w1 with
        | ok a w2 => rw [hl] at this; simp [Res.outcome] at this
        | stop r w2 => rw [hl] at this; simpa [Res.outcome] using this
      · obtain ⟨w2, e2, st1, i2, q2, _, k2⟩ :=
          load_xattr_names_staged g g.ref_path rfd 1 w1 ir hr1 hq1 hB
        have hs2 : w2.inode sfd = some is := by unfold World.inode at *; rw [i2]; exact hs1
        have hr2 : w2.inode rfd = some ir := by unfold World.inode at *; rw [i2]; exact hr1
        have hq2 : w2.qsortOk := by unfold World.qsortOk; rw [q2]; exact hq1
        have st0' : Staged is w2.arena0 w2.qsort := by
          rw [k2 (by decide), q2, q1]; simpa using st0
        have st1' : Staged ir w2.arena1 w2.qsort := by
          rw [q2, q1]; rw [q1] at st1; simpa using st1
        rw [if_neg hB, outcome_bind, e2]
        simp only []
        obtain ⟨r, er, hr0⟩ := cmp_xattr_names_of_staged w2 is ir w2.qsort st0' st1'
        rw [outcome_bind, er]
        simp only []
        by_cases hL : stagedList is = stagedList ir
        · have r0 : r = 0 := hr0.mpr hL
          subst r0
          simp only [bne_self_eq_false, Bool.false_eq_true, if_false, hL, ne_eq,
            not_true_eq_false]
          rw [outcome_bind]
          have hv := cmp_xattr_values_staged g g.src_path sfd rfd w2 is ir hs2 hr2 hq2 st0'
          rw [q2, q1, hL] at hv
          cases hl : cmp_xattr_values g g.src_path sfd rfd w2 with
          | ok a w3 =>
            rw [hl] at hv
            simp only [Res.outcome] at hv
            rw [← hv]
            by_cases ha : a = 0 <;> simp [ha, Res.outcome]
          | stop r w3 =>
            rw [hl] at hv
            simp only [Res.outcome] at hv
            rw [← hv]
        · have r0 : r ≠ 0 := fun h => hL (hr0.mp h)
          simp [r0, hL, Res.outcome]

theorem wrap_open_some (g : Globals) (pfx : Option String) (dir : DIR) (name : String)
    (fail : Nat) (w : World) (i : Inode) (h : openSpec (w.entry dir name) = some i) :
    ∃ fd, wrap_open g pfx dir name fail w = .ok (some fd) (w.emit (.openat dir.id name)) ∧
      w.inode fd = some i ∧ (∃ n, dir.lookup name = some n ∧ n.id = fd) := by
  unfold openSpec World.entry at h
  cases hn : dir.lookup name with
  | none => simp [hn] at h
  | some n =>
    cases hi : w.inode n.id with
    | none => simp [hn, hi] at h
    | some j =>
      simp only [hn, hi, Option.some_bind] at h
      by_cases ho : j.can_open = true
      · simp only [ho, if_true, Option.some.injEq] at h
        subst h
        exact ⟨n.id, wrap_open_ok g pfx dir name fail w n j hn hi ho, hi, n, rfl, rfl⟩
      · simp [ho] at h

theorem wrap_open_none (g : Globals) (pfx : Option String) (dir : DIR) (name : String)
    (fail : Nat) (w : World) (h : openSpec (w.entry dir name) = none) :
    wrap_open g pfx dir name fail w =
      if fatal g pfx fail = true then
        .stop (.exit 1) ((w.emit (.openat dir.id name)).report pfx "open" name)
      else .ok none ((w.emit (.openat dir.id name)).report pfx "open" name) := by
  have ho : openat dir name w = .ok none (w.emit (.openat dir.id name)) := by
    unfold openSpec World.entry at h
    unfold openat
    cases hn : dir.lookup name with
    | none => simp
    | some n =>
      cases hi : w.inode n.id with
      | none => simp [hi]
      | some j =>
        simp only [hn, hi, Option.some_bind] at h
        by_cases hc : j.can_open = true
        · simp [hc] at h
        · simp [hc, hi]
  unfold wrap_open
  simp only [run_bind, ho, Option.isNone_none, if_true, errhandle_eq]
  by_cases hf : fatal g pfx fail = true <;> simp [hf]

theorem steps_diff_content_maps (g : Globals) (sfd rfd : FileId) (name : String)
    (size ret : Nat) :
    Steps (Eff true diffEv) (diff_content_maps g sfd rfd name size ret) := by
  unfold diff_content_maps wrap_mmap
  repeat' first
    | apply steps_pure
    | apply steps_bind
    | apply steps_ite
    | apply steps_errhandle
    | apply steps_mmap
    | apply steps_munmap
    | apply steps_emit
    | rfl
    | intro _
    | split

theorem same_inode (w w1 : World) (h : Same w w1) (id : FileId) : w1.inode id = w.inode id := by
  unfold World.inode; rw [h.1]

theorem same_qsortOk (w w1 : World) (h : Same w w1) (hq : w.qsortOk) : w1.qsortOk := by
  unfold World.qsortOk; rw [h.2.1]; exact hq

theorem diff_content_run (g : Globals) (src_dir ref_dir : DIR) (name : String) (size : Nat)
    (w : World) (hq : w.qsortOk) :
    (diff_content g src_dir ref_dir name size w).outcome =
      diffContentSpec g w.qsort (w.entry src_dir name) (w.entry ref_dir name) size := by
  unfold diff_content diffContentSpec
  rw [outcome_bind]
  cases hs : openSpec (w.entry src_dir name) with
  | none =>
    rw [wrap_open_none g g.src_path src_dir name FAIL_DIFF w hs]
    by_cases hf : fatal g g.src_path FAIL_DIFF = true <;> simp [hf, Res.outcome]
  | some is =>
    obtain ⟨sfd, e1, hi1, _⟩ := wrap_open_some g g.src_path src_dir name FAIL_DIFF w is hs
    rw [e1]
    simp only []
    rw [outcome_bind]
    have hent : (w.emit (.openat src_dir.id name)).entry ref_dir name = w.entry ref_dir name := rfl
    cases hr : openSpec (w.entry ref_dir name) with
    | none =>
      rw [wrap_open_none g g.ref_path ref_dir name FAIL_DIFF _ (by rw [hent]; exact hr)]
      by_cases hf : fatal g g.ref_path FAIL_DIFF = true <;> simp [hf, Res.outcome, close]
    | some ir =>
      obtain ⟨rfd, e2, hi2, _⟩ := wrap_open_some g g.ref_path ref_dir name FAIL_DIFF
        (w.emit (.openat src_dir.id name)) ir (by rw [hent]; exact hr)
      rw [e2]
      simp only []
      rw [outcome_bind]
      have hm := diff_content_maps_run g sfd rfd name size 0
        ((w.emit (.openat src_dir.id name)).emit (.openat ref_dir.id name)) is ir
        (by simpa using hi1) (by simpa using hi2)
      have hst := (steps_diff_content_maps g sfd rfd name size 0).run
        ((w.emit (.openat src_dir.id name)).emit (.openat ref_dir.id name))
      cases hmr : diff_content_maps g sfd rfd name size 0
          ((w.emit (.openat src_dir.id name)).emit (.openat ref_dir.id name)) with
      | stop r w1 =>
        rw [hmr] at hm
        simp only [Res.outcome] at hm
        rw [← hm]
      | ok ret1 w1 =>
        rw [hmr] at hm hst
        simp only [Res.outcome] at hm
        rw [← hm]
        simp only []
        have hsame : Same w w1 := by
          have := hst.1 rfl
          exact ⟨this.1, this.2.1, this.2.2.1, this.2.2.2.1, this.2.2.2.2.1, this.2.2.2.2.2⟩
        have hx := diff_content_xattr_run g sfd rfd ret1 w1 is ir
          (by rw [same_inode w w1 hsame]; exact hi1)
          (by rw [same_inode w w1 hsame]; simpa using hi2)
          (same_qsortOk w w1 hsame hq)
        rw [hsame.2.1] at hx
        rw [outcome_bind]
        cases hxr : diff_content_xattr g sfd rfd ret1 w1 with
        | stop r w2 =>
          rw [hxr] at hx
          simp only [Res.outcome] at hx
          rw [← hx]
        | ok ret2 w2 =>
          rw [hxr] at hx
          simp only [Res.outcome] at hx
          rw [← hx]
          simp [close, Res.outcome]

/-! ## The equality oracle -/

theorem dive_decide_compare (g : Globals) (src_dir rd : DIR) (name : String) (s r : Stat)
    (w : World) (hreg : S_ISREG s.st_mode = true) (h1 : s.st_uid = r.st_uid)
    (h2 : s.st_gid = r.st_gid) (h3 : s.st_mode = r.st_mode) (h4 : s.st_size = r.st_size)
    (h5 : ¬ (s.st_dev = r.st_dev ∧ s.st_ino = r.st_ino)) :
    dive_decide g src_dir (some rd) name s (.ok r) w =
      match diff_content g src_dir rd name s.st_size w with
      | .ok dc w1 => .ok (dc != 0, false) w1
      | .stop e w1 => .stop e w1 := by
  have h5b : (s.st_dev == r.st_dev && s.st_ino == r.st_ino) = false := by simpa using h5
  unfold dive_decide
  simp only [hreg, h1, h2, h3, h4, h5b, h3 ▸ hreg, Bool.not_true, Bool.false_eq_true, if_false,
    bne_self_eq_false, run_bind]
  cases diff_content g src_dir rd name r.st_size w with
  | ok dc w1 => by_cases hz : dc = 0 <;> simp [hz]
  | stop e w1 => rfl

theorem res_of_outcome {α : Type} (r : Res α) (a : α) (h : r.outcome = .ok a) :
    ∃ w1, r = .ok a w1 := by
  cases r with
  | ok b w1 => simp only [Res.outcome, Except.ok.injEq] at h; subst h; exact ⟨w1, rfl⟩
  | stop e w1 => simp [Res.outcome] at h

theorem cmpValuesSpec_same (stop : Bool) (is ir : Inode) (names : List Bytes)
    (heq : ∀ n ∈ names, fetch is n = fetch ir n)
    (hok : stop = false ∨ ∀ n ∈ names, (fetch is n).isSome = true) :
    cmpValuesSpec stop is ir names = .ok 0 := by
  induction names with
  | nil => rfl
  | cons n rest ih =>
    have ih2 := ih (fun m hm => heq m (List.mem_cons_of_mem _ hm))
      (hok.imp id (fun h m hm => h m (List.mem_cons_of_mem _ hm)))
    have e := heq n (List.mem_cons_self _ _)
    unfold cmpValuesSpec
    rw [← e]
    cases hf : fetch is n with
    | none =>
      rcases hok with h | h
      · subst h
        simp [ih2]
      · have := h n (List.mem_cons_self _ _)
        simp [hf] at this
    | some v => simp [ih2]

theorem diff_content_maps_zero (g : Globals) (sfd rfd : FileId) (name : String) (ret : Nat) :
    diff_content_maps g sfd rfd name 0 ret = pure ret := by
  unfold diff_content_maps
  simp

theorem steps_diff_content_zero (g : Globals) (src_dir ref_dir : DIR) (name : String) :
    Steps (Eff true noMapEv) (diff_content g src_dir ref_dir name 0) := by
  unfold diff_content
  simp only [diff_content_maps_zero]
  unfold diff_content_xattr cmp_xattr_values cmp_xattr_names load_xattr_names wrap_open
  repeat' first
    | apply steps_cmp_xattr_values_loop
    | apply steps_pure
    | apply steps_bind
    | apply steps_ite
    | apply steps_getWorld
    | apply steps_stop
    | apply steps_modifyArena
    | apply steps_errhandle
    | apply steps_openat
    | apply steps_close
    | apply steps_flistxattr
    | rfl
    | intro _
    | split

theorem xattrSpec_bits (g : Globals) (q : List Nat → List Nat) (is ir : Inode) (dc : Nat)
    (h : xattrSpec g q is ir 0 = .ok dc) : dc = 0 ∨ dc = 2 ∨ dc = 4 := by
  unfold xattrSpec at h
  split at h
  · cases h; simp
  · split at h
    · simp at h
    · split at h
      · simp at h
      · split at h
        · cases h; simp
        · split at h
          · split at h <;> cases h <;> simp
          · simp at h

theorem fetch_congr (is ir : Inode) (h : is.xattrs = ir.xattrs) (n : Bytes) :
    fetch is n = fetch ir n := by
  unfold fetch; rw [h]

theorem listOk_congr (is ir : Inode) (h : is.xattrs = ir.xattrs) (hl : is.can_list = ir.can_list) :
    is.listOk ↔ ir.listOk := by
  unfold Inode.listOk xattrList; rw [h, hl]

theorem xattrSpec_same (g : Globals) (q : List Nat → List Nat) (is ir : Inode) (ret : Nat)
    (hq : ∀ l, (q l).Perm l)
    (hx : is.xattrs = ir.xattrs) (hl : is.can_list = ir.can_list)
    (hok : (is.listOk ∧ is.fetchOk) ∨
      (fatal g g.src_path FAIL_XATTR = false ∧ fatal g g.ref_path FAIL_XATTR = false)) :
    xattrSpec g q is ir ret = .ok ret := by
  have hiff := listOk_congr is ir hx hl
  have hst : stagedList is = stagedList ir := by
    unfold stagedList
    by_cases h : is.listOk
    · rw [if_pos h, if_pos (hiff.mp h)]
      unfold xattrList
      rw [hx]
    · rw [if_neg h, if_neg (fun hh => h (hiff.mpr hh))]
  have hA : ¬ (¬ is.listOk ∧ fatal g g.src_path FAIL_XATTR = true) := by
    rintro ⟨a, b⟩
    rcases hok with h | h
    · exact a h.1
    · rw [h.1] at b; simp at b
  have hB : ¬ (¬ ir.listOk ∧ fatal g g.ref_path FAIL_XATTR = true) := by
    rintro ⟨a, b⟩
    rcases hok with h | h
    · exact a (hiff.mp h.1)
    · rw [h.2] at b; simp at b
  have hv : cmpValuesSpec (fatal g g.src_path FAIL_XATTR) is ir
      ((q (stagedKeys (stagedList is))).map (cstr (stagedList is))) = .ok 0 := by
    apply cmpValuesSpec_same
    · intro n _; exact fetch_congr is ir hx n
    · rcases hok with h | h
      · right
        intro n hn
        obtain ⟨k, hk, rfl⟩ := List.mem_map.mp hn
        exact h.2 k ((hq _).subset hk)
      · left; exact h.1
  unfold xattrSpec
  by_cases hn : g.opt_noxattr = true
  · simp [hn]
  · simp only [hn, if_false, Bool.false_eq_true, hA, hB, hst, ne_eq, not_true_eq_false]
    rw [← hst, hv]
    simp

theorem diffContentSpec_zero (g : Globals) (q : List Nat → List Nat) (s r : Option Inode)
    (is ir : Inode) (hs : openSpec s = some is) (hr : openSpec r = some ir) :
    diffContentSpec g q s r 0 = xattrSpec g q is ir 0 := by
  unfold diffContentSpec mapsSpec
  simp [hs, hr]

theorem entry_of_lookup (w : World) (dir : DIR) (name : String) (n : Node) (i : Inode)
    (hn : dir.lookup name = some n) (h : openSpec (w.entry dir name) = some i) :
    w.inode n.id = some i := by
  unfold openSpec World.entry at h
  rw [hn] at h
  simp only [Option.some_bind] at h
  cases hi : w.inode n.id with
  | none => simp [hi] at h
  | some j =>
    simp only [hi, Option.some_bind] at h
    split at h
    · cases h; rfl
    · simp at h

/-- C9: `diff_content` on two openable files with declared size 0.  The run adds
no `mmap`, `munmap` or byte-compare event to the trace; its outcome is that of
the extended-attribute block alone, so bits 0 and 3 of a returned value are
clear, and the value is 0 under the no-xattr option.  Hence two regular files of
size 0 with equal uid, gid, mode and equal extended attributes (which can be
listed and fetched, or whose failures are not fatal) are not judged different. -/
theorem diff_content_zero_size (g : Globals) (src_dir ref_dir : DIR) (name : String)
    (w : World) (is ir : Inode)
    (hs : openSpec (w.entry src_dir name) = some is)
    (hr : openSpec (w.entry ref_dir name) = some ir) (hq : w.qsortOk) :
    (∀ e ∈ (diff_content g src_dir ref_dir name 0 w).world.trace,
      e ∈ w.trace ∨ noMapEv e = true) ∧
    (diff_content g src_dir ref_dir name 0 w).outcome = xattrSpec g w.qsort is ir 0 ∧
    (∀ dc w1, diff_content g src_dir ref_dir name 0 w = .ok dc w1 →
      dc &&& 1 = 0 ∧ dc &&& 8 = 0) ∧
    (g.opt_noxattr = true → ∃ w1, diff_content g src_dir ref_dir name 0 w = .ok 0 w1) ∧
    (∀ ns nr, src_dir.lookup name = some ns → ref_dir.lookup name = some nr →
      S_ISREG is.st_mode = true → is.st_uid = ir.st_uid → is.st_gid = ir.st_gid →
      is.st_mode = ir.st_mode → is.data = [] → ir.data = [] →
      is.xattrs = ir.xattrs → is.can_list = ir.can_list →
      ((is.listOk ∧ is.fetchOk) ∨
        (fatal g g.src_path FAIL_XATTR = false ∧ fatal g g.ref_path FAIL_XATTR = false)) →
      ∃ hl w1, dive_decide g src_dir (some ref_dir) name (is.stat ns.id)
        (.ok (ir.stat nr.id)) w = .ok (false, hl) w1) := by
  have hout : (diff_content g src_dir ref_dir name 0 w).outcome = xattrSpec g w.qsort is ir 0 := by
    rw [diff_content_run g src_dir ref_dir name 0 w hq]
    exact diffContentSpec_zero g w.qsort _ _ is ir hs hr
  refine ⟨eff_events _ _ _ _ ((steps_diff_content_zero g src_dir ref_dir name).run w), hout,
    ?_, ?_, ?_⟩
  · intro dc w1 h
    rw [h] at hout
    rcases xattrSpec_bits g w.qsort is ir dc hout.symm with rfl | rfl | rfl <;> decide
  · intro hn
    apply res_of_outcome
    rw [hout]
    unfold xattrSpec
    simp [hn]
  · intro ns nr hns hnr hreg h1 h2 h3 hd1 hd2 hx hl hok
    have hsame := xattrSpec_same g w.qsort is ir 0 hq hx hl hok
    by_cases h5 : (is.stat ns.id).st_dev = (ir.stat nr.id).st_dev ∧
        (is.stat ns.id).st_ino = (ir.stat nr.id).st_ino
    · refine ⟨true, w, ?_⟩
      unfold dive_decide
      have h6 : ns.id.1 = nr.id.1 ∧ ns.id.2 = nr.id.2 := h5
      simp [Inode.stat, hreg, h1, h2, h3, hd1, hd2, h3 ▸ hreg, h6.1, h6.2]
    · rw [dive_decide_compare g src_dir ref_dir name (is.stat ns.id) (ir.stat nr.id) w hreg h1
        h2 h3 (by simp [Inode.stat, hd1, hd2]) h5]
      have hsz : (is.stat ns.id).st_size = 0 := by simp [Inode.stat, hd1]
      rw [hsz]
      rw [hsame] at hout
      obtain ⟨w1, e⟩ := res_of_outcome _ _ hout
      rw [e]
      exact ⟨false, w1, rfl⟩

theorem dive_decide_run (g : Globals) (src_dir rd : DIR) (name : String) (s : Stat)
    (rs : Except Nat Stat) (w : World) :
    (dive_decide g src_dir (some rd) name s rs w).outcome =
      decideSpec s rs (diff_content g src_dir rd name s.st_size w).outcome := by
  unfold decideSpec
  by_cases hreg : S_ISREG s.st_mode = true
  · cases rs with
    | error e => simp [dive_decide, hreg, Res.outcome]
    | ok r =>
      by_cases h1 : s.st_uid = r.st_uid
      · by_cases h2 : s.st_gid = r.st_gid
        · by_cases h3 : s.st_mode = r.st_mode
          · by_cases h4 : s.st_size = r.st_size
            · by_cases h5 : s.st_dev = r.st_dev ∧ s.st_ino = r.st_ino
              · simp [dive_decide, hreg, h3 ▸ hreg, h1, h2, h3, h4, h5, Res.outcome]
              · rw [dive_decide_compare g src_dir rd name s r w hreg h1 h2 h3 h4 h5]
                have hreg2 : S_ISREG r.st_mode = true := h3 ▸ hreg
                have h5c : s.st_dev = r.st_dev → ¬ s.st_ino = r.st_ino := fun a b => h5 ⟨a, b⟩
                cases hd : diff_content g src_dir rd name s.st_size w <;>
                  simp [hreg, hreg2, h1, h2, h3, h4, h5c, Res.outcome] <;>
                  rw [if_neg h5]
            · simp [dive_decide, hreg, h1, h2, h3, h4, Res.outcome]
          · simp [dive_decide, hreg, h1, h2, h3, Res.outcome]
        · simp [dive_decide, hreg, h1, h2, Res.outcome]
      · simp [dive_decide, hreg, h1, Res.outcome]
  · simp [dive_decide, hreg, Res.outcome]

theorem takeWhile_name (n t : Bytes) (h : 0 ∉ n) :
    (n ++ 0 :: t).takeWhile (fun b => b != 0) = n := by
  induction n with
  | nil => simp
  | cons x xs ih =>
    have hx : x ≠ 0 := fun e => h (by simp [e])
    have hxs : 0 ∉ xs := fun e => h (List.mem_cons_of_mem _ e)
    simp [List.takeWhile_cons, hx, ih hxs]

theorem load_xattr_names_loop_names (ns : List Bytes) (hwf : ∀ n ∈ ns, 0 ∉ n) :
    ∀ (P s : Bytes) (fuel : Nat),
      ((ns.map (fun n => n ++ [0])).flatten).length ≤ fuel →
      P.length + ((ns.map (fun n => n ++ [0])).flatten).length < 2 ^ 64 →
      ∃ keys, load_xattr_names_loop (P ++ (ns.map (fun n => n ++ [0])).flatten ++ s) fuel
          ((ns.map (fun n => n ++ [0])).flatten).length P.length = some keys ∧
        keys.map (cstr (P ++ (ns.map (fun n => n ++ [0])).flatten ++ s)) = ns := by
  induction ns with
  | nil =>
    intro P s fuel _ _
    refine ⟨[], ?_, rfl⟩
    cases fuel <;> simp [load_xattr_names_loop]
  | cons n rest ih =>
    intro P s fuel hf hb
    have hn : 0 ∉ n := hwf n (List.mem_cons_self _ _)
    have hrest : ∀ m ∈ rest, 0 ∉ m := fun m hm => hwf m (List.mem_cons_of_mem _ hm)
    simp only [List.map_cons, List.flatten_cons, List.length_append, List.length_cons,
      List.length_nil] at hf hb ⊢
    obtain ⟨f, rfl⟩ : ∃ f, fuel = f + 1 := ⟨fuel - 1, by omega⟩
    have hbuf : P ++ (n ++ [0] ++ (rest.map (fun n => n ++ [0])).flatten) ++ s =
        (P ++ n ++ [0]) ++ (rest.map (fun n => n ++ [0])).flatten ++ s := by
      simp [List.append_assoc]
    have hc : cstr (P ++ (n ++ [0] ++ (rest.map (fun n => n ++ [0])).flatten) ++ s) P.length
        = n := by
      unfold cstr
      have : P ++ (n ++ [0] ++ (rest.map (fun n => n ++ [0])).flatten) ++ s =
          P ++ (n ++ 0 :: ((rest.map (fun n => n ++ [0])).flatten ++ s)) := by
        simp [List.append_assoc]
      rw [this, List.drop_left]
      exact takeWhile_name n _ hn
    obtain ⟨keys, e1, e2⟩ := ih hrest (P ++ n ++ [0]) s f (by omega)
      (by simp only [List.length_append, List.length_cons, List.length_nil]; omega)
    refine ⟨P.length :: keys, ?_, ?_⟩
    · have hpos : n.length + (0 + 1) + ((rest.map (fun n => n ++ [0])).flatten).length > 0 := by
        omega
      have hmod : (n.length + (0 + 1) + ((rest.map (fun n => n ++ [0])).flatten).length
          + 2 ^ 64 - (n.length + 1)) % 2 ^ 64
          = ((rest.map (fun n => n ++ [0])).flatten).length := by
        have : n.length + (0 + 1) + ((rest.map (fun n => n ++ [0])).flatten).length
            + 2 ^ 64 - (n.length + 1)
            = ((rest.map (fun n => n ++ [0])).flatten).length + 2 ^ 64 := by omega
        rw [this, Nat.add_mod_right]
        exact Nat.mod_eq_of_lt (by omega)
      have hkey : P.length + (n.length + 1) = (P ++ n ++ [0]).length := by
        simp only [List.length_append, List.length_cons, List.length_nil]; omega
      simp only [load_xattr_names_loop, hpos, if_true, hc, hmod, hkey]
      rw [hbuf, e1]
      rfl
    · simp only [List.map_cons, hc]
      rw [hbuf, e2]

theorem xattrList_eq (i : Inode) :
    xattrList i = ((i.xattrs.map Prod.fst).map (fun n => n ++ [0])).flatten := by
  unfold xattrList
  rw [List.map_map]
  rfl

/-- For names without NUL bytes the staging recovers the names in listing order. -/
theorem staged_names_eq (i : Inode) (hwf : ∀ n ∈ i.xattrs.map Prod.fst, 0 ∉ n)
    (hl : i.listOk) :
    (stagedKeys (stagedList i)).map (cstr (stagedList i)) = i.xattrs.map Prod.fst := by
  have hst : stagedList i = xattrList i := by simp [stagedList, hl]
  have hlen : (xattrList i).length < 2 ^ 64 := by
    have := hl.2; unfold xattr_max at this; omega
  rw [hst]
  obtain ⟨keys, e1, e2⟩ := load_xattr_names_loop_names (i.xattrs.map Prod.fst) hwf [] []
    (xattrList i).length (by rw [xattrList_eq]) (by rw [← xattrList_eq]; simpa using hlen)
  simp only [List.nil_append, List.append_nil, List.length_nil, ← xattrList_eq] at e1 e2
  unfold stagedKeys
  rw [e1]
  exact e2

theorem memcmp_self (a : Bytes) (n : Nat) : memcmp a a n = 0 :=
  (memcmp_eq_zero_iff a a n).mpr (fun _ _ => rfl)

theorem entry_some (w : World) (dir : DIR) (name : String) (n : Node) (i : Inode)
    (hn : dir.lookup name = some n) (hi : w.inode n.id = some i) :
    w.entry dir name = some i := by
  unfold World.entry; rw [hn]; exact hi

theorem mapsSpec_same (g : Globals) (is ir : Inode) (size ret : Nat)
    (hm : is.can_mmap = true ∧ ir.can_mmap = true) (hd : is.data = ir.data) :
    mapsSpec g is ir size ret = .ok ret := by
  unfold mapsSpec
  simp [hm.1, hm.2, hd, memcmp_self]

theorem sample_qsortOk : sampleAttrWorld.qsortOk := fun l => List.Perm.refl l

theorem sampleDeep_qsortOk : sampleDeepWorld.qsortOk := fun l => List.Perm.refl l

/-- C9 at a concrete input: two empty files with the same attribute are judged equal. -/
theorem diff_content_zero_size_witness :
    ∃ hl w1, dive_decide sampleGlobals sampleAttrSrc (some sampleAttrRef) "e"
      (sampleEmptyFile.stat (1, 13)) (.ok (sampleEmptyFile.stat (1, 23))) sampleAttrWorld
        = .ok (false, hl) w1 :=
  (diff_content_zero_size sampleGlobals sampleAttrSrc sampleAttrRef "e" sampleAttrWorld
    sampleEmptyFile sampleEmptyFile rfl rfl sample_qsortOk).2.2.2.2
    (.leaf (1, 13)) (.leaf (1, 23)) rfl rfl rfl rfl rfl rfl rfl rfl rfl rfl
    (Or.inl ⟨by decide, by decide⟩)

theorem eff_of_trace (good : Ev → Bool) (w w1 : World) (e : Ev)
    (h : w1.trace = w.trace ++ [e]) (hg : good e = true) : Eff false good w w1 := by
  refine ⟨fun hk => by simp at hk, [e], h, fun e1 he => ?_⟩
  simp only [List.mem_singleton] at he
  rw [he]
  exact hg

theorem eff_weaken (keep : Bool) (good : Ev → Bool) (w w1 : World) (h : Eff keep good w w1) :
    Eff false good w w1 := ⟨fun hk => by simp at hk, h.2⟩

theorem steps_weaken {α : Type} (keep : Bool) (good : Ev → Bool) (m : M α)
    (h : Steps (Eff keep good) m) : Steps (Eff false good) m :=
  ⟨fun w => eff_weaken keep good _ _ (h.run w)⟩

theorem steps_openat_creat (good : Ev → Bool) (dir : DIR) (name : String) (mode : Nat)
    (h : good (.creat dir.id name mode) = true) :
    Steps (Eff false good) (openat_creat dir name mode) := by
  constructor
  intro w
  unfold openat_creat
  dsimp only
  repeat' split
  all_goals exact eff_of_trace good _ _ _ rfl h

theorem steps_write (good : Ev → Bool) (fd : FileId) (buf : Bytes) (count : Nat)
    (h : ∀ r, good (.write fd count r) = true) :
    Steps (Eff false good) (write fd buf count) := by
  constructor
  intro w
  unfold write
  dsimp only
  repeat' split
  all_goals exact eff_of_trace good _ _ _ rfl (h _)

theorem steps_linkat (keep : Bool) (good : Ev → Bool) (olddir newdir : DIR) (name : String)
    (h : good (.linkat olddir.id newdir.id name) = true) :
    Steps (Eff keep good) (linkat olddir newdir name) := by
  constructor
  intro w
  unfold linkat
  have := eff_emit keep good w _ h
  dsimp only
  repeat' split
  all_goals exact this

theorem steps_unlinkat (keep : Bool) (good : Ev → Bool) (dir : DIR) (name : String)
    (h : good (.unlinkat dir.id name) = true) :
    Steps (Eff keep good) (unlinkat dir name) := by
  constructor
  intro w
  unfold unlinkat
  have := eff_emit keep good w _ h
  dsimp only
  repeat' split
  all_goals exact this

theorem steps_mkdirat (good : Ev → Bool) (dir : DIR) (name : String) (mode : Nat)
    (h : good (.mkdirat dir.id name mode) = true) :
    Steps (Eff false good) (mkdirat dir name mode) := by
  constructor
  intro w
  unfold mkdirat
  dsimp only
  repeat' split
  all_goals exact eff_of_trace good _ _ _ rfl h

theorem steps_mknodat (good : Ev → Bool) (dir : DIR) (name : String) (mode dev : Nat)
    (h : good (.mknodat dir.id name mode dev) = true) :
    Steps (Eff false good) (mknodat dir name mode dev) := by
  constructor
  intro w
  unfold mknodat
  dsimp only
  repeat' split
  all_goals exact eff_of_trace good _ _ _ rfl h

theorem steps_readlinkat (keep : Bool) (good : Ev → Bool) (dir : DIR) (name : String)
    (bufsize : Nat) (h : good (.readlinkat dir.id name) = true) :
    Steps (Eff keep good) (readlinkat dir name bufsize) := by
  constructor
  intro w
  unfold readlinkat
  have := eff_emit keep good w _ h
  dsimp only
  repeat' split
  all_goals exact this

theorem steps_symlinkat (good : Ev → Bool) (target : Bytes) (dir : DIR) (name : String)
    (h : good (.symlinkat target dir.id name) = true) :
    Steps (Eff false good) (symlinkat target dir name) := by
  constructor
  intro w
  unfold symlinkat
  dsimp only
  repeat' split
  all_goals exact eff_of_trace good _ _ _ rfl h

theorem steps_fchmodat (good : Ev → Bool) (dir : DIR) (name : String) (mode : Nat)
    (h : good (.fchmodat dir.id name mode) = true) :
    Steps (Eff false good) (fchmodat dir name mode) := by
  constructor
  intro w
  unfold fchmodat
  dsimp only
  repeat' split
  all_goals exact eff_of_trace good _ _ _ rfl h

theorem steps_fchownat (good : Ev → Bool) (dir : DIR) (name : String) (uid gid : Nat)
    (h : good (.fchownat dir.id name uid gid) = true) :
    Steps (Eff false good) (fchownat dir name uid gid) := by
  constructor
  intro w
  unfold fchownat
  dsimp only
  repeat' split
  all_goals exact eff_of_trace good _ _ _ rfl h

theorem steps_fsetxattr (good : Ev → Bool) (fd : FileId) (key value : Bytes)
    (h : good (.fsetxattr fd key) = true) :
    Steps (Eff false good) (fsetxattr fd key value) := by
  constructor
  intro w
  unfold fsetxattr
  dsimp only
  repeat' split
  all_goals exact eff_of_trace good _ _ _ rfl h

/-! ## Effects of the walk -/

theorem pure_bind_M {α β : Type} (a : α) (f : α → M β) : (pure a >>= f) = f a := rfl

theorem steps_copy_file_loop (good : Ev → Bool) (hsys : ∀ e, sysEv e = true → good e = true)
    (g : Globals) (dst_fd : FileId) (name : String) :
    ∀ (fuel left : Nat) (p : Bytes),
      Steps (Eff false good) (copy_file_loop g dst_fd name fuel left p) := by
  intro fuel
  induction fuel with
  | zero => intro left p; exact steps_stop _ _ _
  | succ fuel ih =>
    intro left p
    unfold copy_file_loop
    repeat' first
      | apply ih
      | apply steps_pure
      | apply steps_bind
      | apply steps_ite
      | apply steps_errhandle
      | apply steps_write
      | (apply hsys; rfl)
      | intro _

theorem steps_transfer_xattr_loop (good : Ev → Bool)
    (hsys : ∀ e, sysEv e = true → good e = true)
    (g : Globals) (src_fd dst_fd : FileId) (src_name dst_name : String) (keys : List Nat) :
    Steps (Eff false good) (transfer_xattr_loop g src_fd dst_fd src_name dst_name keys) := by
  induction keys with
  | nil => exact steps_pure _ _ _
  | cons key rest ih =>
    unfold transfer_xattr_loop
    repeat' first
      | exact ih
      | apply steps_pure
      | apply steps_bind
      | apply steps_ite
      | apply steps_getWorld
      | apply steps_errhandle
      | apply steps_fgetxattr
      | apply steps_fsetxattr
      | (apply hsys; rfl)
      | intro _

theorem steps_transfers (good : Ev → Bool) (hsys : ∀ e, sysEv e = true → good e = true)
    (g : Globals) (st : Stat) (s1 d1 : DIR) (name : String) :
    Steps (Eff false good) (do
      let _ ← transfer_mode g g.dst_path st d1 name
      let _ ← transfer_owner g g.dst_path st d1 name
      if (!g.opt_noxattr && (S_ISREG st.st_mode || S_ISDIR st.st_mode)) = true then
        transfer_xattr g s1 d1 name name
      pure (s1, d1)) := by
  unfold transfer_mode transfer_owner transfer_xattr load_xattr_names wrap_open
  repeat' first
    | apply steps_transfer_xattr_loop
    | apply steps_pure
    | apply steps_bind
    | apply steps_ite
    | apply steps_getWorld
    | apply steps_stop
    | apply steps_modifyArena
    | apply steps_errhandle
    | apply steps_openat
    | apply steps_close
    | apply steps_flistxattr
    | apply steps_fchmodat
    | apply steps_fchownat
    | exact hsys
    | (apply hsys; rfl)
    | intro _
    | split

theorem dive_decide_error (g : Globals) (src_dir : DIR) (ref_dir : Option DIR) (name : String)
    (st : Stat) (e : Nat) :
    dive_decide g src_dir ref_dir name st (.error e) = pure (true, false) := by
  unfold dive_decide
  split <;> rfl

theorem or_ne_zero_right (a b : Nat) (h : b ≠ 0) : a ||| b ≠ 0 := by
  intro h0
  apply h
  apply Nat.eq_of_testBit_eq
  intro i
  have := congrArg (fun x => x.testBit i) h0
  simp only [Nat.testBit_or, Nat.zero_testBit, Bool.or_eq_false_iff] at this
  simp [this.2]

theorem cmpValuesSpec_zero (is ir : Inode) (names : List Bytes) (r : Int)
    (h : cmpValuesSpec true is ir names = .ok r) :
    r ≠ 0 ∨ ∀ n ∈ names, ∃ v, fetch is n = some v ∧ fetch ir n = some v := by
  induction names with
  | nil => right; intro n hn; simp at hn
  | cons n rest ih =>
    unfold cmpValuesSpec at h
    cases hs : fetch is n with
    | none => simp [hs] at h
    | some vs =>
      cases hr : fetch ir n with
      | none => simp [hs, hr] at h
      | some vr =>
        simp only [hs, hr] at h
        by_cases hv : vs = vr
        · simp only [hv, if_true] at h
          rcases ih h with h1 | h1
          · exact Or.inl h1
          · right
            intro m hm
            rcases List.mem_cons.mp hm with rfl | hm
            · exact ⟨vr, by rw [hs, hv], hr⟩
            · exact h1 m hm
        · simp only [hv, if_false, Except.ok.injEq] at h
          left; omega

theorem fatal_of_main (g : Globals) (pfx : Option String) (c : Nat)
    (hm : ∃ N, g.opt_fail = main_opt_fail N) (hp : pfx.isSome = true)
    (hc : c ≠ 0) (hlt : c < 2 ^ 31) : fatal g pfx c = true := by
  obtain ⟨N, hN⟩ := hm
  unfold fatal
  rw [hp, hN]
  simp only [Bool.true_and, bne_iff_ne, ne_eq]
  exact main_opt_fail_bits N c hc hlt

theorem xattrSpec_zero (g : Globals) (q : List Nat → List Nat) (is ir : Inode) (ret : Nat)
    (hq : ∀ l, (q l).Perm l)
    (hf0 : fatal g g.src_path FAIL_XATTR = true) (hf1 : fatal g g.ref_path FAIL_XATTR = true)
    (h : xattrSpec g q is ir ret = .ok 0) :
    ret = 0 ∧ (g.opt_noxattr = false → XattrEquiv is ir) := by
  unfold xattrSpec at h
  by_cases hn : g.opt_noxattr = true
  · simp only [hn, if_true, Except.ok.injEq] at h
    exact ⟨h, fun h2 => by rw [hn] at h2; simp at h2⟩
  · simp only [hn, if_false, hf0, hf1, and_true, Bool.false_eq_true] at h
    by_cases l0 : is.listOk
    · by_cases l1 : ir.listOk
      · simp only [l0, l1, not_true_eq_false, if_false] at h
        by_cases hL : stagedList is = stagedList ir
        · simp only [hL, ne_eq, not_true_eq_false, if_false] at h
          have hLx : xattrList is = xattrList ir := by
            simpa [stagedList, l0, l1] using hL
          have hLs : stagedList ir = xattrList is := by
            rw [← hL]; simp [stagedList, l0]
          rw [hLs] at h
          cases hv : cmpValuesSpec true is ir
              ((q (stagedKeys (xattrList is))).map (cstr (xattrList is))) with
          | error e => rw [hv] at h; simp at h
          | ok r =>
            rw [hv] at h
            by_cases hr : r = 0
            · simp only [hr, ne_eq, not_true_eq_false, if_false, Except.ok.injEq] at h
              refine ⟨h, fun _ => ⟨l0, l1, hLx, ?_⟩⟩
              intro k hk
              rcases cmpValuesSpec_zero is ir _ r hv with h1 | h1
              · exact (h1 hr).elim
              · exact h1 _ (List.mem_map.mpr ⟨k, (hq _).mem_iff.mpr hk, rfl⟩)
            · simp only [hr, ne_eq, not_false_eq_true, if_true, Except.ok.injEq] at h
              exact (or_ne_zero_right ret 4 (by decide) h).elim
        · simp only [hL, ne_eq, not_false_eq_true, if_true, Except.ok.injEq] at h
          exact (or_ne_zero_right ret 2 (by decide) h).elim
      · simp [l0, l1] at h
    · simp [l0] at h

theorem mapsSpec_zero (g : Globals) (is ir : Inode) (size : Nat)
    (hs : is.data.length = size) (hr : ir.data.length = size)
    (h : mapsSpec g is ir size 0 = .ok 0) : is.data = ir.data := by
  unfold mapsSpec at h
  by_cases h0 : size = 0
  · subst h0
    rw [List.length_eq_zero.mp hs, List.length_eq_zero.mp hr]
  · rw [if_neg h0] at h
    cases h1 : is.can_mmap with
    | false =>
      rw [h1] at h
      simp only [if_true] at h
      split at h <;> simp at h
    | true =>
      rw [h1] at h
      simp only [Bool.true_eq_false, if_false] at h
      cases h2 : ir.can_mmap with
      | false =>
        rw [h2] at h
        simp only [if_true] at h
        split at h <;> simp at h
      | true =>
        rw [h2] at h
        simp only [Bool.true_eq_false, if_false] at h
        by_cases hm : memcmp (is.data.take size) (ir.data.take size) size = 0
        · rw [← hs, List.take_length] at hm
          rw [hs, ← hr, List.take_length] at hm
          have := (memcmp_initial is.data ir.data [] [] (by omega)).mp
            (by rw [List.append_nil, List.append_nil, hs, ← hr]; exact hm)
          exact this
        · simp [hm] at h

theorem mapsSpec_ok_zero (g : Globals) (is ir : Inode) (size ret : Nat)
    (h : mapsSpec g is ir size 0 = .ok ret) (hr : ret = 0) :
    mapsSpec g is ir size 0 = .ok 0 := by rw [h, hr]

theorem diffContentSpec_zero_sound (g : Globals) (q : List Nat → List Nat)
    (s r : Option Inode) (size : Nat) (hq : ∀ l, (q l).Perm l)
    (hf0 : fatal g g.src_path FAIL_XATTR = true) (hf1 : fatal g g.ref_path FAIL_XATTR = true)
    (h : diffContentSpec g q s r size = .ok 0) :
    ∃ is ir, s = some is ∧ r = some ir ∧
      (is.data.length = size → ir.data.length = size → is.data = ir.data) ∧
      (g.opt_noxattr = false → XattrEquiv is ir) := by
  unfold diffContentSpec at h
  cases hs : openSpec s with
  | none =>
    simp only [hs] at h
    split at h <;> simp at h
  | some is =>
    cases hr : openSpec r with
    | none =>
      simp only [hs, hr] at h
      split at h <;> simp at h
    | some ir =>
      simp only [hs, hr] at h
      have e1 : s = some is := by
        unfold openSpec at hs
        cases s with
        | none => simp at hs
        | some x =>
          simp only [Option.some_bind] at hs
          split at hs
          · cases hs; rfl
          · simp at hs
      have e2 : r = some ir := by
        unfold openSpec at hr
        cases r with
        | none => simp at hr
        | some x =>
          simp only [Option.some_bind] at hr
          split at hr
          · cases hr; rfl
          · simp at hr
      cases hm : mapsSpec g is ir size 0 with
      | error e => rw [hm] at h; simp at h
      | ok ret1 =>
        rw [hm] at h
        simp only [] at h
        obtain ⟨hz, hx⟩ := xattrSpec_zero g q is ir ret1 hq hf0 hf1 h
        refine ⟨is, ir, e1, e2, ?_, hx⟩
        intro a b
        exact mapsSpec_zero g is ir size a b (by rw [hm, hz])

/-! ## Static mode: the walk keeps the file system -/

theorem fstatat_run (dir : DIR) (name : String) (w : World) :
    fstatat dir name w = .ok (statSpec w dir name) (w.emit (.fstatat dir.id name)) := by
  unfold fstatat statSpec
  cases dir.lookup name with
  | none => rfl
  | some n =>
    simp only []
    cases w.inode n.id <;> rfl

theorem steps_dive_decide (g : Globals) (src_dir : DIR) (ref_dir : Option DIR) (name : String)
    (st : Stat) (rs : Except Nat Stat) :
    Steps (Eff true allEv) (dive_decide g src_dir ref_dir name st rs) := by
  have hd := fun rd => steps_mono true diffEv allEv _ (fun _ _ => rfl)
    (steps_diff_content g src_dir rd name st.st_size)
  unfold dive_decide
  repeat' first
    | apply hd
    | apply steps_pure
    | apply steps_bind
    | apply steps_ite
    | apply steps_stop
    | intro _
    | split

theorem steps_dive_link_static (g : Globals) (name : String) (hl : Bool) (src_dir : DIR)
    (ref_dir : Option DIR) :
    Steps (Eff true allEv) (dive_link g name hl src_dir none ref_dir) := by
  unfold dive_link wrap_remove wrap_link
  dsimp only
  repeat' first
    | apply steps_pure
    | apply steps_bind
    | apply steps_ite
    | apply steps_stop
    | apply steps_errhandle
    | apply steps_linkat
    | apply steps_unlinkat
    | rfl
    | intro _
    | split

theorem steps_wrap_opendir_ro (g : Globals) (pfx : Option String) (dir : DIR) (name : String) :
    Steps (Eff true allEv) (wrap_opendir g pfx dir name) := by
  unfold wrap_opendir wrap_open
  dsimp only
  repeat' first
    | apply steps_pure
    | apply steps_bind
    | apply steps_ite
    | apply steps_errhandle
    | apply steps_openat
    | rfl
    | intro _
    | split

theorem rets_dive_keep (g : Globals) (rec : Dive)
    (hrec : ∀ s r, Rets (Eff true allEv) (rec s none r))
    (name : String) (st : Stat) (src_dir : DIR) (ref_dir : Option DIR) :
    Rets (Eff true allEv) (dive_keep g rec name st src_dir ref_dir) := by
  unfold dive_keep
  split
  · apply rets_bind _ (eff_trans true allEv) _ _
      (rets_of_steps _ _ (steps_wrap_opendir_ro g g.src_path src_dir name))
    intro nx_src
    dsimp only
    split
    · apply rets_bind _ (eff_trans true allEv) _ _
        (rets_of_steps _ _ (steps_wrap_opendir_ro g none _ name))
      intro nx_ref
      exact rets_bracket allEv name _ _ (hrec nx_src nx_ref)
        (fun _ => rets_pure _ (eff_refl true allEv) _)
    · exact rets_bracket allEv name _ _ (hrec nx_src none)
        (fun _ => rets_pure _ (eff_refl true allEv) _)
  · exact rets_pure _ (eff_refl true allEv) _

theorem rets_dive_entry_static (g : Globals) (rec : Dive)
    (hrec : ∀ s r, Rets (Eff true allEv) (rec s none r))
    (name : String) (src_dir : DIR) (ref_dir : Option DIR) :
    Rets (Eff true allEv) (dive_entry g rec name src_dir none ref_dir) := by
  have hk := rets_dive_keep g rec hrec name
  have hl := fun hl s r => rets_of_steps _ _ (steps_dive_link_static g name hl s r)
  have hd := fun st rs => rets_of_steps _ _ (steps_dive_decide g src_dir ref_dir name st rs)
  have hf := fun d => rets_of_steps _ _ (steps_fstatat true allEv d name rfl)
  have he := fun e => rets_of_steps _ _ (steps_emit true allEv e rfl)
  unfold dive_entry wrap_stat
  dsimp only
  repeat' first
    | apply hk
    | apply hl
    | apply hd
    | apply hf
    | apply he
    | exact rets_pure _ (eff_refl true allEv) _
    | apply rets_bind _ (eff_trans true allEv)
    | apply rets_ite
    | intro _
    | split

theorem returns_pure {α : Type} (Q : α → Prop) (a : α) (h : Q a) : Returns Q (pure a : M α) :=
  ⟨fun w b w1 e => by cases e; exact h⟩

theorem returns_bind {α β : Type} (Q : β → Prop) (m : M α) (f : α → M β)
    (hf : ∀ a, Returns Q (f a)) : Returns Q (m >>= f) := by
  constructor
  intro w b w1 e
  simp only [run_bind] at e
  cases h : m w with
  | ok a w2 => rw [h] at e; exact (hf a).run w2 b w1 e
  | stop r w2 => rw [h] at e; simp at e

theorem returns_stop {α : Type} (Q : α → Prop) (r : Stop) :
    Returns Q (fun w => (Res.stop r w : Res α)) :=
  ⟨fun w b w1 e => by simp at e⟩

theorem returns_ite {α : Type} (Q : α → Prop) (c : Prop) [Decidable c] (a b : M α)
    (ha : Returns Q a) (hb : Returns Q b) : Returns Q (if c then a else b) := by
  split <;> assumption

theorem returns_dive_entry_static (g : Globals) (rec : Dive) (name : String) (src_dir : DIR)
    (ref_dir : Option DIR) :
    Returns (fun r : DIR × Option DIR => r.2 = none)
      (dive_entry g rec name src_dir none ref_dir) := by
  unfold dive_entry dive_link
  dsimp only
  repeat' first
    | (apply returns_pure; rfl)
    | apply returns_bind
    | apply returns_ite
    | apply returns_stop
    | intro _
    | split

theorem rets_dive_loop_static (g : Globals) (rec : Dive)
    (hrec : ∀ s r, Rets (Eff true allEv) (rec s none r)) (ref_dir : Option DIR) :
    ∀ (names : List String) (src_dir : DIR),
      Rets (Eff true allEv) (dive_loop g rec names src_dir none ref_dir) := by
  intro names
  induction names with
  | nil => intro s; exact rets_pure _ (eff_refl true allEv) _
  | cons name rest ih =>
    intro s
    constructor
    intro w x w1 e
    unfold dive_loop at e
    simp only [run_bind] at e
    cases h : dive_entry g rec name s none ref_dir w with
    | stop r w2 => rw [h] at e; cases e
    | ok r w2 =>
      rw [h] at e
      have h1 := (rets_dive_entry_static g rec hrec name s ref_dir).run w r w2 h
      have h2 := (returns_dive_entry_static g rec name s ref_dir).run w r w2 h
      simp only [] at e
      rw [h2] at e
      exact eff_trans _ _ _ _ _ h1 ((ih r.1).run w2 x w1 e)

theorem rets_dive_static (g : Globals) :
    ∀ (fuel : Nat) (src_dir ref_dir : Option DIR),
      Rets (Eff true allEv) (dive fuel g src_dir none ref_dir) := by
  intro fuel
  induction fuel with
  | zero => intro s r; exact rets_stop _ _
  | succ fuel ih =>
    intro s r
    unfold dive
    apply rets_bind _ (eff_trans true allEv)
    · exact rets_of_steps _ _ (steps_emit _ _ _ rfl)
    · intro _
      cases s with
      | none => exact rets_stop _ _
      | some sd =>
        dsimp only
        apply rets_bind _ (eff_trans true allEv) _ _ (rets_dive_loop_static g (dive fuel g) ih r _ sd)
        intro r
        exact rets_pure _ (eff_refl true allEv) _

theorem same_of_rets {α : Type} (good : Ev → Bool) (m : M α) (a : α) (w w1 : World)
    (hs : Rets (Eff true good) m) (h : m w = .ok a w1) : Same w w1 :=
  (hs.run w a w1 h).1 rfl

/-! ## Directory values -/

theorem lookup_putEntry (es : List (String × Node)) (name n : String) (x : Node) :
    List.lookup n (putEntry name x es) =
      if n = name then (List.lookup n es).map (fun _ => x) else List.lookup n es := by
  induction es with
  | nil => simp [putEntry]
  | cons e es ih =>
    obtain ⟨k, v⟩ := e
    unfold putEntry
    by_cases hk : k = name
    · subst hk
      simp only [beq_self_eq_true, if_true, List.lookup_cons]
      by_cases hn : n = k
      · subst hn; simp
      · have : (n == k) = false := by simpa using hn
        simp only [this, hn, if_false]
    · have hkf : (k == name) = false := by simpa using hk
      simp only [hkf, Bool.false_eq_true, if_false, List.lookup_cons]
      by_cases hn : n = k
      · subst hn
        simp [hk]
      · have : (n == k) = false := by simpa using hn
        simp only [this]
        exact ih

theorem lookup_put (d : DIR) (name n : String) (x : Node) :
    (d.put name x).lookup n = if n = name then (d.lookup n).map (fun _ => x) else d.lookup n :=
  lookup_putEntry d.entries name n x

theorem putEntry_self (es : List (String × Node)) (name : String) (x : Node)
    (h : List.lookup name es = some x) : putEntry name x es = es := by
  induction es with
  | nil => rfl
  | cons e es ih =>
    obtain ⟨k, v⟩ := e
    unfold putEntry
    by_cases hk : k = name
    · subst hk
      simp only [List.lookup_cons, beq_self_eq_true, Option.some.injEq] at h
      simp [h]
    · have hkf : (k == name) = false := by simpa using hk
      have hkf2 : (name == k) = false := by simpa using fun e => hk e.symm
      simp only [List.lookup_cons, hkf2] at h
      simp only [hkf, Bool.false_eq_true, if_false, ih h]

theorem put_self (d : DIR) (name : String) (x : Node) (h : d.lookup name = some x) :
    d.put name x = d := by
  unfold DIR.put
  rw [putEntry_self d.entries name x h]

theorem names_putEntry (es : List (String × Node)) (name : String) (x : Node) :
    (putEntry name x es).map Prod.fst = es.map Prod.fst := by
  induction es with
  | nil => rfl
  | cons e es ih =>
    obtain ⟨k, v⟩ := e
    unfold putEntry
    by_cases hk : k = name
    · subst hk; simp
    · have hkf : (k == name) = false := by simpa using hk
      simp only [hkf, Bool.false_eq_true, if_false, List.map_cons, ih]

theorem lookup_remove_add (d : DIR) (name n : String) (x : Node) :
    ((d.remove name).add name x).lookup n = if n = name then some x else d.lookup n := by
  unfold DIR.remove DIR.add DIR.lookup
  simp only [List.lookup_cons]
  by_cases hn : n = name
  · subst hn; simp
  · have : (n == name) = false := by simpa using hn
    simp only [this, hn, if_false]
    induction d.entries with
    | nil => simp
    | cons e es ih =>
      obtain ⟨k, v⟩ := e
      by_cases hk : k = name
      · subst hk
        simp only [List.filter_cons, bne_self_eq_false, Bool.false_eq_true, if_false,
          List.lookup_cons, this]
        exact ih
      · have hkf : (k != name) = true := by simpa using hk
        simp only [List.filter_cons, hkf, if_true, List.lookup_cons]
        by_cases hnk : n = k
        · subst hnk; simp
        · have : (n == k) = false := by simpa using hnk
          simp only [this]
          exact ih

theorem names_remove_add (d : DIR) (name : String) (x : Node) (m : String)
    (h : m ∈ ((d.remove name).add name x).entries.map Prod.fst) :
    m = name ∨ m ∈ d.entries.map Prod.fst := by
  unfold DIR.remove DIR.add at h
  simp only [List.map_cons, List.mem_cons, List.mem_map, List.mem_filter] at h
  rcases h with h | ⟨e, ⟨he, _⟩, rfl⟩
  · exact Or.inl h
  · exact Or.inr (List.mem_map_of_mem _ he)

/-! ## Equivalence of entries -/

theorem xattrEquiv_trans (a b c : Inode) (h1 : XattrEquiv a b) (h2 : XattrEquiv b c) :
    XattrEquiv a c := by
  obtain ⟨a1, a2, a3, a4⟩ := h1
  obtain ⟨b1, b2, b3, b4⟩ := h2
  refine ⟨a1, b2, a3.trans b3, ?_⟩
  intro k hk
  obtain ⟨v, e1, e2⟩ := a4 k hk
  obtain ⟨v2, e3, e4⟩ := b4 k (a3 ▸ hk)
  rw [← a3] at e3 e4
  rw [e2] at e3
  cases e3
  exact ⟨v, e1, e4⟩

theorem fileEquiv_trans (g : Globals) (t : List (FileId × Inode)) (a b c : FileId)
    (h1 : FileEquiv g t a b) (h2 : FileEquiv g t b c) : FileEquiv g t a c := by
  obtain ⟨ia, ib, a1, a2, a3, a4, a5, a6, a7, a8⟩ := h1
  obtain ⟨jb, jc, b1, b2, b3, b4, b5, b6, b7, b8⟩ := h2
  rw [a2] at b1
  cases b1
  exact ⟨ia, jc, a1, b2, a3, a4.trans b4, a5.trans b5, a6.trans b6, a7.trans b7,
    fun h => xattrEquiv_trans _ _ _ (a8 h) (b8 h)⟩

theorem entryEquiv_refl (g : Globals) (t : List (FileId × Inode)) (r a : Option Node) :
    EntryEquiv g t r a a := by
  cases a with
  | none => trivial
  | some n =>
    cases n with
    | leaf i => exact Or.inl rfl
    | dir i es => rfl

theorem entryEquiv_trans (g : Globals) (t : List (FileId × Inode)) (r a b c : Option Node)
    (h1 : EntryEquiv g t r a b) (h2 : EntryEquiv g t r b c) : EntryEquiv g t r a c := by
  cases a with
  | none =>
    cases b with
    | none => exact h2
    | some nb => cases nb <;> exact h1.elim
  | some na =>
    cases b with
    | none => cases na <;> exact h1.elim
    | some nb =>
      cases c with
      | none => cases nb <;> exact h2.elim
      | some nc =>
        cases na with
        | leaf i =>
          cases nb with
          | dir j es => exact h1.elim
          | leaf j =>
            cases nc with
            | dir k es => exact h2.elim
            | leaf k =>
              rcases h1 with h1 | h1
              · cases h1; exact h2
              · rcases h2 with h2 | h2
                · cases h2; exact Or.inr h1
                · have hjk : j = k := by
                    have := h1.1.symm.trans h2.1
                    simpa using this
                  subst hjk
                  exact Or.inr h1
        | dir i es =>
          cases nb with
          | leaf j => exact h1.elim
          | dir j es2 =>
            cases nc with
            | leaf k => exact h2.elim
            | dir k es3 => exact Eq.trans h1 h2

theorem entryEquiv_ref (g : Globals) (t : List (FileId × Inode)) (r a b : Option Node)
    (h : EntryEquiv g t none a b) : EntryEquiv g t r a b := by
  cases a with
  | none => cases b <;> exact h
  | some na =>
    cases b with
    | none => cases na <;> exact h
    | some nb =>
      cases na with
      | dir i es => cases nb <;> exact h
      | leaf i =>
        cases nb with
        | dir j es => exact h
        | leaf j =>
          rcases h with h | h
          · exact Or.inl h
          · exact absurd h.1 (by simp)

theorem nodeEquiv_refl (g : Globals) (t : List (FileId × Inode)) (r : Option Node) (a : Node) :
    NodeEquiv g t r a a := fun _ => entryEquiv_refl g t _ _

theorem nodeEquiv_trans (g : Globals) (t : List (FileId × Inode)) (r : Option Node)
    (a b c : Node) (h1 : NodeEquiv g t r a b) (h2 : NodeEquiv g t r b c) :
    NodeEquiv g t r a c :=
  fun p => entryEquiv_trans g t _ _ _ _ (h1 p) (h2 p)

theorem optEquiv_refl (g : Globals) (t : List (FileId × Inode)) (r a : Option Node) :
    OptEquiv g t r a a := by
  cases a with
  | none => trivial
  | some n => exact nodeEquiv_refl g t r n

theorem optEquiv_trans (g : Globals) (t : List (FileId × Inode)) (r a b c : Option Node)
    (h1 : OptEquiv g t r a b) (h2 : OptEquiv g t r b c) : OptEquiv g t r a c := by
  cases a <;> cases b <;> cases c <;>
    first
      | trivial
      | exact h1.elim
      | exact h2.elim
      | exact nodeEquiv_trans g t r _ _ _ h1 h2

theorem dirEquiv_refl (g : Globals) (t : List (FileId × Inode)) (r : Option DIR) (a : DIR) :
    DirEquiv g t r a a :=
  ⟨rfl, fun _ => optEquiv_refl g t _ _⟩

theorem dirEquiv_trans (g : Globals) (t : List (FileId × Inode)) (r : Option DIR) (a b c : DIR)
    (h1 : DirEquiv g t r a b) (h2 : DirEquiv g t r b c) : DirEquiv g t r a c :=
  ⟨h1.1.trans h2.1, fun n => optEquiv_trans g t _ _ _ _ (h1.2 n) (h2.2 n)⟩

theorem nodeEquiv_dir (g : Globals) (t : List (FileId × Inode)) (a b : DIR)
    (rc : Option DIR) (r : Option Node)
    (hr : rc = none ∨ ∃ c, rc = some c ∧ r = some (.dir c.id c.entries))
    (h : DirEquiv g t rc a b) : NodeEquiv g t r (.dir a.id a.entries) (.dir b.id b.entries) := by
  intro path
  cases path with
  | nil => exact h.1
  | cons p ps =>
    simp only [resolve]
    have h2 := h.2 p
    unfold DIR.lookup at h2
    cases ha : List.lookup p a.entries with
    | none =>
      cases hb : List.lookup p b.entries with
      | none => trivial
      | some y => rw [ha, hb] at h2; exact h2.elim
    | some x =>
      cases hb : List.lookup p b.entries with
      | none => rw [ha, hb] at h2; exact h2.elim
      | some y =>
        rw [ha, hb] at h2
        have h3 := h2 ps
        simp only [Option.some_bind]
        rcases hr with hr | ⟨c, hc, hr⟩
        · subst hr
          exact entryEquiv_ref g t _ _ _ h3
        · subst hc hr
          simpa only [Option.some_bind, resolve] using h3

theorem nodeEquiv_leaf (g : Globals) (t : List (FileId × Inode)) (r : Option Node)
    (i j : FileId) (h : i = j ∨ (r = some (.leaf j) ∧ FileEquiv g t i j)) :
    NodeEquiv g t r (.leaf i) (.leaf j) := by
  intro path
  cases path with
  | nil =>
    rcases h with h | h
    · exact Or.inl h
    · refine Or.inr ⟨?_, h.2⟩
      rw [h.1]; rfl
  | cons p ps => trivial

/-! ## Runs of the pieces of a walk without destination -/

theorem bind_ok {α β : Type} (m : M α) (f : α → M β) (w : World) (b : β) (w1 : World)
    (h : (m >>= f) w = .ok b w1) : ∃ a w2, m w = .ok a w2 ∧ f a w2 = .ok b w1 := by
  simp only [run_bind] at h
  cases hm : m w with
  | ok a w2 => rw [hm] at h; exact ⟨a, w2, rfl, h⟩
  | stop r w2 => rw [hm] at h; simp at h

theorem runs_pure {α : Type} (good : Ev → Bool) (a : α) (w : World) :
    Runs good (pure a : M α) a w := ⟨w, rfl, eff_refl _ _ _⟩

theorem runs_bind {α β : Type} (good : Ev → Bool) (m : M α) (f : α → M β) (a : α) (b : β)
    (w : World) (h1 : Runs good m a w) (h2 : ∀ w1, Same w w1 → Runs good (f a) b w1) :
    Runs good (m >>= f) b w := by
  obtain ⟨w1, e1, f1⟩ := h1
  obtain ⟨w2, e2, f2⟩ := h2 w1 (f1.1 rfl)
  refine ⟨w2, ?_, eff_trans _ _ _ _ _ f1 f2⟩
  simp only [run_bind, e1, e2]

theorem runs_of_steps {α : Type} (good : Ev → Bool) (m : M α) (a : α) (w w1 : World)
    (hs : Steps (Eff true good) m) (h : m w = .ok a w1) : Runs good m a w := by
  have := hs.run w
  rw [h] at this
  exact ⟨w1, h, this⟩

theorem runs_of_outcome {α : Type} (good : Ev → Bool) (m : M α) (a : α) (w : World)
    (hs : Steps (Eff true good) m) (h : (m w).outcome = .ok a) : Runs good m a w := by
  obtain ⟨w1, e⟩ := res_of_outcome _ _ h
  exact runs_of_steps good m a w w1 hs e

theorem same_of_steps {α : Type} (good : Ev → Bool) (m : M α) (a : α) (w w1 : World)
    (hs : Steps (Eff true good) m) (h : m w = .ok a w1) : Same w w1 := by
  have := hs.run w
  rw [h] at this
  exact this.1 rfl

theorem statSpec_congr (w w1 : World) (d d1 : DIR) (name : String)
    (hi : w1.inodes = w.inodes)
    (hl : (d1.lookup name).map Node.id = (d.lookup name).map Node.id) :
    statSpec w1 d1 name = statSpec w d name := by
  unfold statSpec World.inode
  rw [hi]
  cases h1 : d1.lookup name with
  | none =>
    cases h : d.lookup name with
    | none => rfl
    | some n => rw [h1, h] at hl; simp at hl
  | some n1 =>
    cases h : d.lookup name with
    | none => rw [h1, h] at hl; simp at hl
    | some n =>
      rw [h1, h] at hl
      simp only [Option.map_some', Option.some.injEq] at hl
      simp only [hl]

theorem entry_congr (w w1 : World) (d d1 : DIR) (name : String)
    (hi : w1.inodes = w.inodes)
    (hl : (d1.lookup name).map Node.id = (d.lookup name).map Node.id) :
    w1.entry d1 name = w.entry d name := by
  unfold World.entry World.inode
  rw [hi]
  cases h1 : d1.lookup name with
  | none =>
    cases h : d.lookup name with
    | none => rfl
    | some n => rw [h1, h] at hl; simp at hl
  | some n1 =>
    cases h : d.lookup name with
    | none => rw [h1, h] at hl; simp at hl
    | some n =>
      rw [h1, h] at hl
      simp only [Option.map_some', Option.some.injEq] at hl
      simp only [Option.some_bind, hl]

theorem entryVerdict_congr (g : Globals) (w w1 : World) (d d1 : DIR) (r : Option DIR)
    (name : String) (st : Stat) (hi : w1.inodes = w.inodes) (hq : w1.qsort = w.qsort)
    (hl : (d1.lookup name).map Node.id = (d.lookup name).map Node.id) :
    entryVerdict g w1 d1 r name st = entryVerdict g w d r name st := by
  unfold entryVerdict
  cases r with
  | none => rfl
  | some rd =>
    simp only
    rw [statSpec_congr w w1 rd rd name hi rfl, entry_congr w w1 d d1 name hi hl,
      entry_congr w w1 rd rd name hi rfl, hq]

theorem opendirSpec_congr (w w1 : World) (d d1 : DIR) (name : String)
    (hi : w1.inodes = w.inodes) (hl : d1.lookup name = d.lookup name) :
    opendirSpec w1 d1 name = opendirSpec w d name := by
  unfold opendirSpec fdopendir
  rw [entry_congr w w1 d d1 name hi (by rw [hl]), hl]

theorem statSpec_ok (w : World) (d : DIR) (name : String) (st : Stat)
    (h : statSpec w d name = .ok st) :
    ∃ n i, d.lookup name = some n ∧ w.inode n.id = some i ∧ st = i.stat n.id := by
  unfold statSpec at h
  cases hn : d.lookup name with
  | none => simp [hn] at h
  | some n =>
    cases hi : w.inode n.id with
    | none => simp [hn, hi] at h
    | some i =>
      simp only [hn, hi, Except.ok.injEq] at h
      exact ⟨n, i, rfl, hi, h.symm⟩

theorem wrap_opendir_run (g : Globals) (pfx : Option String) (dir : DIR) (name : String)
    (w : World) :
    wrap_opendir g pfx dir name w =
      match opendirSpec w dir name with
      | some c => .ok (some c) (w.emit (.openat dir.id name))
      | none =>
        if fatal g pfx FAIL_OPENDIR = true then
          .stop (.exit 1) ((w.emit (.openat dir.id name)).report pfx
            (if (openSpec (w.entry dir name)).isSome then "opendir" else "open") name)
        else
          .ok none ((w.emit (.openat dir.id name)).report pfx
            (if (openSpec (w.entry dir name)).isSome then "opendir" else "open") name) := by
  unfold wrap_opendir opendirSpec
  simp only [run_bind]
  cases hs : openSpec (w.entry dir name) with
  | none =>
    rw [wrap_open_none g pfx dir name FAIL_OPENDIR w hs]
    by_cases hf : fatal g pfx FAIL_OPENDIR = true <;> simp [hf]
  | some i =>
    obtain ⟨fd, e1, _, _⟩ := wrap_open_some g pfx dir name FAIL_OPENDIR w i hs
    rw [e1]
    cases hd : fdopendir dir name with
    | none =>
      simp only [run_bind, Option.isNone_none, if_true, errhandle_eq, Option.isSome_some]
      by_cases hf : fatal g pfx FAIL_OPENDIR = true <;> simp [hf]
    | some c =>
      simp

theorem wrap_remove_ok (g : Globals) (pfx : Option String) (dir : DIR) (name : String)
    (w : World) (r : Int × DIR) (w1 : World) (hf : fatal g pfx FAIL_MUST = true)
    (h : wrap_remove g pfx dir name w = .ok r w1) :
    (∃ id, dir.lookup name = some (.leaf id)) ∧ r.2 = dir.remove name := by
  unfold wrap_remove at h
  obtain ⟨a, w2, h1, h2⟩ := bind_ok _ _ _ _ _ h
  by_cases ha : a.1 = -1
  · simp [ha, errhandle_eq, hf] at h2
  · simp only [beq_iff_eq, ha, if_false, run_bind] at h2
    have h3 : a = r := by
      have : (Res.ok a w2 : Res (Int × DIR)) = .ok r w1 := h2
      cases this; rfl
    subst h3
    unfold unlinkat at h1
    split at h1
    · rename_i id di hl hd
      split at h1
      · cases h1
        exact ⟨⟨_, hl⟩, rfl⟩
      · cases h1
        exact absurd rfl ha
    · cases h1
      exact absurd rfl ha

theorem wrap_link_ok (g : Globals) (pfx : Option String) (rd dd : DIR) (name : String)
    (w : World) (r : Int × DIR) (w1 : World) (hf : fatal g pfx FAIL_HL = true)
    (h : wrap_link g pfx rd dd name w = .ok r w1) :
    ∃ id, rd.lookup name = some (.leaf id) ∧ r.2 = dd.add name (.leaf id) := by
  unfold wrap_link at h
  obtain ⟨a, w2, h1, h2⟩ := bind_ok _ _ _ _ _ h
  by_cases ha : a.1 = -1
  · simp [ha, errhandle_eq, hf] at h2
  · simp only [beq_iff_eq, ha, if_false, run_bind] at h2
    have h3 : a = r := by
      have : (Res.ok a w2 : Res (Int × DIR)) = .ok r w1 := h2
      cases this; rfl
    subst h3
    unfold linkat at h1
    split at h1
    · rename_i id hl
      split at h1
      · split at h1
        · cases h1
          exact ⟨id, hl, rfl⟩
        · cases h1
          exact absurd rfl ha
      · cases h1
        exact absurd rfl ha
    · cases h1
      exact absurd rfl ha

theorem dive_decide_verdict (g : Globals) (sd : DIR) (r : Option DIR) (name : String)
    (st : Stat) (w0 w : World) (hq : w.qsortOk) (hs : Same w0 w) :
    (dive_decide g sd r name st (refStatSpec w0 r name) w).outcome =
      entryVerdict g w0 sd r name st := by
  cases r with
  | none =>
    unfold refStatSpec
    rw [dive_decide_error]
    rfl
  | some rd =>
    unfold refStatSpec
    simp only
    rw [dive_decide_run, diff_content_run g sd rd name st.st_size w hq]
    unfold entryVerdict
    simp only
    rw [entry_congr w0 w sd sd name hs.1 rfl, entry_congr w0 w rd rd name hs.1 rfl, hs.2.1]

theorem steps_dive_decide_stable (g : Globals) (src_dir : DIR) (ref_dir : Option DIR)
    (name : String) (st : Stat) (rs : Except Nat Stat) :
    Steps (Eff true stableEv) (dive_decide g src_dir ref_dir name st rs) := by
  have hd := fun rd => steps_mono true diffEv stableEv _
    (fun e he => by cases e <;> first | rfl | simp [diffEv] at he)
    (steps_diff_content g src_dir rd name st.st_size)
  unfold dive_decide
  repeat' first
    | apply hd
    | apply steps_pure
    | apply steps_bind
    | apply steps_ite
    | apply steps_stop
    | intro _
    | split

theorem entryVerdict_equal (g : Globals) (w : World) (sd : DIR) (r : Option DIR)
    (name : String) (st : Stat) (hl : Bool)
    (h : entryVerdict g w sd r name st = .ok (false, hl)) :
    ∃ rd rs, r = some rd ∧ statSpec w rd name = .ok rs ∧ S_ISREG st.st_mode = true ∧
      st.st_uid = rs.st_uid ∧ st.st_gid = rs.st_gid ∧ st.st_mode = rs.st_mode ∧
      st.st_size = rs.st_size ∧
      (hl = true → st.st_dev = rs.st_dev ∧ st.st_ino = rs.st_ino) ∧
      (hl = false → ¬ (st.st_dev = rs.st_dev ∧ st.st_ino = rs.st_ino) ∧
        diffContentSpec g w.qsort (w.entry sd name) (w.entry rd name) st.st_size = .ok 0) := by
  unfold entryVerdict at h
  cases r with
  | none => simp at h
  | some rd =>
    simp only at h
    unfold decideSpec at h
    by_cases hreg : S_ISREG st.st_mode = true
    · simp only [hreg, Bool.true_eq_false, if_false] at h
      cases hrs : statSpec w rd name with
      | error e => simp [hrs] at h
      | ok rs =>
        simp only [hrs] at h
        by_cases hm : st.st_uid ≠ rs.st_uid ∨ st.st_gid ≠ rs.st_gid ∨
            st.st_mode ≠ rs.st_mode ∨ st.st_size ≠ rs.st_size
        · simp [hm] at h
        · rw [if_neg hm] at h
          simp only [not_or, not_not] at hm
          obtain ⟨m1, m2, m3, m4⟩ := hm
          refine ⟨rd, rs, rfl, hrs, hreg, m1, m2, m3, m4, ?_⟩
          by_cases hid : st.st_dev = rs.st_dev ∧ st.st_ino = rs.st_ino
          · rw [if_pos hid] at h
            simp only [Except.ok.injEq, Prod.mk.injEq, true_and] at h
            subst h
            exact ⟨fun _ => hid, fun hh => by simp at hh⟩
          · rw [if_neg hid] at h
            cases hdc : diffContentSpec g w.qsort (w.entry sd name) (w.entry rd name) st.st_size with
            | error e => simp [hdc] at h
            | ok v =>
              simp only [hdc, Except.ok.injEq, Prod.mk.injEq] at h
              obtain ⟨h1, h2⟩ := h
              subst h2
              have : v = 0 := by simpa using h1
              subst this
              exact ⟨fun hh => by simp at hh, fun _ => ⟨hid, rfl⟩⟩
    · simp [hreg] at h

theorem ref_opendir_run (g : Globals) (r : Option DIR) (name : String) (w : World) :
    ∃ w1, Eff true stableEv w w1 ∧
      (match r with
        | some rd => wrap_opendir g none rd name
        | none => (pure none : M (Option DIR))) w =
        .ok (r.bind (fun rd => opendirSpec w rd name)) w1 := by
  cases r with
  | none => exact ⟨w, eff_refl _ _ _, rfl⟩
  | some rd =>
    refine ⟨w.emit (.openat rd.id name), eff_emit _ _ _ (.openat rd.id name) rfl, ?_⟩
    simp only [wrap_opendir_run, Option.some_bind]
    cases opendirSpec w rd name with
    | none => simp [fatal, World.report]
    | some c => rfl

theorem qsortOk_congr (w w1 : World) (h : w1.qsort = w.qsort) (hq : w.qsortOk) : w1.qsortOk := by
  unfold World.qsortOk; rw [h]; exact hq

/-- The directory branch of `dive_keep`, taken apart: the run up to the push keeps
the file system, the push moves the cursor, the recursive call runs on the opened
directories, and the pop puts the cursor back. -/
theorem dive_keep_dir (g : Globals) (rec : Dive) (name : String) (st : Stat)
    (sd : DIR) (r : Option DIR) (w : World) (s : DIR) (w1 : World)
    (hg : g.fromMain) (hd : S_ISDIR st.st_mode = true)
    (h : dive_keep g rec name st sd r w = .ok s w1) :
    ∃ c w2 w3 nx w4, opendirSpec w sd name = some c ∧ Eff true stableEv w w2 ∧
      TrailStep w2 w3 ∧ pushCursor w.compath_i name = some w3.compath_i ∧
      rec (some c) none (r.bind (fun rd => opendirSpec w rd name)) w3 = .ok nx w4 ∧
      TrailStep w4 w1 ∧ w1.compath_i = w.compath_i ∧ s = closedir sd name nx.1 := by
  unfold dive_keep at h
  simp only [hd, if_true] at h
  obtain ⟨nx_src, w2, h1, h2⟩ := bind_ok _ _ _ _ _ h
  rw [wrap_opendir_run] at h1
  have hf : fatal g g.src_path FAIL_OPENDIR = true :=
    fatal_of_main g g.src_path FAIL_OPENDIR hg.1 hg.2.1 (by decide) (by decide)
  cases ho : opendirSpec w sd name with
  | none => simp [ho, hf] at h1
  | some c =>
    simp only [ho, Res.ok.injEq] at h1
    obtain ⟨e1, e2⟩ := h1
    subst e1 e2
    have hkey : ∃ w3b, Eff true stableEv w w3b ∧
        (compath_push_m name >>= fun frame =>
          rec (some c) none (r.bind (fun rd => opendirSpec w rd name)) >>= fun nx =>
            compath_pop_m frame >>= fun _ =>
              (pure (closedir sd name nx.1) : M DIR)) w3b = .ok s w1 := by
      cases r with
      | none => exact ⟨_, eff_emit _ _ _ (.openat sd.id name) rfl, h2⟩
      | some rd =>
        obtain ⟨y, w3, h3, h4⟩ := bind_ok _ _ _ _ _ h2
        obtain ⟨w3b, f3, e3⟩ := ref_opendir_run g (some rd) name (w.emit (.openat sd.id name))
        simp only [Option.some_bind] at e3
        rw [e3] at h3
        simp only [Res.ok.injEq] at h3
        obtain ⟨e4, e5⟩ := h3
        subst e4 e5
        rw [opendirSpec_congr w (w.emit (.openat sd.id name)) rd rd name rfl rfl] at h4
        exact ⟨_, eff_trans _ _ _ _ _ (eff_emit _ _ _ (.openat sd.id name) rfl) f3, h4⟩
    obtain ⟨w3b, hsame, h4⟩ := hkey
    obtain ⟨f, w3, h5, h6⟩ := bind_ok _ _ _ _ _ h4
    obtain ⟨e6, e7, t1⟩ := compath_push_m_ok name w3b f w3 h5
    obtain ⟨nx, w4, h7, h8⟩ := bind_ok _ _ _ _ _ h6
    obtain ⟨u, w5, h9, h10⟩ := bind_ok _ _ _ _ _ h8
    obtain ⟨e8, t2⟩ := compath_pop_m_ok f w4 u w5 h9
    have h11 : (Res.ok (closedir sd name nx.1) w5 : Res DIR) = .ok s w1 := h10
    cases h11
    have hc := (hsame.1 rfl).2.2.2.2.2.2
    rw [hc] at e7
    exact ⟨c, w3b, w3, nx, w4, rfl, hsame, t1, e7, h7, t2, by rw [e8, e6, hc], rfl⟩

theorem dive_keep_static (g : Globals) (rec : Dive) (name : String) (st : Stat)
    (sd : DIR) (r : Option DIR) (w : World) (s : DIR) (w1 : World)
    (hg : g.fromMain) (hq : w.qsortOk) (hrec : RecStatic g rec)
    (h : dive_keep g rec name st sd r w = .ok s w1) :
    (S_ISDIR st.st_mode = false ∧ s = sd) ∨
    (S_ISDIR st.st_mode = true ∧ ∃ c c1 ci, opendirSpec w sd name = some c ∧
      s = sd.put name (.dir c1.id c1.entries) ∧ pushCursor w.compath_i name = some ci ∧
      DirEquiv g w.inodes (r.bind (fun rd => opendirSpec w rd name)) c c1 ∧
      Stable rec w.inodes w.qsort ci (r.bind (fun rd => opendirSpec w rd name)) c1) := by
  by_cases hd : S_ISDIR st.st_mode = true
  · right
    obtain ⟨c, w2, w3, nx, w4, ho, hs2, t1, hp, h5, _, _, hs⟩ :=
      dive_keep_dir g rec name st sd r w s w1 hg hd h
    have hsame := hs2.1 rfl
    have hq3 : w3.qsortOk := qsortOk_congr w w3 (t1.2.1.trans hsame.2.1) hq
    obtain ⟨c1, e6, e7, e8⟩ := hrec.2.1 c _ w3 nx w4 hq3 h5
    subst e6
    rw [t1.1, hsame.1] at e7 e8
    rw [t1.2.1, hsame.2.1] at e8
    exact ⟨hd, c, c1, _, ho, hs, hp, e7, e8⟩
  · left
    unfold dive_keep at h
    simp only [hd, Bool.false_eq_true, if_false] at h
    have : (Res.ok sd w : Res DIR) = .ok s w1 := h
    cases this
    exact ⟨by simpa using hd, rfl⟩

theorem dive_keep_runs_dir (g : Globals) (rec : Dive) (name : String) (st : Stat)
    (sd : DIR) (r : Option DIR) (w : World) (c : DIR) (ci : Int)
    (hd : S_ISDIR st.st_mode = true) (ho : opendirSpec w sd name = some c)
    (hp : pushCursor w.compath_i name = some ci)
    (hst : Stable rec w.inodes w.qsort ci (r.bind (fun rd => opendirSpec w rd name)) c) :
    Runs stableEv (dive_keep g rec name st sd r) (sd.put name (.dir c.id c.entries)) w := by
  have hbr : ∀ w3, Same w w3 → Runs stableEv
      (compath_push_m name >>= fun frame =>
        rec (some c) none (r.bind (fun rd => opendirSpec w rd name)) >>= fun nx =>
          compath_pop_m frame >>= fun _ =>
            (pure (closedir sd name nx.1) : M DIR))
      (sd.put name (.dir c.id c.entries)) w3 := by
    intro w3 hs3
    have hc3 : w3.compath_i = w.compath_i := hs3.2.2.2.2.2.2
    obtain ⟨w4, e4, c4, t4⟩ := compath_push_m_some name w3 ci (by rw [hc3]; exact hp)
    obtain ⟨w5, e5, f5⟩ := hst w4 (t4.1.trans hs3.1) (t4.2.1.trans hs3.2.1) c4
    obtain ⟨b0, b1⟩ := pushCursor_bounds _ _ _ hp
    obtain ⟨w6, e6, c6, t6⟩ := compath_pop_m_some w3.compath_i w5 (by rw [hc3]; exact b0)
      (by rw [hc3]; exact b1)
    refine ⟨w6, ?_, ?_⟩
    · simp only [run_bind, e4, e5, e6]
      rfl
    · have s5 := f5.1 rfl
      obtain ⟨l, g1, g2⟩ := f5.2
      refine ⟨fun _ => ⟨t6.1.trans (s5.1.trans t4.1), t6.2.1.trans (s5.2.1.trans t4.2.1),
        t6.2.2.1.trans (s5.2.2.1.trans t4.2.2.1),
        t6.2.2.2.1.trans (s5.2.2.2.1.trans t4.2.2.2.1),
        t6.2.2.2.2.1.trans (s5.2.2.2.2.1.trans t4.2.2.2.2.1),
        t6.2.2.2.2.2.1.trans (s5.2.2.2.2.2.1.trans t4.2.2.2.2.2.1), c6⟩, l, ?_, g2⟩
      rw [t6.2.2.2.2.2.2, g1, t4.2.2.2.2.2.2]
  unfold dive_keep
  simp only [hd, if_true]
  apply runs_bind stableEv _ _ (some c)
  · refine ⟨w.emit (.openat sd.id name), ?_, eff_emit _ _ _ (.openat sd.id name) rfl⟩
    rw [wrap_opendir_run, ho]
  · intro w2 hs
    cases r with
    | none =>
      apply runs_bind stableEv _ _ none _ _ (runs_pure _ _ _)
      intro w3 hs3
      exact hbr w3 (same_trans _ _ _ hs hs3)
    | some rd =>
      obtain ⟨w3, f3, e3⟩ := ref_opendir_run g (some rd) name w2
      simp only [Option.some_bind] at e3
      rw [opendirSpec_congr w w2 rd rd name hs.1 rfl] at e3
      apply runs_bind stableEv _ _ (opendirSpec w rd name) _ _ ⟨w3, e3, f3⟩
      intro w4 hs4
      exact hbr w4 (same_trans _ _ _ hs hs4)

theorem dive_link_static (g : Globals) (name : String) (hl : Bool) (sd : DIR)
    (r : Option DIR) (w : World) (x : DIR × Option DIR) (w1 : World) (hg : g.fromMain)
    (h : dive_link g name hl sd none r w = .ok x w1) :
    (hl = true ∧ x = (sd, none)) ∨
    (hl = false ∧ ∃ rd sid rid, r = some rd ∧ sd.lookup name = some (.leaf sid) ∧
      rd.lookup name = some (.leaf rid) ∧ x = ((sd.remove name).add name (.leaf rid), none)) := by
  unfold dive_link at h
  cases r with
  | none => simp at h
  | some rd =>
    simp only at h
    cases hl with
    | true =>
      left
      have : (Res.ok (sd, none) w : Res (DIR × Option DIR)) = .ok x w1 := h
      cases this
      exact ⟨rfl, rfl⟩
    | false =>
      right
      simp only [Bool.not_false, if_true] at h
      obtain ⟨r1, w2, h1, h2⟩ := bind_ok _ _ _ _ _ h
      obtain ⟨⟨sid, hs⟩, e1⟩ := wrap_remove_ok g g.src_path sd name w r1 w2
        (fatal_of_main g g.src_path FAIL_MUST hg.1 hg.2.1 (by decide) (by decide)) h1
      obtain ⟨r2, w3, h3, h4⟩ := bind_ok _ _ _ _ _ h2
      obtain ⟨rid, hr, e2⟩ := wrap_link_ok g g.src_path rd r1.2 name w2 r2 w3
        (fatal_of_main g g.src_path FAIL_HL hg.1 hg.2.1 (by decide) (by decide)) h3
      have : (Res.ok (r2.2, none) w3 : Res (DIR × Option DIR)) = .ok x w1 := h4
      cases this
      exact ⟨rfl, rd, sid, rid, rfl, hs, hr, by rw [e2, e1]⟩

theorem dive_entry_static_cases (g : Globals) (rec : Dive) (name : String) (sd : DIR)
    (r : Option DIR) (w : World) (x : DIR × Option DIR) (w1 : World) (hq : w.qsortOk)
    (h : dive_entry g rec name sd none r w = .ok x w1) :
    ((name == "." || name == "..") = true ∧ x = (sd, none)) ∨
    ((name == "." || name == "..") = false ∧
      ((∃ e, statSpec w sd name = .error e ∧ x = (sd, none)) ∨
       ∃ st v w4, statSpec w sd name = .ok st ∧ entryVerdict g w sd r name st = .ok v ∧
        Same w w4 ∧
        ((v.1 = true ∧ ∃ s, dive_keep g rec name st sd r w4 = .ok s w1 ∧ x = (s, none)) ∨
         (v.1 = false ∧ dive_link g name v.2 sd none r w4 = .ok x w1)))) := by
  unfold dive_entry at h
  by_cases hdot : (name == "." || name == "..") = true
  · left
    simp only [hdot, if_true] at h
    have : (Res.ok (sd, none) w : Res (DIR × Option DIR)) = .ok x w1 := h
    cases this
    exact ⟨hdot, rfl⟩
  · right
    have hdot2 : (name == "." || name == "..") = false := by simpa using hdot
    refine ⟨hdot2, ?_⟩
    simp only [hdot2, Bool.false_eq_true, if_false] at h
    obtain ⟨sr, w2, h1, h2⟩ := bind_ok _ _ _ _ _ h
    unfold wrap_stat at h1
    rw [fstatat_run] at h1
    simp only [Res.ok.injEq] at h1
    obtain ⟨e1, e2⟩ := h1
    subst e1 e2
    cases hst : statSpec w sd name with
    | error e =>
      left
      simp only [hst] at h2
      have : (Res.ok (sd, none) (w.emit (.fstatat sd.id name)) : Res (DIR × Option DIR)) =
          .ok x w1 := h2
      cases this
      exact ⟨e, rfl, rfl⟩
    | ok st =>
      right
      simp only [hst] at h2
      have hkey : ∃ w3, Same w w3 ∧
          (dive_decide g sd r name st (refStatSpec w r name) >>= fun v =>
            emit (.verdict name v.1 v.2) >>= fun _ =>
              if v.1 = true then
                dive_keep g rec name st sd r >>= fun s =>
                  (pure (s, none) : M (DIR × Option DIR))
              else dive_link g name v.2 sd none r) w3 = .ok x w1 := by
        cases r with
        | none => exact ⟨_, same_emit _ _, h2⟩
        | some rd =>
          obtain ⟨y, w3, h3, h4⟩ := bind_ok _ _ _ _ _ h2
          unfold wrap_stat at h3
          rw [fstatat_run] at h3
          simp only [Res.ok.injEq] at h3
          obtain ⟨e4, e5⟩ := h3
          subst e4 e5
          rw [statSpec_congr w (w.emit (.fstatat sd.id name)) rd rd name rfl rfl] at h4
          exact ⟨_, same_trans _ _ _ (same_emit _ _) (same_emit _ _), h4⟩
      obtain ⟨w3, hs3, h3⟩ := hkey
      obtain ⟨v, w4, h4, h5⟩ := bind_ok _ _ _ _ _ h3
      have hv := dive_decide_verdict g sd r name st w w3 (same_qsortOk _ _ hs3 hq) hs3
      rw [h4] at hv
      have hs4 : Same w3 w4 := same_of_steps _ _ _ _ _ (steps_dive_decide g sd r name st _) h4
      obtain ⟨u, w5, h6, h7⟩ := bind_ok _ _ _ _ _ h5
      simp only [run_emit, Res.ok.injEq] at h6
      obtain ⟨_, e6⟩ := h6
      subst e6
      refine ⟨st, v, w4.emit (.verdict name v.1 v.2), rfl, hv.symm,
        same_trans _ _ _ hs3 (same_trans _ _ _ hs4 (same_emit _ _)), ?_⟩
      by_cases hv1 : v.1 = true
      · left
        rw [if_pos hv1] at h7
        obtain ⟨s, w6, h8, h9⟩ := bind_ok _ _ _ _ _ h7
        have : (Res.ok (s, none) w6 : Res (DIR × Option DIR)) = .ok x w1 := h9
        cases this
        exact ⟨hv1, s, h8, rfl⟩
      · right
        rw [if_neg hv1] at h7
        exact ⟨by simpa using hv1, h7⟩

theorem dive_entry_static_skip (g : Globals) (rec : Dive) (name : String) (sd : DIR)
    (r : Option DIR) (w : World)
    (h : (name == "." || name == "..") = true ∨ ∃ e, statSpec w sd name = .error e) :
    Runs stableEv (dive_entry g rec name sd none r) (sd, none) w := by
  unfold dive_entry
  by_cases hdot : (name == "." || name == "..") = true
  · simp only [hdot, if_true]
    exact runs_pure _ _ _
  · rcases h with h | ⟨e, he⟩
    · exact absurd h hdot
    · have hdot2 : (name == "." || name == "..") = false := by simpa using hdot
      simp only [hdot2, Bool.false_eq_true, if_false]
      apply runs_bind stableEv _ _ (statSpec w sd name)
      · exact ⟨_, fstatat_run sd name w, eff_emit _ _ _ (.fstatat sd.id name) rfl⟩
      · intro w2 _
        rw [he]
        exact runs_pure _ _ _

theorem dive_entry_static_runs (g : Globals) (rec : Dive) (name : String) (sd : DIR)
    (r : Option DIR) (w : World) (x : DIR × Option DIR) (st : Stat) (v : Bool × Bool)
    (hq : w.qsortOk) (hdot : (name == "." || name == "..") = false)
    (hst : statSpec w sd name = .ok st) (hv : entryVerdict g w sd r name st = .ok v)
    (hgood : (v.1 || v.2) = true)
    (hrest : ∀ w4, Same w w4 →
      Runs stableEv (if v.1 = true then
          dive_keep g rec name st sd r >>= fun s => (pure (s, none) : M (DIR × Option DIR))
        else dive_link g name v.2 sd none r) x w4) :
    Runs stableEv (dive_entry g rec name sd none r) x w := by
  unfold dive_entry
  simp only [hdot, Bool.false_eq_true, if_false]
  apply runs_bind stableEv _ _ (statSpec w sd name)
  · exact ⟨_, fstatat_run sd name w, eff_emit _ _ _ (.fstatat sd.id name) rfl⟩
  · intro w2 hs2
    rw [hst]
    simp only
    have htail : ∀ w3, Same w w3 → Runs stableEv
        (dive_decide g sd r name st (refStatSpec w r name) >>= fun v =>
            emit (.verdict name v.1 v.2) >>= fun _ =>
              if v.1 = true then
                dive_keep g rec name st sd r >>= fun s =>
                  (pure (s, none) : M (DIR × Option DIR))
              else dive_link g name v.2 sd none r) x w3 := by
      intro w3 hs3
      apply runs_bind stableEv _ _ v
      · apply runs_of_outcome stableEv _ _ _ (steps_dive_decide_stable g sd r name st _)
        rw [dive_decide_verdict g sd r name st w w3 (same_qsortOk _ _ hs3 hq) hs3, hv]
      · intro w4 hs4
        apply runs_bind stableEv _ _ ()
        · exact ⟨_, rfl, eff_emit _ _ _ (.verdict name v.1 v.2) hgood⟩
        · intro w5 hs5
          exact hrest w5 (same_trans _ _ _ hs3 (same_trans _ _ _ hs4 hs5))
    cases r with
    | none =>
      exact runs_bind stableEv _ _ (.error ENOENT) _ _ (runs_pure _ _ _)
        (fun w3 hs3 => htail w3 (same_trans _ _ _ hs2 hs3))
    | some rd =>
      apply runs_bind stableEv _ _ (statSpec w rd name)
      · refine ⟨_, ?_, eff_emit _ _ _ (.fstatat rd.id name) rfl⟩
        unfold wrap_stat
        rw [fstatat_run, statSpec_congr w w2 rd rd name hs2.1 rfl]
      · intro w3 hs3
        exact htail w3 (same_trans _ _ _ hs2 hs3)

theorem opendirSpec_some (w : World) (d : DIR) (name : String) (c : DIR)
    (h : opendirSpec w d name = some c) :
    d.lookup name = some (.dir c.id c.entries) ∧ (openSpec (w.entry d name)).isSome = true := by
  unfold opendirSpec at h
  by_cases ho : (openSpec (w.entry d name)).isSome = true
  · rw [if_pos ho] at h
    refine ⟨?_, ho⟩
    unfold fdopendir at h
    split at h
    · rename_i id es hl
      cases h
      exact hl
    · simp at h
  · rw [if_neg ho] at h
    simp at h

theorem opendirSpec_of_lookup (w : World) (d : DIR) (name : String) (c : DIR)
    (hl : d.lookup name = some (.dir c.id c.entries))
    (ho : (openSpec (w.entry d name)).isSome = true) : opendirSpec w d name = some c := by
  unfold opendirSpec fdopendir
  rw [if_pos ho, hl]

theorem entryStable_skip (g : Globals) (rec : Dive) (name : String) (sd : DIR)
    (r : Option DIR) (w : World)
    (h : (name == "." || name == "..") = true ∨ ∃ e, statSpec w sd name = .error e) :
    EntryStable g rec w.inodes w.qsort w.compath_i r name (sd.lookup name) := by
  intro sd1 w1 hl hi _ _
  apply dive_entry_static_skip
  rcases h with h | ⟨e, he⟩
  · exact Or.inl h
  · exact Or.inr ⟨e, by rw [statSpec_congr w w1 sd sd1 name hi (by rw [hl]), he]⟩

theorem entryStable_of (g : Globals) (rec : Dive) (name : String) (sd : DIR)
    (r : Option DIR) (w : World) (st : Stat) (v : Bool × Bool) (xn : Option Node)
    (hq : w.qsortOk) (hdot : (name == "." || name == "..") = false)
    (hst : statSpec w sd name = .ok st) (hv : entryVerdict g w sd r name st = .ok v)
    (hgood : (v.1 || v.2) = true)
    (hid : xn.map Node.id = (sd.lookup name).map Node.id)
    (hrest : ∀ sd1 w4, sd1.lookup name = xn → w4.inodes = w.inodes → w4.qsort = w.qsort →
      w4.compath_i = w.compath_i →
      Runs stableEv (if v.1 = true then
          dive_keep g rec name st sd1 r >>= fun s => (pure (s, none) : M (DIR × Option DIR))
        else dive_link g name v.2 sd1 none r) (sd1, none) w4) :
    EntryStable g rec w.inodes w.qsort w.compath_i r name xn := by
  intro sd1 w1 hl hi hq1 hc1
  have hid1 : (sd1.lookup name).map Node.id = (sd.lookup name).map Node.id := by rw [hl, hid]
  apply dive_entry_static_runs g rec name sd1 r w1 (sd1, none) st v
    (qsortOk_congr w w1 hq1 hq) hdot
  · rw [statSpec_congr w w1 sd sd1 name hi hid1, hst]
  · rw [entryVerdict_congr g w w1 sd sd1 r name st hi hq1 hid1, hv]
  · exact hgood
  · intro w4 hs4
    exact hrest sd1 w4 hl (hs4.1.trans hi) (hs4.2.1.trans hq1) (hs4.2.2.2.2.2.2.trans hc1)

theorem entryVerdict_same_inode (g : Globals) (w : World) (sd rd : DIR) (name : String)
    (st : Stat) (hr : statSpec w rd name = .ok st) (hreg : S_ISREG st.st_mode = true) :
    entryVerdict g w sd (some rd) name st = .ok (false, true) := by
  unfold entryVerdict decideSpec
  simp [hr, hreg]

theorem dive_link_runs_same (g : Globals) (name : String) (sd rd : DIR) (w : World) :
    Runs stableEv (dive_link g name true sd none (some rd)) (sd, none) w := by
  unfold dive_link
  exact runs_pure _ _ _

theorem dive_keep_runs_leaf (g : Globals) (rec : Dive) (name : String) (st : Stat)
    (sd : DIR) (r : Option DIR) (w : World) (hd : S_ISDIR st.st_mode = false) :
    Runs stableEv (dive_keep g rec name st sd r) sd w := by
  unfold dive_keep
  simp only [hd, Bool.false_eq_true, if_false]
  exact runs_pure _ _ _

theorem fileEquiv_of_verdict (g : Globals) (w : World) (sd rd : DIR) (name : String)
    (st : Stat) (sid rid : FileId) (hg : g.fromMain) (hq : w.qsortOk)
    (hst : statSpec w sd name = .ok st)
    (hv : entryVerdict g w sd (some rd) name st = .ok (false, false))
    (hs : sd.lookup name = some (.leaf sid)) (hr : rd.lookup name = some (.leaf rid)) :
    FileEquiv g w.inodes sid rid ∧ statSpec w rd name = statSpec w
      ((sd.remove name).add name (.leaf rid)) name ∧
      ∃ ir, w.inode rid = some ir ∧ S_ISREG ir.st_mode = true := by
  obtain ⟨rd1, rs, e1, hrs, hreg, m1, m2, m3, m4, _, h5⟩ :=
    entryVerdict_equal g w sd (some rd) name st false hv
  cases e1
  obtain ⟨_, hdc⟩ := h5 rfl
  obtain ⟨n, i, hn, hi, e2⟩ := statSpec_ok w sd name st hst
  obtain ⟨m, j, hm, hj, e3⟩ := statSpec_ok w rd name rs hrs
  rw [hs] at hn
  rw [hr] at hm
  cases hn
  cases hm
  simp only [Node.id] at hi hj
  subst e2 e3
  have hf0 : fatal g g.src_path FAIL_XATTR = true :=
    fatal_of_main g g.src_path FAIL_XATTR hg.1 hg.2.1 (by decide) (by decide)
  have hf1 : fatal g g.ref_path FAIL_XATTR = true :=
    fatal_of_main g g.ref_path FAIL_XATTR hg.1 hg.2.2 (by decide) (by decide)
  obtain ⟨is, ir, es, er, hdata, hx⟩ :=
    diffContentSpec_zero_sound g w.qsort _ _ _ hq hf0 hf1 hdc
  rw [entry_some w sd name _ i hs hi] at es
  rw [entry_some w rd name _ j hr hj] at er
  cases es
  cases er
  refine ⟨⟨i, j, hi, hj, hreg, m3, m1, m2, hdata rfl m4.symm, hx⟩, ?_, j, hj, ?_⟩
  · unfold statSpec
    rw [hr, lookup_remove_add]
    simp
  · have : S_ISREG j.st_mode = S_ISREG i.st_mode := by
      have : i.st_mode = j.st_mode := m3
      rw [this]
    rw [this]
    exact hreg

theorem dive_entry_static (g : Globals) (rec : Dive) (name : String) (sd : DIR)
    (r : Option DIR) (w : World) (x : DIR × Option DIR) (w1 : World)
    (hg : g.fromMain) (hq : w.qsortOk) (hrec : RecStatic g rec)
    (h : dive_entry g rec name sd none r w = .ok x w1) :
    x.2 = none ∧ DirEquiv g w.inodes r sd x.1 ∧
      (∀ m, m ≠ name → x.1.lookup m = sd.lookup m) ∧
      (∀ m ∈ x.1.entries.map Prod.fst, m = name ∨ m ∈ sd.entries.map Prod.fst) ∧
      EntryStable g rec w.inodes w.qsort w.compath_i r name (x.1.lookup name) := by
  have hsame : ∀ hst : EntryStable g rec w.inodes w.qsort w.compath_i r name (sd.lookup name),
      x = (sd, none) →
      x.2 = none ∧ DirEquiv g w.inodes r sd x.1 ∧
      (∀ m, m ≠ name → x.1.lookup m = sd.lookup m) ∧
      (∀ m ∈ x.1.entries.map Prod.fst, m = name ∨ m ∈ sd.entries.map Prod.fst) ∧
      EntryStable g rec w.inodes w.qsort w.compath_i r name (x.1.lookup name) := by
    intro hst hx
    subst hx
    exact ⟨rfl, dirEquiv_refl _ _ _ _, fun _ _ => rfl, fun m hm => Or.inr hm, hst⟩
  rcases dive_entry_static_cases g rec name sd r w x w1 hq h with
    ⟨hdot, hx⟩ | ⟨hdot, ⟨e, he, hx⟩ | ⟨st, v, w4, hst, hv, hs4, hcase⟩⟩
  · exact hsame (entryStable_skip g rec name sd r w (Or.inl hdot)) hx
  · exact hsame (entryStable_skip g rec name sd r w (Or.inr ⟨e, he⟩)) hx
  · rcases hcase with ⟨hv1, s, hk, hx⟩ | ⟨hv1, hl⟩
    · have hgood : (v.1 || v.2) = true := by rw [hv1]; rfl
      rcases dive_keep_static g rec name st sd r w4 s w1 hg (same_qsortOk _ _ hs4 hq) hrec hk with
        ⟨hd, hs⟩ | ⟨hd, c, c1, ci, ho, hs, hp, heq, hstab⟩
      · rw [hs] at hx
        refine hsame ?_ hx
        apply entryStable_of g rec name sd r w st v _ hq hdot hst hv hgood rfl
        intro sd1 w5 _ _ _ _
        rw [if_pos hv1]
        exact runs_bind stableEv _ _ sd1 _ _ (dive_keep_runs_leaf g rec name st sd1 r w5 hd)
          (fun _ _ => runs_pure _ _ _)
      · subst hx
        have hrc : ∀ rd, opendirSpec w4 rd name = opendirSpec w rd name :=
          fun rd => opendirSpec_congr w w4 rd rd name hs4.1 rfl
        simp only [hrc] at heq hstab
        rw [hs4.1] at heq hstab
        rw [hs4.2.1] at hstab
        rw [hs4.2.2.2.2.2.2] at hp
        rw [opendirSpec_congr w w4 sd sd name hs4.1 rfl] at ho
        obtain ⟨hlk, hopen⟩ := opendirSpec_some w sd name c ho
        have hlk1 : s.lookup name = some (.dir c1.id c1.entries) := by
          rw [hs, lookup_put, if_pos rfl, hlk]; rfl
        refine ⟨rfl, ⟨by rw [hs]; rfl, fun n => ?_⟩, fun m hm => ?_, fun m hm => ?_, ?_⟩
        · by_cases hn : n = name
          · subst hn
            simp only [hlk1, hlk]
            apply nodeEquiv_dir g w.inodes c c1 _ _ _ heq
            cases r with
            | none => exact Or.inl rfl
            | some rd =>
              simp only [Option.some_bind]
              cases hrd : opendirSpec w rd n with
              | none => exact Or.inl rfl
              | some c2 => exact Or.inr ⟨c2, rfl, (opendirSpec_some w rd n c2 hrd).1⟩
          · simp only [hs, lookup_put, if_neg hn]
            exact optEquiv_refl _ _ _ _
        · simp only [hs, lookup_put, if_neg hm]
        · right
          rw [hs] at hm
          unfold DIR.put at hm
          simp only [names_putEntry] at hm
          exact hm
        · simp only [hlk1]
          apply entryStable_of g rec name sd r w st v _ hq hdot hst hv hgood
          · rw [hlk]
            simp only [Option.map_some', Node.id]
            rw [heq.1]
          · intro sd1 w5 hl1 hi5 hq5 hc5
            rw [if_pos hv1]
            have ho1 : opendirSpec w5 sd1 name = some c1 := by
              apply opendirSpec_of_lookup w5 sd1 name c1 hl1
              rw [entry_congr w w5 sd sd1 name hi5 (by
                rw [hl1, hlk]; simp only [Option.map_some', Node.id]; rw [heq.1])]
              exact hopen
            have hstab1 : Stable rec w5.inodes w5.qsort ci
                (r.bind (fun rd => opendirSpec w5 rd name)) c1 := by
              have hrc5 : ∀ rd, opendirSpec w5 rd name = opendirSpec w rd name :=
                fun rd => opendirSpec_congr w w5 rd rd name hi5 rfl
              simp only [hrc5]
              rw [hi5, hq5]
              exact hstab
            have := dive_keep_runs_dir g rec name st sd1 r w5 c1 ci hd ho1 (by rw [hc5]; exact hp) hstab1
            rw [put_self sd1 name _ hl1] at this
            exact runs_bind stableEv _ _ sd1 _ _ this (fun _ _ => runs_pure _ _ _)
    · have hvv : v = (false, v.2) := by
        rw [← hv1]
      rw [hvv] at hv
      obtain ⟨rd, rs, e1, hrs, hreg, m1, m2, m3, m4, hid, hdc⟩ :=
        entryVerdict_equal g w sd r name st v.2 hv
      subst e1
      rcases dive_link_static g name v.2 sd (some rd) w4 x w1 hg hl with
        ⟨hl2, hx⟩ | ⟨hl2, rd2, sid, rid, e2, hsl, hrl, hx⟩
      · refine hsame ?_ hx
        apply entryStable_of g rec name sd (some rd) w st (false, v.2) _ hq hdot hst hv
          (by rw [hl2]; rfl) rfl
        intro sd1 w5 _ _ _ _
        simp only [Bool.false_eq_true, if_false]
        rw [hl2]
        exact dive_link_runs_same g name sd1 rd w5
      · cases e2
        rw [hl2] at hv
        obtain ⟨hfe, hstat, ir, hir, hregr⟩ :=
          fileEquiv_of_verdict g w sd rd name st sid rid hg hq hst hv hsl hrl
        subst hx
        have hlk1 : ((sd.remove name).add name (.leaf rid)).lookup name = some (.leaf rid) := by
          rw [lookup_remove_add, if_pos rfl]
        refine ⟨rfl, ⟨rfl, fun n => ?_⟩, fun m hm => ?_, fun m hm => ?_, ?_⟩
        · by_cases hn : n = name
          · subst hn
            simp only [hlk1, hsl, Option.some_bind, hrl]
            exact nodeEquiv_leaf g w.inodes _ sid rid (Or.inr ⟨rfl, hfe⟩)
          · simp only [lookup_remove_add, if_neg hn]
            exact optEquiv_refl _ _ _ _
        · simp only [lookup_remove_add, if_neg hm]
        · exact names_remove_add sd name _ m hm
        · simp only [hlk1]
          have hst2 : statSpec w ((sd.remove name).add name (.leaf rid)) name =
              .ok (ir.stat rid) := by
            unfold statSpec
            rw [hlk1]
            simp only [Node.id, hir]
          have hrs2 : statSpec w rd name = .ok (ir.stat rid) := by rw [hstat, hst2]
          apply entryStable_of g rec name ((sd.remove name).add name (.leaf rid)) (some rd) w
            (ir.stat rid) (false, true) _ hq hdot hst2
            (entryVerdict_same_inode g w _ rd name _ hrs2 hregr) rfl (by rw [hlk1])
          intro sd1 w5 _ _ _ _
          simp only [Bool.false_eq_true, if_false]
          exact dive_link_runs_same g name sd1 rd w5

theorem dive_loop_static (g : Globals) (rec : Dive) (r : Option DIR)
    (hg : g.fromMain) (hrec : RecStatic g rec) :
    ∀ (names : List String) (sd : DIR) (w : World) (x : DIR × Option DIR) (w1 : World),
      w.qsortOk → dive_loop g rec names sd none r w = .ok x w1 →
      x.2 = none ∧ DirEquiv g w.inodes r sd x.1 ∧
      (∀ m ∈ x.1.entries.map Prod.fst, m ∈ names ∨ m ∈ sd.entries.map Prod.fst) ∧
      (∀ m, EntryStable g rec w.inodes w.qsort w.compath_i r m (sd.lookup m) →
        EntryStable g rec w.inodes w.qsort w.compath_i r m (x.1.lookup m)) ∧
      (∀ m ∈ names, EntryStable g rec w.inodes w.qsort w.compath_i r m (x.1.lookup m)) := by
  intro names
  induction names with
  | nil =>
    intro sd w x w1 _ h
    have : (Res.ok (sd, none) w : Res (DIR × Option DIR)) = .ok x w1 := h
    cases this
    exact ⟨rfl, dirEquiv_refl _ _ _ _, fun m hm => Or.inr hm, fun _ hm => hm,
      fun m hm => by simp at hm⟩
  | cons n rest ih =>
    intro sd w x w1 hq h
    unfold dive_loop at h
    obtain ⟨x1, w2, h1, h2⟩ := bind_ok _ _ _ _ _ h
    obtain ⟨e1, e2, e3, e4, e5⟩ := dive_entry_static g rec n sd r w x1 w2 hg hq hrec h1
    have hs2 : Same w w2 :=
      same_of_rets _ _ _ _ _ (rets_dive_entry_static g rec hrec.2.2 n sd r) h1
    rw [e1] at h2
    obtain ⟨f1, f2, f3, f4, f5⟩ := ih x1.1 w2 x w1 (same_qsortOk _ _ hs2 hq) h2
    rw [hs2.1] at f2 f4 f5
    rw [hs2.2.1] at f4 f5
    rw [hs2.2.2.2.2.2.2] at f4 f5
    refine ⟨f1, dirEquiv_trans _ _ _ _ _ _ e2 f2, fun m hm => ?_, fun m hm => ?_, fun m hm => ?_⟩
    · rcases f3 m hm with h3 | h3
      · exact Or.inl (List.mem_cons_of_mem _ h3)
      · rcases e4 m h3 with h4 | h4
        · exact Or.inl (h4 ▸ List.mem_cons_self _ _)
        · exact Or.inr h4
    · apply f4
      by_cases hmn : m = n
      · subst hmn; exact e5
      · rw [e3 m hmn]; exact hm
    · rcases List.mem_cons.mp hm with h3 | h3
      · subst h3
        exact f4 _ e5
      · exact f5 m h3

theorem dive_loop_stable (g : Globals) (rec : Dive) (r : Option DIR)
    (t : List (FileId × Inode)) (q : List Nat → List Nat) (ci : Int) (sd : DIR) :
    ∀ (names : List String) (w : World), w.inodes = t → w.qsort = q → w.compath_i = ci →
      (∀ m ∈ names, EntryStable g rec t q ci r m (sd.lookup m)) →
      Runs stableEv (dive_loop g rec names sd none r) (sd, none) w := by
  intro names
  induction names with
  | nil =>
    intro w _ _ _ _
    exact runs_pure _ _ _
  | cons n rest ih =>
    intro w hi hq hc hst
    unfold dive_loop
    apply runs_bind stableEv _ _ (sd, none) _ _
      (hst n (List.mem_cons_self _ _) sd w rfl hi hq hc)
    intro w2 hs2
    exact ih w2 (hs2.1.trans hi) (hs2.2.1.trans hq) (hs2.2.2.2.2.2.2.trans hc)
      (fun m hm => hst m (List.mem_cons_of_mem _ hm))

theorem recStatic_dive (g : Globals) (hg : g.fromMain) :
    ∀ fuel, RecStatic g (dive fuel g) := by
  intro fuel
  induction fuel with
  | zero =>
    refine ⟨fun d r w x w1 h => ?_, fun s r w x w1 _ h => ?_, rets_dive_static g 0⟩
    · simp [dive] at h
    · simp [dive] at h
  | succ fuel ih =>
    refine ⟨fun d r w x w1 h => ?_, fun s r w x w1 hq h => ?_, rets_dive_static g (fuel + 1)⟩
    · unfold dive at h
      obtain ⟨u, w2, _, h2⟩ := bind_ok _ _ _ _ _ h
      simp at h2
    · unfold dive at h
      obtain ⟨u, w2, h1, h2⟩ := bind_ok _ _ _ _ _ h
      simp only [run_emit, Res.ok.injEq] at h1
      obtain ⟨_, e1⟩ := h1
      subst e1
      simp only at h2
      obtain ⟨x1, w3, h3, h4⟩ := bind_ok _ _ _ _ _ h2
      have : (Res.ok (some x1.1, x1.2) w3 : Res (Option DIR × Option DIR)) = .ok x w1 := h4
      cases this
      obtain ⟨f1, f2, f3, _, f5⟩ := dive_loop_static g (dive fuel g) r hg ih _ s _ x1 _
        (same_qsortOk _ _ (same_emit _ _) hq) h3
      refine ⟨x1.1, by rw [f1], f2, ?_⟩
      intro w5 hi5 hq5 hc5
      unfold dive
      apply runs_bind stableEv _ _ ()
      · exact ⟨_, rfl, eff_emit _ _ _ (.dive _ _ _) rfl⟩
      · intro w6 hs6
        simp only
        apply runs_bind stableEv _ _ (x1.1, none)
        · apply dive_loop_stable g (dive fuel g) r w.inodes w.qsort w.compath_i x1.1 _ w6
            (hs6.1.trans hi5) (hs6.2.1.trans hq5) (hs6.2.2.2.2.2.2.trans hc5)
          intro m hm
          rcases f3 m hm with h6 | h6
          · exact f5 m h6
          · exact f5 m h6
        · intro w7 _
          exact runs_pure _ _ _


/-! ## Static mode: what a completed walk leaves behind -/

theorem res_of_srcEntry (r : Res (Option DIR × Option DIR)) (name : String)
    (h : (r.srcEntry name).isSome = true) : ∃ x w1, r = .ok x w1 := by
  cases r with
  | ok x w1 => exact ⟨x, w1, rfl⟩
  | stop e w1 => simp [Res.srcEntry] at h

theorem sampleStatic_fromMain : sampleStatic.fromMain := ⟨⟨0, rfl⟩, rfl, rfl⟩

/-- C4 (as amended): a static-mode walk (no destination) that returns, run with the
globals `main` sets up, leaves the inode table as it was and hands back the source
directory with, at every relative path, an equivalent entry: a missing entry
stays missing, a directory keeps its inode, and a non-directory either keeps its
inode or now refers to the inode of the reference entry at the same path, and
then both inodes hold regular files with the same mode, uid, gid and bytes and,
unless the no-xattr option is set, the same extended attributes. -/
theorem dive_static_frame (fuel : Nat) (g : Globals) (S : DIR) (R : Option DIR) (w : World)
    (x : Option DIR × Option DIR) (w1 : World)
    (hg : g.fromMain) (hq : w.qsortOk)
    (h : dive fuel g (some S) none R w = .ok x w1) :
    w1.inodes = w.inodes ∧
    ∃ S1, x = (some S1, none) ∧
      ∀ path, EntryEquiv g w.inodes (R.bind (fun rd => resolve path (.dir rd.id rd.entries)))
        (resolve path (.dir S.id S.entries)) (resolve path (.dir S1.id S1.entries)) := by
  have hrec := recStatic_dive g hg fuel
  obtain ⟨S1, e1, e2, _⟩ := hrec.2.1 S R w x w1 hq h
  refine ⟨(same_of_rets _ _ _ _ _ (hrec.2.2 (some S) R) h).1, S1, e1, fun path => ?_⟩
  have hn := nodeEquiv_dir g w.inodes S S1 R (R.map (fun rd => .dir rd.id rd.entries))
    (by
      cases R with
      | none => exact Or.inl rfl
      | some rd => exact Or.inr ⟨rd, rfl, rfl⟩) e2 path
  cases R with
  | none => exact hn
  | some rd => exact hn

/-- C4 at a concrete input: the walk over the sample source and reference trees
with a subdirectory returns, and the theorem applies to it. -/
theorem dive_static_frame_witness :
    ∃ x w1, dive 3 sampleStatic (some sampleDeepSrc) none (some sampleDeepRef) sampleDeepWorld
        = .ok x w1 ∧
      w1.inodes = sampleDeepWorld.inodes ∧
      ∃ S1, x = (some S1, none) ∧
        ∀ path, EntryEquiv sampleStatic sampleDeepWorld.inodes
          ((some sampleDeepRef).bind (fun rd => resolve path (.dir rd.id rd.entries)))
          (resolve path (.dir sampleDeepSrc.id sampleDeepSrc.entries))
          (resolve path (.dir S1.id S1.entries)) := by
  obtain ⟨x, w1, h⟩ := res_of_srcEntry
    (dive 3 sampleStatic (some sampleDeepSrc) none (some sampleDeepRef) sampleDeepWorld) "a"
    (by decide!)
  exact ⟨x, w1, h, dive_static_frame 3 sampleStatic sampleDeepSrc (some sampleDeepRef)
    sampleDeepWorld x w1 sampleStatic_fromMain sampleDeep_qsortOk h⟩

/-- C4 (counterexample to the claim as stated): with the no-xattr option the walk
over the sample directories returns, and the source entry "a", which referred to
an inode carrying `user.k = v1`, afterwards refers to an inode carrying
`user.k = v2`: its extended attributes are not the ones it had before. -/
theorem dive_static_noxattr_changes_xattrs :
    ((dive 2 sampleStaticNoXattr (some sampleAttrSrc) none (some sampleAttrRef)
        sampleAttrWorld).srcEntry "a").map Inode.xattrs = some [(sampleKey, some [118, 50])] ∧
    (sampleAttrWorld.entry sampleAttrSrc "a").map Inode.xattrs =
      some [(sampleKey, some [118, 49])] := by
  decide!


/-! ## Static mode: equal files are relinked -/

theorem mapsSpec_of_equal (g : Globals) (is ir : Inode) (size d : Nat)
    (hf0 : fatal g g.src_path FAIL_MMAP = true) (hf1 : fatal g g.ref_path FAIL_MMAP = true)
    (hd : is.data = ir.data) (h : mapsSpec g is ir size 0 = .ok d) : d = 0 := by
  unfold mapsSpec at h
  by_cases h0 : size = 0
  · rw [if_pos h0] at h
    cases h; rfl
  · rw [if_neg h0] at h
    by_cases h1 : is.can_mmap = false
    · rw [if_pos h1, if_pos hf0] at h
      cases h
    · rw [if_neg h1] at h
      by_cases h2 : ir.can_mmap = false
      · rw [if_pos h2, if_pos hf1] at h
        cases h
      · rw [if_neg h2, hd] at h
        simp only [memcmp_self, ne_eq, not_true_eq_false, if_false] at h
        cases h; rfl

theorem xattrSpec_of_equal (g : Globals) (q : List Nat → List Nat) (is ir : Inode) (d : Nat)
    (hq : ∀ l, (q l).Perm l) (hx : g.opt_noxattr = false → XattrEquiv is ir)
    (h : xattrSpec g q is ir 0 = .ok d) : d = 0 := by
  unfold xattrSpec at h
  by_cases hn : g.opt_noxattr = true
  · rw [if_pos hn] at h
    cases h; rfl
  · rw [if_neg hn] at h
    obtain ⟨l1, l2, l3, l4⟩ := hx (by simpa using hn)
    have hs1 : stagedList is = xattrList is := by unfold stagedList; rw [if_pos l1]
    have hs2 : stagedList ir = xattrList is := by unfold stagedList; rw [if_pos l2, l3]
    have hc : cmpValuesSpec (fatal g g.src_path FAIL_XATTR) is ir
        ((q (stagedKeys (stagedList is))).map (cstr (stagedList is))) = .ok 0 := by
      apply cmpValuesSpec_same
      · intro n hn2
        obtain ⟨k, hk, rfl⟩ := List.mem_map.mp hn2
        rw [hs1] at hk ⊢
        obtain ⟨v, e1, e2⟩ := l4 k ((hq _).mem_iff.mp hk)
        rw [e1, e2]
      · right
        intro n hn2
        obtain ⟨k, hk, rfl⟩ := List.mem_map.mp hn2
        rw [hs1] at hk ⊢
        obtain ⟨v, e1, _⟩ := l4 k ((hq _).mem_iff.mp hk)
        rw [e1]; rfl
    simp only [l1, l2, not_true_eq_false, false_and, if_false, hs1, hs2, ne_eq] at h
    rw [hs1] at hc
    simp only [hc, not_true_eq_false, if_false] at h
    cases h; rfl

theorem diffContentSpec_of_equal (g : Globals) (q : List Nat → List Nat) (is ir : Inode)
    (size d : Nat) (hg : g.fromMain) (hq : ∀ l, (q l).Perm l) (hd : is.data = ir.data)
    (hx : g.opt_noxattr = false → XattrEquiv is ir)
    (h : diffContentSpec g q (some is) (some ir) size = .ok d) : d = 0 := by
  have f1 := fatal_of_main g g.src_path FAIL_DIFF hg.1 hg.2.1 (by decide) (by decide)
  have f2 := fatal_of_main g g.ref_path FAIL_DIFF hg.1 hg.2.2 (by decide) (by decide)
  have f3 := fatal_of_main g g.src_path FAIL_MMAP hg.1 hg.2.1 (by decide) (by decide)
  have f4 := fatal_of_main g g.ref_path FAIL_MMAP hg.1 hg.2.2 (by decide) (by decide)
  unfold diffContentSpec openSpec at h
  simp only [Option.some_bind] at h
  by_cases ho : is.can_open = true
  · by_cases hr : ir.can_open = true
    · simp only [ho, hr, if_true] at h
      cases hm : mapsSpec g is ir size 0 with
      | error e => simp [hm] at h
      | ok d1 =>
        have hd1 := mapsSpec_of_equal g is ir size d1 f3 f4 hd hm
        subst hd1
        simp only [hm] at h
        exact xattrSpec_of_equal g q is ir d hq hx h
    · simp [ho, hr, f2] at h
  · simp [ho, f1] at h

theorem names_of_lookup (d : DIR) (name : String) (n : Node) (h : d.lookup name = some n) :
    name ∈ d.entries.map Prod.fst :=
  List.mem_map.mpr ⟨(name, n), lookup_mem d.entries name n h, rfl⟩

/-! ## The path trail -/

theorem take_of_takeWhile (p : Nat → Bool) (l : List Nat) :
    l.take (l.takeWhile p).length = l.takeWhile p := by
  induction l with
  | nil => rfl
  | cons x xs ih =>
    by_cases hx : p x = true
    · simp [List.takeWhile_cons, hx, ih]
    · simp [List.takeWhile_cons, hx]

theorem zero_not_mem_cstr (b : Bytes) (k : Nat) : 0 ∉ cstr b k := by
  intro h
  have := List.mem_takeWhile_imp h
  simp at this

theorem cstr_zero_of_append (n t : Bytes) (h : 0 ∉ n) : cstr (n ++ 0 :: t) 0 = n := by
  unfold cstr
  simp only [List.drop_zero]
  exact takeWhile_name n t h

theorem trail_path_take (t : Trail) (hwf : t.Wf) :
    t.compath.take t.compath_i.toNat = t.path := by
  rw [← hwf.2.2.2]
  unfold Trail.path cstr
  simp only [List.drop_zero]
  exact take_of_takeWhile _ _

theorem set_length_append (a : Bytes) (x y : Nat) (b : Bytes) :
    (a ++ x :: b).set a.length y = a ++ y :: b := by
  induction a with
  | nil => rfl
  | cons z zs ih => simp [List.set, ih]

theorem compath_push_fits (t : Trail) (name : Bytes) (hwf : t.Wf)
    (hfit : t.compath_i.toNat + 1 + (cstr name 0).length < PATH_MAX) :
    compath_push t name = some (t.compath_i,
      { compath := (t.path ++ 47 :: cstr name 0) ++
          0 :: t.compath.drop (t.compath_i.toNat + (cstr name 0).length + 2),
        compath_i := t.compath_i + ((cstr name 0).length + 1 : Nat) }) := by
  obtain ⟨h1, h2, h3, h4⟩ := hwf
  have hi : t.compath_i = (t.compath_i.toNat : Int) := (Int.toNat_of_nonneg h2).symm
  have hpm : PATH_MAX = 4096 := rfl
  have him : INT_MAX = 2147483647 := rfl
  unfold compath_push snprintf_slash
  have hc1 : ¬ (t.compath_i < 0 ∨ (PATH_MAX : Int) < t.compath_i) := by omega
  have hsz : ¬ (PATH_MAX - t.compath_i.toNat = 0) := by omega
  have htake : (47 :: cstr name 0).take (PATH_MAX - t.compath_i.toNat - 1) = 47 :: cstr name 0 := by
    apply List.take_of_length_le
    simp only [List.length_cons]
    omega
  simp only [hc1, if_false, hsz, htake, List.length_cons, List.length_append, List.length_nil]
  have hc2 : ¬ ((INT_MAX : Int) < t.compath_i + (((cstr name 0).length + 1 : Nat) : Int)) := by
    omega
  have hc3 : ¬ ((PATH_MAX : Int) ≤ t.compath_i + (((cstr name 0).length + 1 : Nat) : Int)) := by
    omega
  simp only [hc2, hc3, if_false]
  have hidx : (t.compath_i + (((cstr name 0).length + 1 : Nat) : Int)).toNat =
      (t.path ++ 47 :: cstr name 0).length := by
    simp only [List.length_append, List.length_cons, h4]
    omega
  rw [hidx, trail_path_take t ⟨h1, h2, h3, h4⟩]
  have hshape : t.path ++ (47 :: cstr name 0 ++ [0]) ++
      List.drop (t.compath_i.toNat + ((cstr name 0).length + 1 + (0 + 1))) t.compath =
      (t.path ++ 47 :: cstr name 0) ++
        0 :: t.compath.drop (t.compath_i.toNat + (cstr name 0).length + 2) := by
    simp only [List.append_assoc, List.cons_append, List.nil_append, List.singleton_append]
    congr 4
  rw [hshape, set_length_append]

theorem compath_push_overflow (t : Trail) (name : Bytes) (hwf : t.Wf)
    (hbig : PATH_MAX ≤ t.compath_i.toNat + 1 + (cstr name 0).length) :
    compath_push t name = none := by
  obtain ⟨h1, h2, h3, h4⟩ := hwf
  have hpm : PATH_MAX = 4096 := rfl
  unfold compath_push
  have hc1 : ¬ (t.compath_i < 0 ∨ (PATH_MAX : Int) < t.compath_i) := by omega
  have hr : (snprintf_slash t.compath t.compath_i.toNat (PATH_MAX - t.compath_i.toNat) name).2 =
      (cstr name 0).length + 1 := by
    unfold snprintf_slash
    split <;> rfl
  simp only [hc1, if_false, hr]
  by_cases hc2 : (INT_MAX : Int) < t.compath_i + (((cstr name 0).length + 1 : Nat) : Int)
  · rw [if_pos hc2]
  · rw [if_neg hc2, if_pos (by omega)]

theorem compath_pop_restores (P n R : Bytes) (i : Int) (hP : 0 ∉ P) (hi : i = (P.length : Int))
    (hlen : ((P ++ 47 :: n) ++ 0 :: R).length = PATH_MAX) (c : Int) :
    ∃ t2, compath_pop { compath := (P ++ 47 :: n) ++ 0 :: R, compath_i := c } i = some t2 ∧
      t2.compath_i = i ∧ t2.path = P ∧ t2.Wf := by
  have hpm : PATH_MAX = 4096 := rfl
  simp only [List.length_append, List.length_cons] at hlen
  unfold compath_pop
  have hc : ¬ (i < 0 ∨ (PATH_MAX : Int) ≤ i) := by omega
  simp only [hc, if_false]
  have hset : ((P ++ 47 :: n) ++ 0 :: R).set i.toNat 0 = P ++ 0 :: (n ++ 0 :: R) := by
    have : i.toNat = P.length := by omega
    rw [this, List.append_assoc, List.cons_append, set_length_append]
  refine ⟨_, rfl, rfl, ?_, ?_⟩
  · simp only [Trail.path, hset]
    exact cstr_zero_of_append P _ hP
  · refine ⟨?_, ?_, ?_, ?_⟩
    · simp only [hset, List.length_append, List.length_cons]
      omega
    · show 0 ≤ i
      omega
    · show i < (PATH_MAX : Int)
      omega
    · simp only [Trail.path, hset]
      rw [cstr_zero_of_append P _ hP]
      omega

/-- C12: `compath_push` on a path-trail state (array of `PATH_MAX` elements, cursor
inside it, string ending at the cursor).  When cursor + 1 + length of the name is
below `PATH_MAX`, it returns the previous cursor and leaves a path-trail state whose
string is the previous path, "/" and the name, and `compath_pop` on the returned
frame restores cursor and path.  When cursor + 1 + length of the name reaches
`PATH_MAX`, `snprintf` still reports the untruncated length, the cursor leaves the
array and the store `compath[compath_i] = 0` is outside it: the behaviour is
undefined, contrary to the claim. -/
theorem compath_push_spec (t : Trail) (name : Bytes) (hwf : t.Wf) :
    (t.compath_i.toNat + 1 + (cstr name 0).length < PATH_MAX →
      ∃ t1, compath_push t name = some (t.compath_i, t1) ∧ t1.Wf ∧
        t1.path = t.path ++ 47 :: cstr name 0 ∧
        ∃ t2, compath_pop t1 t.compath_i = some t2 ∧ t2.compath_i = t.compath_i ∧
          t2.path = t.path ∧ t2.Wf) ∧
    (PATH_MAX ≤ t.compath_i.toNat + 1 + (cstr name 0).length → compath_push t name = none) := by
  refine ⟨fun hfit => ?_, compath_push_overflow t name hwf⟩
  have hpm : PATH_MAX = 4096 := rfl
  have hP : 0 ∉ t.path := zero_not_mem_cstr _ _
  have hn : 0 ∉ cstr name 0 := zero_not_mem_cstr _ _
  have hPn : 0 ∉ t.path ++ 47 :: cstr name 0 := by
    intro h
    rcases List.mem_append.mp h with h | h
    · exact hP h
    · rcases List.mem_cons.mp h with h | h
      · cases h
      · exact hn h
  obtain ⟨h1, h2, h3, h4⟩ := hwf
  have hlen : ((t.path ++ 47 :: cstr name 0) ++
      0 :: t.compath.drop (t.compath_i.toNat + (cstr name 0).length + 2)).length = PATH_MAX := by
    simp only [List.length_append, List.length_cons, List.length_drop, h1, h4]
    omega
  have hpath : cstr ((t.path ++ 47 :: cstr name 0) ++
      0 :: t.compath.drop (t.compath_i.toNat + (cstr name 0).length + 2)) 0 =
      t.path ++ 47 :: cstr name 0 := cstr_zero_of_append _ _ hPn
  refine ⟨_, compath_push_fits t name ⟨h1, h2, h3, h4⟩ hfit, ⟨hlen, ?_, ?_, ?_⟩, hpath,
    compath_pop_restores t.path _ _ t.compath_i hP (by omega) hlen _⟩
  · show 0 ≤ t.compath_i + (((cstr name 0).length + 1 : Nat) : Int)
    omega
  · show t.compath_i + (((cstr name 0).length + 1 : Nat) : Int) < (PATH_MAX : Int)
    omega
  · show (cstr ((t.path ++ 47 :: cstr name 0) ++
      0 :: t.compath.drop (t.compath_i.toNat + (cstr name 0).length + 2)) 0).length =
      (t.compath_i + (((cstr name 0).length + 1 : Nat) : Int)).toNat
    rw [hpath]
    simp only [List.length_append, List.length_cons]
    omega

theorem sampleDeepTrail_wf : sampleDeepTrail.Wf := by
  refine ⟨by decide!, by decide, by decide, by decide!⟩

theorem sampleTrail_wf : sampleTrail.Wf := by
  refine ⟨by decide!, by decide, by decide, by decide!⟩

/-- C12 at concrete inputs: from the empty trail, pushing "a" gives the path "/a"
and popping restores the empty path; from a trail 3840 characters deep, pushing a
name of 255 characters takes the cursor to 4096 and is undefined. -/
theorem compath_push_spec_witness :
    (∃ t1, compath_push sampleTrail [97] = some (0, t1) ∧ t1.path = [47, 97] ∧
      ∃ t2, compath_pop t1 0 = some t2 ∧ t2.path = []) ∧
    compath_push sampleDeepTrail sampleLongName = none := by
  obtain ⟨t1, e1, _, e2, t2, e3, _, e4, _⟩ :=
    (compath_push_spec sampleTrail [97] sampleTrail_wf).1 (by decide!)
  exact ⟨⟨t1, e1, e2, t2, e3, e4⟩,
    (compath_push_spec sampleDeepTrail sampleLongName sampleDeepTrail_wf).2 (by decide!)⟩


/-! ## Attributes that cannot be fetched -/

theorem cmpValuesSpec_skip (is ir : Inode) (names : List Bytes)
    (hagree : ∀ n ∈ names, fetch is n = none ∨ fetch ir n = none ∨ fetch is n = fetch ir n) :
    cmpValuesSpec false is ir names = .ok 0 := by
  induction names with
  | nil => rfl
  | cons n rest ih =>
    have ih2 := ih (fun m hm => hagree m (List.mem_cons_of_mem _ hm))
    unfold cmpValuesSpec
    cases hs : fetch is n with
    | none => simpa using ih2
    | some vs =>
      cases hr : fetch ir n with
      | none => simpa using ih2
      | some vr =>
        rcases hagree n (List.mem_cons_self _ _) with h | h | h
        · rw [hs] at h; cases h
        · rw [hr] at h; cases h
        · rw [hs, hr] at h
          cases h
          simpa using ih2

theorem cmpValuesSpec_exit (is ir : Inode) (names : List Bytes)
    (hagree : ∀ n ∈ names, fetch is n = none ∨ fetch ir n = none ∨ fetch is n = fetch ir n)
    (hfail : ∃ n ∈ names, fetch is n = none ∨ fetch ir n = none) :
    cmpValuesSpec true is ir names = .error (.exit 1) := by
  induction names with
  | nil => simp at hfail
  | cons n rest ih =>
    unfold cmpValuesSpec
    cases hs : fetch is n with
    | none => simp
    | some vs =>
      cases hr : fetch ir n with
      | none => simp
      | some vr =>
        have hrest : ∃ m ∈ rest, fetch is m = none ∨ fetch ir m = none := by
          obtain ⟨m, hm, hf⟩ := hfail
          rcases List.mem_cons.mp hm with rfl | hm
          · rw [hs, hr] at hf
            simp at hf
          · exact ⟨m, hm, hf⟩
        have ih2 := ih (fun m hm => hagree m (List.mem_cons_of_mem _ hm)) hrest
        rcases hagree n (List.mem_cons_self _ _) with h | h | h
        · rw [hs] at h; cases h
        · rw [hr] at h; cases h
        · rw [hs, hr] at h
          cases h
          simpa using ih2

/-- C11 (as amended): a source and a reference file with distinct inodes, equal uid, gid, mode,
size and bytes and the same listable attribute names, where fetching the value of
some listed attribute fails on one side and every attribute that can be fetched on
both sides has equal values.  The pair is never classified "different": when
`errhandle` is fatal for the xattr class (as it always is with the mask `main`
computes) `diff_content` and the decision chain end in `exit(1)`; otherwise
`cmp_xattr_values` skips the attribute (`continue`), `diff_content` returns 0 and
the verdict is "equal, distinct inode", the hard-link path. -/
theorem diff_content_unreadable_xattr (g : Globals) (src_dir ref_dir : DIR) (name : String)
    (w : World) (ns nr : Node) (is ir : Inode)
    (hns : src_dir.lookup name = some ns) (hnr : ref_dir.lookup name = some nr)
    (his : w.inode ns.id = some is) (hir : w.inode nr.id = some ir)
    (hid : ns.id ≠ nr.id) (hreg : S_ISREG is.st_mode = true)
    (h1 : is.st_uid = ir.st_uid) (h2 : is.st_gid = ir.st_gid) (h3 : is.st_mode = ir.st_mode)
    (hdata : is.data = ir.data)
    (hop : is.can_open = true ∧ ir.can_open = true)
    (hmap : is.can_mmap = true ∧ ir.can_mmap = true)
    (hq : w.qsortOk) (hno : g.opt_noxattr = false)
    (hwf : ∀ n ∈ is.xattrs.map Prod.fst, 0 ∉ n)
    (hnames : is.xattrs.map Prod.fst = ir.xattrs.map Prod.fst)
    (hl0 : is.listOk) (hl1 : ir.listOk)
    (hagree : ∀ n ∈ is.xattrs.map Prod.fst,
      fetch is n = none ∨ fetch ir n = none ∨ fetch is n = fetch ir n)
    (hfail : ∃ n ∈ is.xattrs.map Prod.fst, fetch is n = none ∨ fetch ir n = none) :
    (fatal g g.src_path FAIL_XATTR = true →
      (diff_content g src_dir ref_dir name is.data.length w).outcome = .error (.exit 1) ∧
      (dive_decide g src_dir (some ref_dir) name (is.stat ns.id) (.ok (ir.stat nr.id))
        w).outcome = .error (.exit 1)) ∧
    (fatal g g.src_path FAIL_XATTR = false →
      ∃ w1, diff_content g src_dir ref_dir name is.data.length w = .ok 0 w1 ∧
        dive_decide g src_dir (some ref_dir) name (is.stat ns.id) (.ok (ir.stat nr.id)) w
          = .ok (false, false) w1) := by
  have hes := entry_some w src_dir name ns is hns his
  have her := entry_some w ref_dir name nr ir hnr hir
  have hos : openSpec (w.entry src_dir name) = some is := by simp [hes, openSpec, hop.1]
  have hor : openSpec (w.entry ref_dir name) = some ir := by simp [her, openSpec, hop.2]
  have h5 : ¬ ((is.stat ns.id).st_dev = (ir.stat nr.id).st_dev ∧
      (is.stat ns.id).st_ino = (ir.stat nr.id).st_ino) := by
    rintro ⟨a, b⟩
    exact hid (Prod.ext a b)
  have hcmp := dive_decide_compare g src_dir ref_dir name (is.stat ns.id) (ir.stat nr.id) w
    hreg h1 h2 h3 (by simp [Inode.stat, hdata]) h5
  have hrun := diff_content_run g src_dir ref_dir name is.data.length w hq
  have hspec : diffContentSpec g w.qsort (w.entry src_dir name) (w.entry ref_dir name)
      is.data.length = xattrSpec g w.qsort is ir 0 := by
    unfold diffContentSpec
    simp only [hos, hor, mapsSpec_same g is ir _ 0 hmap hdata]
  rw [hspec] at hrun
  have hsz : (is.stat ns.id).st_size = is.data.length := rfl
  rw [hsz] at hcmp
  have hst : stagedList is = stagedList ir := by
    simp only [stagedList, hl0, hl1, if_true, xattrList_eq, hnames]
  have hnm := staged_names_eq is hwf hl0
  have hmem : ∀ n, n ∈ (w.qsort (stagedKeys (stagedList is))).map (cstr (stagedList is)) ↔
      n ∈ is.xattrs.map Prod.fst := by
    intro n
    rw [← hnm]
    exact ((hq _).map _).mem_iff
  have hxs : xattrSpec g w.qsort is ir 0 =
      match cmpValuesSpec (fatal g g.src_path FAIL_XATTR) is ir
          ((w.qsort (stagedKeys (stagedList is))).map (cstr (stagedList is))) with
      | .ok r => if r ≠ 0 then .ok (0 ||| 4) else .ok 0
      | .error e => .error e := by
    unfold xattrSpec
    simp only [hno, Bool.false_eq_true, if_false, hl0, hl1, not_true_eq_false, false_and,
      hst, ne_eq]
  refine ⟨fun hf => ?_, fun hf => ?_⟩
  · have hv : cmpValuesSpec (fatal g g.src_path FAIL_XATTR) is ir
        ((w.qsort (stagedKeys (stagedList is))).map (cstr (stagedList is))) =
        .error (.exit 1) := by
      rw [hf]
      apply cmpValuesSpec_exit
      · intro n hn2; exact hagree n ((hmem n).mp hn2)
      · obtain ⟨n, hn2, hne⟩ := hfail
        exact ⟨n, (hmem n).mpr hn2, hne⟩
    rw [hxs, hv] at hrun
    refine ⟨hrun, ?_⟩
    rw [dive_decide_run, hsz, hrun]
    unfold decideSpec
    simp [Inode.stat, hreg, h1, h2, h3, hdata, h3 ▸ hreg]
    intro a b
    exact absurd (Prod.ext a b) hid
  · have hv : cmpValuesSpec (fatal g g.src_path FAIL_XATTR) is ir
        ((w.qsort (stagedKeys (stagedList is))).map (cstr (stagedList is))) = .ok 0 := by
      rw [hf]
      apply cmpValuesSpec_skip
      intro n hn2
      exact hagree n ((hmem n).mp hn2)
    rw [hxs, hv] at hrun
    simp only [ne_eq, not_true_eq_false, if_false] at hrun
    obtain ⟨w1, e⟩ := res_of_outcome _ _ hrun
    refine ⟨w1, e, ?_⟩
    rw [hcmp, e]
    rfl

/-- C11 at a concrete input: the source file lists `user.k` but the value cannot be
fetched, the reference file carries `user.k = v1`.  With the globals of `main` the
comparison exits with code 1; with an empty failure mask it returns 0 and the
decision chain answers "equal, distinct inode". -/
theorem diff_content_unreadable_xattr_witness :
    (diff_content sampleGlobals sampleAttrSrc sampleAttrRef "a" 1
      sampleUnreadableWorld).outcome = .error (.exit 1) ∧
    (∃ w1, dive_decide sampleGlobalsNoFail sampleAttrSrc (some sampleAttrRef) "a"
      (sampleUnreadableFile.stat (1, 11)) (.ok (sampleAttrFile1.stat (1, 21)))
      sampleUnreadableWorld = .ok (false, false) w1) :=
  have h1 := (diff_content_unreadable_xattr sampleGlobals sampleAttrSrc sampleAttrRef "a"
    sampleUnreadableWorld (.leaf (1, 11)) (.leaf (1, 21)) sampleUnreadableFile sampleAttrFile1
    rfl rfl rfl rfl (by decide) rfl rfl rfl rfl rfl ⟨rfl, rfl⟩ ⟨rfl, rfl⟩
    (fun l => List.Perm.refl l) rfl (by decide) rfl (by decide) (by decide) (by decide)
    ⟨sampleKey, by decide, by decide⟩).1 rfl
  have h2 := (diff_content_unreadable_xattr sampleGlobalsNoFail sampleAttrSrc sampleAttrRef "a"
    sampleUnreadableWorld (.leaf (1, 11)) (.leaf (1, 21)) sampleUnreadableFile sampleAttrFile1
    rfl rfl rfl rfl (by decide) rfl rfl rfl rfl rfl ⟨rfl, rfl⟩ ⟨rfl, rfl⟩
    (fun l => List.Perm.refl l) rfl (by decide) rfl (by decide) (by decide) (by decide)
    ⟨sampleKey, by decide, by decide⟩).2 rfl
  ⟨h1.1, ⟨h2.choose, h2.choose_spec.2⟩⟩


/-- C11 (counterexample to the claim as stated): the source file "a" lists the
attribute `user.k` but its value cannot be fetched; the reference file "a" has the
same uid, gid, mode and bytes and lists the same attribute.  With a failure mask
that leaves the xattr class non-fatal `diff_content` returns 0 and the decision
chain answers "equal, distinct inode", the hard-link path; with the mask `main`
computes the comparison ends in `exit(1)`.  In neither case is the pair classified
"different". -/
theorem diff_content_unreadable_not_different :
    sampleUnreadableWorld.entry sampleAttrSrc "a" = some sampleUnreadableFile ∧
    sampleUnreadableWorld.entry sampleAttrRef "a" = some sampleAttrFile1 ∧
    sampleUnreadableFile.xattrs.map Prod.fst = sampleAttrFile1.xattrs.map Prod.fst ∧
    fetch sampleUnreadableFile sampleKey = none ∧
    (diff_content sampleGlobalsNoFail sampleAttrSrc sampleAttrRef "a" 1
      sampleUnreadableWorld).outcome = .ok 0 ∧
    (dive_decide sampleGlobalsNoFail sampleAttrSrc (some sampleAttrRef) "a"
      (sampleUnreadableFile.stat (1, 11)) (.ok (sampleAttrFile1.stat (1, 21)))
      sampleUnreadableWorld).outcome = .ok (false, false) ∧
    (diff_content sampleGlobals sampleAttrSrc sampleAttrRef "a" 1
      sampleUnreadableWorld).outcome = .error (.exit 1) := by
  refine ⟨rfl, rfl, rfl, rfl, ?_, ?_, ?_⟩ <;> rfl


/-! ## Copy mode: what a run may change in the inode table -/

theorem pres_refl (w : World) : Pres w w := ⟨rfl, fun _ _ h => h⟩

theorem pres_trans (w w1 w2 : World) (h1 : Pres w w1) (h2 : Pres w1 w2) : Pres w w2 :=
  ⟨h2.1.trans h1.1, fun id i h => h2.2 id i (h1.2 id i h)⟩

theorem pres_of_same (w w1 : World) (h : Same w w1) : Pres w w1 :=
  ⟨h.2.1, fun id i hi => by rw [same_inode w w1 h]; exact hi⟩

theorem pres_emit (w : World) (e : Ev) : Pres w (w.emit e) := pres_of_same _ _ (same_emit _ _)

theorem pres_of_trailStep (w w1 : World) (h : TrailStep w w1) : Pres w w1 :=
  ⟨h.2.1, fun id i hi => by unfold World.inode at hi ⊢; rw [h.1]; exact hi⟩

theorem pres_qsortOk (w w1 : World) (h : Pres w w1) (hq : w.qsortOk) : w1.qsortOk :=
  qsortOk_congr w w1 h.1 hq

theorem upd_refl (fid : FileId) (w : World) : Upd fid w w :=
  ⟨rfl, fun _ i h => ⟨i, h, fun _ => rfl, rfl⟩⟩

theorem upd_trans (fid : FileId) (w w1 w2 : World) (h1 : Upd fid w w1) (h2 : Upd fid w1 w2) :
    Upd fid w w2 := by
  refine ⟨h2.1.trans h1.1, fun id i h => ?_⟩
  obtain ⟨i1, e1, e2, e3⟩ := h1.2 id i h
  obtain ⟨i2, f1, f2, f3⟩ := h2.2 id i1 e1
  exact ⟨i2, f1, fun hne => (f2 hne).trans (e2 hne), f3.trans e3⟩

theorem upd_of_same (fid : FileId) (w w1 : World) (h : Same w w1) : Upd fid w w1 :=
  ⟨h.2.1, fun id i hi => ⟨i, by rw [same_inode w w1 h]; exact hi, fun _ => rfl, rfl⟩⟩

theorem upd_setInode (fid : FileId) (w : World) (i j : Inode) (hi : w.inode fid = some i)
    (hd : j.data = i.data) : Upd fid w (w.setInode fid j) := by
  refine ⟨rfl, fun id i2 h => ?_⟩
  by_cases hid : id = fid
  · subst hid
    rw [hi] at h
    cases h
    exact ⟨j, by simp, fun hne => absurd rfl hne, hd⟩
  · exact ⟨i2, by rw [setInode_inode]; simp [hid, h], fun _ => rfl, rfl⟩

theorem pres_of_upd (fid : FileId) (w0 w w1 : World) (h0 : w0.inode fid = none)
    (h1 : Pres w0 w) (h2 : Upd fid w w1) : Pres w0 w1 := by
  refine ⟨h2.1.trans h1.1, fun id i h => ?_⟩
  obtain ⟨i1, e1, e2, _⟩ := h2.2 id i (h1.2 id i h)
  have hne : id ≠ fid := by
    intro e
    rw [e, h0] at h
    cases h
  rw [e1, e2 hne]

theorem rel_pure {α : Type} (R : World → World → Prop) (hr : ∀ w, R w w) (a : α) :
    Steps R (pure a : M α) := ⟨fun w => hr w⟩

theorem rel_stop {α : Type} (R : World → World → Prop) (hr : ∀ w, R w w) (r : Stop) :
    Steps R (fun w => (Res.stop r w : Res α)) := ⟨fun w => hr w⟩

theorem rel_bind {α β : Type} (R : World → World → Prop)
    (ht : ∀ a b c, R a b → R b c → R a c) (m : M α) (f : α → M β)
    (hm : Steps R m) (hf : ∀ a, Steps R (f a)) : Steps R (m >>= f) := by
  constructor
  intro w
  have h1 := hm.run w
  simp only [run_bind]
  cases h : m w with
  | ok a w1 =>
    rw [h] at h1
    exact ht _ _ _ h1 ((hf a).run w1)
  | stop r w1 =>
    rw [h] at h1
    exact h1

theorem rel_bind_val {α β : Type} (R : World → World → Prop)
    (ht : ∀ a b c, R a b → R b c → R a c) (Q : α → Prop) (m : M α) (f : α → M β)
    (hm : Steps R m) (hq : Returns Q m) (hf : ∀ a, Q a → Steps R (f a)) :
    Steps R (m >>= f) := by
  constructor
  intro w
  have h1 := hm.run w
  simp only [run_bind]
  cases h : m w with
  | ok a w1 =>
    rw [h] at h1
    exact ht _ _ _ h1 ((hf a (hq.run w a w1 h)).run w1)
  | stop r w1 =>
    rw [h] at h1
    exact h1

theorem rel_of_same {α : Type} (R : World → World → Prop) (hs : ∀ w w1, Same w w1 → R w w1)
    (good : Ev → Bool) (m : M α) (h : Steps (Eff true good) m) : Steps R m :=
  ⟨fun w => hs _ _ ((h.run w).1 rfl)⟩

theorem upd_fchmodat (fid : FileId) (dir : DIR) (name : String) (mode : Nat)
    (h : ∀ n, dir.lookup name = some n → n.id = fid) :
    Steps (Upd fid) (fchmodat dir name mode) := by
  constructor
  intro w
  unfold fchmodat
  cases hn : dir.lookup name with
  | none => exact upd_of_same _ _ _ (same_emit _ _)
  | some n =>
    have hid := h n hn
    subst hid
    simp only
    cases hi : w.inode n.id with
    | none => exact upd_of_same _ _ _ (same_emit _ _)
    | some i =>
      simp only
      split
      · exact upd_trans _ _ _ _ (upd_of_same _ _ _ (same_emit _ _))
          (upd_setInode _ _ i _ (by simpa using hi) rfl)
      · exact upd_of_same _ _ _ (same_emit _ _)

theorem upd_fchownat (fid : FileId) (dir : DIR) (name : String) (uid gid : Nat)
    (h : ∀ n, dir.lookup name = some n → n.id = fid) :
    Steps (Upd fid) (fchownat dir name uid gid) := by
  constructor
  intro w
  unfold fchownat
  cases hn : dir.lookup name with
  | none => exact upd_of_same _ _ _ (same_emit _ _)
  | some n =>
    have hid := h n hn
    subst hid
    simp only
    cases hi : w.inode n.id with
    | none => exact upd_of_same _ _ _ (same_emit _ _)
    | some i =>
      simp only
      split
      · exact upd_trans _ _ _ _ (upd_of_same _ _ _ (same_emit _ _))
          (upd_setInode _ _ i _ (by simpa using hi) rfl)
      · exact upd_of_same _ _ _ (same_emit _ _)

theorem upd_fsetxattr (fid : FileId) (key value : Bytes) :
    Steps (Upd fid) (fsetxattr fid key value) := by
  constructor
  intro w
  unfold fsetxattr
  cases hi : w.inode fid with
  | none => exact upd_of_same _ _ _ (same_emit _ _)
  | some i =>
    simp only
    split
    · exact upd_trans _ _ _ _ (upd_of_same _ _ _ (same_emit _ _))
        (upd_setInode _ _ i _ (by simpa using hi) rfl)
    · exact upd_of_same _ _ _ (same_emit _ _)

theorem upd_ro {α : Type} (fid : FileId) (m : M α) (h : Steps (Eff true allEv) m) :
    Steps (Upd fid) m :=
  rel_of_same _ (upd_of_same fid) allEv m h

theorem steps_wrap_open_ro (g : Globals) (pfx : Option String) (dir : DIR) (name : String)
    (fail : Nat) : Steps (Eff true allEv) (wrap_open g pfx dir name fail) := by
  unfold wrap_open
  repeat' first
    | apply steps_pure
    | apply steps_bind
    | apply steps_ite
    | apply steps_errhandle
    | apply steps_openat
    | rfl
    | intro _

theorem steps_load_xattr_names_ro (g : Globals) (pfx : Option String) (fd : FileId)
    (reg : Nat) : Steps (Eff true allEv) (load_xattr_names g pfx fd reg) := by
  unfold load_xattr_names
  repeat' first
    | apply steps_pure
    | apply steps_bind
    | apply steps_ite
    | apply steps_stop
    | apply steps_getWorld
    | apply steps_modifyArena
    | apply steps_errhandle
    | apply steps_flistxattr
    | rfl
    | intro _
    | split

theorem returns_wrap_open (g : Globals) (pfx : Option String) (dir : DIR) (name : String)
    (fail : Nat) :
    Returns (fun fd => ∀ x, fd = some x → ∃ n, dir.lookup name = some n ∧ n.id = x)
      (wrap_open g pfx dir name fail) := by
  constructor
  intro w a w1 h x hx
  subst hx
  unfold wrap_open at h
  obtain ⟨fd, w2, h1, h2⟩ := bind_ok _ _ _ _ _ h
  have hfd : fd = some x := by
    cases fd with
    | none =>
      simp only [Option.isNone_none, if_true] at h2
      obtain ⟨u, w3, _, h4⟩ := bind_ok _ _ _ _ _ h2
      have : (Res.ok none w3 : Res (Option FileId)) = .ok (some x) w1 := h4
      cases this
    | some y =>
      have : (Res.ok (some y) w2 : Res (Option FileId)) = .ok (some x) w1 := h2
      cases this
      rfl
  subst hfd
  unfold openat at h1
  cases hn : dir.lookup name with
  | none => simp [hn] at h1
  | some n =>
    simp only [hn] at h1
    cases hi : w.inode n.id with
    | none => simp [hi] at h1
    | some i =>
      simp only [hi] at h1
      split at h1
      · simp only [Res.ok.injEq, Option.some.injEq] at h1
        exact ⟨n, rfl, h1.1⟩
      · simp at h1

theorem upd_transfer_mode (g : Globals) (pfx : Option String) (st : Stat) (dir : DIR)
    (name : String) (fid : FileId) (h : ∀ n, dir.lookup name = some n → n.id = fid) :
    Steps (Upd fid) (transfer_mode g pfx st dir name) := by
  unfold transfer_mode
  repeat' first
    | apply rel_pure _ (upd_refl _)
    | apply rel_bind _ (upd_trans _)
    | apply steps_ite
    | exact upd_fchmodat fid dir name _ h
    | exact upd_ro _ _ (steps_errhandle true allEv _ _ _ _ _ (fun _ => rfl))
    | intro _

theorem upd_transfer_owner (g : Globals) (pfx : Option String) (st : Stat) (dir : DIR)
    (name : String) (fid : FileId) (h : ∀ n, dir.lookup name = some n → n.id = fid) :
    Steps (Upd fid) (transfer_owner g pfx st dir name) := by
  unfold transfer_owner
  repeat' first
    | apply rel_pure _ (upd_refl _)
    | apply rel_bind _ (upd_trans _)
    | apply steps_ite
    | exact upd_fchownat fid dir name _ _ h
    | exact upd_ro _ _ (steps_errhandle true allEv _ _ _ _ _ (fun _ => rfl))
    | intro _

theorem upd_transfer_xattr_loop (g : Globals) (src_fd dst_fd : FileId)
    (src_name dst_name : String) (keys : List Nat) :
    Steps (Upd dst_fd) (transfer_xattr_loop g src_fd dst_fd src_name dst_name keys) := by
  induction keys with
  | nil => exact rel_pure _ (upd_refl _) _
  | cons key rest ih =>
    unfold transfer_xattr_loop
    repeat' first
      | exact ih
      | apply rel_pure _ (upd_refl _)
      | apply rel_bind _ (upd_trans _)
      | apply steps_ite
      | exact upd_fsetxattr _ _ _
      | exact upd_ro _ _ (steps_getWorld true allEv)
      | exact upd_ro _ _ (steps_errhandle true allEv _ _ _ _ _ (fun _ => rfl))
      | exact upd_ro _ _ (steps_fgetxattr true allEv _ _ _ rfl)
      | intro _

theorem upd_transfer_xattr (g : Globals) (s d : DIR) (name : String) (fid : FileId)
    (h : ∀ n, d.lookup name = some n → n.id = fid) :
    Steps (Upd fid) (transfer_xattr g s d name name) := by
  unfold transfer_xattr
  apply rel_bind _ (upd_trans _) _ _ (upd_ro _ _ (steps_wrap_open_ro _ _ _ _ _))
  intro sfd
  cases sfd with
  | none => exact rel_pure _ (upd_refl _) _
  | some sfd =>
    simp only
    apply rel_bind_val _ (upd_trans _) _ _ _ (upd_ro _ _ (steps_wrap_open_ro _ _ _ _ _))
      (returns_wrap_open g g.dst_path d name 0)
    intro dfd hq
    cases dfd with
    | none => exact upd_ro _ _ (steps_close true allEv _ rfl)
    | some dfd =>
      obtain ⟨n, hn, hid⟩ := hq dfd rfl
      have : dfd = fid := by rw [← hid]; exact h n hn
      subst this
      simp only
      repeat' first
        | exact upd_transfer_xattr_loop _ _ _ _ _ _
        | exact upd_ro _ _ (steps_load_xattr_names_ro _ _ _ _)
        | exact upd_ro _ _ (steps_getWorld true allEv)
        | exact upd_ro _ _ (steps_close true allEv _ rfl)
        | apply rel_bind _ (upd_trans _)
        | intro _

theorem copy_file_loop_done (g : Globals) (dfd : FileId) (name : String)
    (hf : fatal g g.dst_path FAIL_COPY = true) :
    ∀ (fuel left : Nat) (p : Bytes) (w w1 : World) (i : Inode), w.inode dfd = some i →
      copy_file_loop g dfd name fuel left p w = .ok () w1 →
      w1.qsort = w.qsort ∧ w1.inode dfd = some { i with data := i.data ++ p.take left } ∧
        ∀ id, id ≠ dfd → w1.inode id = w.inode id := by
  intro fuel
  induction fuel with
  | zero =>
    intro left p w w1 i _ h
    simp [copy_file_loop] at h
  | succ fuel ih =>
    intro left p w w1 i hi h
    unfold copy_file_loop at h
    by_cases hl : left = 0
    · subst hl
      simp only [bne_self_eq_false, Bool.false_eq_true, if_false] at h
      have : (Res.ok () w : Res Unit) = .ok () w1 := h
      cases this
      exact ⟨rfl, by simpa using hi, fun _ _ => rfl⟩
    · have hl2 : (left != 0) = true := by simpa using hl
      rw [if_pos hl2] at h
      obtain ⟨rs, w2, h1, h2⟩ := bind_ok _ _ _ _ _ h
      by_cases hrs : rs ≤ 0
      · rw [if_pos hrs, errhandle_eq, if_pos hf] at h2
        cases h2
      · rw [if_neg hrs] at h2
        unfold write at h1
        simp only [hi] at h1
        generalize hn : (if w.wr w.n_wr ≤ 0 then w.wr w.n_wr else min (w.wr w.n_wr) (left : Int)) = n
          at h1
        have hnle : n ≤ left := by
          rw [← hn]
          split <;> omega
        by_cases hn0 : n ≤ 0
        · rw [if_pos hn0] at h1
          simp only [Res.ok.injEq] at h1
          rw [h1.1] at hn0
          exact absurd hn0 hrs
        · rw [if_neg hn0] at h1
          simp only [Res.ok.injEq] at h1
          obtain ⟨e1, e2⟩ := h1
          subst e1 e2
          obtain ⟨f1, f2, f3⟩ := ih _ _ _ _ { i with data := i.data ++ p.take n.toNat }
            (by simp) h2
          have hle : n.toNat ≤ left := by omega
          refine ⟨f1, ?_, fun id hid => ?_⟩
          · rw [f2]
            simp only [List.append_assoc, Option.some.injEq, Inode.mk.injEq, true_and,
              List.append_cancel_left_eq, and_true]
            have : left = n.toNat + (left - n.toNat) := by omega
            conv_rhs => rw [this, List.take_add]
          · rw [f3 id hid, setInode_inode]
            simp [hid]
            rfl

theorem wrap_creat_done (g : Globals) (pfx : Option String) (dir : DIR) (name : String)
    (mode : Nat) (w : World) (r : Option FileId × DIR) (w1 : World)
    (hf : fatal g pfx FAIL_CREAT = true) (hfresh : dir.lookup name = none)
    (h : wrap_creat g pfx dir name mode w = .ok r w1) :
    r = (some (dir.id.1, w.fresh), dir.add name (.leaf (dir.id.1, w.fresh))) ∧
      w1 = (w.emit (.creat dir.id name mode)).setInode (dir.id.1, w.fresh)
          { st_mode := S_IFREG ||| newMode w mode, st_uid := w.euid, st_gid := w.egid } := by
  unfold wrap_creat at h
  obtain ⟨a, w2, h1, h2⟩ := bind_ok _ _ _ _ _ h
  have ha : a.1.isNone = false := by
    by_contra hc
    have hc2 : a.1.isNone = true := by simpa using hc
    rw [if_pos hc2] at h2
    obtain ⟨u, w3, h3, _⟩ := bind_ok _ _ _ _ _ h2
    rw [errhandle_eq, if_pos hf] at h3
    cases h3
  simp only [ha, Bool.false_eq_true, if_false] at h2
  have h3 : (Res.ok a w2 : Res (Option FileId × DIR)) = .ok r w1 := h2
  cases h3
  unfold openat_creat at h1
  simp only [hfresh] at h1
  cases hdi : w.inode dir.id with
  | none =>
    simp only [hdi, Res.ok.injEq] at h1
    rw [← h1.1] at ha
    simp at ha
  | some di =>
    simp only [hdi] at h1
    split at h1
    · simp only [Res.ok.injEq] at h1
      exact ⟨h1.1.symm, h1.2.symm⟩
    · simp only [Res.ok.injEq] at h1
      rw [← h1.1] at ha
      simp at ha

theorem copy_file_done (g : Globals) (sd dd : DIR) (name : String) (size mode : Nat)
    (w : World) (d1 : DIR) (w1 : World)
    (hg : g.fromMain) (hdst : g.dst_path.isSome = true) (hfresh : dd.lookup name = none)
    (h : copy_file g sd dd name size mode w = .ok d1 w1) :
    d1 = dd.add name (.leaf (dd.id.1, w.fresh)) ∧ w.inode (dd.id.1, w.fresh) = none ∧
      Pres w w1 ∧
      ∃ i1, w1.inode (dd.id.1, w.fresh) = some i1 ∧
        ∀ is, w.entry sd name = some is → i1.data = is.data.take size := by
  have hnone : w.inode (dd.id.1, w.fresh) = none := by
    cases hx : w.inode (dd.id.1, w.fresh) with
    | none => rfl
    | some i => exact absurd rfl (fresh_ne w _ i hx dd.id.1)
  unfold copy_file at h
  obtain ⟨r, w2, h1, h2⟩ := bind_ok _ _ _ _ _ h
  obtain ⟨e1, e2⟩ := wrap_creat_done g g.dst_path dd name mode w r w2
    (fatal_of_main g g.dst_path FAIL_CREAT hg.1 hdst (by decide) (by decide)) hfresh h1
  subst e1 e2
  simp only at h2
  have hkeep : ∀ id i, w.inode id = some i →
      ((w.emit (.creat dd.id name mode)).setInode (dd.id.1, w.fresh)
        { st_mode := S_IFREG ||| newMode w mode, st_uid := w.euid, st_gid := w.egid }).inode id
        = some i := by
    intro id i hi
    have hne : id ≠ (dd.id.1, w.fresh) := fresh_ne w id i hi _
    rw [setInode_inode]
    simp [hne, hi]
  by_cases h0 : size = 0
  · subst h0
    simp only [bne_self_eq_false, Bool.false_eq_true, if_false] at h2
    have h3 : (Res.ok (dd.add name (.leaf (dd.id.1, w.fresh)))
        (((w.emit (.creat dd.id name mode)).setInode (dd.id.1, w.fresh)
          { st_mode := S_IFREG ||| newMode w mode, st_uid := w.euid, st_gid := w.egid }).emit
          (.close (some (dd.id.1, w.fresh)))) : Res DIR) = .ok d1 w1 := h2
    cases h3
    refine ⟨rfl, hnone, ⟨rfl, fun id i hi => by simpa using hkeep id i hi⟩,
      { st_mode := S_IFREG ||| newMode w mode, st_uid := w.euid, st_gid := w.egid },
      by simp, fun is _ => by simp⟩
  · have h0b : (size != 0) = true := by simpa using h0
    rw [if_pos h0b] at h2
    obtain ⟨sfd, w3, h3, h4⟩ := bind_ok _ _ _ _ _ h2
    have hfs := fatal_of_main g g.src_path FAIL_COPY hg.1 hg.2.1 (by decide) (by decide)
    have hfm := fatal_of_main g g.src_path FAIL_MMAP hg.1 hg.2.1 (by decide) (by decide)
    have hfc := fatal_of_main g g.dst_path FAIL_COPY hg.1 hdst (by decide) (by decide)
    cases hs : openSpec (((w.emit (.creat dd.id name mode)).setInode (dd.id.1, w.fresh)
        { st_mode := S_IFREG ||| newMode w mode, st_uid := w.euid, st_gid := w.egid }).entry
        sd name) with
    | none =>
      rw [wrap_open_none g g.src_path sd name FAIL_COPY _ hs, if_pos hfs] at h3
      cases h3
    | some is1 =>
      obtain ⟨fd, e3, hfd, n, hn, hnid⟩ := wrap_open_some g g.src_path sd name FAIL_COPY _ is1 hs
      rw [e3] at h3
      simp only [Res.ok.injEq] at h3
      obtain ⟨e4, e5⟩ := h3
      subst e4 e5
      simp only at h4
      obtain ⟨mp, w4, h5, h6⟩ := bind_ok _ _ _ _ _ h4
      unfold wrap_mmap at h5
      obtain ⟨mp2, w5, h7, h8⟩ := bind_ok _ _ _ _ _ h5
      rw [mmap_run size fd _ is1 (by simpa using hfd)] at h7
      simp only [Res.ok.injEq] at h7
      obtain ⟨e6, e7⟩ := h7
      subst e6 e7
      by_cases hm : is1.can_mmap = true ∧ size ≠ 0
      · simp only [hm, ne_eq, not_false_eq_true, and_self, if_true, Option.isNone_some,
          Bool.false_eq_true, if_false] at h8
        have h9 : (Res.ok (some (is1.data.take size)) _ : Res (Option Bytes)) = .ok mp w4 := h8
        cases h9
        simp only at h6
        obtain ⟨u, w6, h10, h11⟩ := bind_ok _ _ _ _ _ h6
        obtain ⟨f1, f2, f3⟩ := copy_file_loop_done g (dd.id.1, w.fresh) name hfc _ _ _ _ _
          { st_mode := S_IFREG ||| newMode w mode, st_uid := w.euid, st_gid := w.egid }
          (by simp) h10
        have h12 : (Res.ok (dd.add name (.leaf (dd.id.1, w.fresh)))
            (((w6.emit (.munmap size)).emit (.close (some fd))).emit
              (.close (some (dd.id.1, w.fresh)))) : Res DIR) = .ok d1 w1 := h11
        cases h12
        have hi1 : ∃ i1, ((((w6.emit (.munmap size)).emit (.close (some fd))).emit
            (.close (some (dd.id.1, w.fresh)))).inode (dd.id.1, w.fresh) = some i1) ∧
            i1.data = is1.data.take size :=
          ⟨_, (by simp only [emit_inode]; exact f2), by simp⟩
        obtain ⟨i1, hi1a, hi1b⟩ := hi1
        refine ⟨rfl, hnone, ⟨by simpa using f1, fun id i hi => ?_⟩, i1, hi1a,
          fun is his => ?_⟩
        · have hne : id ≠ (dd.id.1, w.fresh) := fresh_ne w id i hi _
          simp only [emit_inode, f3 id hne]
          simpa using hkeep id i hi
        · have : is1 = is := by
            unfold World.entry at his
            rw [hn] at his
            simp only [Option.some_bind] at his
            have := hkeep n.id is his
            rw [hnid] at this
            rw [hfd] at this
            cases this
            rfl
          subst this
          exact hi1b
      · simp only [hm, if_false, Option.isNone_none, if_true] at h8
        obtain ⟨u, w6, h9, _⟩ := bind_ok _ _ _ _ _ h8
        rw [errhandle_eq, if_pos hfm] at h9
        cases h9

theorem fresh_none (w : World) (d : Nat) : w.inode (d, w.fresh) = none := by
  cases hx : w.inode (d, w.fresh) with
  | none => rfl
  | some i => exact absurd rfl (fresh_ne w _ i hx d)

theorem pres_setInode_fresh (w : World) (d : Nat) (e : Ev) (i : Inode) :
    Pres w ((w.emit e).setInode (d, w.fresh) i) := by
  refine ⟨rfl, fun id j hj => ?_⟩
  have hne : id ≠ (d, w.fresh) := fresh_ne w id j hj d
  rw [setInode_inode]
  simp [hne, hj]

theorem wrap_symlink_done (g : Globals) (pfx : Option String) (target : Bytes) (dir : DIR)
    (name : String) (w : World) (r : Int × DIR) (w1 : World)
    (hf : fatal g pfx FAIL_MUST = true) (hfresh : dir.lookup name = none)
    (h : wrap_symlink g pfx target dir name w = .ok r w1) :
    r.2 = dir.add name (.leaf (dir.id.1, w.fresh)) ∧ Pres w w1 ∧
      (w1.inode (dir.id.1, w.fresh)).isSome = true := by
  unfold wrap_symlink at h
  obtain ⟨a, w2, h1, h2⟩ := bind_ok _ _ _ _ _ h
  by_cases ha : a.1 = -1
  · simp [ha, errhandle_eq, hf] at h2
  · simp only [beq_iff_eq, ha, if_false, run_bind] at h2
    have h3 : (Res.ok a w2 : Res (Int × DIR)) = .ok r w1 := h2
    cases h3
    unfold symlinkat at h1
    simp only [hfresh] at h1
    cases hdi : w.inode dir.id with
    | none =>
      simp only [hdi, Res.ok.injEq] at h1
      rw [← h1.1] at ha
      simp at ha
    | some di =>
      simp only [hdi] at h1
      split at h1
      · simp only [Res.ok.injEq] at h1
        obtain ⟨e1, e2⟩ := h1
        subst e1 e2
        exact ⟨rfl, pres_setInode_fresh _ _ _ _, by simp⟩
      · simp only [Res.ok.injEq] at h1
        rw [← h1.1] at ha
        simp at ha

theorem wrap_mknod_done (g : Globals) (pfx : Option String) (dir : DIR)
    (name : String) (mode dev : Nat) (w : World) (r : Int × DIR) (w1 : World)
    (hf : fatal g pfx FAIL_MKNOD = true) (hfresh : dir.lookup name = none)
    (h : wrap_mknod g pfx dir name mode dev w = .ok r w1) :
    r.2 = dir.add name (.leaf (dir.id.1, w.fresh)) ∧ Pres w w1 ∧
      (w1.inode (dir.id.1, w.fresh)).isSome = true := by
  unfold wrap_mknod at h
  obtain ⟨a, w2, h1, h2⟩ := bind_ok _ _ _ _ _ h
  by_cases ha : a.1 = -1
  · simp [ha, errhandle_eq, hf] at h2
  · simp only [beq_iff_eq, ha, if_false, run_bind] at h2
    have h3 : (Res.ok a w2 : Res (Int × DIR)) = .ok r w1 := h2
    cases h3
    unfold mknodat at h1
    simp only [hfresh] at h1
    cases hdi : w.inode dir.id with
    | none =>
      simp only [hdi, Res.ok.injEq] at h1
      rw [← h1.1] at ha
      simp at ha
    | some di =>
      simp only [hdi] at h1
      split at h1
      · simp only [Res.ok.injEq] at h1
        obtain ⟨e1, e2⟩ := h1
        subst e1 e2
        exact ⟨rfl, pres_setInode_fresh _ _ _ _, by simp⟩
      · simp only [Res.ok.injEq] at h1
        rw [← h1.1] at ha
        simp at ha

theorem wrap_mkdir_p_done (g : Globals) (pfx : Option String) (dir : DIR)
    (name : String) (mode : Nat) (w : World) (r : Int × DIR) (w1 : World)
    (hf : fatal g pfx FAIL_MUST = true) (hfresh : dir.lookup name = none)
    (h : wrap_mkdir_p g pfx dir name mode w = .ok r w1) :
    r.2 = dir.add name (.dir (dir.id.1, w.fresh) []) ∧ Pres w w1 ∧
      ∃ i, w1.inode (dir.id.1, w.fresh) = some i ∧ i.can_open = true := by
  unfold wrap_mkdir_p at h
  obtain ⟨a, w2, h1, h2⟩ := bind_ok _ _ _ _ _ h
  unfold mkdirat at h1
  simp only [hfresh] at h1
  cases hdi : w.inode dir.id with
  | none =>
    simp only [hdi, Res.ok.injEq] at h1
    obtain ⟨e1, e2⟩ := h1
    subst e1 e2
    simp only [ENOENT, EEXIST] at h2
    obtain ⟨u, w3, h4, _⟩ := bind_ok _ _ _ _ _ h2
    rw [errhandle_eq, if_pos hf] at h4
    cases h4
  | some di =>
    simp only [hdi] at h1
    split at h1
    · simp only [Res.ok.injEq] at h1
      obtain ⟨e1, e2⟩ := h1
      subst e1 e2
      have h3 : (Res.ok ((0 : Int), dir.add name (.dir (dir.id.1, w.fresh) [])) _ :
          Res (Int × DIR)) = .ok r w1 := h2
      cases h3
      exact ⟨rfl, pres_setInode_fresh _ _ _ _,
        { st_mode := S_IFDIR ||| newMode w mode, st_uid := w.euid, st_gid := w.egid },
        by simp, rfl⟩
    · simp only [Res.ok.injEq] at h1
      obtain ⟨e1, e2⟩ := h1
      subst e1 e2
      simp only [EACCES, EEXIST] at h2
      obtain ⟨u, w3, h4, _⟩ := bind_ok _ _ _ _ _ h2
      rw [errhandle_eq, if_pos hf] at h4
      cases h4

theorem steps_wrap_link_ro (g : Globals) (pfx : Option String) (rd dd : DIR) (name : String) :
    Steps (Eff true allEv) (wrap_link g pfx rd dd name) := by
  have hl : Steps (Eff true allEv) (linkat rd dd name) := by
    constructor
    intro w
    unfold linkat
    have := eff_emit true allEv w (.linkat rd.id dd.id name) rfl
    dsimp only
    repeat' split
    all_goals exact this
  unfold wrap_link
  repeat' first
    | exact hl
    | apply steps_pure
    | apply steps_bind
    | apply steps_ite
    | apply steps_errhandle
    | rfl
    | intro _

theorem steps_wrap_readlink_ro (g : Globals) (pfx : Option String) (dir : DIR) (name : String)
    (n : Nat) : Steps (Eff true allEv) (wrap_readlink g pfx dir name n) := by
  have hl : Steps (Eff true allEv) (readlinkat dir name n) := by
    constructor
    intro w
    unfold readlinkat
    have := eff_emit true allEv w (.readlinkat dir.id name) rfl
    dsimp only
    repeat' split
    all_goals exact this
  unfold wrap_readlink
  repeat' first
    | exact hl
    | apply steps_pure
    | apply steps_bind
    | apply steps_ite
    | apply steps_errhandle
    | rfl
    | intro _
    | split

theorem rel_of_steps {α : Type} (R : World → World → Prop) (m : M α) (a : α) (w w1 : World)
    (hs : Steps R m) (h : m w = .ok a w1) : R w w1 := by
  have := hs.run w
  rw [h] at this
  exact this

theorem transfers_done (g : Globals) (st : Stat) (s1 d1 : DIR) (name : String) (fid : FileId)
    (w : World) (x : DIR × DIR) (w1 : World)
    (hid : ∀ n, d1.lookup name = some n → n.id = fid)
    (h : (transfer_mode g g.dst_path st d1 name >>= fun _ =>
          transfer_owner g g.dst_path st d1 name >>= fun _ =>
            if (!g.opt_noxattr && (S_ISREG st.st_mode || S_ISDIR st.st_mode)) = true then
              transfer_xattr g s1 d1 name name >>= fun _ => (pure (s1, d1) : M (DIR × DIR))
            else pure PUnit.unit >>= fun _ => (pure (s1, d1) : M (DIR × DIR))) w = .ok x w1) :
    x = (s1, d1) ∧ Upd fid w w1 := by
  obtain ⟨a, wa, h1, h2⟩ := bind_ok _ _ _ _ _ h
  have u1 := rel_of_steps _ _ _ _ _ (upd_transfer_mode g g.dst_path st d1 name fid hid) h1
  obtain ⟨b, wb, h3, h4⟩ := bind_ok _ _ _ _ _ h2
  have u2 := rel_of_steps _ _ _ _ _ (upd_transfer_owner g g.dst_path st d1 name fid hid) h3
  have u12 := upd_trans _ _ _ _ u1 u2
  by_cases hc : (!g.opt_noxattr && (S_ISREG st.st_mode || S_ISDIR st.st_mode)) = true
  · rw [if_pos hc] at h4
    obtain ⟨c, wc, h5, h6⟩ := bind_ok _ _ _ _ _ h4
    have u3 := rel_of_steps _ _ _ _ _ (upd_transfer_xattr g s1 d1 name fid hid) h5
    have h7 : (Res.ok (s1, d1) wc : Res (DIR × DIR)) = .ok x w1 := h6
    cases h7
    exact ⟨rfl, upd_trans _ _ _ _ u12 u3⟩
  · rw [if_neg hc] at h4
    have h7 : (Res.ok (s1, d1) wb : Res (DIR × DIR)) = .ok x w1 := h4
    cases h7
    exact ⟨rfl, u12⟩

theorem lookup_add (d : DIR) (name n : String) (x : Node) :
    (d.add name x).lookup n = if n = name then some x else d.lookup n := by
  unfold DIR.add DIR.lookup
  simp only [List.lookup_cons]
  by_cases hn : n = name
  · subst hn; simp
  · have : (n == name) = false := by simpa using hn
    simp [this, hn]

theorem copy_tail_done (g : Globals) (st : Stat) (sd dd d1 : DIR) (name : String)
    (fid : FileId) (w w3 : World) (x : DIR × DIR) (w1 : World)
    (hid : ∀ n, d1.lookup name = some n → n.id = fid) (h0 : w.inode fid = none)
    (hp : Pres w w3) (hd : d1.id = dd.id) (hlk : ∀ n, n ≠ name → d1.lookup n = dd.lookup n)
    (h : (transfer_mode g g.dst_path st d1 name >>= fun _ =>
          transfer_owner g g.dst_path st d1 name >>= fun _ =>
            if (!g.opt_noxattr && (S_ISREG st.st_mode || S_ISDIR st.st_mode)) = true then
              transfer_xattr g sd d1 name name >>= fun _ => (pure (sd, d1) : M (DIR × DIR))
            else pure PUnit.unit >>= fun _ => (pure (sd, d1) : M (DIR × DIR))) w3 = .ok x w1) :
    x.1 = sd ∧ x.2.id = dd.id ∧ (∀ n, n ≠ name → x.2.lookup n = dd.lookup n) ∧ Pres w w1 := by
  obtain ⟨f1, f2⟩ := transfers_done g st sd d1 name fid w3 x w1 hid h
  subst f1
  exact ⟨rfl, hd, hlk, pres_of_upd _ w w3 w1 h0 hp f2⟩

theorem wf_child (sd : DIR) (name : String) (c : DIR) (hwf : ∀ e ∈ sd.entries, e.2.Wf)
    (h : sd.lookup name = some (.dir c.id c.entries)) : c.Wf := by
  have hm := lookup_mem sd.entries name _ h
  have := hwf _ hm
  cases this with
  | dir id es hn hc => exact ⟨hn, hc⟩

/-! ## Copy mode: the tree the walk reaches -/

theorem isdir_not_reg (m : Nat) (h : S_ISDIR m = true) :
    S_ISREG m = false ∧ S_ISLNK m = false := by
  unfold S_ISDIR at h
  have h1 : m &&& S_IFMT = S_IFDIR := by simpa using h
  unfold S_ISREG S_ISLNK
  rw [h1]
  exact ⟨by decide, by decide⟩

theorem present_inode (w : World) (n : Node) (h : Node.Present w n) :
    ∃ i, w.inode n.id = some i := by
  cases h with
  | leaf id i h => exact ⟨i, h⟩
  | dir id es i h hc => exact ⟨i, h⟩

theorem present_lookup (w : World) (d : DIR) (name : String) (m : Node) (h : d.Present w)
    (hl : d.lookup name = some m) : Node.Present w m :=
  h _ (lookup_mem d.entries name m hl)

theorem present_child (w : World) (id : FileId) (es : List (String × Node))
    (h : Node.Present w (.dir id es)) : DIR.Present w { id := id, entries := es } := by
  cases h with
  | dir id es i h hc => exact hc

theorem present_pres (w w1 : World) (hp : Pres w w1) (n : Node) (h : Node.Present w n) :
    Node.Present w1 n := by
  induction h with
  | leaf id i h => exact .leaf id i (hp.2 _ _ h)
  | dir id es i h _ ih => exact .dir id es i (hp.2 _ _ h) ih

theorem dirPresent_pres (w w1 : World) (hp : Pres w w1) (r : Option DIR)
    (h : ∀ rd, r = some rd → rd.Present w) : ∀ rd, r = some rd → rd.Present w1 :=
  fun rd e x hx => present_pres w w1 hp _ (h rd e x hx)

theorem refPresent_of_present (w : World) (r : Option DIR) (name : String)
    (h : ∀ rd, r = some rd → rd.Present w) : RefPresent w r name :=
  fun rd m e hl => present_inode w m (present_lookup w rd name m (h rd e) hl)

theorem opendir_present (w : World) (r : Option DIR) (name : String)
    (h : ∀ rd, r = some rd → rd.Present w) :
    ∀ c, r.bind (fun rd => opendirSpec w rd name) = some c → c.Present w := by
  intro c hc
  cases r with
  | none => cases hc
  | some rd =>
    simp only [Option.some_bind] at hc
    obtain ⟨hl, _⟩ := opendirSpec_some w rd name c hc
    exact present_child w c.id c.entries (present_lookup w rd name _ (h rd rfl) hl)

theorem statSpec_pres (w w1 : World) (hp : Pres w w1) (d : DIR) (name : String) (st : Stat)
    (h : statSpec w d name = .ok st) : statSpec w1 d name = .ok st := by
  obtain ⟨n, i, hn, hi, e⟩ := statSpec_ok w d name st h
  unfold statSpec
  rw [hn]
  simp only [hp.2 _ _ hi, e]

theorem entry_pres (w w1 : World) (hp : Pres w w1) (d : DIR) (name : String)
    (h : ∀ m, d.lookup name = some m → ∃ i, w.inode m.id = some i) :
    w1.entry d name = w.entry d name := by
  unfold World.entry
  cases hl : d.lookup name with
  | none => rfl
  | some m =>
    obtain ⟨i, hi⟩ := h m hl
    simp only [Option.some_bind, hi, hp.2 _ _ hi]

theorem statSpec_pres_eq (w w1 : World) (hp : Pres w w1) (d : DIR) (name : String)
    (h : ∀ m, d.lookup name = some m → ∃ i, w.inode m.id = some i) :
    statSpec w1 d name = statSpec w d name := by
  unfold statSpec
  cases hl : d.lookup name with
  | none => rfl
  | some m =>
    obtain ⟨i, hi⟩ := h m hl
    simp only [hi, hp.2 _ _ hi]

theorem opendirSpec_pres (w w1 : World) (hp : Pres w w1) (d : DIR) (name : String)
    (h : ∀ m, d.lookup name = some m → ∃ i, w.inode m.id = some i) :
    opendirSpec w1 d name = opendirSpec w d name := by
  unfold opendirSpec
  rw [entry_pres w w1 hp d name h]

theorem opendirSpec_pres_some (w w1 : World) (hp : Pres w w1) (d : DIR) (name : String)
    (c : DIR) (h : opendirSpec w d name = some c) : opendirSpec w1 d name = some c := by
  rw [opendirSpec_pres w w1 hp d name, h]
  intro m hm
  obtain ⟨_, ho⟩ := opendirSpec_some w d name c h
  unfold World.entry at ho
  rw [hm] at ho
  simp only [Option.some_bind] at ho
  cases hi : w.inode m.id with
  | none => rw [hi] at ho; simp [openSpec] at ho
  | some i => exact ⟨i, rfl⟩

theorem refOpendir_pres (w w1 : World) (hp : Pres w w1) (r : Option DIR) (name : String)
    (h : ∀ rd, r = some rd → rd.Present w) :
    r.bind (fun rd => opendirSpec w1 rd name) = r.bind (fun rd => opendirSpec w rd name) := by
  cases r with
  | none => rfl
  | some rd =>
    simp only [Option.some_bind]
    exact opendirSpec_pres w w1 hp rd name
      (fun m hm => present_inode w m (present_lookup w rd name m (h rd rfl) hm))

theorem walkAt_pres (w w1 : World) (hp : Pres w w1) :
    ∀ (dirs : List String) (s : DIR) (r : Option DIR) (p : DIR × Option DIR),
      (∀ rd, r = some rd → rd.Present w) → walkAt w dirs s r = some p →
      walkAt w1 dirs s r = some p := by
  intro dirs
  induction dirs with
  | nil => intro s r p _ h; exact h
  | cons name rest ih =>
    intro s r p hr h
    unfold walkAt at h ⊢
    by_cases hdot : (name == "." || name == "..") = true
    · rw [if_pos hdot] at h; cases h
    · rw [if_neg hdot] at h ⊢
      cases hst : statSpec w s name with
      | error e => rw [hst] at h; cases h
      | ok st =>
        rw [hst] at h
        rw [statSpec_pres w w1 hp s name st hst]
        simp only at h ⊢
        by_cases hd : S_ISDIR st.st_mode = true
        · rw [if_pos hd] at h ⊢
          cases ho : opendirSpec w s name with
          | none => rw [ho] at h; cases h
          | some c =>
            rw [ho] at h
            rw [opendirSpec_pres_some w w1 hp s name c ho]
            simp only at h ⊢
            rw [refOpendir_pres w w1 hp r name hr]
            exact ih c _ p (fun rd e => opendir_present w r name hr rd e) h
        · rw [if_neg hd] at h; cases h

theorem walkAt_present (w : World) :
    ∀ (dirs : List String) (s : DIR) (r : Option DIR) (p : DIR × Option DIR),
      (∀ rd, r = some rd → rd.Present w) → walkAt w dirs s r = some p →
      ∀ rd, p.2 = some rd → rd.Present w := by
  intro dirs
  induction dirs with
  | nil =>
    intro s r p hr h
    cases h
    exact hr
  | cons name rest ih =>
    intro s r p hr h
    unfold walkAt at h
    by_cases hdot : (name == "." || name == "..") = true
    · rw [if_pos hdot] at h; cases h
    · rw [if_neg hdot] at h
      cases hst : statSpec w s name with
      | error e => rw [hst] at h; cases h
      | ok st =>
        rw [hst] at h
        simp only at h
        by_cases hd : S_ISDIR st.st_mode = true
        · rw [if_pos hd] at h
          cases ho : opendirSpec w s name with
          | none => rw [ho] at h; cases h
          | some c =>
            rw [ho] at h
            exact ih c _ p (fun rd e => opendir_present w r name hr rd e) h
        · rw [if_neg hd] at h; cases h

theorem walkAt_cons (w : World) (name : String) (rest : List String) (s : DIR)
    (r : Option DIR) (p : DIR × Option DIR) (h : walkAt w (name :: rest) s r = some p) :
    (name == "." || name == "..") = false ∧ ∃ st c, statSpec w s name = .ok st ∧
      S_ISDIR st.st_mode = true ∧ opendirSpec w s name = some c ∧
      walkAt w rest c (r.bind (fun rd => opendirSpec w rd name)) = some p := by
  unfold walkAt at h
  by_cases hdot : (name == "." || name == "..") = true
  · rw [if_pos hdot] at h; cases h
  · rw [if_neg hdot] at h
    refine ⟨by simpa using hdot, ?_⟩
    cases hst : statSpec w s name with
    | error e => rw [hst] at h; cases h
    | ok st =>
      rw [hst] at h
      simp only at h
      by_cases hd : S_ISDIR st.st_mode = true
      · rw [if_pos hd] at h
        cases ho : opendirSpec w s name with
        | none => rw [ho] at h; cases h
        | some c =>
          rw [ho] at h
          exact ⟨st, c, rfl, hd, rfl, h⟩
      · rw [if_neg hd] at h; cases h

/-! ## Events a run appended -/

theorem adds_after (w w1 w2 : World) (e : Ev) (h : Adds w w1 e)
    (hg : ∃ l, w2.trace = w1.trace ++ l) : Adds w w2 e := by
  obtain ⟨l1, e1, m1⟩ := h
  obtain ⟨l2, e2⟩ := hg
  exact ⟨l1 ++ l2, by rw [e2, e1, List.append_assoc], List.mem_append_left _ m1⟩

theorem adds_before (w w1 w2 : World) (e : Ev) (hg : ∃ l, w1.trace = w.trace ++ l)
    (h : Adds w1 w2 e) : Adds w w2 e := by
  obtain ⟨l1, e1⟩ := hg
  obtain ⟨l2, e2, m2⟩ := h
  exact ⟨l1 ++ l2, by rw [e2, e1, List.append_assoc], List.mem_append_right _ m2⟩

theorem adds_emit (w : World) (e : Ev) : Adds w (w.emit e) e :=
  ⟨[e], rfl, List.mem_singleton.mpr rfl⟩

theorem grows_of_eff (keep : Bool) (good : Ev → Bool) (w w1 : World) (h : Eff keep good w w1) :
    ∃ l, w1.trace = w.trace ++ l := by
  obtain ⟨l, e, _⟩ := h.2
  exact ⟨l, e⟩

theorem grows_trans (w w1 w2 : World) (h1 : ∃ l, w1.trace = w.trace ++ l)
    (h2 : ∃ l, w2.trace = w1.trace ++ l) : ∃ l, w2.trace = w.trace ++ l := by
  obtain ⟨l1, e1⟩ := h1
  obtain ⟨l2, e2⟩ := h2
  exact ⟨l1 ++ l2, by rw [e2, e1, List.append_assoc]⟩

/-! ## Every run of the walker appends to the trace -/

theorem allEv_sys : ∀ e, sysEv e = true → allEv e = true := fun _ _ => rfl

theorem steps_dive_copy_all (g : Globals) (rec : Dive)
    (hrec : ∀ s d r, Steps (Eff false allEv) (rec s d r))
    (name : String) (st : Stat) (src_dir dst_dir : DIR) (ref_dir : Option DIR) :
    Steps (Eff false allEv) (dive_copy g rec name st src_dir dst_dir ref_dir) := by
  have ht := steps_transfers allEv allEv_sys g st
  unfold dive_copy copy_file wrap_creat wrap_mmap wrap_readlink wrap_symlink wrap_mkdir_p
    wrap_opendir wrap_mknod wrap_open
  dsimp only
  simp only [pure_bind_M]
  repeat' first
    | apply ht
    | apply hrec
    | apply steps_copy_file_loop
    | apply steps_pure
    | apply steps_bind
    | apply steps_ite
    | apply steps_errhandle
    | apply steps_openat_creat
    | apply steps_openat
    | apply steps_mmap
    | apply steps_munmap
    | apply steps_close
    | apply steps_readlinkat
    | apply steps_symlinkat
    | apply steps_mkdirat
    | apply steps_mknodat
    | apply steps_compath_push_m
    | apply steps_compath_pop_m
    | exact allEv_sys
    | rfl
    | intro _
    | split

theorem steps_dive_keep_all (g : Globals) (rec : Dive)
    (hrec : ∀ s d r, Steps (Eff false allEv) (rec s d r))
    (name : String) (st : Stat) (src_dir : DIR) (ref_dir : Option DIR) :
    Steps (Eff false allEv) (dive_keep g rec name st src_dir ref_dir) := by
  unfold dive_keep wrap_opendir wrap_open
  dsimp only
  simp only [pure_bind_M]
  repeat' first
    | apply hrec
    | apply steps_pure
    | apply steps_bind
    | apply steps_ite
    | apply steps_errhandle
    | apply steps_openat
    | apply steps_compath_push_m
    | apply steps_compath_pop_m
    | rfl
    | intro _
    | split

theorem steps_dive_link_all (g : Globals) (name : String) (hl : Bool) (src_dir : DIR)
    (dst_dir ref_dir : Option DIR) :
    Steps (Eff false allEv) (dive_link g name hl src_dir dst_dir ref_dir) := by
  unfold dive_link wrap_remove wrap_link
  dsimp only
  repeat' first
    | apply steps_pure
    | apply steps_bind
    | apply steps_ite
    | apply steps_stop
    | apply steps_errhandle
    | apply steps_linkat
    | apply steps_unlinkat
    | rfl
    | intro _
    | split

theorem steps_dive_entry_all (g : Globals) (rec : Dive)
    (hrec : ∀ s d r, Steps (Eff false allEv) (rec s d r))
    (name : String) (src_dir : DIR) (dst_dir ref_dir : Option DIR) :
    Steps (Eff false allEv) (dive_entry g rec name src_dir dst_dir ref_dir) := by
  have hc := steps_dive_copy_all g rec hrec name
  have hk := steps_dive_keep_all g rec hrec name
  have hl := steps_dive_link_all g name
  have hd := fun st rs => steps_weaken true allEv _ (steps_dive_decide g src_dir ref_dir name st rs)
  unfold dive_entry wrap_stat
  dsimp only
  repeat' first
    | apply hc
    | apply hk
    | apply hl
    | apply hd
    | apply steps_pure
    | apply steps_bind
    | apply steps_ite
    | apply steps_fstatat
    | apply steps_emit
    | rfl
    | intro _
    | split

theorem steps_dive_loop_all (g : Globals) (rec : Dive)
    (hrec : ∀ s d r, Steps (Eff false allEv) (rec s d r)) (ref_dir : Option DIR) :
    ∀ (names : List String) (src_dir : DIR) (dst_dir : Option DIR),
      Steps (Eff false allEv) (dive_loop g rec names src_dir dst_dir ref_dir) := by
  intro names
  induction names with
  | nil => intro s d; exact steps_pure _ _ _
  | cons name rest ih =>
    intro s d
    unfold dive_loop
    apply steps_bind _ _ _ _ (steps_dive_entry_all g rec hrec name s d ref_dir)
    intro r
    exact ih r.1 r.2

theorem steps_dive_all (g : Globals) :
    ∀ (fuel : Nat) (src_dir dst_dir ref_dir : Option DIR),
      Steps (Eff false allEv) (dive fuel g src_dir dst_dir ref_dir) := by
  intro fuel
  induction fuel with
  | zero => intro s d r; exact steps_stop _ _ _
  | succ fuel ih =>
    intro s d r
    unfold dive
    apply steps_bind
    · exact steps_emit _ _ _ rfl
    · intro _
      cases s with
      | none => exact steps_stop _ _ _
      | some sd =>
        dsimp only
        apply steps_bind _ _ _ _ (steps_dive_loop_all g (dive fuel g) ih r _ sd d)
        intro r
        exact steps_pure _ _ _

/-- A run of `m` to `w1`, whatever its outcome, appended to the trace. -/
theorem grows_of_steps {α : Type} (keep : Bool) (good : Ev → Bool) (m : M α) (a : α)
    (w w1 : World) (hs : Steps (Eff keep good) m) (h : m w = .ok a w1) :
    ∃ l, w1.trace = w.trace ++ l := by
  have := hs.run w
  rw [h] at this
  exact grows_of_eff _ _ _ _ this

/-! ## Copy mode: outcomes carried from one state to another -/

theorem refMatch_pres (g : Globals) (w w2 : World) (r : Option DIR) (name : String)
    (sid : FileId) (is : Inode) (hp : Pres w w2) (hnd : RefPresent w r name) :
    RefMatch g w2 r name sid is ↔ RefMatch g w r name sid is := by
  constructor
  · rintro ⟨rd, m, ir2, e1, e2, e3, e4⟩
    obtain ⟨ir, hir⟩ := hnd rd m e1 e2
    have := hp.2 _ _ hir
    rw [e3] at this
    cases this
    exact ⟨rd, m, ir2, e1, e2, hir, e4⟩
  · rintro ⟨rd, m, ir, e1, e2, e3, e4⟩
    exact ⟨rd, m, ir, e1, e2, hp.2 _ _ e3, e4⟩

theorem pres_none (w w2 : World) (hp : Pres w w2) (fid : FileId) (h : w2.inode fid = none) :
    w.inode fid = none := by
  cases hi : w.inode fid with
  | none => rfl
  | some i =>
    have := hp.2 _ _ hi
    rw [h] at this
    cases this

theorem copyOutcome_conv (g : Globals) (w wa wb w1 : World) (r : Option DIR) (name : String)
    (sid : FileId) (is : Inode) (fid : FileId) (hp : Pres w wa) (hnd : RefPresent w r name)
    (hd : ∀ id i, wb.inode id = some i → ∃ i1, w1.inode id = some i1 ∧ i1.data = i.data)
    (h : CopyOutcome g wa wb r name sid is fid) : CopyOutcome g w w1 r name sid is fid := by
  have hiff := refMatch_pres g w wa r name sid is hp hnd
  refine ⟨fun hm => h.1 (hiff.mpr hm), fun hm => ?_⟩
  obtain ⟨a, i0, b, c⟩ := h.2 (fun hm2 => hm (hiff.mp hm2))
  obtain ⟨i1, b1, c1⟩ := hd fid i0 b
  exact ⟨pres_none w wa hp fid a, i1, b1, by rw [c1, c]⟩

theorem data_of_pres (w w1 : World) (hp : Pres w w1) :
    ∀ id i, w.inode id = some i → ∃ i1, w1.inode id = some i1 ∧ i1.data = i.data :=
  fun id i h => ⟨i, hp.2 id i h, rfl⟩

theorem data_of_upd (fid : FileId) (w w1 : World) (hp : Upd fid w w1) :
    ∀ id i, w.inode id = some i → ∃ i1, w1.inode id = some i1 ∧ i1.data = i.data := by
  intro id i h
  obtain ⟨i1, e1, _, e3⟩ := hp.2 id i h
  exact ⟨i1, e1, e3⟩

theorem data_trans (w w1 w2 : World)
    (h1 : ∀ id i, w.inode id = some i → ∃ i1, w1.inode id = some i1 ∧ i1.data = i.data)
    (h2 : ∀ id i, w1.inode id = some i → ∃ i1, w2.inode id = some i1 ∧ i1.data = i.data) :
    ∀ id i, w.inode id = some i → ∃ i1, w2.inode id = some i1 ∧ i1.data = i.data := by
  intro id i h
  obtain ⟨i1, a, b⟩ := h1 id i h
  obtain ⟨i2, c, d⟩ := h2 id i1 a
  exact ⟨i2, c, by rw [d, b]⟩

theorem treeCopied_conv (g : Globals) (w wa wb w1 : World) (c : DIR) (r : Option DIR)
    (d : DIR) (hp : Pres w wa) (hr : ∀ rd, r = some rd → rd.Present w)
    (hd : ∀ id i, wb.inode id = some i → ∃ i1, w1.inode id = some i1 ∧ i1.data = i.data)
    (h : TreeCopied g wa wb c r d) : TreeCopied g w w1 c r d := by
  intro dirs name sd rd n is hwalk hdot hn his hreg
  obtain ⟨fid, e1, e2⟩ := h dirs name sd rd n is (walkAt_pres w wa hp dirs c r _ hr hwalk)
    hdot hn (hp.2 _ _ his) hreg
  refine ⟨fid, e1, copyOutcome_conv g w wa wb w1 rd name n.id is fid hp ?_ hd e2⟩
  exact refPresent_of_present w rd name (walkAt_present w dirs c r _ hr hwalk)

theorem entryVerdict_pres (g : Globals) (w w1 : World) (hp : Pres w w1) (sd : DIR)
    (r : Option DIR) (name : String) (st : Stat) (hs : statSpec w sd name = .ok st)
    (hr : ∀ rd, r = some rd → rd.Present w) :
    entryVerdict g w1 sd r name st = entryVerdict g w sd r name st := by
  unfold entryVerdict
  cases r with
  | none => rfl
  | some rd =>
    simp only
    have h1 : ∀ m, rd.lookup name = some m → ∃ i, w.inode m.id = some i :=
      fun m hm => present_inode w m (present_lookup w rd name m (hr rd rfl) hm)
    have h2 : ∀ m, sd.lookup name = some m → ∃ i, w.inode m.id = some i := by
      intro m hm
      obtain ⟨n, i, hn, hi, _⟩ := statSpec_ok w sd name st hs
      rw [hn] at hm
      cases hm
      exact ⟨i, hi⟩
    rw [statSpec_pres_eq w w1 hp rd name h1, entry_pres w w1 hp sd name h2,
      entry_pres w w1 hp rd name h1, hp.1]

theorem visited_conv (g : Globals) (w wa wb w1 : World) (c : DIR) (r : Option DIR)
    (hp : Pres w wa) (hr : ∀ rd, r = some rd → rd.Present w)
    (hg1 : ∃ l, wa.trace = w.trace ++ l) (hg2 : ∃ l, w1.trace = wb.trace ++ l)
    (h : Visited g wa wb c r) : Visited g w w1 c r := by
  intro dirs sd rd hwalk
  obtain ⟨⟨dd, a1⟩, a2⟩ := h dirs sd rd (walkAt_pres w wa hp dirs c r _ hr hwalk)
  refine ⟨⟨dd, adds_before _ _ _ _ hg1 (adds_after _ _ _ _ a1 hg2)⟩, ?_⟩
  intro name st hdot hst
  obtain ⟨v, b1, b2⟩ := a2 name st hdot (statSpec_pres w wa hp sd name st hst)
  rw [entryVerdict_pres g w wa hp sd rd name st hst
    (walkAt_present w dirs c r _ hr hwalk)] at b1
  exact ⟨v, b1, adds_before _ _ _ _ hg1 (adds_after _ _ _ _ b2 hg2)⟩

/-! ## Copy mode: the tree below a directory -/

theorem steps_wrap_mkdir_p_all (g : Globals) (pfx : Option String) (dir : DIR) (name : String)
    (mode : Nat) : Steps (Eff false allEv) (wrap_mkdir_p g pfx dir name mode) := by
  unfold wrap_mkdir_p
  repeat' first
    | apply steps_pure
    | apply steps_bind
    | apply steps_ite
    | apply steps_errhandle
    | apply steps_mkdirat
    | rfl
    | intro _
    | split

theorem grows_of_trailStep (w w1 : World) (h : TrailStep w w1) :
    ∃ l, w1.trace = w.trace ++ l := ⟨[], by rw [h.2.2.2.2.2.2, List.append_nil]⟩

theorem data_of_trailStep (w w1 : World) (h : TrailStep w w1) :
    ∀ id i, w.inode id = some i → ∃ i1, w1.inode id = some i1 ∧ i1.data = i.data :=
  data_of_pres w w1 (pres_of_trailStep w w1 h)

/-- The directory branch of `dive_copy` under the globals of `main`: the new
directory is made, both sides open, the recursive call fills the new directory,
and the transfers touch the inode of the new directory only. -/
theorem dive_copy_dir (g : Globals) (rec : Dive) (name : String) (st : Stat)
    (sd dd : DIR) (r : Option DIR) (w : World) (x : DIR × DIR) (w1 : World)
    (hg : g.fromMain) (hdst : g.dst_path.isSome = true) (hq : w.qsortOk)
    (hrec : RecCopy g rec) (hwf : ∀ e ∈ sd.entries, e.2.Wf) (hfresh : dd.lookup name = none)
    (hr : ∀ rd, r = some rd → rd.Present w)
    (hsrc : ∀ m, sd.lookup name = some m → ∃ i, w.inode m.id = some i)
    (hdir : S_ISDIR st.st_mode = true)
    (h : dive_copy g rec name st sd dd r w = .ok x w1) :
    x.1 = sd ∧ x.2.id = dd.id ∧ (∀ n, n ≠ name → x.2.lookup n = dd.lookup n) ∧ Pres w w1 ∧
      ∃ c c1, opendirSpec w sd name = some c ∧
        x.2.lookup name = some (.dir c1.id c1.entries) ∧
        TreeCopied g w w1 c (r.bind (fun rd => opendirSpec w rd name)) c1 ∧
        Visited g w w1 c (r.bind (fun rd => opendirSpec w rd name)) := by
  obtain ⟨hreg, hlnk⟩ := isdir_not_reg st.st_mode hdir
  unfold dive_copy at h
  rw [if_neg (by rw [hreg]; exact Bool.false_ne_true), if_neg (by rw [hlnk]; exact Bool.false_ne_true),
    if_pos hdir] at h
  obtain ⟨m, w2, h1, h2⟩ := bind_ok _ _ _ _ _ h
  obtain ⟨e1, e2, i, e3, e4⟩ := wrap_mkdir_p_done g g.dst_path dd name _ w m w2
    (fatal_of_main g g.dst_path FAIL_MUST hg.1 hdst (by decide) (by decide)) hfresh h1
  have g12 := grows_of_steps _ _ _ _ _ _ (steps_wrap_mkdir_p_all g g.dst_path dd name _) h1
  obtain ⟨nsrc, w3, h3, h4⟩ := bind_ok _ _ _ _ _ h2
  have hs3 : Same w2 w3 := same_of_steps _ _ _ _ _ (steps_wrap_opendir_ro _ _ _ _) h3
  have g23 := grows_of_steps _ _ _ _ _ _ (steps_wrap_opendir_ro g g.src_path sd name) h3
  rw [wrap_opendir_run] at h3
  cases ho : opendirSpec w2 sd name with
  | none =>
    simp [ho, fatal_of_main g g.src_path FAIL_OPENDIR hg.1 hg.2.1 (by decide) (by decide)]
      at h3
  | some c =>
    simp only [ho, Res.ok.injEq] at h3
    obtain ⟨e5, _⟩ := h3
    subst e5
    have how : opendirSpec w sd name = some c := by
      rw [← opendirSpec_pres w w2 e2 sd name hsrc]; exact ho
    obtain ⟨hlk, _⟩ := opendirSpec_some w sd name c how
    obtain ⟨ndst, w4, h5, h6⟩ := bind_ok _ _ _ _ _ h4
    have hs4 : Same w3 w4 := same_of_steps _ _ _ _ _ (steps_wrap_opendir_ro _ _ _ _) h5
    have g34 := grows_of_steps _ _ _ _ _ _ (steps_wrap_opendir_ro g g.dst_path m.2 name) h5
    rw [wrap_opendir_run] at h5
    cases ho2 : opendirSpec w3 m.2 name with
    | none =>
      simp [ho2, fatal_of_main g g.dst_path FAIL_OPENDIR hg.1 hdst (by decide) (by decide)]
        at h5
    | some c2 =>
      simp only [ho2, Res.ok.injEq] at h5
      obtain ⟨e6, _⟩ := h5
      subst e6
      obtain ⟨hlk2, _⟩ := opendirSpec_some w3 m.2 name c2 ho2
      rw [e1, lookup_add, if_pos rfl] at hlk2
      simp only [Option.some.injEq, Node.dir.injEq] at hlk2
      obtain ⟨hc2id, hc2es⟩ := hlk2
      have hkey : ∃ w5, Eff true stableEv w4 w5 ∧
          (compath_push_m name >>= fun frame =>
            rec (some c) (some c2) (r.bind (fun rd => opendirSpec w4 rd name)) >>= fun nx =>
            compath_pop_m frame >>= fun _ =>
            pure (closedir sd name nx.1, closedir m.2 name nx.2) >>=
            fun y => transfer_mode g g.dst_path st y.2 name >>= fun _ =>
            transfer_owner g g.dst_path st y.2 name >>= fun _ =>
              if (!g.opt_noxattr && (S_ISREG st.st_mode || S_ISDIR st.st_mode)) = true then
                transfer_xattr g y.1 y.2 name name >>= fun _ =>
                  (pure (y.1, y.2) : M (DIR × DIR))
              else pure PUnit.unit >>= fun _ => (pure (y.1, y.2) : M (DIR × DIR)))
            w5 = .ok x w1 := by
        cases r with
        | none => exact ⟨w4, eff_refl _ _ _, h6⟩
        | some rd =>
          obtain ⟨nr, w5, h7, h8⟩ := bind_ok _ _ _ _ _ h6
          obtain ⟨w5b, f3, e7⟩ := ref_opendir_run g (some rd) name w4
          simp only [Option.some_bind] at e7
          rw [e7] at h7
          simp only [Res.ok.injEq] at h7
          obtain ⟨e8, e9⟩ := h7
          subst e8 e9
          exact ⟨_, f3, h8⟩
      obtain ⟨w5a, hs5, h7a⟩ := hkey
      obtain ⟨fr, w5, hpu, h7⟩ := bind_ok _ _ _ _ _ h7a
      obtain ⟨_, _, tpu⟩ := compath_push_m_ok name w5a fr w5 hpu
      obtain ⟨nx, w6a, h8, h9a⟩ := bind_ok _ _ _ _ _ h7
      obtain ⟨u, w6, hpo, h9⟩ := bind_ok _ _ _ _ _ h9a
      obtain ⟨_, tpo⟩ := compath_pop_m_ok fr w6a u w6 hpo
      have hp4 : Pres w w4 := pres_trans _ _ _ e2
        (pres_of_same _ _ (same_trans _ _ _ hs3 hs4))
      have hp5 : Pres w w5 := pres_trans _ _ _ hp4 (pres_trans _ _ _
        (pres_of_same _ _ (hs5.1 rfl)) (pres_of_trailStep _ _ tpu))
      have hnr : r.bind (fun rd => opendirSpec w4 rd name) =
          r.bind (fun rd => opendirSpec w rd name) := refOpendir_pres w w4 hp4 r name hr
      rw [hnr] at h8
      have hnrP : ∀ rd, r.bind (fun rd => opendirSpec w rd name) = some rd → rd.Present w :=
        opendir_present w r name hr
      obtain ⟨f1, ⟨d2, f2, f3, ftree⟩, fvis, f4a⟩ := hrec.2 c c2 _ w5 nx w6a
        (wf_child sd name c hwf hlk) hc2es.symm (pres_qsortOk _ _ hp5 hq)
        (dirPresent_pres w w5 hp5 _ hnrP) h8
      have hsd : closedir sd name nx.1 = sd := by
        rw [f1]
        exact put_self sd name _ hlk
      have hdd : closedir m.2 name nx.2 = m.2.put name (.dir d2.id d2.entries) := by
        rw [f2]; rfl
      have h11 := h9
      simp only [pure_bind_M, hsd, hdd] at h11
      have hid : ∀ n, (m.2.put name (.dir d2.id d2.entries)).lookup name = some n →
          n.id = (dd.id.1, w.fresh) := by
        intro n hn
        rw [lookup_put, if_pos rfl, e1, lookup_add, if_pos rfl] at hn
        simp only [Option.map_some', Option.some.injEq] at hn
        rw [← hn]
        simp only [Node.id]
        rw [f3, ← hc2id]
      obtain ⟨fx, fu⟩ := transfers_done g st sd _ name (dd.id.1, w.fresh) w6 x w1 hid h11
      subst fx
      have hp6 : Pres w w6 := pres_trans _ _ _ hp5 (pres_trans _ _ _ f4a
        (pres_of_trailStep _ _ tpo))
      have hd61 := data_trans _ _ _ (data_of_trailStep _ _ tpo) (data_of_upd _ _ _ fu)
      have g15 : ∃ l, w5.trace = w.trace ++ l :=
        grows_trans _ _ _ g12 (grows_trans _ _ _ g23 (grows_trans _ _ _ g34
          (grows_trans _ _ _ (grows_of_eff _ _ _ _ hs5) (grows_of_trailStep _ _ tpu))))
      have g61 : ∃ l, w1.trace = w6a.trace ++ l :=
        grows_trans _ _ _ (grows_of_trailStep _ _ tpo)
          (grows_of_steps _ _ _ _ _ _ (steps_transfers allEv allEv_sys g st sd _ name) h11)
      refine ⟨rfl, by rw [e1]; rfl,
        fun n hn => by rw [lookup_put, if_neg hn, e1, lookup_add, if_neg hn],
        pres_of_upd _ w w6 w1 (fresh_none w _) hp6 fu, c, d2, how, ?_, ?_, ?_⟩
      · rw [lookup_put, if_pos rfl, e1, lookup_add, if_pos rfl]
        rfl
      · exact treeCopied_conv g w w5 w6a w1 c _ d2 hp5 hnrP hd61 ftree
      · exact visited_conv g w w5 w6a w1 c _ hp5 hnrP g15 g61 fvis

theorem dive_copy_leaf (g : Globals) (rec : Dive) (name : String) (st : Stat)
    (sd dd : DIR) (r : Option DIR) (w : World) (x : DIR × DIR) (w1 : World)
    (hg : g.fromMain) (hdst : g.dst_path.isSome = true)
    (hfresh : dd.lookup name = none) (hnd : S_ISDIR st.st_mode = false)
    (h : dive_copy g rec name st sd dd r w = .ok x w1) :
    x.1 = sd ∧ x.2.id = dd.id ∧ (∀ n, n ≠ name → x.2.lookup n = dd.lookup n) ∧ Pres w w1 ∧
      (S_ISREG st.st_mode = true →
        ∃ fid i1, x.2.lookup name = some (.leaf fid) ∧ w.inode fid = none ∧
          w1.inode fid = some i1 ∧
          ∀ is, w.entry sd name = some is → i1.data = is.data.take st.st_size) := by
  unfold dive_copy at h
  by_cases hreg : S_ISREG st.st_mode = true
  · rw [if_pos hreg] at h
    obtain ⟨d, w2, h1, h2⟩ := bind_ok _ _ _ _ _ h
    obtain ⟨e1, e2, e3, i1, e4, e5⟩ := copy_file_done g sd dd name _ _ w d w2 hg hdst hfresh h1
    subst e1
    obtain ⟨f1, f2⟩ := transfers_done g st sd _ name (dd.id.1, w.fresh) w2 x w1
      (fun n hn => by
        rw [lookup_add, if_pos rfl] at hn
        cases hn
        rfl) h2
    subst f1
    obtain ⟨i2, g1, _, g3⟩ := f2.2 _ i1 e4
    refine ⟨rfl, rfl, fun n hn => by simp only [lookup_add, if_neg hn],
      pres_of_upd _ w w2 w1 e2 e3 f2, fun _ => ⟨_, i2, by simp only [lookup_add, if_pos],
        e2, g1, fun is his => by rw [g3]; exact e5 is his⟩⟩
  · rw [if_neg hreg] at h
    have hfin : (x.1 = sd ∧ x.2.id = dd.id ∧ (∀ n, n ≠ name → x.2.lookup n = dd.lookup n) ∧
        Pres w w1) →
        x.1 = sd ∧ x.2.id = dd.id ∧ (∀ n, n ≠ name → x.2.lookup n = dd.lookup n) ∧ Pres w w1 ∧
        (S_ISREG st.st_mode = true →
          ∃ fid i1, x.2.lookup name = some (.leaf fid) ∧ w.inode fid = none ∧
            w1.inode fid = some i1 ∧
            ∀ is, w.entry sd name = some is → i1.data = is.data.take st.st_size) :=
      fun hh => ⟨hh.1, hh.2.1, hh.2.2.1, hh.2.2.2, fun hc => absurd hc hreg⟩
    apply hfin
    by_cases hlnk : S_ISLNK st.st_mode = true
    · rw [if_pos hlnk] at h
      obtain ⟨lnk, w2, h1, h2⟩ := bind_ok _ _ _ _ _ h
      have hs2 : Same w w2 := same_of_steps _ _ _ _ _ (steps_wrap_readlink_ro _ _ _ _ _) h1
      cases lnk with
      | none =>
        exact copy_tail_done g st sd dd dd name (0, w.fresh) w w2 x w1
          (fun n hn => by rw [hfresh] at hn; cases hn) (fresh_none w 0) (pres_of_same _ _ hs2)
          rfl (fun _ _ => rfl) h2
      | some l =>
        obtain ⟨rr, w3, h3, h4⟩ := bind_ok _ _ _ _ _ h2
        obtain ⟨e1, e2, _⟩ := wrap_symlink_done g g.dst_path l dd name w2 rr w3
          (fatal_of_main g g.dst_path FAIL_MUST hg.1 hdst (by decide) (by decide)) hfresh h3
        refine copy_tail_done g st sd dd rr.2 name (dd.id.1, w2.fresh) w w3 x w1
          (fun n hn => ?_) ?_ (pres_trans _ _ _ (pres_of_same _ _ hs2) e2)
          (by rw [e1]; rfl) (fun n hn => by rw [e1, lookup_add, if_neg hn]) h4
        · rw [e1, lookup_add, if_pos rfl] at hn
          cases hn
          rfl
        · rw [← same_inode w w2 hs2]
          exact fresh_none w2 _
    · rw [if_neg hlnk] at h
      have hdir : ¬ S_ISDIR st.st_mode = true := by rw [hnd]; exact Bool.false_ne_true
      rw [if_neg hdir] at h
      obtain ⟨rr, w3, h3, h4⟩ := bind_ok _ _ _ _ _ h
      obtain ⟨e1, e2, _⟩ := wrap_mknod_done g g.dst_path dd name _ _ w rr w3
        (fatal_of_main g g.dst_path FAIL_MKNOD hg.1 hdst (by decide) (by decide)) hfresh h3
      refine copy_tail_done g st sd dd rr.2 name (dd.id.1, w.fresh) w w3 x w1
        (fun n hn => ?_) (fresh_none w _) e2
        (by rw [e1]; rfl) (fun n hn => by rw [e1, lookup_add, if_neg hn]) h4
      rw [e1, lookup_add, if_pos rfl] at hn
      cases hn
      rfl

theorem dive_entry_copy_cases (g : Globals) (rec : Dive) (name : String) (sd dd : DIR)
    (r : Option DIR) (w : World) (x : DIR × Option DIR) (w1 : World) (hq : w.qsortOk)
    (h : dive_entry g rec name sd (some dd) r w = .ok x w1) :
    ((name == "." || name == "..") = true ∧ x = (sd, some dd)) ∨
    ((name == "." || name == "..") = false ∧
      ((∃ e, statSpec w sd name = .error e ∧ x = (sd, some dd)) ∨
       ∃ st v w4, statSpec w sd name = .ok st ∧ entryVerdict g w sd r name st = .ok v ∧
        Same w w4 ∧ Adds w w4 (.verdict name v.1 v.2) ∧
        ((v.1 = true ∧ ∃ y, dive_copy g rec name st sd dd r w4 = .ok y w1 ∧
            x = (y.1, some y.2)) ∨
         (v.1 = false ∧ dive_link g name v.2 sd (some dd) r w4 = .ok x w1)))) := by
  unfold dive_entry at h
  by_cases hdot : (name == "." || name == "..") = true
  · left
    simp only [hdot, if_true] at h
    have : (Res.ok (sd, some dd) w : Res (DIR × Option DIR)) = .ok x w1 := h
    cases this
    exact ⟨hdot, rfl⟩
  · right
    have hdot2 : (name == "." || name == "..") = false := by simpa using hdot
    refine ⟨hdot2, ?_⟩
    simp only [hdot2, Bool.false_eq_true, if_false] at h
    obtain ⟨sr, w2, h1, h2⟩ := bind_ok _ _ _ _ _ h
    unfold wrap_stat at h1
    rw [fstatat_run] at h1
    simp only [Res.ok.injEq] at h1
    obtain ⟨e1, e2⟩ := h1
    subst e1 e2
    cases hst : statSpec w sd name with
    | error e =>
      left
      simp only [hst] at h2
      have : (Res.ok (sd, some dd) (w.emit (.fstatat sd.id name)) : Res (DIR × Option DIR)) =
          .ok x w1 := h2
      cases this
      exact ⟨e, rfl, rfl⟩
    | ok st =>
      right
      simp only [hst] at h2
      have hkey : ∃ w3, Eff true allEv w w3 ∧
          (dive_decide g sd r name st (refStatSpec w r name) >>= fun v =>
            emit (.verdict name v.1 v.2) >>= fun _ =>
              if v.1 = true then
                dive_copy g rec name st sd dd r >>= fun y =>
                  (pure (y.1, some y.2) : M (DIR × Option DIR))
              else dive_link g name v.2 sd (some dd) r) w3 = .ok x w1 := by
        cases r with
        | none => exact ⟨_, eff_emit _ _ _ (.fstatat sd.id name) rfl, h2⟩
        | some rd =>
          obtain ⟨y, w3, h3, h4⟩ := bind_ok _ _ _ _ _ h2
          unfold wrap_stat at h3
          rw [fstatat_run] at h3
          simp only [Res.ok.injEq] at h3
          obtain ⟨e4, e5⟩ := h3
          subst e4 e5
          rw [statSpec_congr w (w.emit (.fstatat sd.id name)) rd rd name rfl rfl] at h4
          exact ⟨_, eff_trans _ _ _ _ _ (eff_emit _ _ _ (.fstatat sd.id name) rfl)
            (eff_emit _ _ _ (.fstatat rd.id name) rfl), h4⟩
      obtain ⟨w3, he3, h3⟩ := hkey
      have hs3 : Same w w3 := he3.1 rfl
      obtain ⟨v, w4, h4, h5⟩ := bind_ok _ _ _ _ _ h3
      have hv := dive_decide_verdict g sd r name st w w3 (same_qsortOk _ _ hs3 hq) hs3
      rw [h4] at hv
      have hs4 : Same w3 w4 := same_of_steps _ _ _ _ _ (steps_dive_decide g sd r name st _) h4
      obtain ⟨u, w5, h6, h7⟩ := bind_ok _ _ _ _ _ h5
      simp only [run_emit, Res.ok.injEq] at h6
      obtain ⟨_, e6⟩ := h6
      subst e6
      refine ⟨st, v, w4.emit (.verdict name v.1 v.2), rfl, hv.symm,
        same_trans _ _ _ hs3 (same_trans _ _ _ hs4 (same_emit _ _)),
        adds_before _ _ _ _ (grows_trans _ _ _ (grows_of_eff _ _ _ _ he3)
          (grows_of_steps _ _ _ _ _ _ (steps_dive_decide g sd r name st _) h4))
          (adds_emit _ _), ?_⟩
      by_cases hv1 : v.1 = true
      · left
        rw [if_pos hv1] at h7
        obtain ⟨s, w6, h8, h9⟩ := bind_ok _ _ _ _ _ h7
        have : (Res.ok (s.1, some s.2) w6 : Res (DIR × Option DIR)) = .ok x w1 := h9
        cases this
        exact ⟨hv1, s, h8, rfl⟩
      · right
        rw [if_neg hv1] at h7
        exact ⟨by simpa using hv1, h7⟩

theorem dive_link_copy (g : Globals) (name : String) (hl : Bool) (sd dd : DIR)
    (r : Option DIR) (w : World) (x : DIR × Option DIR) (w1 : World)
    (hg : g.fromMain) (hdst : g.dst_path.isSome = true)
    (h : dive_link g name hl sd (some dd) r w = .ok x w1) :
    ∃ rd rid, r = some rd ∧ rd.lookup name = some (.leaf rid) ∧
      x = (sd, some (dd.add name (.leaf rid))) ∧ Same w w1 := by
  unfold dive_link at h
  cases r with
  | none => simp at h
  | some rd =>
    simp only at h
    obtain ⟨rr, w2, h1, h2⟩ := bind_ok _ _ _ _ _ h
    obtain ⟨rid, e1, e2⟩ := wrap_link_ok g g.dst_path rd dd name w rr w2
      (fatal_of_main g g.dst_path FAIL_HL hg.1 hdst (by decide) (by decide)) h1
    have hs : Same w w2 := same_of_steps _ _ _ _ _ (steps_wrap_link_ro _ _ _ _ _) h1
    have h3 : (Res.ok (sd, some rr.2) w2 : Res (DIR × Option DIR)) = .ok x w1 := h2
    cases h3
    exact ⟨rd, rid, rfl, e1, by rw [e2], hs⟩

theorem entryVerdict_of_equal (g : Globals) (w : World) (sd rd : DIR) (name : String)
    (sid : FileId) (m : Node) (is ir : Inode) (v : Bool × Bool)
    (hg : g.fromMain) (hq : w.qsortOk)
    (hs : (sd.lookup name).map Node.id = some sid) (his : w.inode sid = some is)
    (hr : rd.lookup name = some m) (hir : w.inode m.id = some ir)
    (hreg : S_ISREG is.st_mode = true) (heq : sid = m.id ∨ FileEq g is ir)
    (hv : entryVerdict g w sd (some rd) name (is.stat sid) = .ok v) : v.1 = false := by
  have hrs : statSpec w rd name = .ok (ir.stat m.id) := by
    unfold statSpec; rw [hr]; simp only [hir]
  by_cases hid : sid = m.id
  · subst hid
    rw [his] at hir
    cases hir
    rw [entryVerdict_same_inode g w sd rd name _ hrs hreg] at hv
    cases hv
    rfl
  · rcases heq with heq | ⟨_, hmode, huid, hgid, hdata, hx⟩
    · exact absurd heq hid
    · have hreg2 : S_ISREG ir.st_mode = true := hmode ▸ hreg
      have hent : w.entry sd name = some is := by
        unfold World.entry
        cases hl : sd.lookup name with
        | none => rw [hl] at hs; cases hs
        | some n =>
          rw [hl] at hs
          simp only [Option.map_some', Option.some.injEq] at hs
          simp only [Option.some_bind, hs, his]
      unfold entryVerdict decideSpec at hv
      simp only [hrs, Inode.stat, hreg2, huid, hgid, hmode, hdata, Bool.true_eq_false,
        if_false, ne_eq, not_true_eq_false, or_self] at hv
      have hid2 : ¬ (sid.1 = m.id.1 ∧ sid.2 = m.id.2) := fun hh => hid (Prod.ext hh.1 hh.2)
      rw [if_neg hid2] at hv
      rw [hent, entry_some w rd name _ ir hr hir] at hv
      cases hdc : diffContentSpec g w.qsort (some is) (some ir) ir.data.length with
      | error e => rw [hdc] at hv; cases hv
      | ok d =>
        rw [hdc] at hv
        have := diffContentSpec_of_equal g w.qsort is ir _ d hg hq hdata hx hdc
        subst this
        cases hv
        rfl

theorem fileEq_of_verdict (g : Globals) (w : World) (sd rd : DIR) (name : String)
    (sid : FileId) (is : Inode) (hl : Bool) (hg : g.fromMain) (hq : w.qsortOk)
    (hs : (sd.lookup name).map Node.id = some sid) (his : w.inode sid = some is)
    (hv : entryVerdict g w sd (some rd) name (is.stat sid) = .ok (false, hl)) :
    ∃ m ir, rd.lookup name = some m ∧ w.inode m.id = some ir ∧
      (sid = m.id ∨ FileEq g is ir) := by
  obtain ⟨rd1, rs, e1, hrs, hreg, m1, m2, m3, m4, h4, h5⟩ :=
    entryVerdict_equal g w sd (some rd) name _ hl hv
  cases e1
  obtain ⟨m, j, hm, hj, e3⟩ := statSpec_ok w rd name rs hrs
  subst e3
  refine ⟨m, j, hm, hj, ?_⟩
  cases hl with
  | true =>
    left
    obtain ⟨a, b⟩ := h4 rfl
    exact Prod.ext a b
  | false =>
    right
    obtain ⟨_, hdc⟩ := h5 rfl
    have hent : w.entry sd name = some is := by
      unfold World.entry
      cases hl : sd.lookup name with
      | none => rw [hl] at hs; cases hs
      | some n =>
        rw [hl] at hs
        simp only [Option.map_some', Option.some.injEq] at hs
        simp only [Option.some_bind, hs, his]
    have hf0 : fatal g g.src_path FAIL_XATTR = true :=
      fatal_of_main g g.src_path FAIL_XATTR hg.1 hg.2.1 (by decide) (by decide)
    have hf1 : fatal g g.ref_path FAIL_XATTR = true :=
      fatal_of_main g g.ref_path FAIL_XATTR hg.1 hg.2.2 (by decide) (by decide)
    obtain ⟨is2, ir2, es, er, hdata, hx⟩ :=
      diffContentSpec_zero_sound g w.qsort _ _ _ hq hf0 hf1 hdc
    rw [hent] at es
    rw [entry_some w rd name _ j hm hj] at er
    cases es
    cases er
    exact ⟨hreg, m3, m1, m2, hdata rfl m4.symm, hx⟩

theorem stat_src_present (w : World) (sd : DIR) (name : String) (st : Stat)
    (h : statSpec w sd name = .ok st) :
    ∀ m, sd.lookup name = some m → ∃ i, w.inode m.id = some i := by
  intro m hm
  obtain ⟨n, i, hn, hi, _⟩ := statSpec_ok w sd name st h
  rw [hn] at hm
  cases hm
  exact ⟨i, hi⟩

theorem dive_entry_copy (g : Globals) (rec : Dive) (name : String) (sd dd : DIR)
    (r : Option DIR) (w : World) (x : DIR × Option DIR) (w1 : World)
    (hg : g.fromMain) (hdst : g.dst_path.isSome = true) (hq : w.qsortOk)
    (hrec : RecCopy g rec) (hwf : ∀ e ∈ sd.entries, e.2.Wf) (hfresh : dd.lookup name = none)
    (hr : ∀ rd, r = some rd → rd.Present w)
    (h : dive_entry g rec name sd (some dd) r w = .ok x w1) :
    x.1 = sd ∧ ∃ d1, x.2 = some d1 ∧ d1.id = dd.id ∧
      (∀ n, n ≠ name → d1.lookup n = dd.lookup n) ∧ Pres w w1 ∧
      EntryCopied g w w1 sd r d1 name := by
  rcases dive_entry_copy_cases g rec name sd dd r w x w1 hq h with
    ⟨hdot, rfl⟩ | ⟨hdot, ⟨e, hst, rfl⟩ | ⟨st, v, w4, hst, hv, hs4, hadd, hcase⟩⟩
  · have hp : Pres w w1 := by
      unfold dive_entry at h
      simp only [hdot, if_true] at h
      have : (Res.ok (sd, some dd) w : Res (DIR × Option DIR)) = .ok (sd, some dd) w1 := h
      cases this
      exact pres_refl _
    exact ⟨rfl, dd, rfl, rfl, fun _ _ => rfl, hp, fun hd => by rw [hdot] at hd; cases hd⟩
  · have hp : Pres w w1 := by
      unfold dive_entry at h
      simp only [hdot, Bool.false_eq_true, if_false] at h
      obtain ⟨sr, w2, h1, h2⟩ := bind_ok _ _ _ _ _ h
      unfold wrap_stat at h1
      rw [fstatat_run] at h1
      simp only [Res.ok.injEq] at h1
      obtain ⟨e1, e2⟩ := h1
      subst e1 e2
      simp only [hst] at h2
      have : (Res.ok (sd, some dd) (w.emit (.fstatat sd.id name)) : Res (DIR × Option DIR)) =
          .ok (sd, some dd) w1 := h2
      cases this
      exact pres_emit _ _
    refine ⟨rfl, dd, rfl, rfl, fun _ _ => rfl, hp, fun _ => ⟨fun n is hn his _ => ?_,
      fun st hst2 => ?_⟩⟩
    · unfold statSpec at hst
      rw [hn] at hst
      simp only [his] at hst
      cases hst
    · rw [hst] at hst2
      cases hst2
  · obtain ⟨n0, i0, hn0, hi0, hst0⟩ := statSpec_ok w sd name st hst
    have hq4 : w4.qsortOk := same_qsortOk _ _ hs4 hq
    have hp4 : Pres w w4 := pres_of_same _ _ hs4
    have hg4 : ∃ l, w4.trace = w.trace ++ l := by
      obtain ⟨l, e, _⟩ := hadd
      exact ⟨l, e⟩
    have hsrc := stat_src_present w sd name st hst
    rcases hcase with ⟨hv1, y, hy, rfl⟩ | ⟨hv1, hl⟩
    · have hg41 : ∃ l, w1.trace = w4.trace ++ l :=
        grows_of_steps _ _ _ _ _ _ (steps_dive_copy_all g rec hrec.1 name st sd dd r) hy
      have hverd : ∃ v, entryVerdict g w sd r name st = .ok v ∧
          Adds w w1 (.verdict name v.1 v.2) := ⟨v, hv, adds_after _ _ _ _ hadd hg41⟩
      by_cases hd : S_ISDIR st.st_mode = true
      · obtain ⟨f1, f2, f3, f4, c, c1, f5, f6, f7, f8⟩ :=
          dive_copy_dir g rec name st sd dd r w4 y w1 hg hdst hq4 hrec hwf hfresh
            (dirPresent_pres w w4 hp4 r hr)
            (fun m hm => by
              obtain ⟨i, hi⟩ := hsrc m hm
              exact ⟨i, hp4.2 _ _ hi⟩) hd hy
        have hnr : r.bind (fun rd => opendirSpec w4 rd name) =
            r.bind (fun rd => opendirSpec w rd name) := refOpendir_pres w w4 hp4 r name hr
        rw [hnr] at f7 f8
        rw [opendirSpec_pres w w4 hp4 sd name hsrc] at f5
        have hnrP := opendir_present w r name hr
        refine ⟨f1, y.2, rfl, f2, f3, pres_trans _ _ _ hp4 f4, fun _ =>
          ⟨fun n is hn his hreg => ?_, fun st2 hst2 => ?_⟩⟩
        · rw [hn0] at hn
          cases hn
          rw [hi0] at his
          cases his
          subst hst0
          have := (isdir_not_reg _ hd).1
          simp only [Inode.stat] at this
          rw [this] at hreg
          cases hreg
        · rw [hst] at hst2
          cases hst2
          exact ⟨hverd, fun _ => ⟨c, c1, f5, f6,
            treeCopied_conv g w w4 w1 w1 c _ c1 hp4 hnrP (fun id i hi => ⟨i, hi, rfl⟩) f7,
            visited_conv g w w4 w1 w1 c _ hp4 hnrP hg4 ⟨[], by simp⟩ f8⟩⟩
      · have hd2 : S_ISDIR st.st_mode = false := by simpa using hd
        obtain ⟨f1, f2, f3, f4, f5⟩ :=
          dive_copy_leaf g rec name st sd dd r w4 y w1 hg hdst hfresh hd2 hy
        refine ⟨f1, y.2, rfl, f2, f3, pres_trans _ _ _ hp4 f4, fun _ =>
          ⟨fun n is hn his hreg => ?_, fun st2 hst2 => ?_⟩⟩
        · rw [hn0] at hn
          cases hn
          rw [hi0] at his
          cases his
          subst hst0
          obtain ⟨fid, i1, g1, g2, g3, g4⟩ := f5 hreg
          refine ⟨fid, g1, fun hm => ?_, fun _ => ⟨?_, i1, g3, ?_⟩⟩
          · obtain ⟨rd, m, ir, e1, e2, e3, e4⟩ := hm
            subst e1
            have := entryVerdict_of_equal g w sd rd name n0.id m i0 ir v hg hq
              (by rw [hn0]; rfl) hi0 e2 e3 hreg e4 hv
            rw [this] at hv1
            cases hv1
          · rw [← same_inode w w4 hs4]
            exact g2
          · have := g4 i0 (entry_some w4 sd name n0 i0 hn0
              (by rw [same_inode w w4 hs4]; exact hi0))
            rw [this]
            exact List.take_length _
        · rw [hst] at hst2
          cases hst2
          exact ⟨hverd, fun hh => absurd hh hd⟩
    · have hg41 : ∃ l, w1.trace = w4.trace ++ l :=
        grows_of_steps _ _ _ _ _ _ (steps_dive_link_all g name v.2 sd (some dd) r) hl
      have hverd : ∃ v, entryVerdict g w sd r name st = .ok v ∧
          Adds w w1 (.verdict name v.1 v.2) := ⟨v, hv, adds_after _ _ _ _ hadd hg41⟩
      obtain ⟨rd, rid, e1, e2, e3, hs5⟩ := dive_link_copy g name v.2 sd dd r w4 x w1 hg hdst hl
      subst e1 e3
      have hv2 : entryVerdict g w sd (some rd) name st = .ok (false, v.2) := by
        rw [hv]
        congr 1
        exact Prod.ext hv1 rfl
      refine ⟨rfl, _, rfl, rfl, fun n hn => by rw [lookup_add, if_neg hn],
        pres_of_same _ _ (same_trans _ _ _ hs4 hs5), fun _ =>
          ⟨fun n is hn his hreg => ?_, fun st2 hst2 => ?_⟩⟩
      · rw [hn0] at hn
        cases hn
        rw [hi0] at his
        cases his
        subst hst0
        refine ⟨rid, by rw [lookup_add, if_pos rfl], fun _ => ⟨rd, .leaf rid, rfl, e2, rfl⟩,
          fun hnm => ?_⟩
        obtain ⟨m, ir, k1, k2, k3⟩ := fileEq_of_verdict g w sd rd name n0.id i0 v.2 hg hq
          (by rw [hn0]; rfl) hi0 hv2
        exact absurd ⟨rd, m, ir, rfl, k1, k2, k3⟩ hnm
      · rw [hst] at hst2
        cases hst2
        refine ⟨hverd, fun hd => ?_⟩
        obtain ⟨_, _, _, _, hreg, _⟩ := entryVerdict_equal g w sd (some rd) name st v.2 hv2
        rw [(isdir_not_reg _ hd).1] at hreg
        cases hreg

theorem entryCopied_conv (g : Globals) (w wa wb w1 : World) (sd : DIR) (r : Option DIR)
    (d2 d1 : DIR) (name : String) (hp : Pres w wa) (hr : ∀ rd, r = some rd → rd.Present w)
    (hg1 : ∃ l, wa.trace = w.trace ++ l)
    (hd : ∀ id i, wb.inode id = some i → ∃ i1, w1.inode id = some i1 ∧ i1.data = i.data)
    (hg2 : ∃ l, w1.trace = wb.trace ++ l) (hl : d1.lookup name = d2.lookup name)
    (h : EntryCopied g wa wb sd r d2 name) : EntryCopied g w w1 sd r d1 name := by
  intro hdot
  obtain ⟨a, b⟩ := h hdot
  constructor
  · intro n is hn his hreg
    obtain ⟨fid, c1, c2⟩ := a n is hn (hp.2 _ _ his) hreg
    exact ⟨fid, by rw [hl]; exact c1, copyOutcome_conv g w wa wb w1 r name n.id is fid hp
      (refPresent_of_present w r name hr) hd c2⟩
  · intro st hst
    obtain ⟨⟨v, b1, b2⟩, b3⟩ := b st (statSpec_pres w wa hp sd name st hst)
    rw [entryVerdict_pres g w wa hp sd r name st hst hr] at b1
    refine ⟨⟨v, b1, adds_before _ _ _ _ hg1 (adds_after _ _ _ _ b2 hg2)⟩, fun hdir => ?_⟩
    obtain ⟨c, c1, e1, e2, e3, e4⟩ := b3 hdir
    rw [opendirSpec_pres w wa hp sd name (stat_src_present w sd name st hst)] at e1
    rw [refOpendir_pres w wa hp r name hr] at e3 e4
    have hnrP := opendir_present w r name hr
    exact ⟨c, c1, e1, by rw [hl]; exact e2, treeCopied_conv g w wa wb w1 c _ c1 hp hnrP hd e3,
      visited_conv g w wa wb w1 c _ hp hnrP hg1 hg2 e4⟩

theorem dive_loop_copy (g : Globals) (rec : Dive) (sd : DIR) (r : Option DIR)
    (hg : g.fromMain) (hdst : g.dst_path.isSome = true) (hrec : RecCopy g rec)
    (hwf : ∀ e ∈ sd.entries, e.2.Wf) :
    ∀ (names : List String) (dd : DIR) (w : World) (x : DIR × Option DIR) (w1 : World),
      names.Nodup → (∀ n ∈ names, dd.lookup n = none) → w.qsortOk →
      (∀ rd, r = some rd → rd.Present w) →
      dive_loop g rec names sd (some dd) r w = .ok x w1 →
      x.1 = sd ∧ ∃ d1, x.2 = some d1 ∧ d1.id = dd.id ∧
        (∀ n, n ∉ names → d1.lookup n = dd.lookup n) ∧ Pres w w1 ∧
        ∀ name ∈ names, EntryCopied g w w1 sd r d1 name := by
  intro names
  induction names with
  | nil =>
    intro dd w x w1 _ _ _ _ h
    have : (Res.ok (sd, some dd) w : Res (DIR × Option DIR)) = .ok x w1 := h
    cases this
    exact ⟨rfl, dd, rfl, rfl, fun _ _ => rfl, pres_refl _, fun name hn => by simp at hn⟩
  | cons name rest ih =>
    intro dd w x w1 hnd hfresh hq hr h
    unfold dive_loop at h
    obtain ⟨y, w2, h1, h2⟩ := bind_ok _ _ _ _ _ h
    obtain ⟨hnot, hnd2⟩ := List.nodup_cons.mp hnd
    obtain ⟨a1, d2, a2, a3, a4, a5, a6⟩ := dive_entry_copy g rec name sd dd r w y w2 hg hdst hq
      hrec hwf (hfresh name (List.mem_cons_self _ _)) hr h1
    have g12 := grows_of_steps _ _ _ _ _ _
      (steps_dive_entry_all g rec hrec.1 name sd (some dd) r) h1
    have g21 := grows_of_steps _ _ _ _ _ _
      (steps_dive_loop_all g rec hrec.1 r rest y.1 y.2) h2
    rw [a1, a2] at h2
    have hfresh2 : ∀ n ∈ rest, d2.lookup n = none := by
      intro n hn
      have hne : n ≠ name := fun e => hnot (e ▸ hn)
      rw [a4 n hne]
      exact hfresh n (List.mem_cons_of_mem _ hn)
    obtain ⟨b1, d1, b2, b3, b4, b5, b6⟩ := ih d2 w2 x w1 hnd2 hfresh2 (pres_qsortOk _ _ a5 hq)
      (dirPresent_pres w w2 a5 r hr) h2
    refine ⟨b1, d1, b2, b3.trans a3, fun n hn => ?_, pres_trans _ _ _ a5 b5, ?_⟩
    · have hn1 : n ≠ name := fun e => hn (e ▸ List.mem_cons_self _ _)
      have hn2 : n ∉ rest := fun e => hn (List.mem_cons_of_mem _ e)
      rw [b4 n hn2, a4 n hn1]
    · intro nm hnm
      rcases List.mem_cons.mp hnm with e | hin
      · subst e
        exact entryCopied_conv g w w w2 w1 sd r d2 d1 nm (pres_refl _) hr ⟨[], by simp⟩
          (data_of_pres _ _ b5) g21 (b4 nm hnot) a6
      · exact entryCopied_conv g w w2 w1 w1 sd r d1 d1 nm a5 hr g12
          (fun id i hi => ⟨i, hi, rfl⟩) ⟨[], by simp⟩ rfl (b6 nm hin)

theorem resolve_cons (name : String) (rest : List String) (d : DIR) :
    resolve (name :: rest) (.dir d.id d.entries) = (d.lookup name).bind (resolve rest) := rfl

theorem treeCopied_of_entries (g : Globals) (w w1 : World) (sd : DIR) (r : Option DIR)
    (d1 : DIR) (h : ∀ name ∈ sd.entries.map Prod.fst, EntryCopied g w w1 sd r d1 name) :
    TreeCopied g w w1 sd r d1 := by
  intro dirs name s' r' n is hwalk hdot hn his hreg
  cases dirs with
  | nil =>
    have : (some (sd, r) : Option (DIR × Option DIR)) = some (s', r') := hwalk
    cases this
    obtain ⟨fid, c1, c2⟩ := (h name (names_of_lookup sd name n hn) hdot).1 n is hn his hreg
    refine ⟨fid, ?_, c2⟩
    show resolve (name :: []) (.dir d1.id d1.entries) = _
    rw [resolve_cons, c1]
    rfl
  | cons d rest =>
    obtain ⟨hdotd, st, c, hst, hd, ho, hw⟩ := walkAt_cons w d rest sd r _ hwalk
    obtain ⟨m, _, hm, _, _⟩ := statSpec_ok w sd d st hst
    obtain ⟨c', c1, e1, e2, e3, _⟩ :=
      ((h d (names_of_lookup sd d m hm) hdotd).2 st hst).2 hd
    rw [ho] at e1
    cases e1
    obtain ⟨fid, f1, f2⟩ := e3 rest name s' r' n is hw hdot hn his hreg
    refine ⟨fid, ?_, f2⟩
    show resolve (d :: (rest ++ [name])) (.dir d1.id d1.entries) = _
    rw [resolve_cons, e2]
    exact f1

theorem visited_of_entries (g : Globals) (w w1 : World) (sd : DIR) (r : Option DIR)
    (hdive : ∃ dd, Adds w w1 (.dive (some sd.id) dd (r.map DIR.id)))
    (h : ∀ name, (name == "." || name == "..") = false → ∀ st, statSpec w sd name = .ok st →
      (∃ v, entryVerdict g w sd r name st = .ok v ∧ Adds w w1 (.verdict name v.1 v.2)) ∧
      (S_ISDIR st.st_mode = true → ∃ c, opendirSpec w sd name = some c ∧
        Visited g w w1 c (r.bind (fun rd => opendirSpec w rd name)))) :
    Visited g w w1 sd r := by
  intro dirs s' r' hwalk
  cases dirs with
  | nil =>
    have : (some (sd, r) : Option (DIR × Option DIR)) = some (s', r') := hwalk
    cases this
    exact ⟨hdive, fun name st hdot hst => (h name hdot st hst).1⟩
  | cons d rest =>
    obtain ⟨hdotd, st, c, hst, hd, ho, hw⟩ := walkAt_cons w d rest sd r _ hwalk
    obtain ⟨c', e1, e2⟩ := (h d hdotd st hst).2 hd
    rw [ho] at e1
    cases e1
    exact e2 rest s' r' hw

theorem recCopy_dive (g : Globals) (hg : g.fromMain) (hdst : g.dst_path.isSome = true) :
    ∀ fuel, RecCopy g (dive fuel g) := by
  intro fuel
  induction fuel with
  | zero =>
    refine ⟨steps_dive_all g 0, ?_⟩
    intro c d r w x w1 _ _ _ _ h
    cases h
  | succ k ih =>
    refine ⟨steps_dive_all g (k + 1), ?_⟩
    intro c d r w x w1 hwf hd hq hr h
    unfold dive at h
    obtain ⟨u, w2, h1, h2⟩ := bind_ok _ _ _ _ _ h
    simp only [run_emit, Res.ok.injEq] at h1
    obtain ⟨_, e1⟩ := h1
    subst e1
    simp only at h2
    obtain ⟨y, w3, h3, h4⟩ := bind_ok _ _ _ _ _ h2
    have h5 : (Res.ok (some y.1, y.2) w3 : Res (Option DIR × Option DIR)) = .ok x w1 := h4
    cases h5
    have hp0 := pres_emit w (.dive ((some c).map DIR.id) ((some d).map DIR.id) (r.map DIR.id))
    have g01 := grows_of_steps _ _ _ _ _ _
      (steps_dive_loop_all g (dive k g) ih.1 r (c.entries.map Prod.fst) c (some d)) h3
    obtain ⟨a1, d1, a2, a3, _, a5, a6⟩ := dive_loop_copy g (dive k g) c r hg hdst ih hwf.2
      (c.entries.map Prod.fst) d _ y _ hwf.1
      (fun n _ => by unfold DIR.lookup; rw [hd]; rfl)
      (same_qsortOk _ _ (same_emit _ _) hq) (dirPresent_pres _ _ hp0 r hr) h3
    have hent : ∀ name ∈ c.entries.map Prod.fst, EntryCopied g w _ c r d1 name :=
      fun name hn => entryCopied_conv g w _ _ _ c r d1 d1 name hp0 hr ⟨[_], rfl⟩
        (fun id i hi => ⟨i, hi, rfl⟩) ⟨[], by simp⟩ rfl (a6 name hn)
    refine ⟨by simp only [a1], ⟨d1, a2, a3, treeCopied_of_entries g w _ c r d1 hent⟩, ?_,
      pres_trans _ _ _ hp0 a5⟩
    apply visited_of_entries g w _ c r
    · exact ⟨some d.id, adds_after _ _ _ _ (adds_emit _ _) g01⟩
    · intro name hdot st hst
      obtain ⟨m, _, hm, _, _⟩ := statSpec_ok w c name st hst
      obtain ⟨b1, b2⟩ := (hent name (names_of_lookup c name m hm) hdot).2 st hst
      refine ⟨b1, fun hdir => ?_⟩
      obtain ⟨c', c1, e1, _, _, e4⟩ := b2 hdir
      exact ⟨c', e1, e4⟩

/-! ## Copy mode: links and copies at every depth -/

theorem sampleDeepSrc_wf : sampleDeepSrc.Wf := by
  refine ⟨by decide, fun e he => ?_⟩
  simp only [sampleDeepSrc, List.mem_cons, List.mem_singleton, List.not_mem_nil,
    or_false] at he
  rcases he with rfl | rfl
  · exact Node.Wf.leaf _
  · refine Node.Wf.dir _ _ (by decide) (fun e he => ?_)
    simp only [List.mem_cons, List.mem_singleton, List.not_mem_nil, or_false] at he
    rcases he with rfl | rfl
    · exact Node.Wf.leaf _
    · exact Node.Wf.leaf _

theorem sampleDeepRef_present : sampleDeepRef.Present sampleDeepWorld := by
  intro e he
  simp only [sampleDeepRef, List.mem_cons, List.mem_singleton, List.not_mem_nil,
    or_false] at he
  rcases he with rfl | rfl
  · exact Node.Present.leaf _ sampleAttrFile2 rfl
  · refine Node.Present.dir _ _ sampleDirInode rfl (fun e he => ?_)
    simp only [List.mem_cons, List.mem_singleton, List.not_mem_nil, or_false] at he
    rcases he with rfl | rfl
    · exact Node.Present.leaf _ sampleFile rfl
    · exact Node.Present.leaf _ sampleAttrFile2 rfl

/-- C2 (amended): copy mode under the globals `main` sets up, on a source tree in
which no directory lists a name twice, an empty destination directory and a
reference tree without dangling entries.  When the walk returns, it hands back a
destination directory in which, for every directory the walk reaches at any depth
(along the directory names `dirs`) and every name in it other than "." and ".."
whose entry is a regular file with existing inode, the path `dirs ++ [name]`
leads to a file `fid` such that
(1) `fid` is the inode of the entry of the same name in the reference directory
of that place exactly when that entry is the source inode itself or a regular
file with equal mode, uid, gid and bytes and, unless the no-xattr option is set,
equal extended attributes;
(2) otherwise `fid` is an inode that did not exist before the walk (so it differs
from the inode of every reference entry) and holds the bytes of the source file. -/
theorem dive_copy_mode_shares (fuel : Nat) (g : Globals) (sd dd : DIR) (r : Option DIR)
    (w : World) (x : Option DIR × Option DIR) (w1 : World)
    (hg : g.fromMain) (hdst : g.dst_path.isSome = true) (hq : w.qsortOk)
    (hwf : sd.Wf) (hempty : dd.entries = []) (hr : ∀ rd, r = some rd → rd.Present w)
    (h : dive fuel g (some sd) (some dd) r w = .ok x w1) :
    ∃ d1, x.2 = some d1 ∧
      ∀ dirs name s1 r1 n is, walkAt w dirs sd r = some (s1, r1) →
        (name == "." || name == "..") = false → s1.lookup name = some n →
        w.inode n.id = some is → S_ISREG is.st_mode = true →
        ∃ fid, resolve (dirs ++ [name]) (.dir d1.id d1.entries) = some (.leaf fid) ∧
          ((∃ rd m, r1 = some rd ∧ rd.lookup name = some m ∧ fid = m.id) ↔
            RefMatch g w r1 name n.id is) ∧
          (¬ RefMatch g w r1 name n.id is →
            w.inode fid = none ∧ ∃ i1, w1.inode fid = some i1 ∧ i1.data = is.data) := by
  obtain ⟨_, ⟨d1, a2, _, a4⟩, _, _⟩ :=
    (recCopy_dive g hg hdst fuel).2 sd dd r w x w1 hwf hempty hq hr h
  refine ⟨d1, a2, fun dirs name s1 r1 n is hwalk hdot hn his hreg => ?_⟩
  obtain ⟨fid, c1, c2⟩ := a4 dirs name s1 r1 n is hwalk hdot hn his hreg
  refine ⟨fid, c1, ⟨fun hsh => ?_, c2.1⟩, c2.2⟩
  by_contra hno
  obtain ⟨rd, m, e1, e2, e3⟩ := hsh
  obtain ⟨ir, hir⟩ := refPresent_of_present w r1 name
    (walkAt_present w dirs sd r (s1, r1) hr hwalk) rd m e1 e2
  have := (c2.2 hno).1
  rw [e3, hir] at this
  cases this

/-- C2 at a concrete input: the copy-mode walk over the sample tree with a
subdirectory returns, and the theorem applies to it. -/
theorem dive_copy_mode_shares_witness :
    ∃ x w1, dive 3 sampleGlobals (some sampleDeepSrc) (some sampleDst) (some sampleDeepRef)
        sampleDeepWorld = .ok x w1 ∧
      ∃ d1, x.2 = some d1 ∧
      ∀ dirs name s1 r1 n is,
        walkAt sampleDeepWorld dirs sampleDeepSrc (some sampleDeepRef) = some (s1, r1) →
        (name == "." || name == "..") = false → s1.lookup name = some n →
        sampleDeepWorld.inode n.id = some is → S_ISREG is.st_mode = true →
        ∃ fid, resolve (dirs ++ [name]) (.dir d1.id d1.entries) = some (.leaf fid) ∧
          ((∃ rd m, r1 = some rd ∧ rd.lookup name = some m ∧ fid = m.id) ↔
            RefMatch sampleGlobals sampleDeepWorld r1 name n.id is) ∧
          (¬ RefMatch sampleGlobals sampleDeepWorld r1 name n.id is →
            sampleDeepWorld.inode fid = none ∧
              ∃ i1, w1.inode fid = some i1 ∧ i1.data = is.data) := by
  obtain ⟨x, w1, h⟩ := res_of_srcEntry
    (dive 3 sampleGlobals (some sampleDeepSrc) (some sampleDst) (some sampleDeepRef)
      sampleDeepWorld) "a" (by decide!)
  exact ⟨x, w1, h, dive_copy_mode_shares 3 sampleGlobals sampleDeepSrc sampleDst
    (some sampleDeepRef) sampleDeepWorld x w1 ⟨⟨0, rfl⟩, rfl, rfl⟩ rfl sampleDeep_qsortOk
    sampleDeepSrc_wf rfl (fun rd e => by cases e; exact sampleDeepRef_present) h⟩

/-- The copy-mode walk over the sample tree with a subdirectory: inside "d", the
file "b", equal to the reference file, ends on the reference inode (1, 24), and
the file "c", whose attribute value differs, ends on the new inode (1, 33). -/
theorem dive_copy_deep_sample :
    walkAt sampleDeepWorld ["d"] sampleDeepSrc (some sampleDeepRef) =
      some ({ id := (1, 12), entries := [("b", .leaf (1, 14)), ("c", .leaf (1, 15))] },
        some { id := (1, 22), entries := [("b", .leaf (1, 24)), ("c", .leaf (1, 25))] }) ∧
    (dive 3 sampleGlobals (some sampleDeepSrc) (some sampleDst) (some sampleDeepRef)
      sampleDeepWorld).dstNodeId ["d", "b"] = some (1, 24) ∧
    (dive 3 sampleGlobals (some sampleDeepSrc) (some sampleDst) (some sampleDeepRef)
      sampleDeepWorld).dstNodeId ["d", "c"] = some (1, 33) ∧
    sampleDeepWorld.inode (1, 33) = none := by
  refine ⟨rfl, ?_, ?_, ?_⟩ <;> decide!

/-- C2 (counterexample to the claim as stated): the source file "a" and the
reference file "a" of the sample directories have equal uid, gid, mode, size and
bytes (they differ in the value of one extended attribute).  The copy-mode walk
returns with the destination entry "a" on inode (1, 31), which did not exist
before, while the reference entry is inode (1, 21): the entry is metadata-equal
and byte-equal to the reference entry and does not share its inode. -/
theorem dive_copy_mode_equal_bytes_not_shared :
    sampleAttrWorld.entry sampleAttrSrc "a" = some sampleAttrFile1 ∧
    sampleAttrWorld.entry sampleAttrRef "a" = some sampleAttrFile2 ∧
    sampleAttrFile1.st_uid = sampleAttrFile2.st_uid ∧
    sampleAttrFile1.st_gid = sampleAttrFile2.st_gid ∧
    sampleAttrFile1.st_mode = sampleAttrFile2.st_mode ∧
    sampleAttrFile1.data = sampleAttrFile2.data ∧
    S_ISREG sampleAttrFile1.st_mode = true ∧
    (sampleAttrRef.lookup "a").map Node.id = some (1, 21) ∧
    sampleAttrWorld.inode (1, 31) = none ∧
    (dive 2 sampleGlobals (some sampleAttrSrc) (some sampleDst) (some sampleAttrRef)
      sampleAttrWorld).dstEntryId "a" = some (1, 31) := by
  decide!

/-! ## Walks without reference visit every entry -/

end Hardlinker
